import Mathlib

/-! # Graph engine: shallow embedding and verified properties

Embedding of the adjacency-list `Graph` (stage1), the Euler engine (stage2) and
the bounded algorithm engines (stage7: SCC count, Hamiltonian cycle,
Bron-Kerbosch cliques) as Lean functions, followed by theorems about them.

Conventions used throughout:
* vertex ids are `int` in the source; the ids stored in adjacency lists are
  always non-negative, so they are `Nat` here, while the arguments of
  `add_edge` stay `Int` because the source range-checks them;
* `std::vector` is `List`; `v[i]` is `getD i default`;
* `std::sort` with a comparator on a key is the parameter `srt` of every engine
  that calls it: the order it gives to elements with equal keys depends on the
  algorithm of the library (libstdc++ runs an insertion sort on ranges of at most
  16 elements and an introsort above). Theorems about every graph hold for every
  `srt` that returns a permutation of its input in non-decreasing order of the key
  (`SortSpec`); where an engine is evaluated on a graph of the tests, all of which
  have at most 5 vertices, `srt` is `sort_by_key`, that insertion sort;
* `std::atoi` is `(int) strtol(s, NULL, 10)` as in glibc: the white space of
  `isspace` in the "C" locale is skipped, the `long` value saturates and is then
  cut to 32 bits; `std::strtoull` saturates at `2^64 - 1`;
* `Budget::steps` is a 64-bit counter that cannot wrap within a feasible run;
  it is a `Nat`;
* `Clock::now()` is an oracle `now : Nat → Nat` giving the clock reading seen
  by the k-th poll of a budget (`now 0` is the reading when the budget is
  created);
* the recursive lambdas `dfs1` and `dfs2` of `count_scc_kosaraju` take a bound
  on the recursion depth; the callers pass `g.n`, and the contract `dfs1_spec`
  shows that this bound is never reached (a call on an unmarked vertex returns
  with the vertex finished); the counter `comps` is at most `g.n` and is a `Nat`;
* in the G(n, m) generator the values of the random generator are a function
  `draw` of the bound `j` (each bound occurs once per call) and the order in which
  the `unordered_set` is read out is a function `iter`; theorems hold for every
  `draw` within bounds and every `iter` that permutes its argument;
* `unsigned long long` and `int` arithmetic on ids of vertices and edges is done
  in `Nat`: it is exact for `n <= 2^31`, the range of the `int` vertex ids; the
  edge counter `m` keeps its reduction modulo `2^64`;
* a handler of the stage9 pipeline is the list of the `post` calls it makes;
* the arguments `int u, int v` of `add_edge` and `remove_edge` are `Int`; a theorem
  that needs them to be 32-bit values says so (`GraphOp.int_args`);
* the clique search is embedded a second time with its container operations checked
  (`bk_recurse_chk`), to state that no operation is invalid;
* the leader-follower pool (stage8) and the active object (stage9) are step functions
  over a schedule, the list of the threads' moves: a statement executed under the
  mutex, or one that only reads or writes an atomic flag, is one step; a thread that
  waits for the mutex moves when it is free; a thread blocked in `cv.wait` may wake
  at any time and re-tests its predicate under the mutex; a flag that is only ever
  stored false is read by a thread as true until some moment and as false afterwards.
-/

namespace OS

/-! ## stage1: Graph -/

/-- Adjacency-list graph of `graph.hpp`: `n`, `directed`, `adj`, `m`. -/
structure Graph where
  n : Nat
  directed : Bool
  adj : List (List Nat)
  m : Nat
deriving DecidableEq, Repr

/-- The helper `in_range(n, v)` of `graph.cpp`: `v >= 0 && (size_t)v < n`. -/
def in_range (n : Nat) (v : Int) : Bool :=
  decide (0 ≤ v) && decide (v.toNat < n)

/-- Constructor `Graph::Graph(n_, directed_)`: `n_` empty adjacency lists, `m = 0`. -/
def Graph.init (n : Nat) (directed : Bool) : Graph :=
  { n := n, directed := directed, adj := List.replicate n [], m := 0 }

/-- The adjacency list `g.adj[u]`. -/
def Graph.nbrs (g : Graph) (u : Nat) : List Nat :=
  g.adj.getD u []

/-- Method `Graph::add_edge(u, v)`: ignores invalid ids, self-loops and duplicates;
otherwise appends `v` to `adj[u]` (and `u` to `adj[v]` when undirected, unless
already there) and increments `m`. -/
def Graph.add_edge (g : Graph) (u v : Int) : Graph :=
  if !in_range g.n u || !in_range g.n v || u == v then g
  else
    let Au := g.nbrs u.toNat
    if Au.contains v.toNat then g
    else
      let adj1 := g.adj.set u.toNat (Au ++ [v.toNat])
      let adj2 :=
        if !g.directed then
          let Av := adj1.getD v.toNat []
          if Av.contains u.toNat then adj1 else adj1.set v.toNat (Av ++ [u.toNat])
        else adj1
      { g with adj := adj2, m := (g.m + 1) % 2 ^ 64 }

/-- Building a graph from an edge list by successive `add_edge` calls. -/
def Graph.add_edges (g : Graph) (es : List (Int × Int)) : Graph :=
  es.foldl (fun h e => h.add_edge e.1 e.2) g

/-- Well-formedness of a graph value: `n` adjacency lists, every stored id below
`n`, no self-loop, no duplicate neighbour, and symmetric lists when undirected.
Every graph built from `Graph.init` by `add_edge` calls satisfies it. -/
def Graph.WF (g : Graph) : Prop :=
  g.adj.length = g.n ∧
  (∀ u v, v ∈ g.nbrs u → v < g.n) ∧
  (∀ u, u ∉ g.nbrs u) ∧
  (∀ u, (g.nbrs u).Nodup) ∧
  (g.directed = false → ∀ u v, v ∈ g.nbrs u → u ∈ g.nbrs v)

/-! ## stage7: Budget and parameters -/

/-- The struct `Budget`: `deadline` (0 = unset, the default `time_point`),
`step_limit` (0 = unbounded) and the step counter. -/
structure Budget where
  deadline : Nat
  step_limit : Nat
  steps : Nat
deriving DecidableEq, Repr

/-- Method `Budget::timed_out()`: increments `steps`, then reports whether the step
limit is reached or the deadline has passed at this poll. -/
def Budget.timed_out (now : Nat → Nat) (B : Budget) : Bool × Budget :=
  let B1 := { B with steps := B.steps + 1 }
  if B1.step_limit ≠ 0 ∧ B1.steps ≥ B1.step_limit then (true, B1)
  else if B1.deadline ≠ 0 ∧ now B1.steps ≥ B1.deadline then (true, B1)
  else (false, B1)

/-- The result and the budget after `k` successive calls of `timed_out()` (for
`k = 0`: no call yet, the budget as created). -/
def Budget.calls (now : Nat → Nat) (B : Budget) : Nat → Bool × Budget
  | 0 => (false, B)
  | k + 1 => (Budget.calls now B k).2.timed_out now

/-- The parameter map `KV` (string keys, string values, keys unique). -/
abbrev KV := List (String × String)

/-- Lookup `params.find(key)`. -/
def KV.find (params : KV) (key : String) : Option String :=
  params.lookup key

/-- Digits read by `atoi`/`strtoull` from the front of a character list. -/
def parse_digits : List Char → Nat → Nat
  | [], acc => acc
  | c :: cs, acc => if c.isDigit then parse_digits cs (acc * 10 + (c.toNat - 48)) else acc

/-- C `isspace` in the "C" locale: space, `\t`, `\n`, `\v`, `\f`, `\r` (codes 32 and
9 to 13). -/
def is_space (c : Char) : Bool :=
  c.toNat == 32 || (decide (9 ≤ c.toNat) && decide (c.toNat ≤ 13))

/-- Leading white space skipped by `atoi`/`strtoull`. -/
def skip_ws : List Char → List Char
  | [] => []
  | c :: cs => if is_space c then skip_ws cs else c :: cs

/-- The conversion `(int)` of a `long` value: reduction modulo `2^32` into
`[-2^31, 2^31)`. -/
def long_to_int (v : Int) : Int :=
  (v + 2 ^ 31) % 2 ^ 32 - 2 ^ 31

/-- C `atoi` as glibc computes it, `(int) strtol(s, NULL, 10)`: white space, optional
sign, digits; the `long` value saturates at `2^63 - 1` and `-2^63`, and is then
converted to `int`. -/
def atoi (s : String) : Int :=
  match skip_ws s.data with
  | '-' :: cs => long_to_int (max (- (parse_digits cs 0 : Int)) (- 2 ^ 63))
  | '+' :: cs => long_to_int (min (parse_digits cs 0 : Int) (2 ^ 63 - 1))
  | cs => long_to_int (min (parse_digits cs 0 : Int) (2 ^ 63 - 1))

/-- C `strtoull(s, nullptr, 10)`: white space, optional sign, digits; saturates at
`2^64 - 1`, and a minus sign negates modulo `2^64`. -/
def strtoull (s : String) : Nat :=
  let sat (v : Nat) : Nat := if v ≥ 2 ^ 64 then 2 ^ 64 - 1 else v
  match skip_ws s.data with
  | '-' :: cs =>
    let v := parse_digits cs 0
    if v ≥ 2 ^ 64 then 2 ^ 64 - 1 else (2 ^ 64 - v) % 2 ^ 64
  | '+' :: cs => sat (parse_digits cs 0)
  | cs => sat (parse_digits cs 0)

/-- Function `get_timeout_ms(params, def_ms)`. -/
def get_timeout_ms (params : KV) (def_ms : Int) : Int :=
  match params.find "timeout_ms" with
  | none => def_ms
  | some s => max 1 (atoi s)

/-- Function `get_step_limit(params, def_steps)`. -/
def get_step_limit (params : KV) (def_steps : Nat) : Nat :=
  match params.find "step_limit" with
  | none => def_steps
  | some s => let v := strtoull s; if v ≠ 0 then v else def_steps

/-- The budget every bounded engine creates: deadline `now() + timeout_ms`
(default 300), step limit from the parameters (default 800000), no step taken. -/
def mk_budget (now : Nat → Nat) (params : KV) : Budget :=
  { deadline := now 0 + (get_timeout_ms params 300).toNat,
    step_limit := get_step_limit params 800000,
    steps := 0 }

/-- Function `out_deg`-style degree `g.adj[u].size()`. -/
def Graph.deg (g : Graph) (u : Nat) : Nat := (g.nbrs u).length

/-- What `std::sort(first, last, [&](a, b){ return key(a) < key(b); })` guarantees of
its result `srt key l`: a permutation of the range in non-decreasing order of the
key. The order of elements with equal keys is not fixed by this (the sort is not
stable), it is the library's choice; the result is a function of the range and of the
keys, and the engines take that function as the parameter `srt`. -/
def SortSpec (srt : (Nat → Nat) → List Nat → List Nat) : Prop :=
  ∀ key l, (srt key l).Perm l ∧ (srt key l).Sorted (fun a b => key a ≤ key b)

/-- The result of `std::sort` by key on a range of at most 16 elements: libstdc++ runs
an insertion sort there, which keeps elements with equal keys in their order. It is
the sort passed to the engines where they are evaluated on the small graphs of the
tests. -/
def sort_by_key (key : Nat → Nat) (l : List Nat) : List Nat :=
  l.insertionSort (fun a b => key a ≤ key b)

/-! ## stage7: Bron-Kerbosch clique engine -/

/-- The row `A[u]` of an adjacency table. -/
def row (A : List (List Nat)) (u : Nat) : List Nat := A.getD u []

/-- Model of `row.erase(std::unique(row.begin(), row.end()), row.end())`: drops
repeated consecutive values. -/
def unique : List Nat → List Nat
  | [] => []
  | [a] => [a]
  | a :: b :: t => if a = b then unique (b :: t) else a :: unique (b :: t)

/-- First loop of `make_adj_undirected`, the pushes made while scanning `adj[u]`:
`A[u].push_back(v)` and, for a directed graph, `A[v].push_back(u)`. -/
def push_row (directed : Bool) (u : Nat) (A : List (List Nat)) : List Nat → List (List Nat)
  | [] => A
  | v :: vs =>
    let A1 := A.set u (row A u ++ [v])
    let A2 := if directed then A1.set v (row A1 v ++ [u]) else A1
    push_row directed u A2 vs

/-- Function `make_adj_undirected(g)`: neighbour lists with edges read as undirected,
each row sorted ascending with duplicates removed. -/
def make_adj_undirected (g : Graph) : List (List Nat) :=
  let A := (List.range g.n).foldl (fun A u => push_row g.directed u A (g.nbrs u))
    (List.replicate g.n [])
  A.map (fun r => unique (r.insertionSort (· ≤ ·)))

/-- Inner scan of `std::set_intersection` for a fixed head `a` of the first range;
`rest` continues with the tail of the first range. -/
def set_intersection_scan (a : Nat) (rest : List Nat → List Nat) : List Nat → List Nat
  | [] => []
  | b :: bs =>
    if a < b then rest (b :: bs)
    else if b < a then set_intersection_scan a rest bs
    else a :: rest bs

/-- Model of `std::set_intersection` as the two-pointer merge it is implemented by:
the smaller head is skipped, equal heads are emitted and both advance. -/
def set_intersection : List Nat → List Nat → List Nat
  | [], _ => []
  | a :: as, l2 => set_intersection_scan a (set_intersection as) l2

/-- Function `inter_neighbors(A, v, S)`: `set_intersection` of `A[v]` and `S`. -/
def inter_neighbors (A : List (List Nat)) (v : Nat) (S : List Nat) : List Nat :=
  set_intersection (row A v) S

/-- The two-pointer count of the pivot loop: for each `w` of `Nv` the iterator
`itP` (the remaining suffix of `P`) skips the entries below `w` and the counter is
incremented when it then points at `w`. -/
def count_in_P : List Nat → List Nat → Nat
  | [], _ => 0
  | w :: ws, itP =>
    let itP1 := itP.dropWhile (fun p => decide (p < w))
    (if itP1.head? = some w then 1 else 0) + count_in_P ws itP1

/-- Pivot loop of `bk_recurse`: scans `U = P ++ X` keeping `(u, maxN)`, starting
from `(-1, -1)`, and replaces the pair when a candidate has a strictly larger count. -/
def choose_pivot (A : List (List Nat)) (P X : List Nat) : Int × Int :=
  (P ++ X).foldl
    (fun acc cand =>
      let cnt : Int := (count_in_P (row A cand) P : Nat)
      if cnt > acc.2 then ((cand : Int), cnt) else acc)
    (-1, -1)

/-- The struct `BKState` (the adjacency table is passed separately). -/
structure BKState where
  B : Budget
  best : Nat
  bestR : List Nat
  countMaximal : Nat
  aborted : Bool
deriving DecidableEq, Repr

/-- Candidate loop of `bk_recurse` (`for (int v : cand)`), with `P` and `X` updated
after each candidate; `recurse` is the recursive call on `(st, R, P2, X2)`. -/
def bk_loop (now : Nat → Nat) (A : List (List Nat))
    (recurse : BKState → List Nat → List Nat → List Nat → Option BKState)
    (R : List Nat) : List Nat → BKState → List Nat → List Nat → Option BKState
  | [], st, _, _ => some st
  | v :: vs, st, P, X =>
    let (t, B1) := st.B.timed_out now
    let st1 := { st with B := B1 }
    if t then some { st1 with aborted := true }
    else
      let P2 := inter_neighbors A v P
      let X2 := inter_neighbors A v X
      match recurse st1 (R ++ [v]) P2 X2 with
      | none => none
      | some st2 =>
        let P3 := P.erase v
        let X3 := X ++ [v]
        if st2.aborted then some st2 else bk_loop now A recurse R vs st2 P3 X3

/-- Function `bk_recurse(st, R, P, X, recordBest)`. The first argument bounds the
recursion depth (`none` when it is exhausted); `R` is passed by value because every
call leaves it as it found it (each `push_back` is matched by a `pop_back`); `srt` is
the `std::sort` of the candidates. -/
def bk_recurse (srt : (Nat → Nat) → List Nat → List Nat) (now : Nat → Nat) (A : List (List Nat))
    (recordBest : Bool) :
    Nat → BKState → List Nat → List Nat → List Nat → Option BKState
  | 0, _, _, _, _ => none
  | fuel + 1, st, R, P, X =>
    let (t, B1) := st.B.timed_out now
    let st1 := { st with B := B1 }
    if t then some { st1 with aborted := true }
    else if recordBest && decide (R.length + P.length ≤ st1.best) then some st1
    else if P.isEmpty && X.isEmpty then
      let st2 := { st1 with countMaximal := st1.countMaximal + 1 }
      if recordBest && decide (R.length > st2.best) then
        some { st2 with best := R.length, bestR := R }
      else some st2
    else
      let u := (choose_pivot A P X).1
      let isNbr (v : Nat) : Bool := u != -1 && (row A u.toNat).contains v
      let cand := P.filter (fun v => !isNbr v)
      let cand1 := srt (fun a => (row A a).length) cand
      bk_loop now A (bk_recurse srt now A recordBest fuel) R cand1 st1 P X

/-- Shared prologue of `MaxClique::run` and `NumMaxCliques::run`: build the
adjacency, order `P` by ascending degree, create the budget and run the search. -/
def run_bk (srt : (Nat → Nat) → List Nat → List Nat) (now : Nat → Nat) (g : Graph)
    (params : KV) (recordBest : Bool) : Option BKState :=
  let A := make_adj_undirected g
  let P := srt (fun a => (row A a).length) (List.range g.n)
  let st : BKState :=
    { B := mk_budget now params, best := 0, bestR := [], countMaximal := 0, aborted := false }
  bk_recurse srt now A recordBest (g.n + 1) st [] P []

/-- Text of a vertex list as printed after `example:` (each id preceded by a blank). -/
def show_example (l : List Nat) : String :=
  l.foldl (fun s v => s ++ " " ++ toString v) ""

/-- Method `MaxClique::run(g, params)`: the result text. -/
def MaxClique_run (srt : (Nat → Nat) → List Nat → List Nat) (now : Nat → Nat) (g : Graph)
    (params : KV) : Option String :=
  (run_bk srt now g params true).map fun st =>
    if st.aborted then "MAXCLIQUE: TIMEOUT (current best=" ++ toString st.best ++ ")"
    else "MaxClique size=" ++ toString st.best ++ " example:" ++ show_example st.bestR

/-- Method `NumMaxCliques::run(g, params)`: the result text. -/
def NumMaxCliques_run (srt : (Nat → Nat) → List Nat → List Nat) (now : Nat → Nat) (g : Graph)
    (params : KV) : Option String :=
  (run_bk srt now g params false).map fun st =>
    if st.aborted then
      "NUM_MAXCLIQUES: TIMEOUT (count so far=" ++ toString st.countMaximal ++ ")"
    else "Maximal cliques count=" ++ toString st.countMaximal

/-- The clique test graph of `algo_tests.cpp`: 5 vertices, undirected, edges
0-1, 1-2, 0-2, 2-3, 3-4. -/
def g_clique_test : Graph :=
  (Graph.init 5 false).add_edges [(0, 1), (1, 2), (0, 2), (2, 3), (3, 4)]

/-! ## Reachability searches shared by the engines -/

/-- The helper `out_deg(g)`: `d[u] = g.adj[u].size()`. -/
def out_deg (g : Graph) : List Nat :=
  (List.range g.n).map (fun u => (g.nbrs u).length)

/-- The helper `in_deg(g)`: `++d[v]` for every `v` of every adjacency list. -/
def in_deg (g : Graph) : List Nat :=
  (List.range g.n).foldl
    (fun d u => (g.nbrs u).foldl (fun d v => d.set v (d.getD v 0 + 1)) d)
    (List.replicate g.n 0)

/-- Function `reverse_adj(g)`: `radj[v].push_back(u)` for every arc `u -> v`, scanning
`u` upwards and each adjacency list in order. -/
def reverse_adj (g : Graph) : List (List Nat) :=
  (List.range g.n).foldl
    (fun R u => (g.nbrs u).foldl (fun R v => R.set v (row R v ++ [u])) R)
    (List.replicate g.n [])

/-- Pop of a `std::queue`: `front()` then `pop()`. -/
def pop_front : List Nat → Option (Nat × List Nat)
  | [] => none
  | u :: w => some (u, w)

/-- Pop of a vector used as a stack: `back()` then `pop_back()`. -/
def pop_back (w : List Nat) : Option (Nat × List Nat) :=
  match w.getLast? with
  | none => none
  | some u => some (u, w.dropLast)

/-- The scan `for (int v : adj[u]) if (!vis[v]) { vis[v] = 1; push(v); ++seen; }`
(the searches that keep no counter ignore `seen`). -/
def visit_nbrs : List Nat → List Bool → List Nat → Nat → List Bool × List Nat × Nat
  | [], vis, w, seen => (vis, w, seen)
  | v :: vs, vis, w, seen =>
    if vis.getD v false then visit_nbrs vs vis w seen
    else visit_nbrs vs (vis.set v true) (w ++ [v]) (seen + 1)

/-- The loop `while (!work.empty()) { u = pop(); scan adj[u]; }` of the BFS (queue,
`pop_front`) and DFS (stack, `pop_back`) reachability searches. The first argument
bounds the number of iterations; every vertex is pushed at most once, so `n`
iterations always suffice. -/
def search_loop (adj : Nat → List Nat) (pop : List Nat → Option (Nat × List Nat)) :
    Nat → List Nat → List Bool → Nat → List Bool × Nat
  | 0, _, vis, seen => (vis, seen)
  | fuel + 1, w, vis, seen =>
    match pop w with
    | none => (vis, seen)
    | some (u, w1) =>
      let r := visit_nbrs (adj u) vis w1 seen
      search_loop adj pop fuel r.2.1 r.1 r.2.2

/-- A search from `s`: `vis` all zero except `vis[s] = 1`, work list `[s]`,
`seen = 1`; the result is the final `vis` and `seen`. -/
def search_from (n : Nat) (adj : Nat → List Nat) (pop : List Nat → Option (Nat × List Nat))
    (s : Nat) : List Bool × Nat :=
  search_loop adj pop n [s] ((List.replicate n false).set s true) 1

/-! ## stage7: Hamiltonian engine -/

/-- Candidate loop of `ham_cycle_backtrack` (`for (int v : nbr) if (!used[v])`);
`recurse` is the recursive call at `depth + 1`. The state is `(ok, path, used, B)`. -/
def ham_loop (now : Nat → Nat)
    (recurse : List Nat → List Bool → Budget → Bool × List Nat × List Bool × Budget) :
    List Nat → List Nat → List Bool → Budget → Bool × List Nat × List Bool × Budget
  | [], path, used, B => (false, path, used, B)
  | v :: vs, path, used, B =>
    if used.getD v false then ham_loop now recurse vs path used B
    else
      let r := recurse (path ++ [v]) (used.set v true) B
      if r.1 then r
      else
        let path1 := r.2.1.dropLast
        let used1 := r.2.2.1.set v false
        let t := r.2.2.2.timed_out now
        if t.1 then (false, path1, used1, t.2)
        else ham_loop now recurse vs path1 used1 t.2

/-- Function `ham_cycle_backtrack(g, start, path, used, depth, B)`. The recursion is
on `rem = g.n - depth`: the source tests `depth == g.n` (here `rem = 0`) and calls
itself with `depth + 1` (here `rem - 1`); the driver starts at `depth = 1 <= g.n`.
The result is `(ok, path, used, B)` with the by-reference arguments as the call
leaves them. -/
def ham_cycle_backtrack (srt : (Nat → Nat) → List Nat → List Nat) (now : Nat → Nat)
    (g : Graph) (start : Nat) :
    Nat → List Nat → List Bool → Budget → Bool × List Nat × List Bool × Budget
  | rem, path, used, B =>
    let t := B.timed_out now
    if t.1 then (false, path, used, t.2)
    else
      match rem with
      | 0 => (decide (start ∈ g.nbrs (path.getLastD 0)), path, used, t.2)
      | rem1 + 1 =>
        let u := path.getLastD 0
        let nbr := srt g.deg (g.nbrs u)
        ham_loop now (ham_cycle_backtrack srt now g start rem1) nbr path used t.2

/-- Function `quick_ham_impossible(g)`: the cheap necessary conditions. -/
def quick_ham_impossible (g : Graph) : Bool :=
  if !g.directed then
    match (List.range g.n).find? (fun i => !(g.nbrs i).isEmpty) with
    | none => true
    | some s =>
      let seen := (search_from g.n g.nbrs pop_front s).2
      if seen < g.n then true
      else (List.range g.n).any (fun i => decide ((g.nbrs i).length < 2))
  else
    let out := out_deg g
    let inn := in_deg g
    if (List.range g.n).any (fun i => out.getD i 0 == 0 || inn.getD i 0 == 0) then true
    else
      let vis := (search_from g.n g.nbrs pop_back 0).1
      if (List.range g.n).any (fun i => !vis.getD i false) then true
      else
        let radj := reverse_adj g
        let vis2 := (search_from g.n (row radj) pop_back 0).1
        (List.range g.n).any (fun i => !vis2.getD i false)

/-- The outcomes of `ham_cycle`, one per `return` of the source. -/
inductive HamResult where
  | skip (n : Nat) (limit : Int)
  | trivial_yes
  | precheck_no
  | yes (path : List Nat) (start : Nat)
  | timeout
  | no
deriving DecidableEq, Repr

/-- The text `ham_cycle` returns for each outcome. -/
def HamResult.text : HamResult → String
  | .skip n limit => "HAM: n=" ++ toString n ++ " exceeds limit=" ++ toString limit ++ " (skip)"
  | .trivial_yes => "HAM: trivial YES (empty)"
  | .precheck_no => "NO Hamilton cycle (quick precheck)"
  | .yes path start =>
    "YES Hamilton cycle: " ++ " -> ".intercalate (path.map toString) ++ " -> " ++ toString start
  | .timeout => "HAM: TIMEOUT"
  | .no => "NO Hamilton cycle"

/-- The effective limit of `ham_cycle`: 18, or `max(1, atoi(limit))` when given. -/
def ham_limit (params : KV) : Int :=
  match params.find "limit" with
  | none => 18
  | some s => max 1 (atoi s)

/-- The start vertex of `ham_cycle`: the first vertex of minimum degree. -/
def ham_start (g : Graph) : Nat :=
  (List.range' 1 (g.n - 1)).foldl
    (fun start i => if (g.nbrs i).length < (g.nbrs start).length then i else start) 0

/-- Function `ham_cycle(g, params)` up to the rendering of the text. The cast
`(int)g.n` is the identity (vertex ids are `int`, so `n < 2^31`). -/
def ham_cycle_result (srt : (Nat → Nat) → List Nat → List Nat) (now : Nat → Nat) (g : Graph)
    (params : KV) : HamResult :=
  let limit_n := ham_limit params
  if (g.n : Int) > limit_n then .skip g.n limit_n
  else if g.n = 0 then .trivial_yes
  else if quick_ham_impossible g then .precheck_no
  else
    let B := mk_budget now params
    let start := ham_start g
    let r := ham_cycle_backtrack srt now g start (g.n - 1) [start]
      ((List.replicate g.n false).set start true) B
    if r.1 then .yes r.2.1 start
    else if (r.2.2.2.timed_out now).1 then .timeout
    else .no

/-- Function `ham_cycle(g, params)`: the returned text. -/
def ham_cycle (srt : (Nat → Nat) → List Nat → List Nat) (now : Nat → Nat) (g : Graph)
    (params : KV) : String :=
  (ham_cycle_result srt now g params).text

/-- The 4-cycle of the Hamiltonian test: undirected, edges 0-1, 1-2, 2-3, 3-0. -/
def g_cycle4 : Graph :=
  (Graph.init 4 false).add_edges [(0, 1), (1, 2), (2, 3), (3, 0)]

/-- The parameters of the Hamiltonian tests: `limit = 10`, `timeout_ms = 200`. -/
def ham_test_params : KV := [("limit", "10"), ("timeout_ms", "200")]

/-! ## Specification-level notions for Hamiltonian cycles -/

/-- A Hamiltonian cycle, as an ordering `c` of the vertices: every vertex of the graph
exactly once, consecutive vertices joined by an edge/arc, and the last vertex joined
to the first. -/
def IsHamCycle (g : Graph) (c : List Nat) : Prop :=
  c.Nodup ∧ (∀ v, v ∈ c ↔ v < g.n) ∧
  List.Chain' (fun a b => b ∈ g.nbrs a) c ∧
  (∀ a b, c.getLast? = some a → c.head? = some b → b ∈ g.nbrs a)

/-- Invariant of the Hamiltonian search between calls: `used` flags exactly the
vertices of `path`, which is a duplicate-free walk from `start` with `rem` vertices
still to add. -/
def HamInv (g : Graph) (start rem : Nat) (path : List Nat) (used : List Bool) : Prop :=
  used.length = g.n ∧ (∀ v, used.getD v false = true ↔ v ∈ path) ∧ path.Nodup ∧
  path.head? = some start ∧ (∀ v ∈ path, v < g.n) ∧
  List.Chain' (fun a b => b ∈ g.nbrs a) path ∧ path.length + rem = g.n

/-- The last poll of the budget reported a timeout: the step limit is reached or the
deadline had passed at the reading of poll number `B.steps`. -/
def Budget.over (now : Nat → Nat) (B : Budget) : Prop :=
  (B.step_limit ≠ 0 ∧ B.steps ≥ B.step_limit) ∨ (B.deadline ≠ 0 ∧ now B.steps ≥ B.deadline)

/-- Budget `B1` is a later state of budget `B`: same limits, at least as many steps. -/
def Budget.later (B B1 : Budget) : Prop :=
  B1.deadline = B.deadline ∧ B1.step_limit = B.step_limit ∧ B.steps ≤ B1.steps

/-- Contract of one call of the Hamiltonian search with `rem` vertices to add, for a
function `f` of the by-reference state: a reported cycle is Hamiltonian and was found
without a timed-out poll; a failed call
restores `path` and `used`, and (the clock being monotone) if no poll timed out no extension of `path` by `rem`
vertices is a Hamiltonian cycle. -/
def HamCallSpec (now : Nat → Nat) (g : Graph) (start rem : Nat)
    (f : List Nat → List Bool → Budget → Bool × List Nat × List Bool × Budget) : Prop :=
  ∀ path used B, HamInv g start rem path used →
    B.later (f path used B).2.2.2 ∧
    ((f path used B).1 = true →
      IsHamCycle g (f path used B).2.1 ∧ (f path used B).2.1.head? = some start ∧
      ¬ (f path used B).2.2.2.over now) ∧
    ((f path used B).1 = false →
      (f path used B).2.1 = path ∧ (f path used B).2.2.1 = used ∧
      (Monotone now → ¬ (f path used B).2.2.2.over now →
        ∀ ext, ext.length = rem → ¬ IsHamCycle g (path ++ ext)))

/-- Executable check of well-formedness, for concrete graphs. -/
def Graph.wf_check (g : Graph) : Bool :=
  decide (g.adj.length = g.n) &&
  (List.range g.adj.length).all (fun u =>
    (g.nbrs u).all (fun v => decide (v < g.n) && (g.directed || (g.nbrs v).contains u)) &&
    !(g.nbrs u).contains u && decide (g.nbrs u).Nodup)

/-! ## Specification-level notions for cliques -/

/-- Adjacency with edges read as undirected: an edge or arc in either direction. -/
def Graph.adjU (g : Graph) (u v : Nat) : Prop :=
  v ∈ g.nbrs u ∨ u ∈ g.nbrs v

instance (g : Graph) (u v : Nat) : Decidable (g.adjU u v) := by
  unfold Graph.adjU; infer_instance

/-- A clique: a set of vertices of the graph that are pairwise adjacent. -/
def IsClique (g : Graph) (S : Finset Nat) : Prop :=
  (∀ v ∈ S, v < g.n) ∧ ∀ u ∈ S, ∀ v ∈ S, u ≠ v → g.adjU u v

instance (g : Graph) (S : Finset Nat) : Decidable (IsClique g S) := by
  unfold IsClique; infer_instance

/-- An inclusion-maximal clique: no further vertex of the graph is adjacent to all
of its members. -/
def IsMaximalClique (g : Graph) (S : Finset Nat) : Prop :=
  IsClique g S ∧ ∀ w ∈ Finset.range g.n, w ∉ S → ¬ IsClique g (insert w S)

instance (g : Graph) (S : Finset Nat) : Decidable (IsMaximalClique g S) := by
  unfold IsMaximalClique; infer_instance

/-- What the clique search keeps true of its record: `bestR` is duplicate-free, its
members are vertices and pairwise adjacent in the table `A`, and `best` is its
length. -/
def BestOK (A : List (List Nat)) (n : Nat) (st : BKState) : Prop :=
  st.bestR.Nodup ∧ (∀ a ∈ st.bestR, a < n) ∧
  (∀ a ∈ st.bestR, ∀ b ∈ st.bestR, a ≠ b → (b ∈ row A a ∨ a ∈ row A b)) ∧
  st.bestR.length = st.best

/-- What the clique search keeps true of its arguments: `R` is duplicate-free, its
members are vertices and pairwise adjacent in `A`, and every candidate of `P` is a
vertex in the row of every member of `R`. -/
def CliqueArgs (A : List (List Nat)) (n : Nat) (R P : List Nat) : Prop :=
  R.Nodup ∧ (∀ a ∈ R, a < n) ∧
  (∀ a ∈ R, ∀ b ∈ R, a ≠ b → (b ∈ row A a ∨ a ∈ row A b)) ∧
  (∀ p ∈ P, p < n ∧ ∀ a ∈ R, p ∈ row A a)

/-- The parameter map of the clique tests: `timeout_ms = 200`. -/
def clique_test_params : KV := [("timeout_ms", "200")]

/-! ## Specification-level notions for reachability -/

/-- Reachability along adjacency lists: `b` is reached from `a` by following zero or
more edges/arcs `x -> y` with `y` in `adj x`. -/
def Reach (adj : Nat → List Nat) (a b : Nat) : Prop :=
  Relation.ReflTransGen (fun x y => y ∈ adj x) a b

/-- What the searches need of their work list: popping a non-empty list removes one
of its elements, and only the empty list cannot be popped. -/
def PopOK (pop : List Nat → Option (Nat × List Nat)) : Prop :=
  ∀ w, (pop w = none → w = []) ∧
    ∀ u w1, pop w = some (u, w1) → (∀ x, x ∈ w ↔ x = u ∨ x ∈ w1) ∧ w.length = w1.length + 1

/-- Loop invariant of the reachability searches from `s`: everything on the work list
is marked, every marked vertex is reachable from `s`, `s` is marked, the neighbours
of a marked vertex that left the work list are marked, and `seen` counts the marks. -/
def SearchInv (n : Nat) (adj : Nat → List Nat) (s : Nat) (w : List Nat) (vis : List Bool)
    (seen : Nat) : Prop :=
  vis.length = n ∧ (∀ x ∈ w, vis.getD x false = true) ∧
  (∀ x, vis.getD x false = true → Reach adj s x) ∧ vis.getD s false = true ∧
  (∀ x, vis.getD x false = true → x ∉ w → ∀ y ∈ adj x, vis.getD y false = true) ∧
  seen = vis.count true

/-- The Hamiltonian no-case of `algo_tests.cpp`: the path 0-1-2 on 4 vertices,
undirected. -/
def g_ham_path : Graph :=
  (Graph.init 4 false).add_edges [(0, 1), (1, 2)]

/-- Every vertex reaches every vertex: connectivity over all `n` vertices (strong
connectivity of the whole graph when it is directed). -/
def Graph.AllReach (g : Graph) : Prop :=
  ∀ u v, u < g.n → v < g.n → Reach g.nbrs u v

/-! ## stage2: Euler engine -/

/-- Function `has_any_edges(g)`: some adjacency list is non-empty. -/
def has_any_edges (g : Graph) : Bool :=
  (List.range g.n).any (fun u => !(g.nbrs u).isEmpty)

/-- Function `undirected_connected_ignoring_isolated(g)`: BFS from the first vertex
with a neighbour; every vertex with a neighbour must be marked. -/
def undirected_connected_ignoring_isolated (g : Graph) : Bool :=
  if g.n = 0 then true
  else
    match (List.range g.n).find? (fun i => !(g.nbrs i).isEmpty) with
    | none => true
    | some start =>
      let vis := (search_from g.n g.nbrs pop_front start).1
      !(List.range g.n).any (fun i => !(g.nbrs i).isEmpty && !vis.getD i false)

/-- The lambda `has_deg(i)` of the directed checks: `out[i] + in[i] > 0`. -/
def has_deg (g : Graph) (i : Nat) : Bool :=
  decide ((out_deg g).getD i 0 + (in_deg g).getD i 0 > 0)

/-- Function `strongly_connected_on_non_isolated(g)`: forward search from the first
vertex of non-zero degree, then the same search on the reversed arcs; both must mark
every vertex of non-zero degree. -/
def strongly_connected_on_non_isolated (g : Graph) : Bool :=
  match (List.range g.n).find? (has_deg g) with
  | none => true
  | some start =>
    let vis := (search_from g.n g.nbrs pop_back start).1
    if (List.range g.n).any (fun i => has_deg g i && !vis.getD i false) then false
    else
      let radj := reverse_adj g
      let vis2 := (search_from g.n (row radj) pop_back start).1
      if (List.range g.n).any (fun i => has_deg g i && !vis2.getD i false) then false
      else true

/-- The struct `AdjEdge { int to; int id; }` (`to` is a reserved word here, the
field is `dest`). -/
structure AdjEdge where
  dest : Nat
  id : Nat
deriving DecidableEq, Repr

/-- The row `adj2[u]` of an edge-indexed adjacency. -/
def row2 (adj2 : List (List AdjEdge)) (u : Nat) : List AdjEdge := adj2.getD u []

/-- The lambda `key(u, v)` of `hierholzer_undirected`: the 64-bit key packs the pair
ordered as (smaller, larger); the pair itself is kept here. -/
def key (u v : Nat) : Nat × Nat := if u > v then (v, u) else (u, v)

/-- State of the construction of the edge-indexed adjacency: `adj2`, the next edge
id `eid`, and the keys `seen` so far (undirected only). -/
structure BuildState where
  adj2 : List (List AdjEdge)
  eid : Nat
  seen : List (Nat × Nat)
deriving DecidableEq, Repr

/-- Build loop of `hierholzer_undirected`: each undirected edge gets one id, entered on
both sides the first time its key is met. -/
def build_undirected (g : Graph) : BuildState :=
  (List.range g.n).foldl
    (fun st u => (g.nbrs u).foldl
      (fun st v =>
        let k := key u v
        if k ∈ st.seen then st
        else
          let a1 := st.adj2.set u (row2 st.adj2 u ++ [⟨v, st.eid⟩])
          let a2 := a1.set v (row2 a1 v ++ [⟨u, st.eid⟩])
          { adj2 := a2, eid := st.eid + 1, seen := k :: st.seen })
      st)
    { adj2 := List.replicate g.n [], eid := 0, seen := [] }

/-- Build loop of `hierholzer_directed`: `adj2[u].push_back({v, eid++})`. -/
def build_directed (g : Graph) : BuildState :=
  (List.range g.n).foldl
    (fun st u => (g.nbrs u).foldl
      (fun st v =>
        { adj2 := st.adj2.set u (row2 st.adj2 u ++ [⟨v, st.eid⟩]), eid := st.eid + 1,
          seen := st.seen })
      st)
    { adj2 := List.replicate g.n [], eid := 0, seen := [] }

/-- State of the Hierholzer walk: the stack `st` (top at the back), the per-vertex
cursors `it`, the per-edge flags `used` and the emitted `circuit`. -/
structure WalkState where
  st : List Nat
  it : List Nat
  used : List Bool
  circuit : List Nat
deriving DecidableEq, Repr

/-- The inner loop `while (it[u] < lu.size() && used[lu[it[u]].id]) ++it[u];`: the
cursor moves past the used entries that follow it. -/
def skip_used (lu : List AdjEdge) (used : List Bool) (i : Nat) : Nat :=
  i + ((lu.drop i).takeWhile (fun e => used.getD e.id false)).length

/-- One iteration of the walk loop for the top `u` of the stack. -/
def walk_step (adj2 : List (List AdjEdge)) (u : Nat) (s : WalkState) : WalkState :=
  let lu := row2 adj2 u
  let i := skip_used lu s.used (s.it.getD u 0)
  let it1 := s.it.set u i
  if i = lu.length then
    { st := s.st.dropLast, it := it1, used := s.used, circuit := s.circuit ++ [u] }
  else
    let e := lu.getD i ⟨0, 0⟩
    { st := s.st ++ [e.dest], it := it1, used := s.used.set e.id true, circuit := s.circuit }

/-- The walk loop `while (!st.empty())` of both Hierholzer functions; the first
argument bounds the number of iterations and the result is `none` if the stack is
not empty when it is exhausted. -/
def walk_loop (adj2 : List (List AdjEdge)) : Nat → WalkState → Option (List Nat)
  | 0, s => if s.st = [] then some s.circuit else none
  | fuel + 1, s =>
    match s.st.getLast? with
    | none => some s.circuit
    | some u => walk_loop adj2 fuel (walk_step adj2 u s)

/-- The walk from `start` followed by `std::reverse(circuit)`: each iteration uses a
new edge or pops the stack, so `2 * eid + 1` iterations are allowed. -/
def hierholzer_walk (n : Nat) (b : BuildState) (start : Nat) : Option (List Nat) :=
  (walk_loop b.adj2 (2 * b.eid + 1)
    { st := [start], it := List.replicate n 0, used := List.replicate b.eid false,
      circuit := [] }).map List.reverse

/-- Function `hierholzer_undirected(g)`. -/
def hierholzer_undirected (g : Graph) : Option (List Nat) :=
  let b := build_undirected g
  match (List.range g.n).find? (fun i => !(row2 b.adj2 i).isEmpty) with
  | none => some [0]
  | some start => hierholzer_walk g.n b start

/-- Function `hierholzer_directed(g)`. -/
def hierholzer_directed (g : Graph) : Option (List Nat) :=
  let b := build_directed g
  match (List.range g.n).find? (has_deg g) with
  | none => some [0]
  | some start => hierholzer_walk g.n b start

/-- The struct `EulerResult`. -/
structure EulerResult where
  «exists» : Bool
  directed : Bool
  circuit : List Nat
  reason : String
deriving DecidableEq, Repr

/-- Function `euler_find(g)`; `none` only if a Hierholzer walk exhausts its bound. -/
def euler_find (g : Graph) : Option EulerResult :=
  if !has_any_edges g then
    some { «exists» := true, directed := g.directed, circuit := [0], reason := "" }
  else if !g.directed then
    if !undirected_connected_ignoring_isolated g then
      some { «exists» := false, directed := g.directed, circuit := [],
             reason := "Graph is not connected on its non-isolated vertices." }
    else if (out_deg g).any (fun d => d % 2 != 0) then
      some { «exists» := false, directed := g.directed, circuit := [],
             reason := "A vertex has odd degree (all degrees must be even)." }
    else
      (hierholzer_undirected g).map fun c =>
        { «exists» := true, directed := g.directed, circuit := c, reason := "" }
  else if (List.range g.n).any (fun i =>
      decide ((out_deg g).getD i 0 + (in_deg g).getD i 0 > 0) &&
        (out_deg g).getD i 0 != (in_deg g).getD i 0) then
    some { «exists» := false, directed := g.directed, circuit := [],
           reason := "In-degree != Out-degree for at least one vertex." }
  else if !strongly_connected_on_non_isolated g then
    some { «exists» := false, directed := g.directed, circuit := [],
           reason := "Graph is not strongly connected on its non-isolated vertices." }
  else
    (hierholzer_directed g).map fun c =>
      { «exists» := true, directed := g.directed, circuit := c, reason := "" }

/-! ## Specification-level notions for Eulerian circuits -/

/-- All stored adjacency entries `(u, v)` with `v` in `adj[u]`, in scan order: the arcs
of a directed graph, both orientations of every edge of an undirected one. -/
def Graph.darts (g : Graph) : List (Nat × Nat) :=
  (List.range g.n).flatMap (fun u => (g.nbrs u).map (fun v => (u, v)))

/-- The edges of an undirected graph, each once as `(u, v)` with `u < v`. -/
def Graph.uedges (g : Graph) : List (Nat × Nat) :=
  g.darts.filter (fun p => decide (p.1 < p.2))

/-- The number of arcs (directed) or of undirected edges (undirected). -/
def Graph.num_edges (g : Graph) : Nat :=
  if g.directed then g.darts.length else g.uedges.length

/-- The entry that edge number `k`, from `a` to `b`, contributes to the row of `x` in
the edge-indexed adjacency of a directed graph. -/
def entry_dir (x : Nat) (p : Nat × (Nat × Nat)) : Option AdjEdge :=
  if p.2.1 = x then some ⟨p.2.2, p.1⟩ else none

/-- The entry that edge number `k`, joining `a` and `b`, contributes to the row of
`x` in the edge-indexed adjacency of an undirected graph. -/
def entry_und (x : Nat) (p : Nat × (Nat × Nat)) : Option AdjEdge :=
  if p.2.1 = x then some ⟨p.2.2, p.1⟩
  else if p.2.2 = x then some ⟨p.2.1, p.1⟩ else none

/-- The row of `x` in the edge-indexed adjacency built from the edge list `el`. -/
def rows_of (f : Nat → Nat × (Nat × Nat) → Option AdjEdge) (el : List (Nat × Nat))
    (x : Nat) : List AdjEdge :=
  el.enum.filterMap (f x)

/-- One step of the directed build loop, for the arc `p`. -/
def build_dir_step (st : BuildState) (p : Nat × Nat) : BuildState :=
  { adj2 := st.adj2.set p.1 (row2 st.adj2 p.1 ++ [⟨p.2, st.eid⟩]), eid := st.eid + 1,
    seen := st.seen }

/-- One step of the undirected build loop, for the adjacency entry `p`. -/
def build_und_step (st : BuildState) (p : Nat × Nat) : BuildState :=
  if key p.1 p.2 ∈ st.seen then st
  else
    { adj2 := (st.adj2.set p.1 (row2 st.adj2 p.1 ++ [⟨p.2, st.eid⟩])).set p.2
        (row2 (st.adj2.set p.1 (row2 st.adj2 p.1 ++ [⟨p.2, st.eid⟩])) p.2 ++ [⟨p.1, st.eid⟩]),
      eid := st.eid + 1, seen := key p.1 p.2 :: st.seen }

/-- In-degree of `v`: the number of arcs `u -> v`. -/
def Graph.in_degree (g : Graph) (v : Nat) : Nat :=
  g.darts.countP (fun p => p.2 == v)

/-- Out-degree of `v`: the number of arcs `v -> w`, the length of `adj[v]`. -/
def Graph.out_degree (g : Graph) (v : Nat) : Nat :=
  (g.nbrs v).length

/-- The directed example of the Euler driver (`stage2/main.cpp`): 0 -> 1 -> 2 -> 0. -/
def g_dir3 : Graph :=
  (Graph.init 3 true).add_edges [(0, 1), (1, 2), (2, 0)]

/-- A directed graph on 5 vertices that passes the Hamiltonian precheck and has no
Hamiltonian cycle: arcs 0->1, 1->2, 2->3, 3->4, 4->2, 0->2, 2->0. -/
def g_no_ham : Graph :=
  (Graph.init 5 true).add_edges [(0, 1), (1, 2), (2, 3), (3, 4), (4, 2), (0, 2), (2, 0)]

/-- A trail from `a` in an edge-indexed adjacency, as the list of its steps
`(source, entry)`: each entry is taken from the row of the vertex reached so far. -/
def TrailD (adj2 : List (List AdjEdge)) : Nat → List (Nat × AdjEdge) → Prop
  | _, [] => True
  | a, d :: ds => d.1 = a ∧ d.2 ∈ row2 adj2 a ∧ TrailD adj2 d.2.dest ds

/-- The vertex a trail from `a` ends at. -/
def trail_end (a : Nat) (ds : List (Nat × AdjEdge)) : Nat :=
  (ds.getLast?.map (fun d => d.2.dest)).getD a

/-- The vertices visited after the first one. -/
def trail_dests (ds : List (Nat × AdjEdge)) : List Nat := ds.map (fun d => d.2.dest)

/-- The edge ids used by a trail. -/
def trail_ids (ds : List (Nat × AdjEdge)) : List Nat := ds.map (fun d => d.2.id)

/-- The steps of a trail as vertex pairs `(source, destination)`. -/
def trail_pairs (ds : List (Nat × AdjEdge)) : List (Nat × Nat) := ds.map (fun d => (d.1, d.2.dest))

/-- What the Hierholzer walk needs of the edge-indexed adjacency `adj2` with `E` edge
ids built for the graph `g`: entries are the adjacency entries of `g`, ids are below
`E` and all occur, an id belongs to one arc (directed) or to the two sides of one
edge (undirected). -/
structure EdgeIndex (g : Graph) (adj2 : List (List AdjEdge)) (E : Nat) : Prop where
  id_lt : ∀ x e, e ∈ row2 adj2 x → e.id < E
  dest_mem : ∀ x e, e ∈ row2 adj2 x → e.dest ∈ g.nbrs x
  has_entry : ∀ x v, v ∈ g.nbrs x → ∃ e, e ∈ row2 adj2 x ∧ e.dest = v
  id_surj : ∀ i, i < E → ∃ x e, e ∈ row2 adj2 x ∧ e.id = i
  dest_inj : ∀ x e e1, e ∈ row2 adj2 x → e1 ∈ row2 adj2 x → e.dest = e1.dest → e = e1
  id_inj : ∀ x e x1 e1, e ∈ row2 adj2 x → e1 ∈ row2 adj2 x1 → e.id = e1.id →
    (x1 = x ∧ e1 = e) ∨ (g.directed = false ∧ x1 = e.dest ∧ e1.dest = x)
  sym : g.directed = false → ∀ x e, e ∈ row2 adj2 x → ⟨x, e.id⟩ ∈ row2 adj2 e.dest

/-- Invariant of the Hierholzer walk from `start` while the stack is not empty: the
stack is a trail `ds` from `start`; the emitted circuit, reversed, is the tail of a
trail `dc` from some vertex `p` to `start`; the two trails use distinct edges, which
are exactly the edges flagged used; the cursors have only passed used entries; and
every emitted vertex has all its entries used. -/
def WalkInv (adj2 : List (List AdjEdge)) (E start : Nat) (s : WalkState) : Prop :=
  ∃ p dc ds,
    TrailD adj2 p dc ∧ trail_dests dc = s.circuit.reverse ∧ trail_end p dc = start ∧
    TrailD adj2 start ds ∧ start :: trail_dests ds = s.st ∧
    (trail_ids (dc ++ ds)).Nodup ∧ s.used.length = E ∧
    (∀ i, s.used.getD i false = true ↔ i ∈ trail_ids (dc ++ ds)) ∧
    (∀ u, s.it.getD u 0 ≤ (row2 adj2 u).length ∧
      ∀ j, j < s.it.getD u 0 → s.used.getD ((row2 adj2 u).getD j ⟨0, 0⟩).id false = true) ∧
    (∀ c ∈ s.circuit, ∀ e ∈ row2 adj2 c, s.used.getD e.id false = true)

/-- What the finished walk returns: the emitted circuit, reversed, is the vertex
sequence of a closed trail from `start` using distinct edges, and every vertex on it
has all its entries on the trail. -/
def WalkDone (adj2 : List (List AdjEdge)) (start : Nat) (c : List Nat) : Prop :=
  ∃ ds, TrailD adj2 start ds ∧ c.reverse = start :: trail_dests ds ∧
    trail_end start ds = start ∧ (trail_ids ds).Nodup ∧
    ∀ v ∈ c, ∀ e ∈ row2 adj2 v, e.id ∈ trail_ids ds

/-- The property that makes the walk correct: a trail from `p` through `start` to
`t` that has used every entry of `t` ends where it began (`t = p`). It holds in
balanced directed graphs and in undirected graphs with even degrees. -/
def StuckOK (adj2 : List (List AdjEdge)) (start : Nat) : Prop :=
  ∀ p dc ds, TrailD adj2 p dc → trail_end p dc = start → TrailD adj2 start ds →
    (trail_ids (dc ++ ds)).Nodup →
    (∀ e ∈ row2 adj2 (trail_end start ds), e.id ∈ trail_ids (dc ++ ds)) →
    trail_end start ds = p

/-- The consecutive pairs `(v_i, v_{i+1})` of a vertex sequence. -/
def pairs (c : List Nat) : List (Nat × Nat) := c.zip c.tail

/-- An Eulerian circuit, as its vertex sequence `c`: a closed walk along edges/arcs of
the graph that traverses every arc exactly once (directed) or every edge exactly once
in one of its two directions (undirected). -/
def IsEulerCircuit (g : Graph) (c : List Nat) : Prop :=
  c ≠ [] ∧ c.head? = c.getLast? ∧ (∀ q ∈ pairs c, q.2 ∈ g.nbrs q.1) ∧
  (∀ u v, v ∈ g.nbrs u →
    (if g.directed then (pairs c).count (u, v)
     else (pairs c).count (u, v) + (pairs c).count (v, u)) = 1)

/-- The graph has an Eulerian circuit; a graph without edges counts as having one. -/
def HasEulerCircuit (g : Graph) : Prop :=
  (∀ u, g.nbrs u = []) ∨ ∃ c, IsEulerCircuit g c

/-- The non-Eulerian example of the Euler test: the undirected path 0-1-2. -/
def g_path3 : Graph :=
  (Graph.init 3 false).add_edges [(0, 1), (1, 2)]

/-! ## stage7: connectivity / SCC engine -/

/-- The reverse neighbours scanned by `count_connected_undirected` when the graph is
directed: every `x` with `u` in `adj[x]`, scanning `x` upwards. -/
def rev_scan (g : Graph) (u : Nat) : List Nat :=
  (List.range g.n).flatMap (fun x => (g.nbrs x).filterMap (fun y => if y = u then some x else none))

/-- The vertices scanned for `u` by the BFS of `count_connected_undirected`: `adj[u]`,
then (directed graphs only) the reverse neighbours. -/
def cc_adj (g : Graph) (u : Nat) : List Nat :=
  g.nbrs u ++ (if g.directed then rev_scan g u else [])

/-- Function `count_connected_undirected(g)`: one BFS per vertex not yet marked. -/
def count_connected_undirected (g : Graph) : Nat :=
  ((List.range g.n).foldl
    (fun s st =>
      if s.1.getD st false then s
      else ((search_loop (cc_adj g) pop_front g.n [st] (s.1.set st true) 0).1, s.2 + 1))
    (List.replicate g.n false, 0)).2

/-- The lambda `dfs1` of `count_scc_kosaraju`: marks `u`, recurses into the unmarked
neighbours in order, then appends `u` to `order`. The first argument bounds the
recursion depth (at most the number of unmarked vertices). -/
def dfs1 (adj : Nat → List Nat) : Nat → Nat → List Bool × List Nat → List Bool × List Nat
  | 0, _, s => s
  | fuel + 1, u, s =>
    let s1 := (adj u).foldl
      (fun s v => if s.1.getD v false then s else dfs1 adj fuel v s) (s.1.set u true, s.2)
    (s1.1, s1.2 ++ [u])

/-- The lambda `dfs2` of `count_scc_kosaraju`: marks `u` and recurses into the
unmarked neighbours of the reversed graph. -/
def dfs2 (radj : Nat → List Nat) : Nat → Nat → List Bool → List Bool
  | 0, _, vis => vis
  | fuel + 1, u, vis =>
    (radj u).foldl
      (fun vis v => if vis.getD v false then vis else dfs2 radj fuel v vis) (vis.set u true)

/-- First pass of `count_scc_kosaraju`: `for i: if (!vis[i]) dfs1(i)`; the result is
the final `vis` and the finishing `order`. -/
def kosaraju_pass1 (g : Graph) : List Bool × List Nat :=
  (List.range g.n).foldl
    (fun s i => if s.1.getD i false then s else dfs1 g.nbrs g.n i s)
    (List.replicate g.n false, [])

/-- Second pass: the vertices of `order` from the last to the first, counting the
`dfs2` roots. -/
def kosaraju_pass2 (g : Graph) (order : List Nat) : List Bool × Nat :=
  order.reverse.foldl
    (fun s u =>
      if s.1.getD u false then s else (dfs2 (row (reverse_adj g)) g.n u s.1, s.2 + 1))
    (List.replicate g.n false, 0)

/-- Function `count_scc_kosaraju(g)`. -/
def count_scc_kosaraju (g : Graph) : Nat :=
  if !g.directed then count_connected_undirected g
  else (kosaraju_pass2 g (kosaraju_pass1 g).2).2

/-- Mutual reachability, the equivalence whose classes are the strongly connected
components. -/
def MutReach (g : Graph) (a b : Nat) : Prop :=
  Reach g.nbrs a b ∧ Reach g.nbrs b a

/-- In the list `l`, `a` occurs at or after an occurrence of `b`. -/
def AtOrAfter (l : List Nat) (b a : Nat) : Prop :=
  ∃ l1 l2, l = l1 ++ b :: l2 ∧ a ∈ b :: l2

/-- Order property of a finishing order `l`: whenever `a` reaches `b`, some vertex
mutually reachable with `a` finishes at or after `b`. -/
def OrderProp (adj : Nat → List Nat) (l : List Nat) : Prop :=
  ∀ a ∈ l, ∀ b ∈ l, Reach adj a b →
    ∃ a1, Reach adj a a1 ∧ Reach adj a1 a ∧ AtOrAfter l b a1

/-- Order property of the part of the finishing order built below an active vertex
`u`: as `OrderProp`, or `a` reaches `u`. -/
def OrderPropEsc (adj : Nat → List Nat) (l : List Nat) (u : Nat) : Prop :=
  ∀ a ∈ l, ∀ b ∈ l, Reach adj a b →
    (∃ a1, Reach adj a a1 ∧ Reach adj a1 a ∧ AtOrAfter l b a1) ∨ Reach adj a u

/-- What is known of the state `s` when `dfs1` is called on `u`: the finished
vertices (`order`) are marked, their neighbours are marked, and every marked vertex
that is not finished (an active ancestor) reaches `u`. -/
def DfsPre (adj : Nat → List Nat) (s : List Bool × List Nat) (u : Nat) : Prop :=
  (∀ x ∈ s.2, s.1.getD x false = true) ∧
  (∀ x ∈ s.2, ∀ y ∈ adj x, s.1.getD y false = true) ∧
  (∀ x, s.1.getD x false = true → x ∉ s.2 → Reach adj x u)

/-- Contract of a call of `dfs1` on `u` from state `s` to state `s1`: the vertices
`N` appended to `order` are exactly the newly marked ones, contain `u`, are reached
from `u`, have all their neighbours marked, and (under `DfsPre`) satisfy the order
property. -/
def DfsPost (adj : Nat → List Nat) (n u : Nat) (s s1 : List Bool × List Nat) : Prop :=
  ∃ N, s1.2 = s.2 ++ N ∧ s1.1.length = n ∧
    (∀ x, s1.1.getD x false = true ↔ (s.1.getD x false = true ∨ x ∈ N)) ∧
    N.Nodup ∧ (∀ x ∈ N, s.1.getD x false = false) ∧ u ∈ N ∧
    (∀ x ∈ N, Reach adj u x) ∧
    (∀ x ∈ N, ∀ y ∈ adj x, s1.1.getD y false = true) ∧
    s1.1.count false ≤ s.1.count false ∧
    (DfsPre adj s u → OrderProp adj N)

/-- The SCC test graph of `algo_tests.cpp`: directed, arcs 0->1, 1->2, 2->0, 3->4. -/
def g_scc_test : Graph :=
  (Graph.init 5 true).add_edges [(0, 1), (1, 2), (2, 0), (3, 4)]

/-- Invariant of the neighbour loop inside `dfs1(u)`, started in state `s0`: `N` are
the vertices finished so far below `u`. -/
def DfsLoopInv (adj : Nat → List Nat) (n u : Nat) (s0 s : List Bool × List Nat) : Prop :=
  ∃ N, s.2 = s0.2 ++ N ∧ s.1.length = n ∧
    (∀ x, s.1.getD x false = true ↔ (s0.1.getD x false = true ∨ x = u ∨ x ∈ N)) ∧
    N.Nodup ∧ (∀ x ∈ N, s0.1.getD x false = false ∧ x ≠ u) ∧
    (∀ x ∈ N, Reach adj u x) ∧
    (∀ x ∈ N, ∀ y ∈ adj x, s.1.getD y false = true) ∧
    (DfsPre adj s0 u → OrderPropEsc adj N u)

/-- Invariant of the first pass between two top-level calls: the marked vertices
are the finished ones, they are closed under the arcs, and the order property holds. -/
def Pass1Inv (adj : Nat → List Nat) (n : Nat) (s : List Bool × List Nat) : Prop :=
  s.1.length = n ∧ (∀ x, s.1.getD x false = true ↔ x ∈ s.2) ∧ s.2.Nodup ∧
    (∀ x ∈ s.2, ∀ y ∈ adj x, y ∈ s.2) ∧ OrderProp adj s.2

/-- Invariant of the second pass: the marked vertices are those mutually reachable
with one of the roots counted so far, and the roots lie in distinct components. -/
def Pass2Inv (g : Graph) (s : List Bool × Nat) : Prop :=
  ∃ reps : List Nat, s.2 = reps.length ∧ s.1.length = g.n ∧
    (∀ x, s.1.getD x false = true ↔ (x < g.n ∧ ∃ r ∈ reps, MutReach g x r)) ∧
    reps.Pairwise (fun a b => ¬ MutReach g a b) ∧ (∀ r ∈ reps, r < g.n)

/-- Method `SccCount::run(g, params)`: the result text. -/
def SccCount_run (g : Graph) : String :=
  if g.directed then "SCC count=" ++ toString (count_scc_kosaraju g)
  else "Graph undirected; connected components=" ++ toString (count_scc_kosaraju g)

/-- A complete system of representatives of the strongly connected components: the
entries of `reps` are vertices, no two of them are mutually reachable, and every
vertex is mutually reachable with one of them. Its length is the number of
strongly connected components. -/
def IsSccTransversal (g : Graph) (reps : List Nat) : Prop :=
  (∀ r ∈ reps, r < g.n) ∧ reps.Pairwise (fun a b => ¬ MutReach g a b) ∧
    ∀ v, v < g.n → ∃ r ∈ reps, MutReach g v r

/-! ## stage1: removal, validation, sequences of mutations -/

/-- Method `Graph::remove_edge(u, v)`: returns `false` on invalid ids or `u == v`;
otherwise erases the first `v` of `adj[u]` (and, when undirected, the first `u` of
`adj[v]`), decrements `m` if `adj[u]` held `v`, and returns whether it did. -/
def Graph.remove_edge (g : Graph) (u v : Int) : Bool × Graph :=
  if !in_range g.n u || !in_range g.n v || u == v then (false, g)
  else
    let Au := g.nbrs u.toNat
    let removed := Au.contains v.toNat
    let adj1 := if removed then g.adj.set u.toNat (Au.erase v.toNat) else g.adj
    let adj2 :=
      if !g.directed then
        let Av := adj1.getD v.toNat []
        if Av.contains u.toNat then adj1.set v.toNat (Av.erase u.toNat) else adj1
      else adj1
    (removed, { g with adj := adj2, m := if removed then (g.m + 2 ^ 64 - 1) % 2 ^ 64 else g.m })

/-- Method `Graph::validate()`: `true` for a directed graph; otherwise every `v` of
every `adj[u]` must have `u` in `adj[v]`. -/
def Graph.validate (g : Graph) : Bool :=
  if g.directed then true
  else (List.range g.n).all (fun u => (g.nbrs u).all (fun v => (g.nbrs v).contains u))

/-- A mutation of a graph: a call of `add_edge` or of `remove_edge`. -/
inductive GraphOp where
  | add (u v : Int)
  | remove (u v : Int)
deriving DecidableEq, Repr

/-- The graph after one mutation. -/
def Graph.apply (g : Graph) : GraphOp → Graph
  | .add u v => g.add_edge u v
  | .remove u v => (g.remove_edge u v).2

/-- The graph after a sequence of mutations, applied in order. -/
def Graph.run_ops (g : Graph) (ops : List GraphOp) : Graph :=
  ops.foldl Graph.apply g

/-- The undirected SCC test graph of `algo_tests.cpp`: 5 vertices, edges 0-1, 1-2, 3-4. -/
def g_cc_test : Graph :=
  (Graph.init 5 false).add_edges [(0, 1), (1, 2), (3, 4)]

/-- Loop invariant of the BFS of `count_connected_undirected` from `s`, started with
the marks `M` of the components counted before: the work list is marked and reachable from `s`, a
mark is an old mark or a vertex reachable from `s`, `s` and the old marks are marked,
and the neighbours of a marked vertex that is not on the work list are marked. -/
def CcInv (n : Nat) (adj : Nat → List Nat) (M : List Bool) (s : Nat) (w : List Nat)
    (vis : List Bool) : Prop :=
  vis.length = n ∧ (∀ x ∈ w, vis.getD x false = true ∧ Reach adj s x) ∧
  (∀ x, vis.getD x false = true → M.getD x false = true ∨ Reach adj s x) ∧
  vis.getD s false = true ∧ (∀ x, M.getD x false = true → vis.getD x false = true) ∧
  (∀ x, vis.getD x false = true → x ∉ w → ∀ y ∈ adj x, vis.getD y false = true)

/-- A complete system of representatives of the connected components: the entries of
`reps` are vertices, no two of them are joined by a path, and every vertex is joined
by a path to one of them. Its length is the number of connected components. -/
def IsCompTransversal (g : Graph) (reps : List Nat) : Prop :=
  (∀ r ∈ reps, r < g.n) ∧ reps.Pairwise (fun a b => ¬ Reach g.nbrs a b) ∧
    ∀ v, v < g.n → ∃ r ∈ reps, Reach g.nbrs v r

/-! ## stage7: the engine registry -/

/-- The four engines behind `IAlgorithm`: the structs `SccCount`, `Hamilton`,
`MaxClique` and `NumMaxCliques`. -/
inductive Algorithm where
  | SccCount
  | Hamilton
  | MaxClique
  | NumMaxCliques
deriving DecidableEq, Repr

/-- The method `name()` of each engine. -/
def Algorithm.name : Algorithm → String
  | .SccCount => "SCC_COUNT"
  | .Hamilton => "HAM_CYCLE"
  | .MaxClique => "MAXCLIQUE"
  | .NumMaxCliques => "NUM_MAXCLIQUES"

/-- Function `make_algorithm(name)`; `none` is the null pointer. -/
def make_algorithm (name : String) : Option Algorithm :=
  if name = "SCC_COUNT" then some .SccCount
  else if name = "HAM_CYCLE" then some .Hamilton
  else if name = "MAXCLIQUE" then some .MaxClique
  else if name = "NUM_MAXCLIQUES" then some .NumMaxCliques
  else none

/-- The method `run(g, params)` of each engine: the text of the `AlgoResult` (`none`
only if a clique search exhausts its recursion bound). -/
def Algorithm.run (srt : (Nat → Nat) → List Nat → List Nat) (now : Nat → Nat) (a : Algorithm)
    (g : Graph) (params : KV) : Option String :=
  match a with
  | .SccCount => some (SccCount_run g)
  | .Hamilton => some (ham_cycle srt now g params)
  | .MaxClique => MaxClique_run srt now g params
  | .NumMaxCliques => NumMaxCliques_run srt now g params

/-! ## stage3 / stage7 / stage9: exact G(n, m) generator -/

/-- Function `id_to_pair_directed(n, id)`: `row = id / (n-1)`, `col = id % (n-1)`, and
the column skips the diagonal. The casts to `int` are the identity (ids of vertices). -/
def id_to_pair_directed (n id : Nat) : Nat × Nat :=
  let row := id / (n - 1)
  let col := id % (n - 1)
  if col ≥ row then (row, col + 1) else (row, col)

/-- The loop `while (remaining >= len) { remaining -= len; ++u; --len; }` of
`id_to_pair_undirected` followed by `v = u + 1 + remaining`, by recursion on `len`.
With `len = 0` the test holds, `--len` wraps to `2^64 - 1` and the loop stops one or
two steps later; ids of the id space never get there. -/
def id_to_pair_undirected_loop : Nat → Nat → Nat → Nat × Nat
  | 0, u, remaining =>
    if remaining ≥ 2 ^ 64 - 1 then (u + 2, u + 3) else (u + 1, u + 2 + remaining)
  | len + 1, u, remaining =>
    if remaining ≥ len + 1 then id_to_pair_undirected_loop len (u + 1) (remaining - (len + 1))
    else (u, u + 1 + remaining)

/-- Function `id_to_pair_undirected(n, id)`: triangular indexing inversion. -/
def id_to_pair_undirected (n id : Nat) : Nat × Nat :=
  id_to_pair_undirected_loop (n - 1) 0 id

/-- The number of ids of rows of lengths `len, len - 1, ..., 1`: `1 + 2 + ... + len`. -/
def tri : Nat → Nat
  | 0 => 0
  | k + 1 => tri k + (k + 1)

/-- The id of the pair `(a, b)` in the triangular numbering that starts at row `u`
with row length `len`. -/
def tri_enc : Nat → Nat → Nat → Nat → Nat
  | 0, _, _, _ => 0
  | len + 1, u, a, b => if a = u then b - a - 1 else (len + 1) + tri_enc len (u + 1) a b

/-- The number of stored adjacency entries: the sum of the lengths of `adj[0..n-1]`. -/
def Graph.degsum (g : Graph) : Nat :=
  ((List.range g.n).map (fun u => (g.nbrs u).length)).sum

/-- The number of edges the adjacency lists hold: the entries of a directed graph,
half the entries of an undirected one (each edge is stored on both sides). -/
def Graph.edge_count (g : Graph) : Nat :=
  if g.directed then g.degsum else g.degsum / 2

/-- The counter `m` agrees with the adjacency lists (as a 64-bit value). -/
def Graph.MOK (g : Graph) : Prop :=
  g.m = g.edge_count % 2 ^ 64

/-- One iteration of the loop of `sample_ids` for the bound `j`, on the set `S` kept as
the list of its members: `t` is the draw from `[0, j]`; `S.insert(t)` and, if `t` was
already there, `S.insert(j)`. -/
def sample_ids_step (draw : Nat → Nat) (S : List Nat) (j : Nat) : List Nat :=
  let t := draw j
  if t ∈ S then (if j ∈ S then S else S ++ [j]) else S ++ [t]

/-- Function `sample_ids(N, m, rng)` (Robert Floyd sampling). `draw j` is the value the
generator returns for the bound `j` (each bound occurs once), and `iter` is the order
in which the `unordered_set` is read out. The loop `for (j = N - m; j < N; ++j)` makes
`m` iterations when `m <= N` and none otherwise (`N - m` wraps above `N`). -/
def sample_ids (iter : List Nat → List Nat) (draw : Nat → Nat) (N m : Nat) : List Nat :=
  iter ((if m ≤ N then List.range' (N - m) m else []).foldl (sample_ids_step draw) [])

/-- The size `N` of the id space: `n(n-1)` directed, `n(n-1)/2` undirected. -/
def id_space (n : Nat) (directed : Bool) : Nat :=
  if directed then n * (n - 1) else n * (n - 1) / 2

/-- Function `generate_Gnm(g, target_m, seed)` (`generate_simple_graph_Gnm` in stage3),
with the draws and the read-out order of the set as in `sample_ids`. -/
def generate_Gnm (iter : List Nat → List Nat) (draw : Nat → Nat) (g : Graph)
    (target_m : Nat) : Graph :=
  if g.n = 0 ∨ target_m = 0 then g
  else
    let N := id_space g.n g.directed
    let tm := if target_m > N then N else target_m
    (sample_ids iter draw N tm).foldl
      (fun g id =>
        let p := if g.directed then id_to_pair_directed g.n id
                 else id_to_pair_undirected g.n id
        g.add_edge p.1 p.2)
      g

/-- The vertex pair of an id, as `generate_Gnm` computes it. -/
def pair_of_id (n : Nat) (directed : Bool) (id : Nat) : Nat × Nat :=
  if directed then id_to_pair_directed n id else id_to_pair_undirected n id

/-- Invariant of the edge loop of `generate_Gnm` after the ids `done`: the graph is
well-formed with its counter in agreement, it holds one edge per id, and every stored
entry comes from one of the ids. -/
def GenInv (n : Nat) (d : Bool) (g : Graph) (done : List Nat) : Prop :=
  g.WF ∧ g.MOK ∧ g.n = n ∧ g.directed = d ∧ g.edge_count = done.length ∧
  ∀ x y, y ∈ g.nbrs x →
    ∃ id ∈ done, pair_of_id n d id = (x, y) ∨ (d = false ∧ pair_of_id n d id = (y, x))

/-! ## stage9: the active-object pipeline (handlers) -/

/-- The struct `Request`. -/
structure Request where
  client_fd : Int
  alg : String
  g : Graph
  params : KV
deriving DecidableEq, Repr

/-- The struct `Response`. -/
structure Response where
  client_fd : Int
  text : String
deriving DecidableEq, Repr

/-- The four algorithm workers of `Pipeline`. -/
inductive Worker where
  | scc_ao
  | ham_ao
  | maxclq_ao
  | numclq_ao
deriving DecidableEq, Repr

/-- The `alg_name` the handler of each worker passes to `algorithm_run`
(`scc_handle`, `ham_handle`, `maxclq_handle`, `numclq_handle`). -/
def Worker.alg_name : Worker → String
  | .scc_ao => "SCC_COUNT"
  | .ham_ao => "HAM_CYCLE"
  | .maxclq_ao => "MAXCLIQUE"
  | .numclq_ao => "NUM_MAXCLIQUES"

/-- A call of `post` made by the dispatcher: a request moved to a worker, or a
response handed to the responder. -/
inductive Post where
  | worker (w : Worker) (r : Request)
  | respond (resp : Response)
deriving DecidableEq, Repr

/-- Handler `dispatch_handle(r, ctx)`: the posts it makes, in order. -/
def dispatch_handle (r : Request) : List Post :=
  if r.alg = "SCC_COUNT" then [.worker .scc_ao r]
  else if r.alg = "HAM_CYCLE" then [.worker .ham_ao r]
  else if r.alg = "MAXCLIQUE" then [.worker .maxclq_ao r]
  else if r.alg = "NUM_MAXCLIQUES" then [.worker .numclq_ao r]
  else [.respond { client_fd := r.client_fd, text := "ERR unknown algorithm" }]

/-- Function `algorithm_run(tag, r, ctx, alg_name)`: the responses it posts to the
responder, in order (`none` only if the engine does not return). -/
def algorithm_run (srt : (Nat → Nat) → List Nat → List Nat) (now : Nat → Nat) (r : Request)
    (alg_name : String) :
    Option (List Response) :=
  match make_algorithm alg_name with
  | none => some [{ client_fd := r.client_fd, text := "ERR unknown algorithm" }]
  | some A =>
    (A.run srt now r.g r.params).map fun text =>
      [{ client_fd := r.client_fd, text := "OK " ++ alg_name ++ " " ++ text }]

/-- The handler of a worker: `algorithm_run` with the worker's `alg_name`. -/
def Worker.handle (srt : (Nat → Nat) → List Nat → List Nat) (now : Nat → Nat) (w : Worker)
    (r : Request) : Option (List Response) :=
  algorithm_run srt now r w.alg_name

/-- The responses that reach the responder from a request posted to the dispatcher:
each post of `dispatch_handle` either is a response or is handled by its worker. -/
def pipeline_responses (srt : (Nat → Nat) → List Nat → List Nat) (now : Nat → Nat)
    (r : Request) : Option (List Response) :=
  (dispatch_handle r).foldl
    (fun acc p =>
      match acc, p with
      | none, _ => none
      | some l, .respond resp => some (l ++ [resp])
      | some l, .worker w r1 => (w.handle srt now r1).map (fun rs => l ++ rs))
    (some [])

/-- The undirected graph on two vertices with the single edge 0-1. -/
def g_k2 : Graph :=
  (Graph.init 2 false).add_edges [(0, 1)]

/-- The value `x` fits the type `int` of the source (32 bits). -/
def is_int (x : Int) : Prop := -2 ^ 31 ≤ x ∧ x < 2 ^ 31

instance (x : Int) : Decidable (is_int x) := by
  unfold is_int; infer_instance

/-- The arguments of a mutation are `int` values, as the signatures
`add_edge(int u, int v)` and `remove_edge(int u, int v)` make them. -/
def GraphOp.int_args : GraphOp → Prop
  | .add u v => is_int u ∧ is_int v
  | .remove u v => is_int u ∧ is_int v

instance (op : GraphOp) : Decidable op.int_args := by
  cases op <;> unfold GraphOp.int_args <;> infer_instance

/-- Every vertex with a neighbour and every stored neighbour is an `int` value. -/
def Graph.IntIds (g : Graph) : Prop :=
  ∀ u v, v ∈ g.nbrs u → u < 2 ^ 31 ∧ v < 2 ^ 31

/-- The state of the walk loop `while (!st.empty())` after `k` iterations, or at its
exit if the stack is empty before. -/
def walk_iter (adj2 : List (List AdjEdge)) : Nat → WalkState → WalkState
  | 0, s => s
  | k + 1, s =>
    match s.st.getLast? with
    | none => s
    | some u => walk_iter adj2 k (walk_step adj2 u s)

/-- The state in which both Hierholzer functions enter the walk loop. -/
def walk_init (n E start : Nat) : WalkState :=
  { st := [start], it := List.replicate n 0, used := List.replicate E false, circuit := [] }

/-- One iteration of the walk loop from `s` to `s1` with `u` on top of the stack is a
pop (`u` is emitted, no flag changes) or takes an edge (an entry of `u` whose flag was
not set is flagged and its end is pushed). -/
def WalkKind (adj2 : List (List AdjEdge)) (u : Nat) (s s1 : WalkState) : Prop :=
  (s1.used = s.used ∧ s1.st = s.st.dropLast ∧ s1.circuit = s.circuit ++ [u]) ∨
  (∃ e, e ∈ row2 adj2 u ∧ s.used.getD e.id false = false ∧
    s1.used = s.used.set e.id true ∧ s1.st = s.st ++ [e.dest] ∧ s1.circuit = s.circuit)

/-- Counting invariant of the walk: `E` flags, cursors within their rows, and as many
pushes (one more than the flags set) as the stack and the circuit hold together. -/
def WalkCount (adj2 : List (List AdjEdge)) (E : Nat) (s : WalkState) : Prop :=
  s.used.length = E ∧ (∀ u, s.it.getD u 0 ≤ (row2 adj2 u).length) ∧
  s.circuit.length + s.st.length = s.used.count true + 1

/-- Poll number `j` of a budget with the limits of `B` returns `true` (`j` is the value
of `steps` after the increment of that poll): the step limit is set and reached, or
the deadline is set and passed at the reading of that poll. -/
def Budget.fires (now : Nat → Nat) (B : Budget) (j : Nat) : Prop :=
  (B.step_limit ≠ 0 ∧ B.step_limit ≤ j) ∨ (B.deadline ≠ 0 ∧ B.deadline ≤ now j)

/-- No poll made so far by the search returned `true`. -/
def PollsQuiet (now : Nat → Nat) (st : BKState) : Prop :=
  ∀ j, 1 ≤ j → j ≤ st.B.steps → ¬ st.B.fires now j

/-- What a call of the clique search that started in state `st` leaves in `st1`: the
limits of the budget are kept; if the search is not aborted no poll has returned
`true`; if it is aborted, the last poll made is the first that returned `true`. -/
def PollsPost (now : Nat → Nat) (st st1 : BKState) : Prop :=
  st.B.later st1.B ∧
  (st1.aborted = false → PollsQuiet now st1) ∧
  (st1.aborted = true →
    1 ≤ st1.B.steps ∧ st1.B.fires now st1.B.steps ∧
      ∀ j, 1 ≤ j → j < st1.B.steps → ¬ st1.B.fires now j)

/-- How a run of the clique search with its container operations checked ends: with
the state the source leaves, or at the first operation that is not valid (an index
into `adj` or `isNbr` that is not below their size, `P.erase(end())` because
`std::find` did not find the candidate), or at a list `P` with a duplicate, or at the
bound on the recursion depth. -/
inductive BkOutcome where
  | ok (st : BKState)
  | bad_index
  | erase_end
  | duplicate
  | depth
deriving DecidableEq, Repr

/-- Candidate loop of `bk_recurse` as `bk_loop`, with checks: `P` is free of duplicates
before each candidate and at the exit of the loop, the candidate `v` indexes `adj`
(`inter_neighbors` reads `A[v]`), and `std::find(P.begin(), P.end(), v)` finds `v`
before `P.erase` is applied to its result. -/
def bk_loop_chk (now : Nat → Nat) (A : List (List Nat))
    (recurse : BKState → List Nat → List Nat → List Nat → BkOutcome)
    (R : List Nat) : List Nat → BKState → List Nat → List Nat → BkOutcome
  | [], st, P, _ => if P.Nodup then .ok st else .duplicate
  | v :: vs, st, P, X =>
    if ¬ P.Nodup then .duplicate
    else
      let (t, B1) := st.B.timed_out now
      let st1 := { st with B := B1 }
      if t then .ok { st1 with aborted := true }
      else if ¬ v < A.length then .bad_index
      else
        let P2 := inter_neighbors A v P
        let X2 := inter_neighbors A v X
        match recurse st1 (R ++ [v]) P2 X2 with
        | .ok st2 =>
          if v ∉ P then .erase_end
          else
            let P3 := P.erase v
            let X3 := X ++ [v]
            if st2.aborted then (if P3.Nodup then .ok st2 else .duplicate)
            else bk_loop_chk now A recurse R vs st2 P3 X3
        | f => f

/-- Function `bk_recurse` as above, with checks: `P` is free of duplicates when the
call is entered, every `cand` of `U = P ++ X` indexes
`adj` in the pivot loop, the pivot `u`, if there is one, indexes `adj` and every `v`
of `adj[u]` indexes `isNbr` (of size `adj.size()`) where `isNbr[v] = 1` is written,
and the checks of `bk_loop_chk`; the reads `isNbr[v]` for `v` in `P` and `adj[a]` in
the comparator of the sort use members of `U`. -/
def bk_recurse_chk (srt : (Nat → Nat) → List Nat → List Nat) (now : Nat → Nat)
    (A : List (List Nat)) (recordBest : Bool) :
    Nat → BKState → List Nat → List Nat → List Nat → BkOutcome
  | 0, _, _, _, _ => .depth
  | fuel + 1, st, R, P, X =>
    if ¬ P.Nodup then .duplicate
    else
      let (t, B1) := st.B.timed_out now
      let st1 := { st with B := B1 }
      if t then .ok { st1 with aborted := true }
      else if recordBest && decide (R.length + P.length ≤ st1.best) then .ok st1
      else if P.isEmpty && X.isEmpty then
        let st2 := { st1 with countMaximal := st1.countMaximal + 1 }
        if recordBest && decide (R.length > st2.best) then
          .ok { st2 with best := R.length, bestR := R }
        else .ok st2
      else if ¬ (∀ c ∈ P ++ X, c < A.length) then .bad_index
      else
        let u := (choose_pivot A P X).1
        if u ≠ -1 ∧ ¬ (0 ≤ u ∧ u.toNat < A.length ∧ ∀ v ∈ row A u.toNat, v < A.length) then
          .bad_index
        else
          let isNbr (v : Nat) : Bool := u != -1 && (row A u.toNat).contains v
          let cand := P.filter (fun v => !isNbr v)
          let cand1 := srt (fun a => (row A a).length) cand
          bk_loop_chk now A (bk_recurse_chk srt now A recordBest fuel) R cand1 st1 P X

/-- What the checked search needs of its arguments: no duplicate in `P`, and the
members of `P` and `X` index the adjacency table. -/
def BkSafe (A : List (List Nat)) (P X : List Nat) : Prop :=
  P.Nodup ∧ (∀ p ∈ P, p < A.length) ∧ (∀ x ∈ X, x < A.length)

/-! ## stage8: the leader-follower pool -/

/-- Where a worker stands in `worker_loop` (line numbers of `server8.cpp`). -/
inductive LPc where
  /-- Line 140: the test `while (running.load(...))`. -/
  | top
  /-- Line 143: `std::unique_lock lk(lf->m)`, waiting for the mutex. -/
  | lock_a
  /-- Line 144, mutex held: `if (lf->leader_id == -1) lf->leader_id = id;`. -/
  | claim
  /-- Line 145, mutex held: the predicate of `lf->cv.wait` is evaluated. -/
  | wait_test
  /-- Line 145: blocked inside `cv.wait`, mutex released. -/
  | blocked
  /-- Line 146, mutex held, the wait was left because `running` is false: `return`. -/
  | stop_return
  /-- Line 146, mutex held, the wait was left with `leader_id == id`:
  `if (!running.load()) return;` then the mutex is released. -/
  | lead_check
  /-- Line 151: in `accept(listen_fd, ...)`. -/
  | accept
  /-- Line 153, `cfd < 0`: `if (!running.load()) return;`. -/
  | accept_failed
  /-- Line 155: waiting for the mutex on the failure path. -/
  | lock_f
  /-- Lines 156-160, mutex held: `leader_id = (id + 1) % threads`, `notify_all`,
  `unlock`, `yield`, `continue`. -/
  | handoff_f
  /-- Line 165: waiting for the mutex after a successful `accept`. -/
  | lock_s
  /-- Lines 166-168, mutex held: `leader_id = (id + 1) % threads`, `notify_all`, the
  mutex is released at the end of the block. -/
  | handoff_s
  /-- Lines 171-175: the connection is read, handled and closed. -/
  | process
  /-- The worker has returned from `worker_loop`. -/
  | done
deriving DecidableEq, Repr

/-- The state of the pool: the slot `lf->leader_id`, the holder of the mutex `lf->m`,
the place of every worker, and for every worker whether it has seen the atomic flag
`running` false (the flag starts true and is only ever stored false, so what a worker
reads can only go from true to false). -/
structure LFState where
  leader : Int
  lock : Option Nat
  pc : Nat → LPc
  stopped : Nat → Bool

/-- The state in which `main` leaves the pool: `leader_id = -1`, the mutex free, every
worker at the head of its loop, `running` true. -/
def LF.init : LFState :=
  { leader := -1, lock := none, pc := fun _ => .top, stopped := fun _ => false }

/-- Worker `i` moves to `p`. -/
def LFState.goto (s : LFState) (i : Nat) (p : LPc) : LFState :=
  { s with pc := fun j => if j = i then p else s.pc j }

/-- What happens next in the pool: worker `i` executes its next statement (`accept_ok`
says whether `accept` returns a connection, when that is the statement), or the
store `running = false` of the signal handler becomes visible to worker `i`. -/
inductive LFAct where
  | run (i : Nat) (accept_ok : Bool)
  | see_stop (i : Nat)
deriving DecidableEq, Repr

/-- One step of the pool with `N` workers (`lf->threads = N`, worker ids `0..N-1`). A
worker that waits for the mutex moves only when the mutex is free; a worker blocked in
`cv.wait` may wake at any time (notification or spurious wake-up) and then needs the
mutex; a statement that cannot be executed leaves the state as it is. -/
def LF.step (N : Nat) (s : LFState) : LFAct → LFState
  | .see_stop i => { s with stopped := fun j => if j = i then true else s.stopped j }
  | .run i ok =>
    if ¬ i < N then s
    else
      match s.pc i with
      | .top => if s.stopped i then s.goto i .done else s.goto i .lock_a
      | .lock_a => if s.lock = none then { s.goto i .claim with lock := some i } else s
      | .claim =>
        { s.goto i .wait_test with leader := if s.leader = -1 then (i : Int) else s.leader }
      | .wait_test =>
        if s.stopped i then s.goto i .stop_return
        else if s.leader = (i : Int) then s.goto i .lead_check
        else { s.goto i .blocked with lock := none }
      | .blocked => if s.lock = none then { s.goto i .wait_test with lock := some i } else s
      | .stop_return => { s.goto i .done with lock := none }
      | .lead_check =>
        if s.stopped i then { s.goto i .done with lock := none }
        else { s.goto i .accept with lock := none }
      | .accept => if ok then s.goto i .lock_s else s.goto i .accept_failed
      | .accept_failed => if s.stopped i then s.goto i .done else s.goto i .lock_f
      | .lock_f => if s.lock = none then { s.goto i .handoff_f with lock := some i } else s
      | .handoff_f => { s.goto i .top with leader := (((i + 1) % N : Nat) : Int), lock := none }
      | .lock_s => if s.lock = none then { s.goto i .handoff_s with lock := some i } else s
      | .handoff_s =>
        { s.goto i .process with leader := (((i + 1) % N : Nat) : Int), lock := none }
      | .process => s.goto i .top
      | .done => s

/-- The state of the pool after a schedule. -/
def LF.run (N : Nat) (acts : List LFAct) : LFState :=
  acts.foldl (LF.step N) LF.init

/-- A worker at this place is leader: it has left the wait of line 145 with
`leader_id == id` and has not yet stored the next leader. -/
def LPc.leading : LPc → Bool
  | .lead_check | .accept | .accept_failed | .lock_f | .handoff_f | .lock_s | .handoff_s => true
  | _ => false

/-- Invariant of the pool: every leading worker is the one named by the slot, and the
slot is unset or an id of a worker. -/
def LFInv (N : Nat) (s : LFState) : Prop :=
  (∀ i, i < N → (s.pc i).leading = true → s.leader = (i : Int)) ∧
  (s.leader = -1 ∨ (0 ≤ s.leader ∧ s.leader < (N : Int)))

/-! ## stage9: the active object -/

/-- Where the thread of an `ActiveObject` stands in `loop` (line numbers of
`active.hpp`). -/
inductive CPc where
  /-- Line 38: the test `while (running_.load())`. -/
  | top
  /-- Lines 41-45, the critical section under `m_`: `cv_.wait` until `running_` is
  false or the queue is not empty, `break` if `running_` is false, else the front of
  the queue is moved to `item` and popped. -/
  | wait
  /-- Line 46: `handler_(std::move(item), ctx_)`. -/
  | handle
  /-- Lines 51-55, the critical section of the drain loop: `break` if the queue is
  empty, else the front is moved to `item` and popped. -/
  | drain
  /-- Line 56: `handler_(std::move(item), ctx_)` in the drain loop. -/
  | dhandle
  /-- Function `loop` has returned: the thread can be joined. -/
  | done
deriving DecidableEq, Repr

/-- Where the call of `stop()` stands: not made yet, after the successful
`compare_exchange_strong` (in `notify_all` and `thr_.join()`), returned. -/
inductive SPc where
  | idle
  | joining
  | returned
deriving DecidableEq, Repr

/-- The state of a started `ActiveObject<T>` with a handler: the queue `q_`, the flag
`running_`, whether the thread of the object has seen the flag false, the `item` it
has moved out of the queue and not yet handed to the handler, the places of the
thread and of `stop()`, and, for the statement of properties only, the items in the
order of their `push_back` (`posted`) and in the order of the calls of the handler
(`handled`). -/
structure AOState (T : Type) where
  q : List T
  running : Bool
  seen_stop : Bool
  item : Option T
  cpc : CPc
  spc : SPc
  posted : List T
  handled : List T

/-- The object after `start(h, ctx)`, with the items `q0` posted before `start`. -/
def AO.init {T : Type} (q0 : List T) : AOState T :=
  { q := q0, running := true, seen_stop := false, item := none, cpc := .top, spc := .idle,
    posted := q0, handled := [] }

/-- What happens next: some thread completes `post(x)` (the `push_back` under `m_`);
the thread of the object executes its next statement; the store of `stop()` becomes
visible to that thread; `stop()` is called; `thr_.join()` returns. -/
inductive AOAct (T : Type) where
  | post (x : T)
  | consumer
  | see_stop
  | stop_call
  | stop_return

/-- The next statement of the thread of the object. In `wait` the thread stays
blocked while the flag reads true and the queue is empty. -/
def AO.consumer_step {T : Type} (s : AOState T) : AOState T :=
  match s.cpc with
  | .top => if s.seen_stop then { s with cpc := .drain } else { s with cpc := .wait }
  | .wait =>
    if s.seen_stop then { s with cpc := .drain }
    else
      match s.q with
      | [] => s
      | x :: rest => { s with q := rest, item := some x, cpc := .handle }
  | .handle =>
    match s.item with
    | none => { s with cpc := .top }
    | some x => { s with handled := s.handled ++ [x], item := none, cpc := .top }
  | .drain =>
    match s.q with
    | [] => { s with cpc := .done }
    | x :: rest => { s with q := rest, item := some x, cpc := .dhandle }
  | .dhandle =>
    match s.item with
    | none => { s with cpc := .drain }
    | some x => { s with handled := s.handled ++ [x], item := none, cpc := .drain }
  | .done => s

/-- One step of the object. `stop()` takes effect when the flag is true
(`compare_exchange_strong(expected = true, false)` succeeds; it then notifies and
joins); the thread of the object can see the flag false only once it is false;
`join` returns only when `loop` has returned. -/
def AO.step {T : Type} (s : AOState T) : AOAct T → AOState T
  | .post x => { s with q := s.q ++ [x], posted := s.posted ++ [x] }
  | .consumer => AO.consumer_step s
  | .see_stop => if s.running then s else { s with seen_stop := true }
  | .stop_call =>
    if s.spc = .idle ∧ s.running = true then { s with running := false, spc := .joining }
    else s
  | .stop_return =>
    if s.spc = .joining ∧ s.cpc = .done then { s with spc := .returned } else s

/-- The state of the object after a schedule. -/
def AO.run {T : Type} (q0 : List T) (acts : List (AOAct T)) : AOState T :=
  acts.foldl AO.step (AO.init q0)

/-- Invariant of the object: every posted item is in exactly one place and in the
order of posting (handed to the handler, held by the thread, or in the queue); the
thread holds an item exactly between a pop and the call of the handler; the thread
has seen the flag false, or is past the main loop, only if the flag is false; the
flag is false exactly when `stop()` has been called; and `stop()` has returned only
if `loop` has. -/
def AOInv {T : Type} (s : AOState T) : Prop :=
  s.posted = s.handled ++ s.item.toList ++ s.q ∧
  (s.item.isSome = true ↔ (s.cpc = .handle ∨ s.cpc = .dhandle)) ∧
  (s.seen_stop = true → s.running = false) ∧
  ((s.cpc = .drain ∨ s.cpc = .dhandle ∨ s.cpc = .done) → s.seen_stop = true) ∧
  (s.running = false ↔ s.spc ≠ .idle) ∧
  (s.spc = .returned → s.cpc = .done)

/-- The items of `M` were posted, and they have all been handed to the handler, in
their order, if `loop` has returned. -/
def AOMark {T : Type} (M : List T) (s : AOState T) : Prop :=
  M <+: s.posted ∧ (s.cpc = .done → M <+: s.handled)

/-! ## Theorems -/

set_option maxRecDepth 100000 in
/-- C1 (defect): on the clique test graph (5 vertices, edges 0-1, 1-2, 0-2, 2-3, 3-4)
with the test's parameters and no timeout, MAXCLIQUE reports size 2 with example
`3 4`, although `{0,1,2}` is a clique of size 3 of that graph. -/
theorem maxclique_test_graph_reports_two :
    MaxClique_run sort_by_key (fun _ => 0) g_clique_test clique_test_params
        = some "MaxClique size=2 example: 3 4" ∧
      (run_bk sort_by_key (fun _ => 0) g_clique_test clique_test_params true).map (·.aborted) = some false ∧
      IsClique g_clique_test {0, 1, 2} ∧ ({0, 1, 2} : Finset Nat).card = 3 := by
  decide

set_option maxRecDepth 100000 in
/-- C2 (defect): on the clique test graph with the test's parameters and no timeout,
NUM_MAXCLIQUES reports 2, although the graph has the three distinct maximal cliques
`{0,1,2}`, `{2,3}` and `{3,4}`. -/
theorem num_maxcliques_test_graph_reports_two :
    NumMaxCliques_run sort_by_key (fun _ => 0) g_clique_test clique_test_params
        = some "Maximal cliques count=2" ∧
      (run_bk sort_by_key (fun _ => 0) g_clique_test clique_test_params false).map (·.aborted) = some false ∧
      IsMaximalClique g_clique_test {0, 1, 2} ∧ IsMaximalClique g_clique_test {2, 3} ∧
      IsMaximalClique g_clique_test {3, 4} := by
  decide

/-! ### Hamiltonian engine -/

theorem set_true_set_false (used : List Bool) (v : Nat) (h : used.getD v false = false) :
    (used.set v true).set v false = used := by
  rw [List.set_set]
  apply List.ext_getElem
  · simp
  · intro i h1 h2
    simp only [List.getElem_set]
    split
    · subst_vars
      simp [List.getD_eq_getElem?_getD, List.getElem?_eq_getElem h2] at h
      exact h.symm
    · rfl

theorem getD_set_true (used : List Bool) (v x : Nat) (hv : v < used.length) :
    (used.set v true).getD x false = true ↔ (x = v ∨ used.getD x false = true) := by
  simp only [List.getD_eq_getElem?_getD, List.getElem?_set]
  by_cases h : v = x
  · subst h; simp [hv]
  · have h' : ¬ x = v := fun e => h e.symm
    simp [h, h']

theorem getLastD_of_getLast? {l : List Nat} {a d : Nat} (h : l.getLast? = some a) :
    l.getLastD d = a := by
  rw [List.getLastD_eq_getLast?, h]; rfl

theorem hamInv_extend {g : Graph} {start rem : Nat} {path : List Nat} {used : List Bool}
    (hwf : g.WF) (h : HamInv g start (rem + 1) path used) {v : Nat}
    (hv : v ∈ g.nbrs (path.getLastD 0)) (hu : used.getD v false = false) :
    HamInv g start rem (path ++ [v]) (used.set v true) := by
  obtain ⟨h1, h2, h3, h4, h5, h6, h7⟩ := h
  have hvn : v < g.n := hwf.2.1 _ _ hv
  have hvp : v ∉ path := fun hm => by
    have := (h2 v).2 hm; rw [hu] at this; exact Bool.false_ne_true this
  refine ⟨by simpa using h1, ?_, ?_, ?_, ?_, ?_, ?_⟩
  · intro x
    rw [getD_set_true _ _ _ (h1 ▸ hvn), h2 x]
    simp [or_comm]
  · exact List.Nodup.append h3 (List.nodup_singleton v) (by simpa using hvp)
  · cases path with
    | nil => simp at h4
    | cons a t => simpa using h4
  · intro x hx
    rcases List.mem_append.1 hx with hx | hx
    · exact h5 x hx
    · simp at hx; subst hx; exact hvn
  · rw [List.chain'_append]
    refine ⟨h6, List.chain'_singleton v, ?_⟩
    intro a ha b hb
    simp only [List.head?_cons, Option.mem_def, Option.some.injEq] at hb
    subst hb
    rw [← getLastD_of_getLast? ha]; exact hv
  · simp only [List.length_append, List.length_singleton]; omega

theorem Budget.later_refl (B : Budget) : B.later B := ⟨rfl, rfl, le_refl _⟩

theorem Budget.later_trans {B B1 B2 : Budget} (h1 : B.later B1) (h2 : B1.later B2) :
    B.later B2 :=
  ⟨h2.1.trans h1.1, h2.2.1.trans h1.2.1, le_trans h1.2.2 h2.2.2⟩

theorem Budget.over_later {now : Nat → Nat} (hm : Monotone now) {B B1 : Budget}
    (h : B.later B1) (ho : B.over now) : B1.over now := by
  obtain ⟨hd, hl, hs⟩ := h
  rcases ho with ⟨h1, h2⟩ | ⟨h1, h2⟩
  · left; rw [hl]; exact ⟨h1, le_trans h2 hs⟩
  · right; rw [hd]; exact ⟨h1, le_trans h2 (hm hs)⟩

theorem Budget.timed_out_later (now : Nat → Nat) (B : Budget) :
    B.later (B.timed_out now).2 := by
  unfold Budget.timed_out
  simp only
  split_ifs <;> exact ⟨rfl, rfl, Nat.le_succ _⟩

theorem Budget.timed_out_iff (now : Nat → Nat) (B : Budget) :
    (B.timed_out now).1 = true ↔ (B.timed_out now).2.over now := by
  unfold Budget.timed_out Budget.over
  simp only
  split_ifs with h1 h2
  · simp only [true_iff]; left; exact h1
  · simp only [true_iff]; right; exact h2
  · simp only [Bool.false_eq_true, false_iff]
    rintro (h | h)
    · exact h1 h
    · exact h2 h

theorem isHamCycle_of_full {g : Graph} {start : Nat} {path : List Nat} {used : List Bool}
    (h : HamInv g start 0 path used) (hc : start ∈ g.nbrs (path.getLastD 0)) :
    IsHamCycle g path := by
  obtain ⟨_, _, h3, h4, h5, h6, h7⟩ := h
  refine ⟨h3, ?_, h6, ?_⟩
  · intro v
    refine ⟨h5 v, fun hv => ?_⟩
    have hsub : path.toFinset ⊆ Finset.range g.n := by
      intro x hx; rw [List.mem_toFinset] at hx; exact Finset.mem_range.2 (h5 x hx)
    have hcard : (Finset.range g.n).card ≤ path.toFinset.card := by
      rw [List.toFinset_card_of_nodup h3, Finset.card_range]; omega
    have := Finset.eq_of_subset_of_card_le hsub hcard
    rw [← List.mem_toFinset, this]; exact Finset.mem_range.2 hv
  · intro a b ha hb
    rw [h4] at hb; cases hb
    rw [← getLastD_of_getLast? ha]; exact hc

theorem closing_of_isHamCycle {g : Graph} {start : Nat} {path : List Nat}
    (h4 : path.head? = some start) (h : IsHamCycle g path) :
    start ∈ g.nbrs (path.getLastD 0) := by
  cases hl : path.getLast? with
  | none => rw [List.getLast?_eq_none_iff] at hl; subst hl; simp at h4
  | some a => rw [getLastD_of_getLast? hl]; exact h.2.2.2 a start hl h4

theorem ham_loop_spec {now : Nat → Nat} {g : Graph} (hwf : g.WF)
    {start rem : Nat}
    {f : List Nat → List Bool → Budget → Bool × List Nat × List Bool × Budget}
    (hf : HamCallSpec now g start rem f) {path : List Nat} {used : List Bool}
    (hinv : HamInv g start (rem + 1) path used) :
    ∀ (vs : List Nat), (∀ v ∈ vs, v ∈ g.nbrs (path.getLastD 0)) → ∀ B : Budget,
      B.later (ham_loop now f vs path used B).2.2.2 ∧
      ((ham_loop now f vs path used B).1 = true →
        IsHamCycle g (ham_loop now f vs path used B).2.1 ∧
          (ham_loop now f vs path used B).2.1.head? = some start ∧
          ¬ (ham_loop now f vs path used B).2.2.2.over now) ∧
      ((ham_loop now f vs path used B).1 = false →
        (ham_loop now f vs path used B).2.1 = path ∧
        (ham_loop now f vs path used B).2.2.1 = used ∧
        (Monotone now → ¬ (ham_loop now f vs path used B).2.2.2.over now →
          ∀ v ∈ vs, ∀ ext, ext.length = rem → ¬ IsHamCycle g (path ++ v :: ext))) := by
  intro vs
  induction vs with
  | nil =>
    intro _ B
    simp only [ham_loop]
    exact ⟨B.later_refl, by simp, fun _ => by simp⟩
  | cons v vs ih =>
    intro hvs B
    have hv : v ∈ g.nbrs (path.getLastD 0) := hvs v (List.mem_cons_self _ _)
    have hvs' : ∀ x ∈ vs, x ∈ g.nbrs (path.getLastD 0) :=
      fun x hx => hvs x (List.mem_cons_of_mem _ hx)
    rw [ham_loop]
    by_cases hu : used.getD v false = true
    · rw [if_pos hu]
      obtain ⟨i1, i2, i3⟩ := ih hvs' B
      refine ⟨i1, i2, fun hr => ?_⟩
      obtain ⟨j1, j2, j3⟩ := i3 hr
      refine ⟨j1, j2, fun hm ho x hx ext hext hc => ?_⟩
      rcases List.mem_cons.1 hx with rfl | hx
      · have hvp : x ∈ path := (hinv.2.1 x).1 hu
        have hnd := hc.1
        rw [List.nodup_append] at hnd
        exact hnd.2.2 hvp (List.mem_cons_self _ _)
      · exact j3 hm ho x hx ext hext hc
    · rw [if_neg hu]
      have hu' : used.getD v false = false := by simpa using hu
      have hinv' := hamInv_extend hwf hinv hv hu'
      obtain ⟨c1, c2, c3⟩ := hf (path ++ [v]) (used.set v true) B hinv'
      simp only
      by_cases hr : (f (path ++ [v]) (used.set v true) B).1 = true
      · rw [if_pos hr]
        exact ⟨c1, fun _ => c2 hr, fun h => by rw [hr] at h; cases h⟩
      · rw [if_neg hr]
        have hr' : (f (path ++ [v]) (used.set v true) B).1 = false := by simpa using hr
        obtain ⟨d1, d2, d3⟩ := c3 hr'
        have e1 : (f (path ++ [v]) (used.set v true) B).2.1.dropLast = path := by
          rw [d1]; simp
        have e2 : (f (path ++ [v]) (used.set v true) B).2.2.1.set v false = used := by
          rw [d2]; exact set_true_set_false used v hu'
        rw [e1, e2]
        have t1 := Budget.timed_out_later now (f (path ++ [v]) (used.set v true) B).2.2.2
        have t2 := Budget.timed_out_iff now (f (path ++ [v]) (used.set v true) B).2.2.2
        by_cases ht : ((f (path ++ [v]) (used.set v true) B).2.2.2.timed_out now).1 = true
        · rw [if_pos ht]
          refine ⟨Budget.later_trans c1 t1, by simp, fun _ => ⟨rfl, rfl, fun _ ho => ?_⟩⟩
          exact absurd (t2.1 ht) ho
        · rw [if_neg ht]
          obtain ⟨i1, i2, i3⟩ :=
            ih hvs' ((f (path ++ [v]) (used.set v true) B).2.2.2.timed_out now).2
          refine ⟨Budget.later_trans (Budget.later_trans c1 t1) i1, i2, fun hl => ?_⟩
          obtain ⟨j1, j2, j3⟩ := i3 hl
          refine ⟨j1, j2, fun hm ho x hx ext hext => ?_⟩
          rcases List.mem_cons.1 hx with rfl | hx
          · have hno : ¬ (f (path ++ [x]) (used.set x true) B).2.2.2.over now :=
              fun h => ho (Budget.over_later hm (Budget.later_trans t1 i1) h)
            have := d3 hm hno ext hext
            simpa using this
          · exact j3 hm ho x hx ext hext

/-- The insertion sort meets the contract of `std::sort`. -/
theorem sort_by_key_spec : SortSpec sort_by_key := by
  intro key l
  refine ⟨List.perm_insertionSort _ l, ?_⟩
  haveI : IsTotal Nat (fun a b => key a ≤ key b) := ⟨fun a b => Nat.le_total _ _⟩
  haveI : IsTrans Nat (fun a b => key a ≤ key b) := ⟨fun a b c h1 h2 => Nat.le_trans h1 h2⟩
  exact List.sorted_insertionSort _ l

theorem SortSpec.mem_iff {srt : (Nat → Nat) → List Nat → List Nat} (hsrt : SortSpec srt)
    (key : Nat → Nat) (l : List Nat) (x : Nat) : x ∈ srt key l ↔ x ∈ l :=
  (hsrt key l).1.mem_iff

theorem ham_cycle_backtrack_zero {srt : (Nat → Nat) → List Nat → List Nat}
    (now : Nat → Nat) (g : Graph) (start : Nat)
    (path : List Nat) (used : List Bool) (B : Budget) :
    ham_cycle_backtrack srt now g start 0 path used B =
      if (B.timed_out now).1 = true then (false, path, used, (B.timed_out now).2)
      else (decide (start ∈ g.nbrs (path.getLastD 0)), path, used, (B.timed_out now).2) := by
  rw [ham_cycle_backtrack]

theorem ham_cycle_backtrack_succ {srt : (Nat → Nat) → List Nat → List Nat}
    (now : Nat → Nat) (g : Graph) (start rem : Nat)
    (path : List Nat) (used : List Bool) (B : Budget) :
    ham_cycle_backtrack srt now g start (rem + 1) path used B =
      if (B.timed_out now).1 = true then (false, path, used, (B.timed_out now).2)
      else ham_loop now (ham_cycle_backtrack srt now g start rem)
        (srt g.deg (g.nbrs (path.getLastD 0))) path used (B.timed_out now).2 := by
  rw [ham_cycle_backtrack]

theorem ham_cycle_backtrack_spec {srt : (Nat → Nat) → List Nat → List Nat}
    (hsrt : SortSpec srt) (now : Nat → Nat) {g : Graph}
    (hwf : g.WF) (start : Nat) :
    ∀ rem, HamCallSpec now g start rem (ham_cycle_backtrack srt now g start rem) := by
  intro rem
  induction rem with
  | zero =>
    intro path used B hinv
    have t1 := Budget.timed_out_later now B
    have t2 := Budget.timed_out_iff now B
    rw [ham_cycle_backtrack_zero]
    by_cases ht : (B.timed_out now).1 = true
    · rw [if_pos ht]
      exact ⟨t1, by simp, fun _ => ⟨rfl, rfl, fun _ ho => absurd (t2.1 ht) ho⟩⟩
    · rw [if_neg ht]
      refine ⟨t1, fun h => ?_, fun h => ⟨rfl, rfl, fun _ _ ext hext hc => ?_⟩⟩
      · exact ⟨isHamCycle_of_full hinv (of_decide_eq_true h), hinv.2.2.2.1,
          fun ho => ht (t2.2 ho)⟩
      · have : ext = [] := List.length_eq_zero.1 hext
        subst this
        rw [List.append_nil] at hc
        have := closing_of_isHamCycle hinv.2.2.2.1 hc
        have h' : decide (start ∈ g.nbrs (path.getLastD 0)) = false := h
        rw [decide_eq_true this] at h'
        exact Bool.noConfusion h'
  | succ rem ih =>
    intro path used B hinv
    have t1 := Budget.timed_out_later now B
    have t2 := Budget.timed_out_iff now B
    rw [ham_cycle_backtrack_succ]
    by_cases ht : (B.timed_out now).1 = true
    · rw [if_pos ht]
      exact ⟨t1, by simp, fun _ => ⟨rfl, rfl, fun _ ho => absurd (t2.1 ht) ho⟩⟩
    · rw [if_neg ht]
      have hmem : ∀ v ∈ srt g.deg (g.nbrs (path.getLastD 0)),
          v ∈ g.nbrs (path.getLastD 0) := fun v hv => (hsrt.mem_iff _ _ _).1 hv
      obtain ⟨l1, l2, l3⟩ := ham_loop_spec hwf ih hinv _ hmem (B.timed_out now).2
      refine ⟨Budget.later_trans t1 l1, l2, fun h => ?_⟩
      obtain ⟨j1, j2, j3⟩ := l3 h
      refine ⟨j1, j2, fun hm ho ext hext hc => ?_⟩
      cases ext with
      | nil => simp at hext
      | cons v ext =>
        have hch := hc.2.2.1
        rw [List.chain'_append] at hch
        have hv : v ∈ g.nbrs (path.getLastD 0) := by
          cases hl : path.getLast? with
          | none =>
            rw [List.getLast?_eq_none_iff] at hl
            have := hinv.2.2.2.1; rw [hl] at this; simp at this
          | some a =>
            rw [getLastD_of_getLast? hl]
            exact hch.2.2 a hl v (by simp)
        exact j3 hm ho v ((hsrt.mem_iff _ _ _).2 hv) ext (by simpa using hext) hc

theorem ham_start_lt (g : Graph) (h : 0 < g.n) : ham_start g < g.n := by
  unfold ham_start
  suffices H : ∀ (l : List Nat) (s : Nat), s < g.n → (∀ i ∈ l, i < g.n) →
      l.foldl (fun start i => if (g.nbrs i).length < (g.nbrs start).length then i else start) s
        < g.n by
    apply H _ _ h
    intro i hi
    rw [List.mem_range'_1] at hi
    omega
  intro l
  induction l with
  | nil => intro s hs _; simpa using hs
  | cons a l ih =>
    intro s hs hl
    rw [List.foldl_cons]
    apply ih
    · split_ifs
      · exact hl a (List.mem_cons_self _ _)
      · exact hs
    · exact fun i hi => hl i (List.mem_cons_of_mem _ hi)

theorem hamInv_init (g : Graph) (h : 0 < g.n) :
    HamInv g (ham_start g) (g.n - 1) [ham_start g]
      ((List.replicate g.n false).set (ham_start g) true) := by
  have hs := ham_start_lt g h
  refine ⟨by simp, ?_, by simp, rfl, by simpa using hs, by simp, by simp; omega⟩
  intro v
  rw [getD_set_true _ _ _ (by simpa using hs)]
  have : (List.replicate g.n false).getD v false = false := by
    simp only [List.getD_eq_getElem?_getD, List.getElem?_replicate]
    split_ifs <;> rfl
  rw [this]; simp

theorem Graph.nbrs_eq_nil_of_le (g : Graph) {u : Nat} (h : g.adj.length ≤ u) : g.nbrs u = [] := by
  unfold Graph.nbrs
  rw [List.getD_eq_getElem?_getD, List.getElem?_eq_none h]; rfl

theorem Graph.wf_of_check (g : Graph) (h : g.wf_check = true) : g.WF := by
  unfold Graph.wf_check at h
  simp only [Bool.and_eq_true, decide_eq_true_eq, List.all_eq_true, List.mem_range,
    Bool.or_eq_true, Bool.not_eq_true', List.contains_eq_any_beq, List.any_eq_true, beq_iff_eq,
    List.any_eq_false, exists_eq_right] at h
  obtain ⟨h0, h1⟩ := h
  have key : ∀ u, u < g.adj.length ∨ g.nbrs u = [] := fun u => by
    by_cases hu : u < g.adj.length
    · exact Or.inl hu
    · exact Or.inr (g.nbrs_eq_nil_of_le (not_lt.1 hu))
  refine ⟨h0, ?_, ?_, ?_, ?_⟩
  · intro u v hv
    rcases key u with hu | hu
    · exact ((h1 u hu).1.1 v hv).1
    · rw [hu] at hv; cases hv
  · intro u hm
    rcases key u with hu | hu
    · exact (h1 u hu).1.2 u hm rfl
    · rw [hu] at hm; cases hm
  · intro u
    rcases key u with hu | hu
    · exact (h1 u hu).2
    · rw [hu]; exact List.nodup_nil
  · intro hd u v hv
    rcases key u with hu | hu
    · rcases ((h1 u hu).1.1 v hv).2 with h | h
      · rw [hd] at h; cases h
      · obtain ⟨x, hx, rfl⟩ := h; exact hx
    · rw [hu] at hv; cases hv

/-- An outcome whose text starts with `YES ` is the `yes` outcome. -/
theorem HamResult.yes_of_text (r : HamResult) (h : r.text.data.take 4 = "YES ".data) :
    ∃ path start, r = .yes path start := by
  cases r with
  | yes path start => exact ⟨path, start, rfl⟩
  | skip n limit =>
    exfalso
    have e : (HamResult.skip n limit).text.data.take 4 = ['H', 'A', 'M', ':'] := by
      simp only [HamResult.text, String.data_append]
      rfl
    rw [e] at h
    exact absurd h (by decide)
  | trivial_yes => exact absurd h (by decide)
  | precheck_no => exact absurd h (by decide)
  | timeout => exact absurd h (by decide)
  | no => exact absurd h (by decide)

theorem ham_cycle_result_yes {srt : (Nat → Nat) → List Nat → List Nat} (hsrt : SortSpec srt)
    {now : Nat → Nat} {g : Graph} {params : KV} (hwf : g.WF)
    {path : List Nat} {start : Nat} (h : ham_cycle_result srt now g params = .yes path start) :
    IsHamCycle g path ∧ path.head? = some start := by
  unfold ham_cycle_result at h
  simp only at h
  split_ifs at h with h1 h2 h3 h4 h5
  · have hn : 0 < g.n := Nat.pos_of_ne_zero h2
    have := (ham_cycle_backtrack_spec hsrt now hwf (ham_start g) (g.n - 1) _ _
      (mk_budget now params) (hamInv_init g hn)).2.1 h4
    simp only [HamResult.yes.injEq] at h
    rw [← h.1, ← h.2]
    exact ⟨this.1, this.2.1⟩

/-- C3: whenever HAM_CYCLE answers with a text starting `YES `, the text lists a path
`v0 -> ... -> v0` whose vertices before the closing `v0` are all the vertices of the
graph, each exactly once, with every consecutive pair joined by an edge/arc and the
last vertex joined to `v0`, whatever order `std::sort` gives to neighbours of equal
degree; and for the undirected 4-cycle 0-1-2-3-0 with the test's parameters the answer
is YES. -/
theorem ham_cycle_yes_sound (srt : (Nat → Nat) → List Nat → List Nat) (hsrt : SortSpec srt) :
    (∀ (now : Nat → Nat) (g : Graph) (params : KV), g.WF →
      (ham_cycle srt now g params).data.take 4 = "YES ".data →
      ∃ path start,
        ham_cycle srt now g params =
          "YES Hamilton cycle: " ++ " -> ".intercalate (path.map toString) ++ " -> "
            ++ toString start ∧
        path.head? = some start ∧ IsHamCycle g path) ∧
    ham_cycle sort_by_key (fun _ => 0) g_cycle4 ham_test_params
      = "YES Hamilton cycle: 0 -> 1 -> 2 -> 3 -> 0" := by
  refine ⟨fun now g params hwf h => ?_, by decide⟩
  obtain ⟨path, start, hr⟩ := HamResult.yes_of_text _ h
  refine ⟨path, start, ?_, (ham_cycle_result_yes hsrt hwf hr).2,
    (ham_cycle_result_yes hsrt hwf hr).1⟩
  unfold ham_cycle
  rw [hr]
  rfl

/-- C3 at the 4-cycle of the test: the graph is well-formed and the YES answer lists a
Hamiltonian cycle. -/
theorem ham_cycle_yes_sound_witness :
    g_cycle4.WF ∧
    ∃ path start,
      ham_cycle sort_by_key (fun _ => 0) g_cycle4 ham_test_params =
        "YES Hamilton cycle: " ++ " -> ".intercalate (path.map toString) ++ " -> "
          ++ toString start ∧
      path.head? = some start ∧ IsHamCycle g_cycle4 path :=
  ⟨Graph.wf_of_check _ (by decide),
   (ham_cycle_yes_sound sort_by_key sort_by_key_spec).1 (fun _ => 0) g_cycle4 ham_test_params
     (Graph.wf_of_check _ (by decide)) (by decide)⟩


theorem pop_front_ok : PopOK pop_front := by
  intro w
  cases w with
  | nil => exact ⟨fun _ => rfl, fun u w1 h => by simp [pop_front] at h⟩
  | cons a t =>
    refine ⟨fun h => by simp [pop_front] at h, fun u w1 h => ?_⟩
    simp only [pop_front, Option.some.injEq, Prod.mk.injEq] at h
    obtain ⟨rfl, rfl⟩ := h
    exact ⟨fun x => List.mem_cons, rfl⟩

theorem pop_back_ok : PopOK pop_back := by
  intro w
  unfold pop_back
  cases hl : w.getLast? with
  | none =>
    rw [List.getLast?_eq_none_iff] at hl
    exact ⟨fun _ => hl, fun u w1 h => by simp at h⟩
  | some a =>
    refine ⟨fun h => by simp at h, fun u w1 h => ?_⟩
    simp only [Option.some.injEq, Prod.mk.injEq] at h
    obtain ⟨rfl, rfl⟩ := h
    obtain ⟨ys, rfl⟩ := List.getLast?_eq_some_iff.1 hl
    simp only [List.dropLast_concat, List.mem_append, List.mem_singleton, List.length_append,
      List.length_singleton, and_true]
    intro x; exact or_comm

theorem getD_true_lt {vis : List Bool} {x : Nat} (h : vis.getD x false = true) :
    x < vis.length := by
  by_contra hx
  rw [List.getD_eq_getElem?_getD, List.getElem?_eq_none (not_lt.1 hx)] at h
  exact Bool.false_ne_true h

theorem count_false_set_true (vis : List Bool) (v : Nat) (hv : v < vis.length)
    (h : vis.getD v false = false) :
    (vis.set v true).count false + 1 = vis.count false := by
  rw [List.count_set _ _ _ _ hv]
  have e : vis[v] = false := by
    rw [List.getD_eq_getElem?_getD, List.getElem?_eq_getElem hv] at h; exact h
  have := List.count_pos_iff.2 (e ▸ List.getElem_mem hv : false ∈ vis)
  simp [e]; omega

theorem count_true_set_true (vis : List Bool) (v : Nat) (hv : v < vis.length)
    (h : vis.getD v false = false) :
    (vis.set v true).count true = vis.count true + 1 := by
  rw [List.count_set _ _ _ _ hv]
  have e : vis[v] = false := by
    rw [List.getD_eq_getElem?_getD, List.getElem?_eq_getElem hv] at h; exact h
  simp [e]

/-- Effect of one neighbour scan. -/
theorem visit_nbrs_spec : ∀ (vs : List Nat) (vis : List Bool) (w : List Nat) (seen : Nat),
    (∀ v ∈ vs, v < vis.length) →
    (visit_nbrs vs vis w seen).1.length = vis.length ∧
    (∀ x, (visit_nbrs vs vis w seen).1.getD x false = true ↔
      (vis.getD x false = true ∨ x ∈ vs)) ∧
    (∀ x, x ∈ (visit_nbrs vs vis w seen).2.1 ↔
      (x ∈ w ∨ (x ∈ vs ∧ vis.getD x false = false))) ∧
    (visit_nbrs vs vis w seen).2.1.length + (visit_nbrs vs vis w seen).1.count false
      = w.length + vis.count false ∧
    (visit_nbrs vs vis w seen).2.2 + vis.count true
      = seen + (visit_nbrs vs vis w seen).1.count true := by
  intro vs
  induction vs with
  | nil => intro vis w seen _; simp [visit_nbrs]
  | cons v vs ih =>
    intro vis w seen hb
    have hv : v < vis.length := hb v (List.mem_cons_self _ _)
    rw [visit_nbrs]
    by_cases h : vis.getD v false = true
    · rw [if_pos h]
      obtain ⟨a, b, c, d, e⟩ := ih vis w seen (fun x hx => hb x (List.mem_cons_of_mem _ hx))
      refine ⟨a, fun x => ?_, fun x => ?_, d, e⟩
      · rw [b x, List.mem_cons]
        constructor
        · rintro (h1 | h1)
          · exact Or.inl h1
          · exact Or.inr (Or.inr h1)
        · rintro (h1 | rfl | h1)
          · exact Or.inl h1
          · exact Or.inl h
          · exact Or.inr h1
      · rw [c x, List.mem_cons]
        constructor
        · rintro (h1 | ⟨h1, h2⟩)
          · exact Or.inl h1
          · exact Or.inr ⟨Or.inr h1, h2⟩
        · rintro (h1 | ⟨rfl | h1, h2⟩)
          · exact Or.inl h1
          · rw [h] at h2; cases h2
          · exact Or.inr ⟨h1, h2⟩
    · rw [if_neg h]
      have h' : vis.getD v false = false := by simpa using h
      obtain ⟨a, b, c, d, e⟩ := ih (vis.set v true) (w ++ [v]) (seen + 1)
        (fun x hx => by rw [List.length_set]; exact hb x (List.mem_cons_of_mem _ hx))
      rw [List.length_set] at a
      refine ⟨a, fun x => ?_, fun x => ?_, ?_, ?_⟩
      · rw [b x, getD_set_true _ _ _ hv, List.mem_cons]
        tauto
      · rw [c x, List.mem_append, List.mem_singleton, List.mem_cons]
        constructor
        · rintro ((h1 | rfl) | ⟨h1, h2⟩)
          · exact Or.inl h1
          · exact Or.inr ⟨Or.inl rfl, h'⟩
          · refine Or.inr ⟨Or.inr h1, ?_⟩
            by_contra hc
            have hc' : vis.getD x false = true := by simpa using hc
            have := (getD_set_true vis v x hv).2 (Or.inr hc')
            rw [this] at h2; cases h2
        · rintro (h1 | ⟨rfl | h1, h2⟩)
          · exact Or.inl (Or.inl h1)
          · exact Or.inl (Or.inr rfl)
          · by_cases hxv : x = v
            · exact Or.inl (Or.inr hxv)
            · refine Or.inr ⟨h1, ?_⟩
              by_contra hc
              have hc' : (vis.set v true).getD x false = true := by simpa using hc
              rcases (getD_set_true vis v x hv).1 hc' with h3 | h3
              · exact hxv h3
              · rw [h3] at h2; cases h2
      · rw [d, List.length_append, List.length_singleton]
        have := count_false_set_true vis v hv h'
        omega
      · have := count_true_set_true vis v hv h'
        omega


theorem searchInv_step {n : Nat} {adj : Nat → List Nat} (hadj : ∀ u v, v ∈ adj u → v < n)
    {s : Nat} {w : List Nat} {vis : List Bool} {seen : Nat} {u : Nat} {w1 : List Nat}
    (hw : (∀ x, x ∈ w ↔ x = u ∨ x ∈ w1)) (h : SearchInv n adj s w vis seen) :
    SearchInv n adj s (visit_nbrs (adj u) vis w1 seen).2.1 (visit_nbrs (adj u) vis w1 seen).1
      (visit_nbrs (adj u) vis w1 seen).2.2 := by
  obtain ⟨h1, h2, h3, h4, h5, h6⟩ := h
  obtain ⟨a, b, c, _, e⟩ := visit_nbrs_spec (adj u) vis w1 seen
    (fun v hv => h1 ▸ hadj u v hv)
  have hu : vis.getD u false = true := h2 u ((hw u).2 (Or.inl rfl))
  refine ⟨a.trans h1, ?_, ?_, (b s).2 (Or.inl h4), ?_, by omega⟩
  · intro x hx
    rcases (c x).1 hx with hx | ⟨hx, _⟩
    · exact (b x).2 (Or.inl (h2 x ((hw x).2 (Or.inr hx))))
    · exact (b x).2 (Or.inr hx)
  · intro x hx
    rcases (b x).1 hx with hx | hx
    · exact h3 x hx
    · exact (h3 u hu).tail hx
  · intro x hx hnw y hy
    by_cases hxu : x = u
    · subst hxu; exact (b y).2 (Or.inr hy)
    · rcases (b x).1 hx with hx' | hx'
      · have : x ∉ w := fun hm => by
          rcases (hw x).1 hm with h | h
          · exact hxu h
          · exact hnw ((c x).2 (Or.inl h))
        exact (b y).2 (Or.inl (h5 x hx' this y hy))
      · by_cases hvx : vis.getD x false = true
        · have : x ∉ w := fun hm => by
            rcases (hw x).1 hm with h | h
            · exact hxu h
            · exact hnw ((c x).2 (Or.inl h))
          exact (b y).2 (Or.inl (h5 x hvx this y hy))
        · exact absurd ((c x).2 (Or.inr ⟨hx', by simpa using hvx⟩)) hnw

/-- The search loop computes the set of vertices reachable from `s`, and `seen` is
their number, when the bound covers the pending work. -/
theorem search_loop_spec {n : Nat} {adj : Nat → List Nat} (hadj : ∀ u v, v ∈ adj u → v < n)
    {pop : List Nat → Option (Nat × List Nat)} (hpop : PopOK pop) {s : Nat} :
    ∀ (fuel : Nat) (w : List Nat) (vis : List Bool) (seen : Nat),
      SearchInv n adj s w vis seen → w.length + vis.count false ≤ fuel →
      (search_loop adj pop fuel w vis seen).1.length = n ∧
      (∀ x, (search_loop adj pop fuel w vis seen).1.getD x false = true ↔ Reach adj s x) ∧
      (search_loop adj pop fuel w vis seen).2 = (search_loop adj pop fuel w vis seen).1.count true := by
  have closed : ∀ (vis : List Bool) (seen : Nat), SearchInv n adj s [] vis seen →
      vis.length = n ∧ (∀ x, vis.getD x false = true ↔ Reach adj s x) ∧ seen = vis.count true := by
    intro vis seen ⟨h1, _, h3, h4, h5, h6⟩
    refine ⟨h1, fun x => ⟨h3 x, fun hr => ?_⟩, h6⟩
    induction hr with
    | refl => exact h4
    | tail _ hbc ih => exact h5 _ ih (List.not_mem_nil _) _ hbc
  intro fuel
  induction fuel with
  | zero =>
    intro w vis seen hinv hf
    have hw : w = [] := List.length_eq_zero.1 (by omega)
    subst hw
    simpa [search_loop] using closed vis seen hinv
  | succ fuel ih =>
    intro w vis seen hinv hf
    rw [search_loop]
    cases hp : pop w with
    | none =>
      have hw : w = [] := (hpop w).1 hp
      subst hw
      simpa using closed vis seen hinv
    | some p =>
      obtain ⟨u, w1⟩ := p
      obtain ⟨hmem, hlen⟩ := (hpop w).2 u w1 hp
      simp only
      apply ih _ _ _ (searchInv_step hadj hmem hinv)
      have := (visit_nbrs_spec (adj u) vis w1 seen
        (fun v hv => hinv.1 ▸ hadj u v hv)).2.2.2.1
      omega

/-- A search from a vertex `s < n` marks exactly the vertices reachable from `s`
and counts them. -/
theorem search_from_spec (n : Nat) (adj : Nat → List Nat) (hadj : ∀ u v, v ∈ adj u → v < n)
    {pop : List Nat → Option (Nat × List Nat)} (hpop : PopOK pop) {s : Nat} (hs : s < n) :
    (search_from n adj pop s).1.length = n ∧
    (∀ x, (search_from n adj pop s).1.getD x false = true ↔ Reach adj s x) ∧
    (search_from n adj pop s).2 = (search_from n adj pop s).1.count true := by
  unfold search_from
  have hlen : (List.replicate n false).length = n := List.length_replicate _ _
  have hrep : ∀ x, (List.replicate n false).getD x false = false := fun x => by
    simp only [List.getD_eq_getElem?_getD, List.getElem?_replicate]
    split_ifs <;> rfl
  have hvis : ∀ x, ((List.replicate n false).set s true).getD x false = true ↔ x = s := by
    intro x
    rw [getD_set_true _ _ _ (by rw [hlen]; exact hs), hrep x]
    simp
  have hcf : (List.replicate n false).count false = n := by simp
  have hct : (List.replicate n false).count true = 0 := by
    rw [List.count_replicate]; simp
  apply search_loop_spec hadj hpop
  · refine ⟨by simp, ?_, ?_, (hvis s).2 rfl, ?_, ?_⟩
    · intro x hx; simp at hx; exact (hvis x).2 hx
    · intro x hx; rw [(hvis x).1 hx]; exact Relation.ReflTransGen.refl
    · intro x hx hnw; exact absurd ((hvis x).1 hx) (by simpa using hnw)
    · rw [count_true_set_true _ _ (by rw [hlen]; exact hs) (hrep s), hct]
  · have := count_false_set_true _ s (by rw [hlen]; exact hs) (hrep s)
    rw [hcf] at this
    simp only [List.length_singleton]
    omega


theorem takeWhile_stop {α : Type} (p : α → Bool) (d : α) :
    ∀ l : List α, (l.takeWhile p).length < l.length →
      p (l.getD (l.takeWhile p).length d) = false := by
  intro l
  induction l with
  | nil => intro h; simp at h
  | cons a t ih =>
    intro h
    rw [List.takeWhile_cons] at h ⊢
    by_cases hp : p a = true
    · rw [if_pos hp] at h ⊢
      simp only [List.length_cons, Nat.add_lt_add_iff_right] at h
      simpa using ih h
    · rw [if_neg hp]
      simpa using hp

theorem takeWhile_before {α : Type} (p : α → Bool) (d : α) :
    ∀ (l : List α) (j : Nat), j < (l.takeWhile p).length → p (l.getD j d) = true := by
  intro l
  induction l with
  | nil => intro j h; simp at h
  | cons a t ih =>
    intro j h
    rw [List.takeWhile_cons] at h
    by_cases hp : p a = true
    · rw [if_pos hp] at h
      cases j with
      | zero => simpa using hp
      | succ j =>
        simp only [List.length_cons, Nat.add_lt_add_iff_right] at h
        simpa using ih j h
    · rw [if_neg hp] at h; simp at h

theorem getD_drop {α : Type} (l : List α) (i k : Nat) (d : α) :
    (l.drop i).getD k d = l.getD (i + k) d := by
  simp [List.getD_eq_getElem?_getD, List.getElem?_drop]

theorem skip_used_le (lu : List AdjEdge) (used : List Bool) (i : Nat) (hi : i ≤ lu.length) :
    skip_used lu used i ≤ lu.length := by
  unfold skip_used
  have := (List.takeWhile_sublist (fun e : AdjEdge => used.getD e.id false)
    (l := lu.drop i)).length_le
  rw [List.length_drop] at this
  omega

theorem skip_used_ge (lu : List AdjEdge) (used : List Bool) (i : Nat) :
    i ≤ skip_used lu used i := by
  unfold skip_used; omega

/-- The entry the cursor stops at is unused. -/
theorem skip_used_stop (lu : List AdjEdge) (used : List Bool) (i : Nat)
    (h : skip_used lu used i < lu.length) :
    used.getD (lu.getD (skip_used lu used i) ⟨0, 0⟩).id false = false := by
  unfold skip_used at h ⊢
  have hlt : ((lu.drop i).takeWhile (fun e : AdjEdge => used.getD e.id false)).length
      < (lu.drop i).length := by rw [List.length_drop]; omega
  have := takeWhile_stop (fun e : AdjEdge => used.getD e.id false) ⟨0, 0⟩ (lu.drop i) hlt
  rw [getD_drop] at this
  exact this

/-- The entries the cursor moves past are used. -/
theorem skip_used_between (lu : List AdjEdge) (used : List Bool) (i j : Nat)
    (h1 : i ≤ j) (h2 : j < skip_used lu used i) :
    used.getD (lu.getD j ⟨0, 0⟩).id false = true := by
  unfold skip_used at h2
  have := takeWhile_before (fun e : AdjEdge => used.getD e.id false) ⟨0, 0⟩ (lu.drop i)
    (j - i) (by omega)
  rw [getD_drop] at this
  rwa [Nat.add_sub_cancel' h1] at this

theorem getD_mem {α : Type} (l : List α) (i : Nat) (d : α) (h : i < l.length) :
    l.getD i d ∈ l := by
  rw [List.getD_eq_getElem?_getD, List.getElem?_eq_getElem h]
  exact List.getElem_mem h

/-- The walk loop ends with an empty stack within `2 * (unused edges) + (stack size)`
iterations, for any adjacency whose edge ids index `used`. -/
theorem walk_loop_isSome {adj2 : List (List AdjEdge)} {E : Nat}
    (hid : ∀ u e, e ∈ row2 adj2 u → e.id < E) :
    ∀ (fuel : Nat) (s : WalkState), s.used.length = E →
      (∀ u, s.it.getD u 0 ≤ (row2 adj2 u).length) →
      2 * s.used.count false + s.st.length ≤ fuel → (walk_loop adj2 fuel s).isSome = true := by
  intro fuel
  induction fuel with
  | zero =>
    intro s _ _ hf
    have : s.st = [] := List.length_eq_zero.1 (by omega)
    simp [walk_loop, this]
  | succ fuel ih =>
    intro s hE hit hf
    rw [walk_loop]
    cases hl : s.st.getLast? with
    | none => rfl
    | some u =>
      simp only
      have hne : s.st ≠ [] := fun h => by rw [h] at hl; simp at hl
      have hpos : 0 < s.st.length := List.length_pos.2 hne
      unfold walk_step
      simp only
      have hle := skip_used_le (row2 adj2 u) s.used (s.it.getD u 0) (hit u)
      have hit' : ∀ x, (s.it.set u (skip_used (row2 adj2 u) s.used (s.it.getD u 0))).getD x 0
          ≤ (row2 adj2 x).length := by
        intro x
        rw [List.getD_eq_getElem?_getD, List.getElem?_set]
        split_ifs with h1 h2
        · subst h1; exact hle
        · simp
        · rw [← List.getD_eq_getElem?_getD]; exact hit x
      split_ifs with hi
      · apply ih
        · exact hE
        · exact hit'
        · simp only [List.length_dropLast]; omega
      · have hlt : skip_used (row2 adj2 u) s.used (s.it.getD u 0) < (row2 adj2 u).length :=
          lt_of_le_of_ne hle hi
        have hun := skip_used_stop _ _ _ hlt
        have hm := getD_mem (row2 adj2 u) _ ⟨0, 0⟩ hlt
        have hidlt := hid u _ hm
        apply ih
        · simp only [List.length_set]; exact hE
        · exact hit'
        · have := count_false_set_true s.used _ (hE ▸ hidlt) hun
          simp only [List.length_append, List.length_singleton]
          omega


theorem foldl_nested {σ : Type} (f : σ → Nat × Nat → σ) (nb : Nat → List Nat) :
    ∀ (l : List Nat) (init : σ),
      l.foldl (fun st u => (nb u).foldl (fun st v => f st (u, v)) st) init
        = (l.flatMap (fun u => (nb u).map (fun v => (u, v)))).foldl f init := by
  intro l
  induction l with
  | nil => intro init; rfl
  | cons u l ih =>
    intro init
    rw [List.foldl_cons, ih, List.flatMap_cons, List.foldl_append, List.foldl_map]

theorem build_directed_eq (g : Graph) :
    build_directed g =
      g.darts.foldl build_dir_step { adj2 := List.replicate g.n [], eid := 0, seen := [] } := by
  unfold build_directed Graph.darts
  exact foldl_nested build_dir_step g.nbrs _ _

theorem build_undirected_eq (g : Graph) :
    build_undirected g =
      g.darts.foldl build_und_step { adj2 := List.replicate g.n [], eid := 0, seen := [] } := by
  unfold build_undirected Graph.darts
  exact foldl_nested build_und_step g.nbrs _ _

theorem Graph.mem_darts (g : Graph) (u v : Nat) :
    (u, v) ∈ g.darts ↔ u < g.n ∧ v ∈ g.nbrs u := by
  unfold Graph.darts
  simp only [List.mem_flatMap, List.mem_range, List.mem_map, Prod.mk.injEq]
  constructor
  · rintro ⟨a, ha, b, hb, rfl, rfl⟩; exact ⟨ha, hb⟩
  · rintro ⟨h1, h2⟩; exact ⟨u, h1, v, h2, rfl, rfl⟩

theorem Graph.mem_darts_wf {g : Graph} (hwf : g.WF) (u v : Nat) :
    (u, v) ∈ g.darts ↔ v ∈ g.nbrs u := by
  rw [g.mem_darts]
  refine ⟨fun h => h.2, fun h => ⟨?_, h⟩⟩
  by_contra hu
  rw [g.nbrs_eq_nil_of_le (by rw [hwf.1]; omega)] at h
  cases h

theorem row2_set (A : List (List AdjEdge)) (u x : Nat) (r : List AdjEdge) (hu : u < A.length) :
    row2 (A.set u r) x = if u = x then r else row2 A x := by
  unfold row2
  rw [List.getD_eq_getElem?_getD, List.getElem?_set]
  split_ifs with h
  · subst h; simp [hu]
  · rw [List.getD_eq_getElem?_getD]

theorem rows_of_snoc (f : Nat → Nat × (Nat × Nat) → Option AdjEdge) (el : List (Nat × Nat))
    (d : Nat × Nat) (x : Nat) :
    rows_of f (el ++ [d]) x = rows_of f el x ++ ((f x (el.length, d)).toList) := by
  unfold rows_of
  rw [List.enum_append, List.filterMap_append]
  congr 1


/-- The directed build loop after any list of arcs with sources below `n`: edge ids
are positions in the list. -/
theorem build_dir_fold (n : Nat) (ds : List (Nat × Nat)) (hds : ∀ p ∈ ds, p.1 < n) :
    (ds.foldl build_dir_step { adj2 := List.replicate n [], eid := 0, seen := [] }).adj2.length
        = n ∧
    (ds.foldl build_dir_step { adj2 := List.replicate n [], eid := 0, seen := [] }).eid
        = ds.length ∧
    ∀ x, row2 (ds.foldl build_dir_step
        { adj2 := List.replicate n [], eid := 0, seen := [] }).adj2 x
      = rows_of entry_dir ds x := by
  induction ds using List.reverseRecOn with
  | nil =>
    refine ⟨by simp, rfl, fun x => ?_⟩
    simp only [List.foldl_nil, row2, rows_of, List.enum_nil, List.filterMap_nil,
      List.getD_eq_getElem?_getD, List.getElem?_replicate]
    split_ifs <;> rfl
  | append_singleton ds d ih =>
    obtain ⟨h1, h2, h3⟩ := ih (fun p hp => hds p (List.mem_append_left _ hp))
    have hd : d.1 < n := hds d (List.mem_append_right _ (List.mem_singleton_self d))
    rw [List.foldl_append, List.foldl_cons, List.foldl_nil]
    set st := ds.foldl build_dir_step { adj2 := List.replicate n [], eid := 0, seen := [] }
    refine ⟨by simp [build_dir_step, h1], by simp [build_dir_step, h2], fun x => ?_⟩
    rw [rows_of_snoc]
    simp only [build_dir_step]
    rw [row2_set _ _ _ _ (by rw [h1]; exact hd), ← h3 x, h2]
    unfold entry_dir
    simp only
    split_ifs with h
    · subst h; rfl
    · simp


theorem key_eq_iff (a b c d : Nat) :
    key a b = key c d ↔ (a = c ∧ b = d) ∨ (a = d ∧ b = c) := by
  unfold key
  split_ifs <;> simp only [Prod.mk.injEq] <;> constructor <;> intro h <;> omega

theorem Graph.darts_pairwise (g : Graph) : g.darts.Pairwise (fun p q => p.1 ≤ q.1) := by
  unfold Graph.darts
  have : ∀ (l : List Nat), l.Pairwise (· < ·) →
      (l.flatMap (fun u => (g.nbrs u).map (fun v => (u, v)))).Pairwise
        (fun p q => p.1 ≤ q.1) := by
    intro l hl
    induction l with
    | nil => simp
    | cons a l ih =>
      rw [List.flatMap_cons, List.pairwise_append]
      rw [List.pairwise_cons] at hl
      refine ⟨?_, ih hl.2, ?_⟩
      · rw [List.pairwise_map]
        exact List.pairwise_of_forall (fun _ _ => le_refl _)
      · intro p hp q hq
        simp only [List.mem_map] at hp
        obtain ⟨v, _, rfl⟩ := hp
        simp only [List.mem_flatMap, List.mem_map] at hq
        obtain ⟨b, hb, w, _, rfl⟩ := hq
        exact le_of_lt (hl.1 b hb)
  exact this _ (List.pairwise_lt_range g.n)

theorem Graph.darts_nodup {g : Graph} (hwf : g.WF) : g.darts.Nodup := by
  unfold Graph.darts
  have : ∀ (l : List Nat), l.Nodup →
      (l.flatMap (fun u => (g.nbrs u).map (fun v => (u, v)))).Nodup := by
    intro l hl
    induction l with
    | nil => simp
    | cons a l ih =>
      rw [List.flatMap_cons, List.nodup_append]
      rw [List.nodup_cons] at hl
      refine ⟨?_, ih hl.2, ?_⟩
      · exact (hwf.2.2.2.1 a).map (fun x y h => by simpa using h)
      · intro p hp hq
        simp only [List.mem_map] at hp
        obtain ⟨v, _, rfl⟩ := hp
        simp only [List.mem_flatMap, List.mem_map, Prod.mk.injEq] at hq
        obtain ⟨b, hb, w, _, rfl, _⟩ := hq
        exact hl.1 hb
  exact this _ (List.nodup_range g.n)

/-- While the undirected build scans the adjacency entries, the entry `(u, v)` meets a
key already seen exactly when `v < u`. -/
theorem seen_iff_gt {g : Graph} (hwf : g.WF) (hu : g.directed = false)
    {ds rest : List (Nat × Nat)} {d : Nat × Nat} (h : ds ++ d :: rest = g.darts) :
    (∃ p ∈ ds, key p.1 p.2 = key d.1 d.2) ↔ d.2 < d.1 := by
  obtain ⟨u, v⟩ := d
  have hd : (u, v) ∈ g.darts := by rw [← h]; simp
  have hv : v ∈ g.nbrs u := (g.mem_darts_wf hwf u v).1 hd
  have hne : u ≠ v := fun e => hwf.2.2.1 u (e ▸ hv)
  have hsym : (v, u) ∈ g.darts := (g.mem_darts_wf hwf v u).2 (hwf.2.2.2.2 hu u v hv)
  have hpw := g.darts_pairwise
  have hnd := g.darts_nodup hwf
  rw [← h] at hpw hnd hsym
  rw [List.pairwise_append] at hpw
  rw [List.nodup_append] at hnd
  constructor
  · rintro ⟨⟨a, b⟩, hp, hk⟩
    rw [key_eq_iff] at hk
    rcases hk with ⟨rfl, rfl⟩ | ⟨rfl, rfl⟩
    · exact absurd (List.mem_cons_self _ _) (fun hm => hnd.2.2 hp hm)
    · have := hpw.2.2 _ hp _ (List.mem_cons_self _ _)
      simp only at this ⊢
      omega
  · intro hlt
    simp only at hlt
    refine ⟨(v, u), ?_, (key_eq_iff _ _ _ _).2 (Or.inr ⟨rfl, rfl⟩)⟩
    rcases List.mem_append.1 hsym with hm | hm
    · exact hm
    · rcases List.mem_cons.1 hm with hm | hm
      · simp only [Prod.mk.injEq] at hm; omega
      · have := (List.pairwise_cons.1 hpw.2.1).1 _ hm
        simp only at this
        omega


/-- The undirected build loop after a prefix `ds` of the adjacency entries: the edges
entered so far are the entries `(u, v)` of `ds` with `u < v`, numbered in order. -/
theorem build_und_fold {g : Graph} (hwf : g.WF) (hu : g.directed = false) :
    ∀ (ds rest : List (Nat × Nat)), ds ++ rest = g.darts →
      (ds.foldl build_und_step
          { adj2 := List.replicate g.n [], eid := 0, seen := [] }).adj2.length = g.n ∧
      (ds.foldl build_und_step { adj2 := List.replicate g.n [], eid := 0, seen := [] }).eid
          = (ds.filter (fun p => decide (p.1 < p.2))).length ∧
      (∀ x, row2 (ds.foldl build_und_step
          { adj2 := List.replicate g.n [], eid := 0, seen := [] }).adj2 x
        = rows_of entry_und (ds.filter (fun p => decide (p.1 < p.2))) x) ∧
      (∀ k, k ∈ (ds.foldl build_und_step
          { adj2 := List.replicate g.n [], eid := 0, seen := [] }).seen
        ↔ ∃ p ∈ ds, key p.1 p.2 = k) := by
  intro ds
  induction ds using List.reverseRecOn with
  | nil =>
    intro rest _
    refine ⟨by simp, rfl, fun x => ?_, fun k => by simp⟩
    simp only [List.foldl_nil, row2, rows_of, List.filter_nil, List.enum_nil,
      List.filterMap_nil, List.getD_eq_getElem?_getD, List.getElem?_replicate]
    split_ifs <;> rfl
  | append_singleton ds d ih =>
    intro rest hrest
    rw [List.append_assoc, List.singleton_append] at hrest
    obtain ⟨h1, h2, h3, h4⟩ := ih (d :: rest) hrest
    have hseen := seen_iff_gt hwf hu hrest
    have hd : d ∈ g.darts := by rw [← hrest]; simp
    obtain ⟨u, v⟩ := d
    have hun : u < g.n := ((g.mem_darts u v).1 hd).1
    have hv : v ∈ g.nbrs u := ((g.mem_darts u v).1 hd).2
    have hvn : v < g.n := hwf.2.1 u v hv
    have hne : u ≠ v := fun e => hwf.2.2.1 u (e ▸ hv)
    rw [List.foldl_append, List.foldl_cons, List.foldl_nil, List.filter_append]
    set st := ds.foldl build_und_step { adj2 := List.replicate g.n [], eid := 0, seen := [] }
    have hk : key u v ∈ st.seen ↔ v < u := by rw [h4]; exact hseen
    by_cases hlt : v < u
    · have hs : build_und_step st (u, v) = st := by
        unfold build_und_step; rw [if_pos (hk.2 hlt)]
      have hf : List.filter (fun p : Nat × Nat => decide (p.1 < p.2)) [(u, v)] = [] := by
        simp [List.filter_cons]; omega
      rw [hs, hf, List.append_nil]
      refine ⟨h1, h2, h3, fun k => ?_⟩
      rw [h4 k]
      constructor
      · rintro ⟨p, hp, hpk⟩; exact ⟨p, List.mem_append_left _ hp, hpk⟩
      · rintro ⟨p, hp, hpk⟩
        rcases List.mem_append.1 hp with hp | hp
        · exact ⟨p, hp, hpk⟩
        · simp only [List.mem_singleton] at hp
          subst hp
          rw [← hpk, ← h4]; exact hk.2 hlt
    · have hult : u < v := by omega
      have hs : build_und_step st (u, v) =
          { adj2 := (st.adj2.set u (row2 st.adj2 u ++ [⟨v, st.eid⟩])).set v
              (row2 (st.adj2.set u (row2 st.adj2 u ++ [⟨v, st.eid⟩])) v ++ [⟨u, st.eid⟩]),
            eid := st.eid + 1, seen := key u v :: st.seen } := by
        unfold build_und_step; rw [if_neg (fun h => hlt (hk.1 h))]
      have hf : List.filter (fun p : Nat × Nat => decide (p.1 < p.2)) [(u, v)] = [(u, v)] := by
        simp [List.filter_cons, hult]
      rw [hs, hf]
      refine ⟨by simp [h1], by simp [h2], fun x => ?_, fun k => ?_⟩
      · rw [rows_of_snoc]
        simp only
        rw [row2_set _ _ _ _ (by rw [List.length_set, h1]; exact hvn),
          row2_set _ _ _ _ (by rw [h1]; exact hun),
          row2_set _ _ _ _ (by rw [h1]; exact hun), ← h3 x, ← h2]
        unfold entry_und
        simp only
        by_cases hvx : v = x
        · subst hvx
          rw [if_pos rfl, if_neg hne, if_neg hne, if_pos rfl]; rfl
        · rw [if_neg hvx]
          by_cases hux : u = x
          · subst hux
            rw [if_pos rfl, if_pos rfl]; rfl
          · rw [if_neg hux, if_neg hux, if_neg hvx]; simp
      · simp only [List.mem_cons, h4 k, List.mem_append, List.not_mem_nil, or_false]
        constructor
        · rintro (rfl | ⟨p, hp, hpk⟩)
          · exact ⟨(u, v), Or.inr rfl, rfl⟩
          · exact ⟨p, Or.inl hp, hpk⟩
        · rintro ⟨p, hp | rfl, hpk⟩
          · exact Or.inr ⟨p, hp, hpk⟩
          · exact Or.inl hpk.symm

/-- The edge-indexed adjacency of a well-formed undirected graph: the edges are the
entries `(u, v)` with `u < v` in scan order, edge ids are positions in that list. -/
theorem build_undirected_spec {g : Graph} (hwf : g.WF) (hu : g.directed = false) :
    (build_undirected g).adj2.length = g.n ∧
    (build_undirected g).eid = g.uedges.length ∧
    ∀ x, row2 (build_undirected g).adj2 x = rows_of entry_und g.uedges x := by
  have := build_und_fold hwf hu g.darts [] (List.append_nil _)
  rw [← build_undirected_eq] at this
  exact ⟨this.1, this.2.1, this.2.2.1⟩

/-- The edge-indexed adjacency of a directed graph: edge ids are positions in the
list of arcs. -/
theorem build_directed_spec (g : Graph) :
    (build_directed g).adj2.length = g.n ∧
    (build_directed g).eid = g.darts.length ∧
    ∀ x, row2 (build_directed g).adj2 x = rows_of entry_dir g.darts x := by
  have := build_dir_fold g.n g.darts (fun p hp => ((g.mem_darts p.1 p.2).1 hp).1)
  rw [← build_directed_eq] at this
  exact this


theorem mem_rows_of (f : Nat → Nat × (Nat × Nat) → Option AdjEdge) (el : List (Nat × Nat))
    (x : Nat) (e : AdjEdge) :
    e ∈ rows_of f el x ↔ ∃ k p, el[k]? = some p ∧ f x (k, p) = some e := by
  unfold rows_of
  rw [List.mem_filterMap]
  constructor
  · rintro ⟨⟨k, p⟩, hm, hf⟩
    exact ⟨k, p, List.mem_enum_iff_getElem?.1 hm, hf⟩
  · rintro ⟨k, p, hm, hf⟩
    exact ⟨(k, p), List.mem_enum_iff_getElem?.2 hm, hf⟩

theorem getElem?_lt {α : Type} {l : List α} {k : Nat} {p : α} (h : l[k]? = some p) :
    k < l.length := by
  by_contra hk
  rw [List.getElem?_eq_none (not_lt.1 hk)] at h
  cases h

theorem rows_dir_id_lt {el : List (Nat × Nat)} {x : Nat} {e : AdjEdge}
    (h : e ∈ rows_of entry_dir el x) : e.id < el.length := by
  obtain ⟨k, p, hk, hf⟩ := (mem_rows_of _ _ _ _).1 h
  unfold entry_dir at hf
  split_ifs at hf
  cases hf
  exact getElem?_lt hk

theorem rows_und_id_lt {el : List (Nat × Nat)} {x : Nat} {e : AdjEdge}
    (h : e ∈ rows_of entry_und el x) : e.id < el.length := by
  obtain ⟨k, p, hk, hf⟩ := (mem_rows_of _ _ _ _).1 h
  unfold entry_und at hf
  split_ifs at hf <;> cases hf <;> exact getElem?_lt hk

theorem hierholzer_walk_isSome (n : Nat) (b : BuildState) (start : Nat)
    (hid : ∀ u e, e ∈ row2 b.adj2 u → e.id < b.eid) :
    (hierholzer_walk n b start).isSome = true := by
  unfold hierholzer_walk
  rw [Option.isSome_map']
  apply walk_loop_isSome hid
  · simp
  · intro u
    simp only [List.getD_eq_getElem?_getD, List.getElem?_replicate]
    split_ifs <;> simp
  · simp

theorem hierholzer_directed_isSome (g : Graph) : (hierholzer_directed g).isSome = true := by
  unfold hierholzer_directed
  simp only
  split
  · rfl
  · apply hierholzer_walk_isSome
    intro u e he
    obtain ⟨_, h2, h3⟩ := build_directed_spec g
    rw [h3] at he
    rw [h2]
    exact rows_dir_id_lt he

theorem hierholzer_undirected_isSome {g : Graph} (hwf : g.WF) (hu : g.directed = false) :
    (hierholzer_undirected g).isSome = true := by
  unfold hierholzer_undirected
  simp only
  split
  · rfl
  · apply hierholzer_walk_isSome
    intro u e he
    obtain ⟨_, h2, h3⟩ := build_undirected_spec hwf hu
    rw [h3] at he
    rw [h2]
    exact rows_und_id_lt he

/-- On a well-formed graph `euler_find` always returns a result. -/
theorem euler_find_isSome {g : Graph} (hwf : g.WF) : (euler_find g).isSome = true := by
  unfold euler_find
  split_ifs with h1 h2 h3 h4 h5 h6
  · rfl
  · rfl
  · rfl
  · rw [Option.isSome_map']
    exact hierholzer_undirected_isSome hwf (by simpa using h2)
  · rfl
  · rfl
  · rw [Option.isSome_map']
    exact hierholzer_directed_isSome g


theorem euler_find_undirected_exists {g : Graph} (hwf : g.WF) (hu : g.directed = false) :
    ∃ r, euler_find g = some r ∧
      r.exists = (!has_any_edges g ||
        (undirected_connected_ignoring_isolated g && !(out_deg g).any (fun d => d % 2 != 0))) := by
  have hs := euler_find_isSome hwf
  obtain ⟨r, hr⟩ := Option.isSome_iff_exists.1 hs
  refine ⟨r, hr, ?_⟩
  unfold euler_find at hr
  rw [hu] at hr
  simp only [Bool.not_false, if_true] at hr
  split_ifs at hr with h1 h2 h3
  · cases hr
    have h1' : has_any_edges g = false := by simpa using h1
    rw [h1']; rfl
  · cases hr
    have h1' : has_any_edges g = true := by simpa using h1
    have h2' : undirected_connected_ignoring_isolated g = false := by simpa using h2
    rw [h1', h2']; rfl
  · cases hr
    have h1' : has_any_edges g = true := by simpa using h1
    have h2' : undirected_connected_ignoring_isolated g = true := by simpa using h2
    rw [h1', h2', h3]; rfl
  · simp only [Option.map_eq_some'] at hr
    obtain ⟨c, _, rfl⟩ := hr
    have h1' : has_any_edges g = true := by simpa using h1
    have h2' : undirected_connected_ignoring_isolated g = true := by simpa using h2
    have h3' : (out_deg g).any (fun d => d % 2 != 0) = false := by
      cases h : (out_deg g).any (fun d => d % 2 != 0)
      · rfl
      · exact absurd h h3
    rw [h1', h2', h3']; rfl

theorem has_any_edges_iff (g : Graph) :
    has_any_edges g = true ↔ ∃ u, u < g.n ∧ g.nbrs u ≠ [] := by
  unfold has_any_edges
  simp [List.any_eq_true, List.isEmpty_iff]

theorem Reach.symm_of_undirected {g : Graph} (hwf : g.WF) (hu : g.directed = false)
    {a b : Nat} (h : Reach g.nbrs a b) : Reach g.nbrs b a := by
  induction h with
  | refl => exact Relation.ReflTransGen.refl
  | tail _ hbc ih => exact Relation.ReflTransGen.head (hwf.2.2.2.2 hu _ _ hbc) ih

theorem Reach.trans' {adj : Nat → List Nat} {a b c : Nat} (h1 : Reach adj a b)
    (h2 : Reach adj b c) : Reach adj a c :=
  Relation.ReflTransGen.trans h1 h2

theorem undirected_connected_iff {g : Graph} (hwf : g.WF) (hu : g.directed = false) :
    undirected_connected_ignoring_isolated g = true ↔
      ∀ u v, u < g.n → v < g.n → g.nbrs u ≠ [] → g.nbrs v ≠ [] → Reach g.nbrs u v := by
  unfold undirected_connected_ignoring_isolated
  split_ifs with h0
  · simp only [true_iff]; intro u v hlt; omega
  · cases hf : (List.range g.n).find? (fun i => !(g.nbrs i).isEmpty) with
    | none =>
      simp only [true_iff]
      intro u v hun _ hne
      have := List.find?_eq_none.1 hf u (List.mem_range.2 hun)
      simp [List.isEmpty_iff] at this
      exact absurd this hne
    | some s =>
      have hsn : s < g.n := List.mem_range.1 (List.mem_of_find?_eq_some hf)
      have hsne : g.nbrs s ≠ [] := by
        have := List.find?_some hf
        simpa [List.isEmpty_iff] using this
      obtain ⟨_, hvis, _⟩ := search_from_spec g.n g.nbrs hwf.2.1 pop_front_ok hsn
      simp only [Bool.not_eq_true', List.any_eq_false, List.mem_range, Bool.and_eq_true,
        Bool.not_eq_true', not_and, Bool.not_eq_false, List.isEmpty_iff]
      constructor
      · intro h u v hun hvn hune hvne
        have h1 := (hvis u).1 (h u hun (by simpa [List.isEmpty_iff] using hune))
        have h2 := (hvis v).1 (h v hvn (by simpa [List.isEmpty_iff] using hvne))
        exact (h1.symm_of_undirected hwf hu).trans' h2
      · intro h i hin hine
        exact (hvis i).2 (h s i hsn hin hsne (by simpa [List.isEmpty_iff] using hine))

theorem out_deg_any_odd_iff (g : Graph) :
    (out_deg g).any (fun d => d % 2 != 0) = false ↔ ∀ v, v < g.n → (g.nbrs v).length % 2 = 0 := by
  unfold out_deg
  simp [List.any_eq_false]


/-- Core statement, kept as a lemma for the decision theorem. -/
theorem euler_find_undirected_iff_core (g : Graph) (hwf : g.WF) (hu : g.directed = false) :
    ∃ r, euler_find g = some r ∧
      (r.exists = true ↔
        (∀ u v, u < g.n → v < g.n → g.nbrs u ≠ [] → g.nbrs v ≠ [] → Reach g.nbrs u v) ∧
        (∀ v, v < g.n → (g.nbrs v).length % 2 = 0)) := by
  obtain ⟨r, hr, he⟩ := euler_find_undirected_exists hwf hu
  refine ⟨r, hr, ?_⟩
  rw [he, ← undirected_connected_iff hwf hu, ← out_deg_any_odd_iff]
  cases h1 : has_any_edges g
  · simp only [Bool.not_false, Bool.true_or, true_iff]
    have hno : ∀ u, u < g.n → g.nbrs u = [] := by
      intro u hun
      by_contra hne
      have := (has_any_edges_iff g).2 ⟨u, hun, hne⟩
      rw [h1] at this; cases this
    constructor
    · rw [undirected_connected_iff hwf hu]
      intro u v hun _ hne
      exact absurd (hno u hun) hne
    · rw [out_deg_any_odd_iff]
      intro v hv
      rw [hno v hv]; rfl
  · cases undirected_connected_ignoring_isolated g <;>
      cases (out_deg g).any (fun d => d % 2 != 0) <;> simp

/-- C8: for every well-formed undirected graph, `euler_find` returns a result whose
`exists` flag is true if and only if (a) any two vertices of non-zero degree are
joined by a path (they lie in one connected component) and (b) every vertex has even
degree. -/
theorem euler_find_undirected_iff (g : Graph) (hwf : g.WF) (hu : g.directed = false) :
    ∃ r, euler_find g = some r ∧
      (r.exists = true ↔
        (∀ u v, u < g.n → v < g.n → g.nbrs u ≠ [] → g.nbrs v ≠ [] → Reach g.nbrs u v) ∧
        (∀ v, v < g.n → (g.nbrs v).length % 2 = 0)) :=
  euler_find_undirected_iff_core g hwf hu

/-- C8 at the 4-cycle of the Euler test. -/
theorem euler_find_undirected_iff_witness :
    g_cycle4.WF ∧ g_cycle4.directed = false ∧
    ∃ r, euler_find g_cycle4 = some r ∧
      (r.exists = true ↔
        (∀ u v, u < g_cycle4.n → v < g_cycle4.n → g_cycle4.nbrs u ≠ [] →
          g_cycle4.nbrs v ≠ [] → Reach g_cycle4.nbrs u v) ∧
        (∀ v, v < g_cycle4.n → (g_cycle4.nbrs v).length % 2 = 0)) :=
  ⟨Graph.wf_of_check _ (by decide), by decide,
   euler_find_undirected_iff g_cycle4 (Graph.wf_of_check _ (by decide)) (by decide)⟩


theorem in_deg_eq (g : Graph) :
    in_deg g = g.darts.foldl (fun d p => d.set p.2 (d.getD p.2 0 + 1)) (List.replicate g.n 0) := by
  unfold in_deg Graph.darts
  exact foldl_nested (fun (d : List Nat) (p : Nat × Nat) => d.set p.2 (d.getD p.2 0 + 1))
    g.nbrs _ _

theorem in_deg_fold (n : Nat) (ds : List (Nat × Nat)) (hds : ∀ p ∈ ds, p.2 < n) :
    (ds.foldl (fun d p => d.set p.2 (d.getD p.2 0 + 1)) (List.replicate n 0)).length = n ∧
    ∀ v, (ds.foldl (fun (d : List Nat) (p : Nat × Nat) => d.set p.2 (d.getD p.2 0 + 1))
        (List.replicate n 0)).getD v 0 = ds.countP (fun p => p.2 == v) := by
  induction ds using List.reverseRecOn with
  | nil =>
    refine ⟨by simp, fun v => ?_⟩
    simp only [List.foldl_nil, List.countP_nil, List.getD_eq_getElem?_getD,
      List.getElem?_replicate]
    split_ifs <;> rfl
  | append_singleton ds d ih =>
    obtain ⟨h1, h2⟩ := ih (fun p hp => hds p (List.mem_append_left _ hp))
    have hd : d.2 < n := hds d (List.mem_append_right _ (List.mem_singleton_self d))
    rw [List.foldl_append, List.foldl_cons, List.foldl_nil]
    refine ⟨by rw [List.length_set]; exact h1, fun v => ?_⟩
    rw [List.countP_append, List.getD_eq_getElem?_getD, List.getElem?_set, h2 d.2]
    simp only [List.countP_cons, List.countP_nil, beq_iff_eq, Nat.zero_add]
    split_ifs with h3 h4
    · subst h3; rfl
    · rw [h1] at h4; exact absurd hd h4
    · rw [← List.getD_eq_getElem?_getD, h2 v]; rfl

theorem in_deg_spec {g : Graph} (hwf : g.WF) (v : Nat) :
    (in_deg g).getD v 0 = g.in_degree v := by
  rw [in_deg_eq]
  exact (in_deg_fold g.n g.darts
    (fun p hp => hwf.2.1 p.1 p.2 ((g.mem_darts p.1 p.2).1 hp).2)).2 v

theorem out_deg_spec (g : Graph) {v : Nat} (hv : v < g.n) :
    (out_deg g).getD v 0 = g.out_degree v := by
  unfold out_deg Graph.out_degree
  rw [List.getD_eq_getElem?_getD, List.getElem?_map, List.getElem?_range hv]
  rfl

theorem row_set (A : List (List Nat)) (u x : Nat) (r : List Nat) (hu : u < A.length) :
    row (A.set u r) x = if u = x then r else row A x := by
  unfold row
  rw [List.getD_eq_getElem?_getD, List.getElem?_set]
  split_ifs with h
  · subst h; simp [hu]
  · rw [List.getD_eq_getElem?_getD]

theorem reverse_adj_eq (g : Graph) :
    reverse_adj g =
      g.darts.foldl (fun R p => R.set p.2 (row R p.2 ++ [p.1])) (List.replicate g.n []) := by
  unfold reverse_adj Graph.darts
  exact foldl_nested (fun (R : List (List Nat)) (p : Nat × Nat) => R.set p.2 (row R p.2 ++ [p.1]))
    g.nbrs _ _

theorem reverse_adj_fold (n : Nat) (ds : List (Nat × Nat)) (hds : ∀ p ∈ ds, p.2 < n) :
    (ds.foldl (fun R p => R.set p.2 (row R p.2 ++ [p.1])) (List.replicate n [])).length = n ∧
    ∀ v, row (ds.foldl (fun (R : List (List Nat)) (p : Nat × Nat) =>
        R.set p.2 (row R p.2 ++ [p.1])) (List.replicate n [])) v
      = (ds.filter (fun p => p.2 == v)).map Prod.fst := by
  induction ds using List.reverseRecOn with
  | nil =>
    refine ⟨by simp, fun v => ?_⟩
    simp only [List.foldl_nil, row, List.filter_nil, List.map_nil, List.getD_eq_getElem?_getD,
      List.getElem?_replicate]
    split_ifs <;> rfl
  | append_singleton ds d ih =>
    obtain ⟨h1, h2⟩ := ih (fun p hp => hds p (List.mem_append_left _ hp))
    have hd : d.2 < n := hds d (List.mem_append_right _ (List.mem_singleton_self d))
    rw [List.foldl_append, List.foldl_cons, List.foldl_nil]
    refine ⟨by rw [List.length_set]; exact h1, fun v => ?_⟩
    rw [List.filter_append, List.map_append, row_set _ _ _ _ (by rw [h1]; exact hd), h2 d.2]
    simp only [List.filter_cons, List.filter_nil, beq_iff_eq]
    split_ifs with h3
    · subst h3; rfl
    · rw [h2 v]; simp

theorem mem_reverse_adj {g : Graph} (hwf : g.WF) (u v : Nat) :
    u ∈ row (reverse_adj g) v ↔ v ∈ g.nbrs u := by
  rw [reverse_adj_eq, (reverse_adj_fold g.n g.darts
    (fun p hp => hwf.2.1 p.1 p.2 ((g.mem_darts p.1 p.2).1 hp).2)).2 v]
  rw [List.mem_map]
  constructor
  · rintro ⟨⟨a, b⟩, hm, rfl⟩
    rw [List.mem_filter] at hm
    have hb : b = v := by simpa using hm.2
    subst hb
    exact (g.mem_darts_wf hwf a b).1 hm.1
  · intro h
    exact ⟨(u, v), List.mem_filter.2 ⟨(g.mem_darts_wf hwf u v).2 h, by simp⟩, rfl⟩

theorem reach_reverse_adj {g : Graph} (hwf : g.WF) (a b : Nat) :
    Reach (row (reverse_adj g)) a b ↔ Reach g.nbrs b a := by
  constructor
  · intro h
    induction h with
    | refl => exact Relation.ReflTransGen.refl
    | tail _ hbc ih => exact Relation.ReflTransGen.head ((mem_reverse_adj hwf _ _).1 hbc) ih
  · intro h
    induction h with
    | refl => exact Relation.ReflTransGen.refl
    | tail _ hbc ih => exact Relation.ReflTransGen.head ((mem_reverse_adj hwf _ _).2 hbc) ih

theorem reverse_adj_lt {g : Graph} (hwf : g.WF) (u v : Nat) (h : v ∈ row (reverse_adj g) u) :
    v < g.n := by
  have := (mem_reverse_adj hwf v u).1 h
  by_contra hv
  rw [g.nbrs_eq_nil_of_le (by rw [hwf.1]; omega)] at this
  cases this


theorem euler_find_directed_exists {g : Graph} (hwf : g.WF) (hd : g.directed = true) :
    ∃ r, euler_find g = some r ∧
      r.exists = (!has_any_edges g ||
        (!(List.range g.n).any (fun i =>
            decide ((out_deg g).getD i 0 + (in_deg g).getD i 0 > 0) &&
              (out_deg g).getD i 0 != (in_deg g).getD i 0) &&
          strongly_connected_on_non_isolated g)) := by
  have hs := euler_find_isSome hwf
  obtain ⟨r, hr⟩ := Option.isSome_iff_exists.1 hs
  refine ⟨r, hr, ?_⟩
  unfold euler_find at hr
  rw [hd] at hr
  simp only [Bool.not_true, Bool.false_eq_true, if_false] at hr
  split_ifs at hr with h1 h2 h3
  · cases hr
    have h1' : has_any_edges g = false := by simpa using h1
    rw [h1']; rfl
  · cases hr
    have h1' : has_any_edges g = true := by simpa using h1
    rw [h1', h2]; rfl
  · cases hr
    have h1' : has_any_edges g = true := by simpa using h1
    have h3' : strongly_connected_on_non_isolated g = false := by simpa using h3
    rw [h1', h3']; simp
  · simp only [Option.map_eq_some'] at hr
    obtain ⟨c, _, rfl⟩ := hr
    have h1' : has_any_edges g = true := by simpa using h1
    have h3' : strongly_connected_on_non_isolated g = true := by simpa using h3
    have h2' : (List.range g.n).any (fun i =>
            decide ((out_deg g).getD i 0 + (in_deg g).getD i 0 > 0) &&
              (out_deg g).getD i 0 != (in_deg g).getD i 0) = false := by
      cases h : (List.range g.n).any (fun i =>
            decide ((out_deg g).getD i 0 + (in_deg g).getD i 0 > 0) &&
              (out_deg g).getD i 0 != (in_deg g).getD i 0)
      · rfl
      · exact absurd h h2
    rw [h1', h3', h2']; rfl

theorem has_deg_iff {g : Graph} (hwf : g.WF) {i : Nat} (hi : i < g.n) :
    has_deg g i = true ↔ g.out_degree i + g.in_degree i ≠ 0 := by
  unfold has_deg
  rw [out_deg_spec g hi, in_deg_spec hwf]
  simp only [gt_iff_lt, decide_eq_true_eq]
  omega

theorem balance_check_iff {g : Graph} (hwf : g.WF) :
    (List.range g.n).any (fun i =>
        decide ((out_deg g).getD i 0 + (in_deg g).getD i 0 > 0) &&
          (out_deg g).getD i 0 != (in_deg g).getD i 0) = false ↔
      ∀ v, v < g.n → g.out_degree v + g.in_degree v ≠ 0 → g.in_degree v = g.out_degree v := by
  simp only [List.any_eq_false, List.mem_range, Bool.and_eq_true, decide_eq_true_eq, bne_iff_ne,
    not_and, not_not]
  constructor
  · intro h v hv hne
    have := h v hv
    rw [out_deg_spec g hv, in_deg_spec hwf] at this
    exact (this (by omega)).symm
  · intro h v hv hpos
    rw [out_deg_spec g hv, in_deg_spec hwf] at hpos ⊢
    exact (h v hv (by omega)).symm

theorem strongly_connected_iff {g : Graph} (hwf : g.WF) :
    strongly_connected_on_non_isolated g = true ↔
      ∀ u v, u < g.n → v < g.n → g.out_degree u + g.in_degree u ≠ 0 →
        g.out_degree v + g.in_degree v ≠ 0 → Reach g.nbrs u v := by
  unfold strongly_connected_on_non_isolated
  cases hf : (List.range g.n).find? (has_deg g) with
  | none =>
    simp only [true_iff]
    intro u v hun _ hne
    have := List.find?_eq_none.1 hf u (List.mem_range.2 hun)
    exact absurd ((has_deg_iff hwf hun).2 hne) this
  | some s =>
    have hsn : s < g.n := List.mem_range.1 (List.mem_of_find?_eq_some hf)
    have hsd : g.out_degree s + g.in_degree s ≠ 0 :=
      (has_deg_iff hwf hsn).1 (List.find?_some hf)
    obtain ⟨_, hvis, _⟩ := search_from_spec g.n g.nbrs hwf.2.1 pop_back_ok hsn
    obtain ⟨_, hvis2, _⟩ := search_from_spec g.n (row (reverse_adj g))
      (reverse_adj_lt hwf) pop_back_ok hsn
    simp only
    constructor
    · intro h u v hun hvn hu hv
      split_ifs at h with h1 h2
      have h1' : ∀ i, i < g.n → has_deg g i = true →
          (search_from g.n g.nbrs pop_back s).1.getD i false = true := by
        intro i hi hdi
        by_contra hc
        apply h1
        rw [List.any_eq_true]
        exact ⟨i, List.mem_range.2 hi, by
          rw [Bool.and_eq_true, Bool.not_eq_true']
          exact ⟨hdi, Bool.eq_false_iff.2 hc⟩⟩
      have h2' : ∀ i, i < g.n → has_deg g i = true →
          (search_from g.n (row (reverse_adj g)) pop_back s).1.getD i false = true := by
        intro i hi hdi
        by_contra hc
        apply h2
        rw [List.any_eq_true]
        exact ⟨i, List.mem_range.2 hi, by
          rw [Bool.and_eq_true, Bool.not_eq_true']
          exact ⟨hdi, Bool.eq_false_iff.2 hc⟩⟩
      have r1 : Reach g.nbrs u s :=
        (reach_reverse_adj hwf s u).1 ((hvis2 u).1 (h2' u hun ((has_deg_iff hwf hun).2 hu)))
      have r2 : Reach g.nbrs s v := (hvis v).1 (h1' v hvn ((has_deg_iff hwf hvn).2 hv))
      exact r1.trans' r2
    · intro h
      rw [if_neg, if_neg]
      · rw [Bool.not_eq_true, List.any_eq_false]
        intro i hi
        rw [List.mem_range] at hi
        simp only [Bool.and_eq_true, Bool.not_eq_true', not_and, Bool.not_eq_false]
        intro hdi
        exact (hvis2 i).2 ((reach_reverse_adj hwf s i).2
          (h i s hi hsn ((has_deg_iff hwf hi).1 hdi) hsd))
      · rw [Bool.not_eq_true, List.any_eq_false]
        intro i hi
        rw [List.mem_range] at hi
        simp only [Bool.and_eq_true, Bool.not_eq_true', not_and, Bool.not_eq_false]
        intro hdi
        exact (hvis i).2 (h s i hsn hi hsd ((has_deg_iff hwf hi).1 hdi))

theorem Graph.darts_eq_nil_of_no_edges {g : Graph} (h : has_any_edges g = false) :
    g.darts = [] := by
  cases hd : g.darts with
  | nil => rfl
  | cons p t =>
    exfalso
    have hp : (p.1, p.2) ∈ g.darts := by rw [hd]; exact List.mem_cons_self _ _
    have := (g.mem_darts p.1 p.2).1 hp
    have := (has_any_edges_iff g).2 ⟨p.1, this.1, List.ne_nil_of_mem this.2⟩
    rw [h] at this; cases this

/-- Core statement, kept as a lemma for the decision theorem. -/
theorem euler_find_directed_iff_core (g : Graph) (hwf : g.WF) (hd : g.directed = true) :
    ∃ r, euler_find g = some r ∧
      (r.exists = true ↔
        (∀ v, v < g.n → g.out_degree v + g.in_degree v ≠ 0 →
          g.in_degree v = g.out_degree v) ∧
        (∀ u v, u < g.n → v < g.n → g.out_degree u + g.in_degree u ≠ 0 →
          g.out_degree v + g.in_degree v ≠ 0 → Reach g.nbrs u v)) := by
  obtain ⟨r, hr, he⟩ := euler_find_directed_exists hwf hd
  refine ⟨r, hr, ?_⟩
  rw [he, ← strongly_connected_iff hwf, ← balance_check_iff hwf]
  cases h1 : has_any_edges g
  · simp only [Bool.not_false, Bool.true_or, true_iff]
    have hdarts := Graph.darts_eq_nil_of_no_edges h1
    have hzero : ∀ v, v < g.n → g.out_degree v + g.in_degree v = 0 := by
      intro v hv
      have h2 : g.nbrs v = [] := by
        by_contra hne
        have := (has_any_edges_iff g).2 ⟨v, hv, hne⟩
        rw [h1] at this; cases this
      unfold Graph.out_degree Graph.in_degree
      rw [hdarts, h2]; rfl
    constructor
    · rw [balance_check_iff hwf]
      intro v hv hne
      exact absurd (hzero v hv) hne
    · rw [strongly_connected_iff hwf]
      intro u v hu _ hne
      exact absurd (hzero u hu) hne
  · cases strongly_connected_on_non_isolated g <;>
      cases (List.range g.n).any (fun i =>
        decide ((out_deg g).getD i 0 + (in_deg g).getD i 0 > 0) &&
          (out_deg g).getD i 0 != (in_deg g).getD i 0) <;> simp

/-- C9: for every well-formed directed graph, `euler_find` returns a result whose
`exists` flag is true if and only if (a) every vertex of non-zero total degree has
in-degree equal to out-degree and (b) every vertex of non-zero total degree reaches
every other such vertex (strong connectivity of the non-isolated vertices). -/
theorem euler_find_directed_iff (g : Graph) (hwf : g.WF) (hd : g.directed = true) :
    ∃ r, euler_find g = some r ∧
      (r.exists = true ↔
        (∀ v, v < g.n → g.out_degree v + g.in_degree v ≠ 0 →
          g.in_degree v = g.out_degree v) ∧
        (∀ u v, u < g.n → v < g.n → g.out_degree u + g.in_degree u ≠ 0 →
          g.out_degree v + g.in_degree v ≠ 0 → Reach g.nbrs u v)) :=
  euler_find_directed_iff_core g hwf hd

/-- C9 at the directed example of the Euler driver, the triangle 0 -> 1 -> 2 -> 0. -/
theorem euler_find_directed_iff_witness :
    g_dir3.WF ∧ g_dir3.directed = true ∧
    ∃ r, euler_find g_dir3 = some r ∧
      (r.exists = true ↔
        (∀ v, v < g_dir3.n → g_dir3.out_degree v + g_dir3.in_degree v ≠ 0 →
          g_dir3.in_degree v = g_dir3.out_degree v) ∧
        (∀ u v, u < g_dir3.n → v < g_dir3.n → g_dir3.out_degree u + g_dir3.in_degree u ≠ 0 →
          g_dir3.out_degree v + g_dir3.in_degree v ≠ 0 → Reach g_dir3.nbrs u v)) :=
  ⟨Graph.wf_of_check _ (by decide), by decide,
   euler_find_directed_iff _ (Graph.wf_of_check _ (by decide)) (by decide)⟩


theorem IsHamCycle.length_eq {g : Graph} {c : List Nat} (h : IsHamCycle g c) :
    c.length = g.n := by
  have : c.toFinset = Finset.range g.n := by
    ext v; rw [List.mem_toFinset, Finset.mem_range]; exact h.2.1 v
  rw [← List.toFinset_card_of_nodup h.1, this, Finset.card_range]

/-- A Hamiltonian cycle as a cyclic chain. -/
theorem isHamCycle_cons_iff (g : Graph) (a : Nat) (l : List Nat) :
    IsHamCycle g (a :: l) ↔
      (a :: l).Nodup ∧ (∀ v, v ∈ a :: l ↔ v < g.n) ∧
        List.Chain (fun x y => y ∈ g.nbrs x) a (l ++ [a]) := by
  unfold IsHamCycle
  have key : (List.Chain' (fun x y => y ∈ g.nbrs x) (a :: l) ∧
      (∀ x y, (a :: l).getLast? = some x → (a :: l).head? = some y → y ∈ g.nbrs x)) ↔
      List.Chain (fun x y => y ∈ g.nbrs x) a (l ++ [a]) := by
    have : List.Chain (fun x y => y ∈ g.nbrs x) a (l ++ [a]) ↔
        List.Chain' (fun x y => y ∈ g.nbrs x) ((a :: l) ++ [a]) := by
      rw [List.cons_append]; rfl
    rw [this, List.chain'_append]
    constructor
    · rintro ⟨h1, h2⟩
      refine ⟨h1, List.chain'_singleton a, fun x hx y hy => ?_⟩
      obtain rfl : a = y := by simpa using hy
      exact h2 x a hx rfl
    · rintro ⟨h1, _, h3⟩
      refine ⟨h1, fun x y hx hy => ?_⟩
      obtain rfl : a = y := by simpa using hy
      exact h3 x hx a rfl
  constructor
  · rintro ⟨h1, h2, h3, h4⟩; exact ⟨h1, h2, key.1 ⟨h3, h4⟩⟩
  · rintro ⟨h1, h2, h3⟩; exact ⟨h1, h2, (key.2 h3).1, (key.2 h3).2⟩

/-- A Hamiltonian cycle can be read from any vertex. -/
theorem IsHamCycle.rotate_to {g : Graph} {c : List Nat} (h : IsHamCycle g c) {a : Nat}
    (ha : a < g.n) : ∃ l, IsHamCycle g (a :: l) := by
  have hm : a ∈ c := (h.2.1 a).2 ha
  obtain ⟨s, t, rfl⟩ := List.append_of_mem hm
  refine ⟨t ++ s, ?_⟩
  have hrot : (a :: (t ++ s)) ~r (s ++ a :: t) := by
    have : (s ++ a :: t) ~r (a :: t ++ s) := List.isRotated_append
    exact this.symm
  have hperm := hrot.perm
  cases s with
  | nil => simpa using h
  | cons b s =>
    rw [List.cons_append, isHamCycle_cons_iff] at h
    rw [isHamCycle_cons_iff]
    refine ⟨hperm.nodup_iff.2 (by simpa using h.1), fun v => ?_, ?_⟩
    · rw [hperm.mem_iff]; simpa using h.2.1 v
    · have hc : Cycle.Chain (fun x y => y ∈ g.nbrs x) (↑(b :: (s ++ a :: t)) : Cycle Nat) :=
        (Cycle.chain_coe_cons _ _ _).2 h.2.2
      have he : (↑(a :: (t ++ b :: s)) : Cycle Nat) = ↑(b :: (s ++ a :: t)) :=
        Cycle.coe_eq_coe.2 (by simpa using hrot)
      rw [← he] at hc
      exact (Cycle.chain_coe_cons _ _ _).1 hc

theorem chain_reach {adj : Nat → List Nat} :
    ∀ (l : List Nat) (a : Nat), List.Chain (fun x y => y ∈ adj x) a l →
      ∀ b ∈ l, Reach adj a b := by
  intro l
  induction l with
  | nil => intro a _ b hb; cases hb
  | cons x l ih =>
    intro a h b hb
    rw [List.chain_cons] at h
    have hax : Reach adj a x := Relation.ReflTransGen.single h.1
    rcases List.mem_cons.1 hb with rfl | hb
    · exact hax
    · exact hax.trans' (ih x h.2 b hb)

/-- On a Hamiltonian cycle every vertex reaches every vertex. -/
theorem IsHamCycle.reach {g : Graph} {c : List Nat} (h : IsHamCycle g c) {a b : Nat}
    (ha : a < g.n) (hb : b < g.n) : Reach g.nbrs a b := by
  obtain ⟨l, hl⟩ := h.rotate_to ha
  have hbm : b ∈ a :: l := (hl.2.1 b).2 hb
  rw [isHamCycle_cons_iff] at hl
  exact chain_reach _ a hl.2.2 b (by
    rcases List.mem_cons.1 hbm with rfl | hbm
    · simp
    · exact List.mem_append_left _ hbm)

/-- On a Hamiltonian cycle of a graph with at least two vertices every vertex has a
successor and a predecessor different from itself. -/
theorem IsHamCycle.succ_pred {g : Graph} {c : List Nat} (h : IsHamCycle g c) (hn : 2 ≤ g.n)
    {a : Nat} (ha : a < g.n) :
    ∃ b z, b ∈ g.nbrs a ∧ a ∈ g.nbrs z ∧ z < g.n ∧ (3 ≤ g.n → b ≠ z) := by
  obtain ⟨l, hl⟩ := h.rotate_to ha
  have hlen := hl.length_eq
  have hmem := hl.2.1
  have hnd := hl.1
  rw [isHamCycle_cons_iff] at hl
  cases l with
  | nil => simp at hlen; omega
  | cons b l =>
    have hch := hl.2.2
    rw [List.cons_append, List.chain_cons] at hch
    refine ⟨b, (b :: l).getLast (List.cons_ne_nil _ _), hch.1, ?_, ?_, ?_⟩
    · have h2 := hch.2
      have : List.Chain' (fun x y => y ∈ g.nbrs x) ((b :: l) ++ [a]) := h2
      rw [List.chain'_append] at this
      exact this.2.2 _ (List.getLast?_eq_getLast _ _) a rfl
    · exact (hmem _).1 (List.mem_cons_of_mem _ (List.getLast_mem _))
    · intro h3
      cases l with
      | nil => simp at hlen; omega
      | cons x l =>
        rw [List.getLast_cons (List.cons_ne_nil _ _)]
        intro hb
        have hbm : b ∈ x :: l := hb ▸ List.getLast_mem _
        rw [List.nodup_cons, List.nodup_cons] at hnd
        exact hnd.2.1 hbm


theorem count_true_eq_length {vis : List Bool} (h : ∀ x, x < vis.length → vis.getD x false = true) :
    vis.count true = vis.length := by
  rw [List.count_eq_length]
  intro b hb
  obtain ⟨i, hi, rfl⟩ := List.getElem_of_mem hb
  have := h i hi
  rw [List.getD_eq_getElem?_getD, List.getElem?_eq_getElem hi] at this
  exact this.symm

theorem in_degree_pos {g : Graph} {z a : Nat} (hz : z < g.n) (h : a ∈ g.nbrs z) :
    0 < g.in_degree a := by
  unfold Graph.in_degree
  rw [List.countP_pos_iff]
  exact ⟨(z, a), (g.mem_darts z a).2 ⟨hz, h⟩, by simp⟩

/-- The quick precheck only rejects graphs without a Hamiltonian cycle (three or more
vertices). -/
theorem quick_ham_impossible_sound {g : Graph} (hwf : g.WF) (hn : 3 ≤ g.n)
    (h : quick_ham_impossible g = true) : ¬ ∃ c, IsHamCycle g c := by
  rintro ⟨c, hc⟩
  unfold quick_ham_impossible at h
  cases hd : g.directed
  · rw [hd] at h
    simp only [Bool.not_false, if_true] at h
    cases hf : (List.range g.n).find? (fun i => !(g.nbrs i).isEmpty) with
    | none =>
      obtain ⟨b, _, hb, _⟩ := hc.succ_pred (by omega) (show 0 < g.n by omega)
      have := List.find?_eq_none.1 hf 0 (List.mem_range.2 (by omega))
      simp only [Bool.not_eq_true', Bool.not_eq_false, List.isEmpty_iff] at this
      rw [this] at hb; cases hb
    | some s =>
      rw [hf] at h
      simp only at h
      have hsn : s < g.n := List.mem_range.1 (List.mem_of_find?_eq_some hf)
      obtain ⟨hlen, hvis, hseen⟩ :=
        search_from_spec g.n g.nbrs hwf.2.1 pop_front_ok hsn
      have hall : (search_from g.n g.nbrs pop_front s).2 = g.n := by
        rw [hseen, count_true_eq_length, hlen]
        intro x hx
        exact (hvis x).2 (hc.reach hsn (hlen ▸ hx))
      rw [hall, if_neg (lt_irrefl _), List.any_eq_true] at h
      obtain ⟨i, hi, hlt⟩ := h
      rw [List.mem_range] at hi
      obtain ⟨b, z, hb, hz, _, hbz⟩ := hc.succ_pred (by omega) hi
      have hz' : z ∈ g.nbrs i := hwf.2.2.2.2 hd z i hz
      have hsub : [b, z] ⊆ g.nbrs i := by
        intro x hx
        simp only [List.mem_cons, List.mem_singleton, List.not_mem_nil, or_false] at hx
        rcases hx with rfl | rfl
        · exact hb
        · exact hz'
      have hnd : [b, z].Nodup := by simp [hbz hn]
      have := (List.subperm_of_subset hnd hsub).length_le
      simp only [List.length_cons, List.length_nil, decide_eq_true_eq] at this hlt
      omega
  · rw [hd] at h
    simp only [Bool.not_true, Bool.false_eq_true, if_false] at h
    have h0 : (0 : Nat) < g.n := by omega
    split_ifs at h with h1 h2
    · rw [List.any_eq_true] at h1
      obtain ⟨i, hi, hz⟩ := h1
      rw [List.mem_range] at hi
      obtain ⟨b, z, hb, hza, hzn, _⟩ := hc.succ_pred (by omega) hi
      rw [out_deg_spec g hi, in_deg_spec hwf] at hz
      have h3 : 0 < g.out_degree i := List.length_pos.2 (List.ne_nil_of_mem hb)
      have h4 := in_degree_pos hzn hza
      simp only [Bool.or_eq_true, beq_iff_eq] at hz
      omega
    · rw [List.any_eq_true] at h2
      obtain ⟨i, hi, hv⟩ := h2
      rw [List.mem_range] at hi
      obtain ⟨_, hvis, _⟩ := search_from_spec g.n g.nbrs hwf.2.1 pop_back_ok h0
      have := (hvis i).2 (hc.reach h0 hi)
      rw [this] at hv; cases hv
    · rw [List.any_eq_true] at h
      obtain ⟨i, hi, hv⟩ := h
      rw [List.mem_range] at hi
      obtain ⟨_, hvis, _⟩ := search_from_spec g.n (row (reverse_adj g))
        (reverse_adj_lt hwf) pop_back_ok h0
      have := (hvis i).2 ((reach_reverse_adj hwf 0 i).2 (hc.reach hi h0))
      rw [this] at hv; cases hv


theorem HamResult.text_head_skip (n : Nat) (limit : Int) :
    (HamResult.skip n limit).text.data.take 1 = ['H'] := by
  simp only [HamResult.text, String.data_append]
  rfl

theorem HamResult.text_head_yes (path : List Nat) (start : Nat) :
    (HamResult.yes path start).text.data.take 1 = ['Y'] := by
  simp only [HamResult.text, String.data_append]
  rfl

/-- The texts of the two negative outcomes identify them. -/
theorem HamResult.no_of_text (r : HamResult) :
    (r.text = "NO Hamilton cycle" → r = .no) ∧
    (r.text = "NO Hamilton cycle (quick precheck)" → r = .precheck_no) := by
  cases r with
  | no => exact ⟨fun _ => rfl, fun h => absurd h (by decide)⟩
  | precheck_no => exact ⟨fun h => absurd h (by decide), fun _ => rfl⟩
  | trivial_yes => exact ⟨fun h => absurd h (by decide), fun h => absurd h (by decide)⟩
  | timeout => exact ⟨fun h => absurd h (by decide), fun h => absurd h (by decide)⟩
  | skip n limit =>
    have e := HamResult.text_head_skip n limit
    constructor <;> intro h <;> rw [h] at e <;> exact absurd e (by decide)
  | yes path start =>
    have e := HamResult.text_head_yes path start
    constructor <;> intro h <;> rw [h] at e <;> exact absurd e (by decide)

/-- The search result an answer `NO Hamilton cycle` comes from. -/
theorem ham_cycle_result_no {srt : (Nat → Nat) → List Nat → List Nat}
    {now : Nat → Nat} {g : Graph} {params : KV}
    (h : ham_cycle_result srt now g params = .no) :
    0 < g.n ∧
    (ham_cycle_backtrack srt now g (ham_start g) (g.n - 1) [ham_start g]
      ((List.replicate g.n false).set (ham_start g) true) (mk_budget now params)).1 = false ∧
    ((ham_cycle_backtrack srt now g (ham_start g) (g.n - 1) [ham_start g]
      ((List.replicate g.n false).set (ham_start g) true)
        (mk_budget now params)).2.2.2.timed_out now).1 = false := by
  unfold ham_cycle_result at h
  simp only at h
  split_ifs at h with h1 h2 h3 h4 h5
  exact ⟨Nat.pos_of_ne_zero h2, by simpa using h4, by simpa using h5⟩

theorem ham_cycle_result_precheck {srt : (Nat → Nat) → List Nat → List Nat}
    {now : Nat → Nat} {g : Graph} {params : KV}
    (h : ham_cycle_result srt now g params = .precheck_no) : quick_ham_impossible g = true := by
  unfold ham_cycle_result at h
  simp only at h
  split_ifs at h with h1 h2 h3 h4 h5
  exact h3

/-- C4: a negative Hamiltonian answer is never false. For a well-formed graph with at
least 3 vertices and a monotone clock, if HAM_CYCLE returns `NO Hamilton cycle` or
`NO Hamilton cycle (quick precheck)` then the graph has no Hamiltonian cycle; and when
the search is entered (n within the limit, precheck passed) and a poll of the budget
has timed out by the end of the search, the answer is `HAM: TIMEOUT`. Both hold
whatever order `std::sort` gives to neighbours of equal degree. -/
theorem ham_cycle_no_sound (srt : (Nat → Nat) → List Nat → List Nat) (hsrt : SortSpec srt)
    (now : Nat → Nat) (hm : Monotone now) (g : Graph) (params : KV)
    (hwf : g.WF) (hn : 3 ≤ g.n) :
    ((ham_cycle srt now g params = "NO Hamilton cycle" ∨
        ham_cycle srt now g params = "NO Hamilton cycle (quick precheck)") →
      ¬ ∃ c, IsHamCycle g c) ∧
    ((g.n : Int) ≤ ham_limit params → quick_ham_impossible g = false →
      (ham_cycle_backtrack srt now g (ham_start g) (g.n - 1) [ham_start g]
        ((List.replicate g.n false).set (ham_start g) true)
          (mk_budget now params)).2.2.2.over now →
      ham_cycle srt now g params = "HAM: TIMEOUT") := by
  have h0 : 0 < g.n := by omega
  have hspec := ham_cycle_backtrack_spec hsrt now hwf (ham_start g) (g.n - 1) _ _
    (mk_budget now params) (hamInv_init g h0)
  constructor
  · rintro (h | h)
    · have hr := (HamResult.no_of_text _).1 h
      obtain ⟨_, hf, ht⟩ := ham_cycle_result_no hr
      rintro ⟨c, hc⟩
      obtain ⟨l, hl⟩ := hc.rotate_to (ham_start_lt g h0)
      have hno : ¬ (ham_cycle_backtrack srt now g (ham_start g) (g.n - 1) [ham_start g]
          ((List.replicate g.n false).set (ham_start g) true)
            (mk_budget now params)).2.2.2.over now := by
        intro ho
        have := Budget.over_later hm (Budget.timed_out_later now _) ho
        rw [← Budget.timed_out_iff, ht] at this
        cases this
      have hlen := hl.length_eq
      exact (hspec.2.2 hf).2.2 hm hno l (by simp at hlen; omega) hl
    · have hr := (HamResult.no_of_text _).2 h
      exact quick_ham_impossible_sound hwf hn (ham_cycle_result_precheck hr)
  · intro hlim hq ho
    have hf : (ham_cycle_backtrack srt now g (ham_start g) (g.n - 1) [ham_start g]
        ((List.replicate g.n false).set (ham_start g) true) (mk_budget now params)).1 = false := by
      by_contra hc
      exact (hspec.2.1 (by simpa using hc)).2.2 ho
    have ht := (Budget.timed_out_iff now _).2
      (Budget.over_later hm (Budget.timed_out_later now _) ho)
    unfold ham_cycle ham_cycle_result
    simp only
    rw [if_neg (by omega), if_neg (by omega), hq, hf, ht]
    rfl

/-- C4 at a directed graph on 5 vertices without Hamiltonian cycle that passes the
precheck (arcs 0->1, 1->2, 2->3, 3->4, 4->2, 0->2, 2->0). -/
theorem ham_cycle_no_sound_witness :
    Monotone (fun _ : Nat => 0) ∧ g_no_ham.WF ∧ 3 ≤ g_no_ham.n ∧
    ham_cycle sort_by_key (fun _ => 0) g_no_ham ham_test_params = "NO Hamilton cycle" ∧
    ¬ ∃ c, IsHamCycle g_no_ham c :=
  ⟨monotone_const, Graph.wf_of_check _ (by decide), by decide, by decide,
   (ham_cycle_no_sound sort_by_key sort_by_key_spec (fun _ => 0) monotone_const g_no_ham
      ham_test_params
      (Graph.wf_of_check _ (by decide)) (by decide)).1 (Or.inl (by decide))⟩


theorem trail_end_nil (a : Nat) : trail_end a [] = a := rfl

theorem trail_end_cons (a : Nat) (d : Nat × AdjEdge) (ds : List (Nat × AdjEdge)) :
    trail_end a (d :: ds) = trail_end d.2.dest ds := by
  unfold trail_end
  cases ds with
  | nil => rfl
  | cons x xs =>
    rw [List.getLast?_cons_cons, List.getLast?_eq_getLast _ (List.cons_ne_nil _ _)]
    rfl

theorem trail_end_append (a : Nat) (xs ys : List (Nat × AdjEdge)) :
    trail_end a (xs ++ ys) = trail_end (trail_end a xs) ys := by
  induction xs generalizing a with
  | nil => rfl
  | cons d xs ih => rw [List.cons_append, trail_end_cons, trail_end_cons, ih]

theorem trail_end_concat (a : Nat) (xs : List (Nat × AdjEdge)) (d : Nat × AdjEdge) :
    trail_end a (xs ++ [d]) = d.2.dest := by
  rw [trail_end_append, trail_end_cons, trail_end_nil]

theorem trailD_append (adj2 : List (List AdjEdge)) (a : Nat) (xs ys : List (Nat × AdjEdge)) :
    TrailD adj2 a (xs ++ ys) ↔ TrailD adj2 a xs ∧ TrailD adj2 (trail_end a xs) ys := by
  induction xs generalizing a with
  | nil => simp [TrailD, trail_end_nil]
  | cons d xs ih =>
    rw [List.cons_append, TrailD, TrailD, ih, trail_end_cons]
    tauto

theorem getLast?_start_dests (start : Nat) (ds : List (Nat × AdjEdge)) :
    (start :: trail_dests ds).getLast? = some (trail_end start ds) := by
  induction ds generalizing start with
  | nil => rfl
  | cons d ds ih =>
    rw [trail_end_cons]
    unfold trail_dests at ih ⊢
    rw [List.map_cons, List.getLast?_cons_cons]
    exact ih d.2.dest

theorem trailD_mem {adj2 : List (List AdjEdge)} :
    ∀ (ds : List (Nat × AdjEdge)) (a : Nat), TrailD adj2 a ds →
      ∀ d ∈ ds, d.2 ∈ row2 adj2 d.1 := by
  intro ds
  induction ds with
  | nil => intro a _ d hd; cases hd
  | cons x ds ih =>
    intro a h d hd
    obtain ⟨h1, h2, h3⟩ := h
    rcases List.mem_cons.1 hd with rfl | hd
    · rw [h1]; exact h2
    · exact ih _ h3 d hd

/-- Counting sources and destinations along a trail from `a` to its end. -/
theorem trailD_balance {adj2 : List (List AdjEdge)} :
    ∀ (ds : List (Nat × AdjEdge)) (a : Nat), TrailD adj2 a ds → ∀ x,
      ds.countP (fun d => d.1 == x) + (if x = trail_end a ds then 1 else 0)
        = ds.countP (fun d => d.2.dest == x) + (if x = a then 1 else 0) := by
  intro ds
  induction ds with
  | nil => intro a _ x; simp [trail_end_nil]
  | cons d ds ih =>
    intro a h x
    obtain ⟨h1, _, h3⟩ := h
    have := ih _ h3 x
    rw [trail_end_cons, List.countP_cons, List.countP_cons]
    have e1 : (if (d.1 == x) = true then 1 else 0) = (if x = a then 1 else 0) := by
      rw [h1]
      by_cases hx : x = a
      · subst hx; simp
      · have hx' : ¬ a = x := fun e => hx e.symm
        simp [hx, hx']
    have e2 : (if (d.2.dest == x) = true then 1 else 0) = (if x = d.2.dest then 1 else 0) := by
      by_cases hx : x = d.2.dest
      · rw [hx]; simp
      · have hx' : ¬ d.2.dest = x := fun e => hx e.symm
        simp [hx, hx']
    rw [e1, e2]
    omega


theorem getD_set_other (l : List Nat) (u x v : Nat) (h : u ≠ x) :
    (l.set u v).getD x 0 = l.getD x 0 := by
  simp only [List.getD_eq_getElem?_getD, List.getElem?_set]
  rw [if_neg h]

theorem getD_set_self_le (l : List Nat) (u v b : Nat) (hv : v ≤ b) :
    (l.set u v).getD u 0 ≤ b := by
  simp only [List.getD_eq_getElem?_getD, List.getElem?_set]
  split_ifs <;> simp <;> omega

theorem getD_set_self_lt (l : List Nat) (u v j : Nat) (h : j < (l.set u v).getD u 0) :
    j < v := by
  by_cases hu : u < l.length
  · simpa [List.getD_eq_getElem?_getD, List.getElem?_set, hu] using h
  · simp [List.getD_eq_getElem?_getD, List.getElem?_set, hu] at h

theorem mem_row2_getD {adj2 : List (List AdjEdge)} {u : Nat} {e : AdjEdge}
    (h : e ∈ row2 adj2 u) : ∃ j, j < (row2 adj2 u).length ∧ (row2 adj2 u).getD j ⟨0, 0⟩ = e := by
  obtain ⟨j, hj, rfl⟩ := List.getElem_of_mem h
  exact ⟨j, hj, by rw [List.getD_eq_getElem?_getD, List.getElem?_eq_getElem hj]; rfl⟩

/-- After the cursor of `u` has been advanced, every entry before it is used. -/
theorem cursor_after_skip {adj2 : List (List AdjEdge)} {s : WalkState} {u : Nat}
    (hc : ∀ j, j < s.it.getD u 0 →
      s.used.getD ((row2 adj2 u).getD j ⟨0, 0⟩).id false = true) :
    ∀ j, j < skip_used (row2 adj2 u) s.used (s.it.getD u 0) →
      s.used.getD ((row2 adj2 u).getD j ⟨0, 0⟩).id false = true := by
  intro j hj
  by_cases h : j < s.it.getD u 0
  · exact hc j h
  · exact skip_used_between _ _ _ j (not_lt.1 h) hj

/-- The pop branch of a walk step keeps the invariant, or finishes the walk. -/
theorem walk_step_pop {adj2 : List (List AdjEdge)} {E start : Nat}
    (hstuck : StuckOK adj2 start) {s : WalkState} (hinv : WalkInv adj2 E start s) {u : Nat}
    (hu : s.st.getLast? = some u)
    (hi : skip_used (row2 adj2 u) s.used (s.it.getD u 0) = (row2 adj2 u).length) :
    WalkInv adj2 E start (walk_step adj2 u s) ∨
      ((walk_step adj2 u s).st = [] ∧ WalkDone adj2 start (walk_step adj2 u s).circuit) := by
  obtain ⟨p, dc, ds, h1, h2, h3, h4, h5, h6, h7, h8, h9, h10⟩ := hinv
  have hstep : walk_step adj2 u s =
      { st := s.st.dropLast,
        it := s.it.set u (skip_used (row2 adj2 u) s.used (s.it.getD u 0)),
        used := s.used, circuit := s.circuit ++ [u] } := by
    unfold walk_step
    simp only
    rw [if_pos hi]
  have hut : u = trail_end start ds := by
    have := getLast?_start_dests start ds
    rw [h5, hu] at this
    exact Option.some.inj this
  have hall : ∀ e ∈ row2 adj2 u, s.used.getD e.id false = true := by
    intro e he
    obtain ⟨j, hj, rfl⟩ := mem_row2_getD he
    exact cursor_after_skip (h9 u).2 j (by rw [hi]; exact hj)
  have hp : u = p := by
    rw [hut]
    apply hstuck p dc ds h1 h3 h4 h6
    intro e he
    rw [← hut] at he
    exact (h8 e.id).1 (hall e he)
  have hcur : ∀ x, (s.it.set u (skip_used (row2 adj2 u) s.used (s.it.getD u 0))).getD x 0
        ≤ (row2 adj2 x).length ∧
      ∀ j, j < (s.it.set u (skip_used (row2 adj2 u) s.used (s.it.getD u 0))).getD x 0 →
        s.used.getD ((row2 adj2 x).getD j ⟨0, 0⟩).id false = true := by
    intro x
    by_cases hx : u = x
    · subst hx
      refine ⟨getD_set_self_le _ _ _ _ (le_of_eq hi), fun j hj => ?_⟩
      exact cursor_after_skip (h9 u).2 j (getD_set_self_lt _ _ _ _ hj)
    · rw [getD_set_other _ _ _ _ hx]; exact h9 x
  have hex : ∀ c ∈ s.circuit ++ [u], ∀ e ∈ row2 adj2 c, s.used.getD e.id false = true := by
    intro c hc e he
    rcases List.mem_append.1 hc with hc | hc
    · exact h10 c hc e he
    · rw [List.mem_singleton] at hc; subst hc; exact hall e he
  rw [hstep]
  rcases List.eq_nil_or_concat ds with rfl | ⟨ds', d, hcat⟩
  · right
    have hst : s.st = [start] := by rw [← h5]; rfl
    have hps : p = start := by rw [← hp, hut]; rfl
    subst hps
    refine ⟨by simp [hst], dc, h1, ?_, h3, by simpa using h6, ?_⟩
    · simp only [List.reverse_append, List.reverse_singleton, List.singleton_append]
      rw [h2, hp]
    · intro v hv e he
      have := (h8 e.id).1 (hex v hv e he)
      simpa using this
  · left
    rw [List.concat_eq_append] at hcat
    subst hcat
    have hd := (trailD_append adj2 start ds' [d]).1 h4
    obtain ⟨hd1, hd2, hd3, _⟩ := hd
    have hud : u = d.2.dest := by rw [hut, trail_end_concat]
    refine ⟨d.1, d :: dc, ds', ⟨rfl, ?_, ?_⟩, ?_, ?_, hd1, ?_, ?_, h7, ?_, hcur, hex⟩
    · rw [hd2]; exact hd3
    · rw [← hud, hp]; exact h1
    · simp only [List.reverse_append, List.reverse_singleton, List.singleton_append]
      unfold trail_dests at h2 ⊢
      rw [List.map_cons, h2, hud]
    · rw [trail_end_cons, ← hud, hp]; exact h3
    · simp only
      rw [← h5]
      unfold trail_dests
      rw [List.map_append, ← List.cons_append]
      exact (List.dropLast_concat).symm
    · have hperm : (trail_ids (d :: dc ++ ds')).Perm (trail_ids (dc ++ (ds' ++ [d]))) := by
        unfold trail_ids
        apply List.Perm.map
        rw [List.cons_append, ← List.append_assoc]
        exact (List.perm_append_singleton d (dc ++ ds')).symm
      exact hperm.nodup_iff.2 h6
    · intro i
      have hperm : (trail_ids (d :: dc ++ ds')).Perm (trail_ids (dc ++ (ds' ++ [d]))) := by
        unfold trail_ids
        apply List.Perm.map
        rw [List.cons_append, ← List.append_assoc]
        exact (List.perm_append_singleton d (dc ++ ds')).symm
      rw [hperm.mem_iff]; exact h8 i


/-- The push branch of a walk step keeps the invariant. -/
theorem walk_step_push {adj2 : List (List AdjEdge)} {E start : Nat}
    (hE : ∀ x e, e ∈ row2 adj2 x → e.id < E) {s : WalkState}
    (hinv : WalkInv adj2 E start s) {u : Nat} (hu : s.st.getLast? = some u)
    (hi : skip_used (row2 adj2 u) s.used (s.it.getD u 0) ≠ (row2 adj2 u).length) :
    WalkInv adj2 E start (walk_step adj2 u s) := by
  obtain ⟨p, dc, ds, h1, h2, h3, h4, h5, h6, h7, h8, h9, h10⟩ := hinv
  have hlt : skip_used (row2 adj2 u) s.used (s.it.getD u 0) < (row2 adj2 u).length :=
    lt_of_le_of_ne (skip_used_le _ _ _ (h9 u).1) hi
  have hmem := getD_mem (row2 adj2 u) _ ⟨0, 0⟩ hlt
  have hun := skip_used_stop _ _ _ hlt
  have hid := hE u _ hmem
  have hstep : walk_step adj2 u s =
      { st := s.st ++ [((row2 adj2 u).getD
          (skip_used (row2 adj2 u) s.used (s.it.getD u 0)) ⟨0, 0⟩).dest],
        it := s.it.set u (skip_used (row2 adj2 u) s.used (s.it.getD u 0)),
        used := s.used.set ((row2 adj2 u).getD
          (skip_used (row2 adj2 u) s.used (s.it.getD u 0)) ⟨0, 0⟩).id true,
        circuit := s.circuit } := by
    unfold walk_step
    simp only
    rw [if_neg hi]
  rw [hstep]
  generalize (row2 adj2 u).getD (skip_used (row2 adj2 u) s.used (s.it.getD u 0)) ⟨0, 0⟩ = e
    at hmem hun hid
  have hut : u = trail_end start ds := by
    have := getLast?_start_dests start ds
    rw [h5, hu] at this
    exact Option.some.inj this
  have hgrow : ∀ i, s.used.getD i false = true → (s.used.set e.id true).getD i false = true :=
    fun i hi' => (getD_set_true _ _ _ (h7 ▸ hid)).2 (Or.inr hi')
  have hnew : e.id ∉ trail_ids (dc ++ ds) := fun hm => by
    have := (h8 e.id).2 hm
    rw [hun] at this; cases this
  refine ⟨p, dc, ds ++ [(u, e)], h1, h2, h3, ?_, ?_, ?_, ?_, ?_, ?_, ?_⟩
  · rw [trailD_append]
    exact ⟨h4, hut, hut ▸ hmem, trivial⟩
  · simp only
    rw [← h5]
    unfold trail_dests
    rw [List.map_append]
    rfl
  · rw [← List.append_assoc]
    unfold trail_ids at hnew h6 ⊢
    rw [List.map_append, List.nodup_append]
    refine ⟨h6, by simp, ?_⟩
    intro a ha hb
    simp only [List.map_cons, List.map_nil, List.mem_singleton] at hb
    subst hb
    exact hnew ha
  · simp only [List.length_set]; exact h7
  · intro i
    rw [getD_set_true _ _ _ (h7 ▸ hid), h8 i, ← List.append_assoc]
    unfold trail_ids
    simp only [List.map_append, List.mem_append, List.map_cons, List.map_nil,
      List.mem_singleton]
    tauto
  · intro x
    by_cases hx : u = x
    · subst hx
      refine ⟨getD_set_self_le _ _ _ _ (le_of_lt hlt), fun j hj => ?_⟩
      exact hgrow _ (cursor_after_skip (h9 u).2 j (getD_set_self_lt _ _ _ _ hj))
    · rw [getD_set_other _ _ _ _ hx]
      exact ⟨(h9 x).1, fun j hj => hgrow _ ((h9 x).2 j hj)⟩
  · intro c hc e' he'
    exact hgrow _ (h10 c hc e' he')

/-- Every step of the walk keeps the invariant or finishes. -/
theorem walk_step_inv {adj2 : List (List AdjEdge)} {E start : Nat}
    (hE : ∀ x e, e ∈ row2 adj2 x → e.id < E) (hstuck : StuckOK adj2 start)
    {s : WalkState} (hinv : WalkInv adj2 E start s) {u : Nat} (hu : s.st.getLast? = some u) :
    WalkInv adj2 E start (walk_step adj2 u s) ∨
      ((walk_step adj2 u s).st = [] ∧ WalkDone adj2 start (walk_step adj2 u s).circuit) := by
  by_cases hi : skip_used (row2 adj2 u) s.used (s.it.getD u 0) = (row2 adj2 u).length
  · exact walk_step_pop hstuck hinv hu hi
  · exact Or.inl (walk_step_push hE hinv hu hi)

/-- The walk loop returns the vertex sequence of a closed trail (reversed). -/
theorem walk_loop_done {adj2 : List (List AdjEdge)} {E start : Nat}
    (hE : ∀ x e, e ∈ row2 adj2 x → e.id < E) (hstuck : StuckOK adj2 start) :
    ∀ (fuel : Nat) (s : WalkState) (c : List Nat),
      (WalkInv adj2 E start s ∨ (s.st = [] ∧ WalkDone adj2 start s.circuit)) →
      walk_loop adj2 fuel s = some c → WalkDone adj2 start c := by
  intro fuel
  induction fuel with
  | zero =>
    intro s c hs h
    rw [walk_loop] at h
    split_ifs at h with h0
    cases h
    rcases hs with ⟨p, dc, ds, _, _, _, _, h5, _⟩ | ⟨_, hd⟩
    · rw [h0] at h5; cases h5
    · exact hd
  | succ fuel ih =>
    intro s c hs h
    rw [walk_loop] at h
    cases hl : s.st.getLast? with
    | none =>
      rw [hl] at h
      simp only [Option.some.injEq] at h
      subst h
      rcases hs with ⟨p, dc, ds, _, _, _, _, h5, _⟩ | ⟨_, hd⟩
      · rw [List.getLast?_eq_none_iff] at hl
        rw [hl] at h5; cases h5
      · exact hd
    | some u =>
      rw [hl] at h
      simp only at h
      rcases hs with hinv | ⟨h0, _⟩
      · exact ih _ c (walk_step_inv hE hstuck hinv hl) h
      · rw [h0] at hl; cases hl

theorem walkInv_init (adj2 : List (List AdjEdge)) (n E start : Nat) :
    WalkInv adj2 E start
      { st := [start], it := List.replicate n 0, used := List.replicate E false,
        circuit := [] } := by
  refine ⟨start, [], [], trivial, rfl, rfl, trivial, rfl, List.nodup_nil, by simp, ?_, ?_, ?_⟩
  · intro i
    simp only [List.getD_eq_getElem?_getD, List.getElem?_replicate]
    constructor
    · intro h; split_ifs at h <;> cases h
    · intro h; cases h
  · intro u
    have : (List.replicate n 0).getD u 0 = 0 := by
      simp only [List.getD_eq_getElem?_getD, List.getElem?_replicate]
      split_ifs <;> rfl
    rw [this]
    exact ⟨Nat.zero_le _, fun j hj => absurd hj (Nat.not_lt_zero _)⟩
  · intro c hc; cases hc

/-- The Hierholzer walk returns a closed trail from `start` that uses distinct edges
and exhausts every vertex it visits. -/
theorem hierholzer_walk_done (n : Nat) (b : BuildState) (start : Nat)
    (hE : ∀ x e, e ∈ row2 b.adj2 x → e.id < b.eid) (hstuck : StuckOK b.adj2 start)
    {c : List Nat} (h : hierholzer_walk n b start = some c) :
    WalkDone b.adj2 start c.reverse := by
  unfold hierholzer_walk at h
  rw [Option.map_eq_some'] at h
  obtain ⟨c0, h0, rfl⟩ := h
  rw [List.reverse_reverse]
  exact walk_loop_done hE hstuck _ _ c0 (Or.inl (walkInv_init b.adj2 n b.eid start)) h0


theorem mem_rows_dir (el : List (Nat × Nat)) (x : Nat) (e : AdjEdge) :
    e ∈ rows_of entry_dir el x ↔ el[e.id]? = some (x, e.dest) := by
  rw [mem_rows_of]
  constructor
  · rintro ⟨k, ⟨a, b⟩, hk, hf⟩
    unfold entry_dir at hf
    simp only at hf
    split_ifs at hf with h
    cases hf
    subst h
    exact hk
  · intro h
    refine ⟨e.id, (x, e.dest), h, ?_⟩
    unfold entry_dir
    simp

theorem mem_rows_und (el : List (Nat × Nat)) (x : Nat) (e : AdjEdge) :
    e ∈ rows_of entry_und el x ↔
      el[e.id]? = some (x, e.dest) ∨ (e.dest ≠ x ∧ el[e.id]? = some (e.dest, x)) := by
  rw [mem_rows_of]
  constructor
  · rintro ⟨k, ⟨a, b⟩, hk, hf⟩
    unfold entry_und at hf
    simp only at hf
    split_ifs at hf with h1 h2
    · cases hf; subst h1; exact Or.inl hk
    · cases hf; subst h2; exact Or.inr ⟨h1, hk⟩
  · rintro (h | ⟨h1, h2⟩)
    · refine ⟨e.id, (x, e.dest), h, ?_⟩
      unfold entry_und
      simp
    · refine ⟨e.id, (e.dest, x), h2, ?_⟩
      unfold entry_und
      simp [h1]

theorem idx_inj {l : List (Nat × Nat)} (hnd : l.Nodup) {i j : Nat} {p : Nat × Nat}
    (hi : l[i]? = some p) (hj : l[j]? = some p) : i = j :=
  List.getElem?_inj (getElem?_lt hi) hnd (hi.trans hj.symm)

/-- The directed build gives an edge index of the graph. -/
theorem edgeIndex_directed {g : Graph} (hwf : g.WF) (hd : g.directed = true) :
    EdgeIndex g (build_directed g).adj2 (build_directed g).eid := by
  obtain ⟨_, hE, hrow⟩ := build_directed_spec g
  have hnd := g.darts_nodup hwf
  have hm : ∀ x e, e ∈ row2 (build_directed g).adj2 x ↔ g.darts[e.id]? = some (x, e.dest) :=
    fun x e => by rw [hrow, mem_rows_dir]
  refine ⟨?_, ?_, ?_, ?_, ?_, ?_, ?_⟩
  · intro x e he
    rw [hE]; exact getElem?_lt ((hm x e).1 he)
  · intro x e he
    exact (g.mem_darts_wf hwf _ _).1 (List.mem_iff_getElem?.2 ⟨_, (hm x e).1 he⟩)
  · intro x v hv
    obtain ⟨k, hk⟩ := List.getElem?_of_mem ((g.mem_darts_wf hwf x v).2 hv)
    exact ⟨⟨v, k⟩, (hm x _).2 hk, rfl⟩
  · intro i hi
    rw [hE] at hi
    refine ⟨g.darts[i].1, ⟨g.darts[i].2, i⟩, (hm _ _).2 ?_, rfl⟩
    simp [List.getElem?_eq_getElem hi]
  · intro x e e1 he he1 hde
    have h1 := (hm x e).1 he
    have h2 := (hm x e1).1 he1
    rw [← hde] at h2
    have := idx_inj hnd h1 h2
    cases e; cases e1
    simp only at hde this
    rw [hde, this]
  · intro x e x1 e1 he he1 hid
    have h1 := (hm x e).1 he
    have h2 := (hm x1 e1).1 he1
    rw [← hid, h1] at h2
    simp only [Option.some.injEq, Prod.mk.injEq] at h2
    left
    refine ⟨h2.1.symm, ?_⟩
    cases e; cases e1
    simp only at hid h2
    rw [hid, h2.2]
  · intro hu; rw [hd] at hu; cases hu

theorem Graph.mem_uedges {g : Graph} (hwf : g.WF) (a b : Nat) :
    (a, b) ∈ g.uedges ↔ b ∈ g.nbrs a ∧ a < b := by
  unfold Graph.uedges
  rw [List.mem_filter, g.mem_darts_wf hwf]
  simp

theorem Graph.uedges_nodup {g : Graph} (hwf : g.WF) : g.uedges.Nodup :=
  (g.darts_nodup hwf).filter _

/-- The undirected build gives an edge index of the graph. -/
theorem edgeIndex_undirected {g : Graph} (hwf : g.WF) (hu : g.directed = false) :
    EdgeIndex g (build_undirected g).adj2 (build_undirected g).eid := by
  obtain ⟨_, hE, hrow⟩ := build_undirected_spec hwf hu
  have hnd := g.uedges_nodup hwf
  have hsym := hwf.2.2.2.2 hu
  have hm : ∀ x e, e ∈ row2 (build_undirected g).adj2 x ↔
      g.uedges[e.id]? = some (x, e.dest) ∨ (e.dest ≠ x ∧ g.uedges[e.id]? = some (e.dest, x)) :=
    fun x e => by rw [hrow, mem_rows_und]
  have hue : ∀ {k a b}, g.uedges[k]? = some (a, b) → b ∈ g.nbrs a ∧ a < b :=
    fun h => (g.mem_uedges hwf _ _).1 (List.mem_iff_getElem?.2 ⟨_, h⟩)
  refine ⟨?_, ?_, ?_, ?_, ?_, ?_, ?_⟩
  · intro x e he
    rw [hE]
    rcases (hm x e).1 he with h | ⟨_, h⟩ <;> exact getElem?_lt h
  · intro x e he
    rcases (hm x e).1 he with h | ⟨_, h⟩
    · exact (hue h).1
    · exact hsym _ _ (hue h).1
  · intro x v hv
    have hne : x ≠ v := fun h => hwf.2.2.1 x (h ▸ hv)
    rcases Nat.lt_or_gt_of_ne hne with hlt | hgt
    · obtain ⟨k, hk⟩ := List.getElem?_of_mem ((g.mem_uedges hwf x v).2 ⟨hv, hlt⟩)
      exact ⟨⟨v, k⟩, (hm x _).2 (Or.inl hk), rfl⟩
    · obtain ⟨k, hk⟩ := List.getElem?_of_mem ((g.mem_uedges hwf v x).2 ⟨hsym _ _ hv, hgt⟩)
      exact ⟨⟨v, k⟩, (hm x _).2 (Or.inr ⟨fun h => hne h.symm, hk⟩), rfl⟩
  · intro i hi
    rw [hE] at hi
    refine ⟨g.uedges[i].1, ⟨g.uedges[i].2, i⟩, (hm _ _).2 (Or.inl ?_), rfl⟩
    simp [List.getElem?_eq_getElem hi]
  · intro x e e1 he he1 hde
    have key : e.id = e1.id := by
      rcases (hm x e).1 he with h1 | ⟨_, h1⟩ <;> rcases (hm x e1).1 he1 with h2 | ⟨_, h2⟩
      · rw [← hde] at h2; exact idx_inj hnd h1 h2
      · rw [← hde] at h2
        have a1 := (hue h1).2; have a2 := (hue h2).2; omega
      · rw [← hde] at h2
        have a1 := (hue h1).2; have a2 := (hue h2).2; omega
      · rw [← hde] at h2; exact idx_inj hnd h1 h2
    cases e; cases e1
    simp only at hde key
    rw [hde, key]
  · intro x e x1 e1 he he1 hid
    have hstruct : ∀ (a b : AdjEdge), a.dest = b.dest → a.id = b.id → b = a := by
      intro a b h1 h2; cases a; cases b; simp only at h1 h2; rw [h1, h2]
    rcases (hm x e).1 he with h1 | ⟨_, h1⟩ <;> rcases (hm x1 e1).1 he1 with h2 | ⟨_, h2⟩ <;>
      rw [← hid, h1] at h2 <;>
      simp only [Option.some.injEq, Prod.mk.injEq] at h2
    · exact Or.inl ⟨h2.1.symm, hstruct _ _ h2.2 hid⟩
    · exact Or.inr ⟨hu, h2.2.symm ▸ rfl, h2.1.symm⟩
    · exact Or.inr ⟨hu, h2.1.symm, h2.2.symm⟩
    · exact Or.inl ⟨h2.2.symm, hstruct _ _ h2.1 hid⟩
  · intro _ x e he
    rcases (hm x e).1 he with h | ⟨hne, h⟩
    · refine (hm _ _).2 (Or.inr ⟨?_, h⟩)
      have := (hue h).2
      simp only
      omega
    · exact (hm _ _).2 (Or.inl h)


theorem mem_trail_pairs {T : List (Nat × AdjEdge)} {a b : Nat} :
    (a, b) ∈ trail_pairs T ↔ ∃ d ∈ T, d.1 = a ∧ d.2.dest = b := by
  unfold trail_pairs
  rw [List.mem_map]
  constructor
  · rintro ⟨d, hd, he⟩
    simp only [Prod.mk.injEq] at he
    exact ⟨d, hd, he.1, he.2⟩
  · rintro ⟨d, hd, rfl, rfl⟩; exact ⟨d, hd, rfl⟩

theorem mem_trail_ids {T : List (Nat × AdjEdge)} {i : Nat} :
    i ∈ trail_ids T ↔ ∃ d ∈ T, d.2.id = i := by
  unfold trail_ids
  rw [List.mem_map]

/-- Two steps of a trail with the same edge id are the same step. -/
theorem trail_step_eq_of_id {T : List (Nat × AdjEdge)} (hnd : (trail_ids T).Nodup)
    {d d1 : Nat × AdjEdge} (hd : d ∈ T) (hd1 : d1 ∈ T) (h : d.2.id = d1.2.id) : d = d1 := by
  unfold trail_ids at hnd
  exact List.inj_on_of_nodup_map hnd hd hd1 h

/-- The vertex pairs of a trail are adjacency entries of the graph. -/
theorem trail_pairs_mem {g : Graph} {adj2 : List (List AdjEdge)} {E : Nat}
    (hx : EdgeIndex g adj2 E) {T : List (Nat × AdjEdge)}
    (hT : ∀ d ∈ T, d.2 ∈ row2 adj2 d.1) {a b : Nat} (h : (a, b) ∈ trail_pairs T) :
    b ∈ g.nbrs a := by
  obtain ⟨d, hd, rfl, rfl⟩ := mem_trail_pairs.1 h
  exact hx.dest_mem _ _ (hT d hd)

/-- A trail with distinct edge ids passes each vertex pair at most once. -/
theorem trail_pairs_nodup {g : Graph} {adj2 : List (List AdjEdge)} {E : Nat}
    (hx : EdgeIndex g adj2 E) {T : List (Nat × AdjEdge)}
    (hT : ∀ d ∈ T, d.2 ∈ row2 adj2 d.1) (hnd : (trail_ids T).Nodup) :
    (trail_pairs T).Nodup := by
  unfold trail_pairs
  apply List.Nodup.map_on
  · intro d hd d1 hd1 he
    simp only [Prod.mk.injEq] at he
    have h1 := hT d hd
    have h2 := hT d1 hd1
    rw [he.1] at h1
    have := hx.dest_inj _ _ _ h1 h2 he.2
    exact Prod.ext he.1 this
  · exact List.Nodup.of_map _ hnd

/-- In an undirected graph a trail with distinct edge ids does not pass an edge in
both directions. -/
theorem trail_pairs_no_reverse {g : Graph} (hwf : g.WF) {adj2 : List (List AdjEdge)} {E : Nat}
    (hx : EdgeIndex g adj2 E) (hu : g.directed = false) {T : List (Nat × AdjEdge)}
    (hT : ∀ d ∈ T, d.2 ∈ row2 adj2 d.1) (hnd : (trail_ids T).Nodup) {a b : Nat}
    (h : (a, b) ∈ trail_pairs T) : (b, a) ∉ trail_pairs T := by
  intro h'
  obtain ⟨d, hd, rfl, rfl⟩ := mem_trail_pairs.1 h
  obtain ⟨d1, hd1, h1, h2⟩ := mem_trail_pairs.1 h'
  have e1 := hT d hd
  have e2 := hT d1 hd1
  have e3 := hx.sym hu _ _ e2
  rw [h2, h1] at e3
  have := hx.dest_inj _ _ _ e1 e3 rfl
  have hid : d.2.id = d1.2.id := by rw [this]
  have hdd := trail_step_eq_of_id hnd hd hd1 hid
  rw [← hdd] at h1
  exact hwf.2.2.1 d.1 (by
    have := hx.dest_mem _ _ e1
    rw [← h1] at this; exact this)

/-- If the edge of an entry of `t` is on the trail, the trail passes that entry, or
(undirected) its reverse. -/
theorem trail_pairs_of_used {g : Graph} {adj2 : List (List AdjEdge)} {E : Nat}
    (hx : EdgeIndex g adj2 E) {T : List (Nat × AdjEdge)}
    (hT : ∀ d ∈ T, d.2 ∈ row2 adj2 d.1) {t : Nat} {e : AdjEdge} (he : e ∈ row2 adj2 t)
    (hid : e.id ∈ trail_ids T) :
    (t, e.dest) ∈ trail_pairs T ∨ (g.directed = false ∧ (e.dest, t) ∈ trail_pairs T) := by
  obtain ⟨d, hd, hde⟩ := mem_trail_ids.1 hid
  rcases hx.id_inj _ _ _ _ he (hT d hd) hde.symm with ⟨h1, h2⟩ | ⟨h0, h1, h2⟩
  · left; exact mem_trail_pairs.2 ⟨d, hd, h1, by rw [h2]⟩
  · right; exact ⟨h0, mem_trail_pairs.2 ⟨d, hd, h1, h2⟩⟩

theorem countP_src_eq (T : List (Nat × AdjEdge)) (x : Nat) :
    T.countP (fun d => d.1 == x) = (trail_pairs T).countP (fun q => q.1 == x) := by
  unfold trail_pairs
  rw [List.countP_map]
  rfl

theorem countP_dest_eq (T : List (Nat × AdjEdge)) (x : Nat) :
    T.countP (fun d => d.2.dest == x) = (trail_pairs T).countP (fun q => q.2 == x) := by
  unfold trail_pairs
  rw [List.countP_map]
  rfl


theorem trail_whole {adj2 : List (List AdjEdge)} {p start : Nat} {dc ds : List (Nat × AdjEdge)}
    (h1 : TrailD adj2 p dc) (h3 : trail_end p dc = start) (h4 : TrailD adj2 start ds) :
    TrailD adj2 p (dc ++ ds) ∧ trail_end p (dc ++ ds) = trail_end start ds := by
  refine ⟨(trailD_append adj2 p dc ds).2 ⟨h1, h3.symm ▸ h4⟩, ?_⟩
  rw [trail_end_append, h3]

/-- The trail leaves a vertex all of whose entries are used at least `out-degree`
times (directed). -/
theorem out_le_count_src {g : Graph} (hwf : g.WF) {adj2 : List (List AdjEdge)} {E : Nat}
    (hx : EdgeIndex g adj2 E) (hd : g.directed = true) {T : List (Nat × AdjEdge)}
    (hT : ∀ d ∈ T, d.2 ∈ row2 adj2 d.1) {t : Nat}
    (hall : ∀ e ∈ row2 adj2 t, e.id ∈ trail_ids T) :
    g.out_degree t ≤ T.countP (fun d => d.1 == t) := by
  rw [countP_src_eq, List.countP_eq_length_filter]
  have hsub : (g.nbrs t).map (fun v => (t, v)) ⊆
      (trail_pairs T).filter (fun q => q.1 == t) := by
    intro q hq
    obtain ⟨v, hv, rfl⟩ := List.mem_map.1 hq
    obtain ⟨e, he, rfl⟩ := hx.has_entry t v hv
    rw [List.mem_filter]
    refine ⟨?_, by simp⟩
    rcases trail_pairs_of_used hx hT he (hall e he) with h | ⟨h, _⟩
    · exact h
    · rw [hd] at h; cases h
  have hnd : ((g.nbrs t).map (fun v => (t, v))).Nodup :=
    (hwf.2.2.2.1 t).map (fun a b h => by simpa using h)
  have := (List.subperm_of_subset hnd hsub).length_le
  rw [List.length_map] at this
  exact this

/-- A trail with distinct edges enters a vertex at most `in-degree` times. -/
theorem count_dest_le_in {g : Graph} (hwf : g.WF) {adj2 : List (List AdjEdge)} {E : Nat}
    (hx : EdgeIndex g adj2 E) {T : List (Nat × AdjEdge)}
    (hT : ∀ d ∈ T, d.2 ∈ row2 adj2 d.1) (hnd : (trail_ids T).Nodup) (t : Nat) :
    T.countP (fun d => d.2.dest == t) ≤ g.in_degree t := by
  unfold Graph.in_degree
  rw [countP_dest_eq, List.countP_eq_length_filter, List.countP_eq_length_filter]
  have hsub : (trail_pairs T).filter (fun q => q.2 == t) ⊆
      g.darts.filter (fun q => q.2 == t) := by
    intro q hq
    rw [List.mem_filter] at hq ⊢
    refine ⟨?_, hq.2⟩
    obtain ⟨a, b⟩ := q
    exact (g.mem_darts_wf hwf a b).2 (trail_pairs_mem hx hT hq.1)
  exact (List.subperm_of_subset ((trail_pairs_nodup hx hT hnd).filter _) hsub).length_le

/-- In a balanced directed graph the walk can only get stuck where its trail began. -/
theorem stuckOK_directed {g : Graph} (hwf : g.WF) {adj2 : List (List AdjEdge)} {E : Nat}
    (hx : EdgeIndex g adj2 E) (hd : g.directed = true)
    (hbal : ∀ v, g.in_degree v = g.out_degree v) (start : Nat) : StuckOK adj2 start := by
  intro p dc ds h1 h3 h4 hnd hall
  by_contra hne
  obtain ⟨hT, hend⟩ := trail_whole h1 h3 h4
  have hmem := trailD_mem _ _ hT
  have hb := trailD_balance _ _ hT (trail_end start ds)
  rw [hend, if_pos rfl, if_neg hne] at hb
  have ha := out_le_count_src hwf hx hd hmem hall
  have hc := count_dest_le_in hwf hx hmem hnd (trail_end start ds)
  have := hbal (trail_end start ds)
  omega

/-- In an undirected graph, the steps of a trail at a vertex all of whose entries are
used number exactly its degree. -/
theorem count_incident_eq_deg {g : Graph} (hwf : g.WF) {adj2 : List (List AdjEdge)} {E : Nat}
    (hx : EdgeIndex g adj2 E) (hu : g.directed = false) {T : List (Nat × AdjEdge)}
    (hT : ∀ d ∈ T, d.2 ∈ row2 adj2 d.1) (hnd : (trail_ids T).Nodup) {t : Nat}
    (hall : ∀ e ∈ row2 adj2 t, e.id ∈ trail_ids T) :
    T.countP (fun d => d.1 == t) + T.countP (fun d => d.2.dest == t) = (g.nbrs t).length := by
  rw [countP_src_eq, countP_dest_eq]
  have hP := trail_pairs_nodup hx hT hnd
  have e1 : (trail_pairs T).countP (fun q => q.2 == t)
      = ((trail_pairs T).map Prod.swap).countP (fun q => q.1 == t) := by
    rw [List.countP_map]; rfl
  rw [e1, ← List.countP_append, List.countP_eq_length_filter]
  have hQ : (trail_pairs T ++ (trail_pairs T).map Prod.swap).Nodup := by
    rw [List.nodup_append]
    refine ⟨hP, hP.map Prod.swap_injective, ?_⟩
    intro q hq hq'
    obtain ⟨q1, h1, rfl⟩ := List.mem_map.1 hq'
    obtain ⟨a, b⟩ := q1
    exact trail_pairs_no_reverse hwf hx hu hT hnd h1 hq
  have hnb : ((g.nbrs t).map (fun v => (t, v))).Nodup :=
    (hwf.2.2.2.1 t).map (fun a b h => by simpa using h)
  have hperm : ((trail_pairs T ++ (trail_pairs T).map Prod.swap).filter
      (fun q => q.1 == t)).Perm ((g.nbrs t).map (fun v => (t, v))) := by
    rw [List.perm_ext_iff_of_nodup (hQ.filter _) hnb]
    rintro ⟨a, b⟩
    rw [List.mem_filter, List.mem_append, List.mem_map, List.mem_map]
    constructor
    · rintro ⟨h | ⟨q, hq, he⟩, hat⟩
      · have hat' : a = t := by simpa using hat
        subst hat'
        exact ⟨b, trail_pairs_mem hx hT h, rfl⟩
      · have hat' : a = t := by simpa using hat
        subst hat'
        obtain ⟨c, d⟩ := q
        simp only [Prod.swap_prod_mk, Prod.mk.injEq] at he
        obtain ⟨rfl, rfl⟩ := he
        exact ⟨c, hwf.2.2.2.2 hu _ _ (trail_pairs_mem hx hT hq), rfl⟩
    · rintro ⟨v, hv, he⟩
      simp only [Prod.mk.injEq] at he
      obtain ⟨rfl, rfl⟩ := he
      refine ⟨?_, by simp⟩
      obtain ⟨e, he, rfl⟩ := hx.has_entry _ _ hv
      rcases trail_pairs_of_used hx hT he (hall e he) with h | ⟨_, h⟩
      · exact Or.inl h
      · exact Or.inr ⟨_, h, rfl⟩
  rw [hperm.length_eq, List.length_map]

/-- In an undirected graph with even degrees the walk can only get stuck where its
trail began. -/
theorem stuckOK_undirected {g : Graph} (hwf : g.WF) {adj2 : List (List AdjEdge)} {E : Nat}
    (hx : EdgeIndex g adj2 E) (hu : g.directed = false)
    (heven : ∀ v, (g.nbrs v).length % 2 = 0) (start : Nat) : StuckOK adj2 start := by
  intro p dc ds h1 h3 h4 hnd hall
  by_contra hne
  obtain ⟨hT, hend⟩ := trail_whole h1 h3 h4
  have hmem := trailD_mem _ _ hT
  have hb := trailD_balance _ _ hT (trail_end start ds)
  rw [hend, if_pos rfl, if_neg hne] at hb
  have hc := count_incident_eq_deg hwf hx hu hmem hnd hall
  have := heven (trail_end start ds)
  omega


theorem pairs_trail {adj2 : List (List AdjEdge)} :
    ∀ (ds : List (Nat × AdjEdge)) (a : Nat), TrailD adj2 a ds →
      pairs (a :: trail_dests ds) = trail_pairs ds := by
  intro ds
  induction ds with
  | nil => intro a _; rfl
  | cons d ds ih =>
    intro a h
    obtain ⟨h1, _, h3⟩ := h
    have := ih _ h3
    unfold pairs trail_dests trail_pairs at this ⊢
    simp only [List.map_cons, List.tail_cons, List.zip_cons_cons] at this ⊢
    rw [this, h1]

theorem trail_src_mem {adj2 : List (List AdjEdge)} :
    ∀ (ds : List (Nat × AdjEdge)) (a : Nat), TrailD adj2 a ds →
      ∀ d ∈ ds, d.1 ∈ a :: trail_dests ds := by
  intro ds
  induction ds with
  | nil => intro a _ d hd; cases hd
  | cons x ds ih =>
    intro a h d hd
    obtain ⟨h1, _, h3⟩ := h
    rcases List.mem_cons.1 hd with rfl | hd
    · rw [h1]; exact List.mem_cons_self _ _
    · have := ih _ h3 d hd
      unfold trail_dests at this ⊢
      rw [List.map_cons]
      exact List.mem_cons_of_mem _ this

theorem trail_dest_mem (ds : List (Nat × AdjEdge)) (a : Nat) :
    ∀ d ∈ ds, d.2.dest ∈ a :: trail_dests ds := by
  intro d hd
  unfold trail_dests
  exact List.mem_cons_of_mem _ (List.mem_map.2 ⟨d, hd, rfl⟩)

/-- What a finished walk gives when the start reaches every vertex that has an edge:
the returned circuit is closed, has `E + 1` vertices, its consecutive pairs are
adjacency entries, no pair repeats, and every entry is passed (undirected: in one of
the two directions). -/
theorem walkDone_euler {g : Graph} {adj2 : List (List AdjEdge)} {E : Nat}
    (hx : EdgeIndex g adj2 E) {start : Nat}
    (hconn : ∀ x, g.nbrs x ≠ [] → Reach g.nbrs start x) {c : List Nat}
    (h : WalkDone adj2 start c.reverse) :
    c.length = E + 1 ∧ c.head? = some start ∧ c.getLast? = some start ∧
    (∀ q ∈ pairs c, q.2 ∈ g.nbrs q.1) ∧ (pairs c).Nodup ∧
    (∀ u v, v ∈ g.nbrs u →
      (u, v) ∈ pairs c ∨ (g.directed = false ∧ (v, u) ∈ pairs c)) ∧
    ∃ ds, TrailD adj2 start ds ∧ (trail_ids ds).Nodup ∧ pairs c = trail_pairs ds := by
  obtain ⟨ds, h1, h2, h3, h4, h5⟩ := h
  rw [List.reverse_reverse] at h2
  have hmem := trailD_mem _ _ h1
  have hexh : ∀ v ∈ c, ∀ e ∈ row2 adj2 v, e.id ∈ trail_ids ds :=
    fun v hv e he => h5 v (List.mem_reverse.2 hv) e he
  have hpc : pairs c = trail_pairs ds := by rw [h2]; exact pairs_trail ds start h1
  have hon : ∀ a b, (a, b) ∈ trail_pairs ds → a ∈ c ∧ b ∈ c := by
    intro a b hab
    obtain ⟨d, hd, rfl, rfl⟩ := mem_trail_pairs.1 hab
    rw [h2]
    exact ⟨trail_src_mem ds start h1 d hd, trail_dest_mem ds start d hd⟩
  have hused : ∀ x, x ∈ c → ∀ y ∈ g.nbrs x,
      (x, y) ∈ trail_pairs ds ∨ (g.directed = false ∧ (y, x) ∈ trail_pairs ds) := by
    intro x hxc y hy
    obtain ⟨e, he, rfl⟩ := hx.has_entry x y hy
    exact trail_pairs_of_used hx hmem he (hexh x hxc e he)
  have hreach : ∀ x, Reach g.nbrs start x → x ∈ c := by
    intro x hr
    induction hr with
    | refl => rw [h2]; exact List.mem_cons_self _ _
    | tail _ hbc ih =>
      rcases hused _ ih _ hbc with hp | ⟨_, hp⟩
      · exact (hon _ _ hp).2
      · exact (hon _ _ hp).1
  have hallv : ∀ x, g.nbrs x ≠ [] → x ∈ c := fun x hne => hreach x (hconn x hne)
  have hall : ∀ i, i < E → i ∈ trail_ids ds := by
    intro i hi
    obtain ⟨x, e, he, rfl⟩ := hx.id_surj i hi
    exact hexh x (hallv x (List.ne_nil_of_mem (hx.dest_mem x e he))) e he
  have hlen : (trail_ids ds).length = E := by
    have : (trail_ids ds).toFinset = Finset.range E := by
      ext i
      rw [List.mem_toFinset, Finset.mem_range]
      refine ⟨fun hi => ?_, hall i⟩
      obtain ⟨d, hd, rfl⟩ := mem_trail_ids.1 hi
      exact hx.id_lt _ _ (hmem d hd)
    rw [← List.toFinset_card_of_nodup h4, this, Finset.card_range]
  refine ⟨?_, by rw [h2]; rfl, ?_, ?_, ?_, ?_, ds, h1, h4, hpc⟩
  · rw [h2]
    unfold trail_dests trail_ids at *
    rw [List.length_cons, List.length_map]
    rw [List.length_map] at hlen
    rw [hlen]
  · rw [h2, getLast?_start_dests, h3]
  · intro q hq
    rw [hpc] at hq
    obtain ⟨a, b⟩ := q
    exact trail_pairs_mem hx hmem hq
  · rw [hpc]; exact trail_pairs_nodup hx hmem h4
  · intro u v hv
    rw [hpc]
    exact hused u (hallv u (List.ne_nil_of_mem hv)) v hv


theorem Graph.lt_of_nbrs_ne_nil {g : Graph} (hwf : g.WF) {x : Nat} (h : g.nbrs x ≠ []) :
    x < g.n := by
  by_contra hx
  exact h (g.nbrs_eq_nil_of_le (by rw [hwf.1]; omega))

theorem row2_isEmpty_iff {g : Graph} {adj2 : List (List AdjEdge)} {E : Nat}
    (hx : EdgeIndex g adj2 E) (i : Nat) : (row2 adj2 i).isEmpty = (g.nbrs i).isEmpty := by
  cases h1 : g.nbrs i with
  | nil =>
    cases h2 : row2 adj2 i with
    | nil => rfl
    | cons e t =>
      have := hx.dest_mem i e (by rw [h2]; exact List.mem_cons_self _ _)
      rw [h1] at this; cases this
  | cons v t =>
    obtain ⟨e, he, _⟩ := hx.has_entry i v (by rw [h1]; exact List.mem_cons_self _ _)
    cases h2 : row2 adj2 i with
    | nil => rw [h2] at he; cases he
    | cons e t => rfl

theorem count_pair_of_nodup :
    ∀ (l : List (Nat × Nat)), l.Nodup → ∀ q, l.count q = if q ∈ l then 1 else 0 := by
  intro l
  induction l with
  | nil => intro _ q; simp
  | cons a l ih =>
    intro hnd q
    rw [List.nodup_cons] at hnd
    rw [List.count_cons, ih hnd.2 q]
    by_cases hq : a = q
    · subst hq
      simp [hnd.1]
    · have hq' : ¬ q = a := fun e => hq e.symm
      simp [hq, hq']

/-- What `euler_find` returns for an undirected graph with an edge when it answers
`exists = true`: the checks passed and the circuit is the one of `hierholzer_undirected`. -/
theorem euler_find_undirected_true {g : Graph} (hu : g.directed = false)
    (hne : has_any_edges g = true) {r : EulerResult} (hr : euler_find g = some r)
    (hex : r.exists = true) :
    undirected_connected_ignoring_isolated g = true ∧
    (out_deg g).any (fun d => d % 2 != 0) = false ∧
    hierholzer_undirected g = some r.circuit := by
  unfold euler_find at hr
  rw [hu, hne] at hr
  simp only [Bool.not_true, Bool.not_false, Bool.false_eq_true, if_false, if_true] at hr
  split_ifs at hr with h2 h3
  · cases hr; cases hex
  · cases hr; cases hex
  · rw [Option.map_eq_some'] at hr
    obtain ⟨c, hc, rfl⟩ := hr
    refine ⟨by simpa using h2, ?_, hc⟩
    cases h : (out_deg g).any (fun d => d % 2 != 0)
    · rfl
    · exact absurd h h3

/-- The circuit built for an undirected graph that passed the checks. -/
theorem hierholzer_undirected_euler {g : Graph} (hwf : g.WF) (hu : g.directed = false)
    (hne : has_any_edges g = true)
    (hconn : undirected_connected_ignoring_isolated g = true)
    (heven : (out_deg g).any (fun d => d % 2 != 0) = false)
    {c : List Nat} (hc : hierholzer_undirected g = some c) :
    ∃ start, c.length = g.uedges.length + 1 ∧ c.head? = some start ∧
      c.getLast? = some start ∧ (∀ q ∈ pairs c, q.2 ∈ g.nbrs q.1) ∧ (pairs c).Nodup ∧
      (∀ u v, v ∈ g.nbrs u → (u, v) ∈ pairs c ∨ (v, u) ∈ pairs c) ∧
      (∀ u v, (u, v) ∈ pairs c → (v, u) ∉ pairs c) := by
  have hx := edgeIndex_undirected hwf hu
  obtain ⟨_, hE, _⟩ := build_undirected_spec hwf hu
  unfold hierholzer_undirected at hc
  simp only at hc
  have hpred : (fun i => !(row2 (build_undirected g).adj2 i).isEmpty)
      = (fun i => !(g.nbrs i).isEmpty) := by
    funext i; rw [row2_isEmpty_iff hx]
  rw [hpred] at hc
  cases hf : (List.range g.n).find? (fun i => !(g.nbrs i).isEmpty) with
  | none =>
    exfalso
    obtain ⟨u, hun, hune⟩ := (has_any_edges_iff g).1 hne
    have := List.find?_eq_none.1 hf u (List.mem_range.2 hun)
    simp only [Bool.not_eq_true', Bool.not_eq_false, List.isEmpty_iff] at this
    exact hune this
  | some start =>
    rw [hf] at hc
    simp only at hc
    have hsn : start < g.n := List.mem_range.1 (List.mem_of_find?_eq_some hf)
    have hsne : g.nbrs start ≠ [] := by
      have := List.find?_some hf
      simpa [List.isEmpty_iff] using this
    have hev : ∀ v, (g.nbrs v).length % 2 = 0 := by
      intro v
      by_cases hv : v < g.n
      · exact (out_deg_any_odd_iff g).1 heven v hv
      · rw [g.nbrs_eq_nil_of_le (by rw [hwf.1]; omega)]; rfl
    have hreach : ∀ x, g.nbrs x ≠ [] → Reach g.nbrs start x := fun x hxne =>
      (undirected_connected_iff hwf hu).1 hconn start x hsn (g.lt_of_nbrs_ne_nil hwf hxne)
        hsne hxne
    have hdone := hierholzer_walk_done g.n (build_undirected g) start hx.id_lt
      (stuckOK_undirected hwf hx hu hev start) hc
    obtain ⟨a1, a2, a3, a4, a5, a6, ds, b1, b2, b3⟩ := walkDone_euler hx hreach hdone
    refine ⟨start, by rw [a1, hE], a2, a3, a4, a5, ?_, ?_⟩
    · intro u v hv
      rcases a6 u v hv with h | ⟨_, h⟩
      · exact Or.inl h
      · exact Or.inr h
    · intro u v huv
      rw [b3] at huv ⊢
      exact trail_pairs_no_reverse hwf hx hu (trailD_mem _ _ b1) b2 huv

/-- Core statement, kept as a lemma for the decision theorem. -/
theorem euler_undirected_circuit_core (g : Graph) (hwf : g.WF) (hu : g.directed = false)
    (hne : ∃ u v, v ∈ g.nbrs u) (r : EulerResult) (hr : euler_find g = some r)
    (hex : r.exists = true) :
    r.circuit.length = g.num_edges + 1 ∧ r.circuit ≠ [] ∧
    r.circuit.head? = r.circuit.getLast? ∧
    (∀ q ∈ pairs r.circuit, q.2 ∈ g.nbrs q.1) ∧
    (∀ u v, v ∈ g.nbrs u →
      (pairs r.circuit).count (u, v) + (pairs r.circuit).count (v, u) = 1) := by
  obtain ⟨u, v, huv⟩ := hne
  have hany : has_any_edges g = true :=
    (has_any_edges_iff g).2 ⟨u, g.lt_of_nbrs_ne_nil hwf (List.ne_nil_of_mem huv),
      List.ne_nil_of_mem huv⟩
  obtain ⟨hconn, heven, hc⟩ := euler_find_undirected_true hu hany hr hex
  obtain ⟨start, a1, a2, a3, a4, a5, a6, a7⟩ :=
    hierholzer_undirected_euler hwf hu hany hconn heven hc
  refine ⟨?_, ?_, by rw [a2, a3], a4, ?_⟩
  · unfold Graph.num_edges; rw [hu]; exact a1
  · intro h; rw [h] at a2; cases a2
  · intro x y hxy
    rw [count_pair_of_nodup _ a5, count_pair_of_nodup _ a5]
    rcases a6 x y hxy with h | h
    · rw [if_pos h, if_neg (a7 x y h)]
    · rw [if_neg (a7 y x h), if_pos h]

/-- C5: for every well-formed undirected graph with at least one edge for which
`euler_find` returns `exists = true`, the returned circuit has exactly m+1 vertices
(m the number of undirected edges), its first and last vertices are equal, every
consecutive pair is an edge of the graph, and every undirected edge is traversed
exactly once (in one of its two directions). -/
theorem euler_undirected_circuit (g : Graph) (hwf : g.WF) (hu : g.directed = false)
    (hne : ∃ u v, v ∈ g.nbrs u) (r : EulerResult) (hr : euler_find g = some r)
    (hex : r.exists = true) :
    r.circuit.length = g.num_edges + 1 ∧ r.circuit ≠ [] ∧
    r.circuit.head? = r.circuit.getLast? ∧
    (∀ q ∈ pairs r.circuit, q.2 ∈ g.nbrs q.1) ∧
    (∀ u v, v ∈ g.nbrs u →
      (pairs r.circuit).count (u, v) + (pairs r.circuit).count (v, u) = 1) :=
  euler_undirected_circuit_core g hwf hu hne r hr hex

/-- C5 at the 4-cycle of the Euler test: the circuit is 0 1 2 3 0. -/
theorem euler_undirected_circuit_witness :
    g_cycle4.WF ∧ g_cycle4.directed = false ∧ (∃ u v, v ∈ g_cycle4.nbrs u) ∧
    euler_find g_cycle4 =
      some { «exists» := true, directed := false, circuit := [0, 1, 2, 3, 0], reason := "" } ∧
    ([0, 1, 2, 3, 0] : List Nat).length = g_cycle4.num_edges + 1 ∧
    (∀ u v, v ∈ g_cycle4.nbrs u →
      (pairs [0, 1, 2, 3, 0]).count (u, v) + (pairs [0, 1, 2, 3, 0]).count (v, u) = 1) :=
  ⟨Graph.wf_of_check _ (by decide), by decide, ⟨0, 1, by decide⟩, by decide,
   (euler_undirected_circuit g_cycle4 (Graph.wf_of_check _ (by decide)) (by decide)
      ⟨0, 1, by decide⟩
      { «exists» := true, directed := false, circuit := [0, 1, 2, 3, 0], reason := "" }
      (by decide) rfl).1,
   (euler_undirected_circuit g_cycle4 (Graph.wf_of_check _ (by decide)) (by decide)
      ⟨0, 1, by decide⟩
      { «exists» := true, directed := false, circuit := [0, 1, 2, 3, 0], reason := "" }
      (by decide) rfl).2.2.2.2⟩


/-- What `euler_find` returns for a directed graph with an arc when it answers
`exists = true`: the checks passed and the circuit is the one of `hierholzer_directed`. -/
theorem euler_find_directed_true {g : Graph} (hd : g.directed = true)
    (hne : has_any_edges g = true) {r : EulerResult} (hr : euler_find g = some r)
    (hex : r.exists = true) :
    (List.range g.n).any (fun i =>
        decide ((out_deg g).getD i 0 + (in_deg g).getD i 0 > 0) &&
          (out_deg g).getD i 0 != (in_deg g).getD i 0) = false ∧
    strongly_connected_on_non_isolated g = true ∧
    hierholzer_directed g = some r.circuit := by
  unfold euler_find at hr
  rw [hd, hne] at hr
  simp only [Bool.not_true, Bool.false_eq_true, if_false] at hr
  split_ifs at hr with h2 h3
  · cases hr; cases hex
  · cases hr; cases hex
  · rw [Option.map_eq_some'] at hr
    obtain ⟨c, hc, rfl⟩ := hr
    refine ⟨?_, by simpa using h3, hc⟩
    cases h : (List.range g.n).any (fun i =>
        decide ((out_deg g).getD i 0 + (in_deg g).getD i 0 > 0) &&
          (out_deg g).getD i 0 != (in_deg g).getD i 0)
    · rfl
    · exact absurd h h2

theorem balanced_everywhere {g : Graph} (hwf : g.WF)
    (hb : ∀ v, v < g.n → g.out_degree v + g.in_degree v ≠ 0 →
      g.in_degree v = g.out_degree v) :
    ∀ v, g.in_degree v = g.out_degree v := by
  intro v
  by_cases hv : v < g.n
  · by_cases h0 : g.out_degree v + g.in_degree v = 0
    · omega
    · exact hb v hv h0
  · have h1 : g.out_degree v = 0 := by
      unfold Graph.out_degree
      rw [g.nbrs_eq_nil_of_le (by rw [hwf.1]; omega)]; rfl
    have h2 : g.in_degree v = 0 := by
      unfold Graph.in_degree
      rw [List.countP_eq_zero]
      rintro ⟨a, b⟩ hab
      have := hwf.2.1 a b ((g.mem_darts a b).1 hab).2
      simp only [beq_iff_eq]
      omega
    rw [h1, h2]

/-- The circuit built for a directed graph that passed the checks. -/
theorem hierholzer_directed_euler {g : Graph} (hwf : g.WF) (hd : g.directed = true)
    (hne : has_any_edges g = true)
    (hbal : (List.range g.n).any (fun i =>
        decide ((out_deg g).getD i 0 + (in_deg g).getD i 0 > 0) &&
          (out_deg g).getD i 0 != (in_deg g).getD i 0) = false)
    (hconn : strongly_connected_on_non_isolated g = true)
    {c : List Nat} (hc : hierholzer_directed g = some c) :
    ∃ start, c.length = g.darts.length + 1 ∧ c.head? = some start ∧
      c.getLast? = some start ∧ (∀ q ∈ pairs c, q.2 ∈ g.nbrs q.1) ∧ (pairs c).Nodup ∧
      (∀ u v, v ∈ g.nbrs u → (u, v) ∈ pairs c) := by
  have hx := edgeIndex_directed hwf hd
  obtain ⟨_, hE, _⟩ := build_directed_spec g
  unfold hierholzer_directed at hc
  simp only at hc
  have hpos : ∀ x, g.nbrs x ≠ [] → g.out_degree x + g.in_degree x ≠ 0 := by
    intro x hxne
    have : 0 < g.out_degree x := List.length_pos.2 hxne
    omega
  cases hf : (List.range g.n).find? (has_deg g) with
  | none =>
    exfalso
    obtain ⟨u, hun, hune⟩ := (has_any_edges_iff g).1 hne
    have := List.find?_eq_none.1 hf u (List.mem_range.2 hun)
    exact this ((has_deg_iff hwf hun).2 (hpos u hune))
  | some start =>
    rw [hf] at hc
    simp only at hc
    have hsn : start < g.n := List.mem_range.1 (List.mem_of_find?_eq_some hf)
    have hsd : g.out_degree start + g.in_degree start ≠ 0 :=
      (has_deg_iff hwf hsn).1 (List.find?_some hf)
    have hreach : ∀ x, g.nbrs x ≠ [] → Reach g.nbrs start x := fun x hxne =>
      (strongly_connected_iff hwf).1 hconn start x hsn (g.lt_of_nbrs_ne_nil hwf hxne)
        hsd (hpos x hxne)
    have hdone := hierholzer_walk_done g.n (build_directed g) start hx.id_lt
      (stuckOK_directed hwf hx hd (balanced_everywhere hwf ((balance_check_iff hwf).1 hbal))
        start) hc
    obtain ⟨a1, a2, a3, a4, a5, a6, _⟩ := walkDone_euler hx hreach hdone
    refine ⟨start, by rw [a1, hE], a2, a3, a4, a5, ?_⟩
    intro u v hv
    rcases a6 u v hv with h | ⟨h, _⟩
    · exact h
    · rw [hd] at h; cases h

/-- Core statement, kept as a lemma for the decision theorem. -/
theorem euler_directed_circuit_core (g : Graph) (hwf : g.WF) (hd : g.directed = true)
    (hne : ∃ u v, v ∈ g.nbrs u) (r : EulerResult) (hr : euler_find g = some r)
    (hex : r.exists = true) :
    r.circuit.length = g.num_edges + 1 ∧ r.circuit ≠ [] ∧
    r.circuit.head? = r.circuit.getLast? ∧
    (∀ q ∈ pairs r.circuit, q.2 ∈ g.nbrs q.1) ∧
    (∀ u v, v ∈ g.nbrs u → (pairs r.circuit).count (u, v) = 1) := by
  obtain ⟨u, v, huv⟩ := hne
  have hany : has_any_edges g = true :=
    (has_any_edges_iff g).2 ⟨u, g.lt_of_nbrs_ne_nil hwf (List.ne_nil_of_mem huv),
      List.ne_nil_of_mem huv⟩
  obtain ⟨hbal, hconn, hc⟩ := euler_find_directed_true hd hany hr hex
  obtain ⟨start, a1, a2, a3, a4, a5, a6⟩ :=
    hierholzer_directed_euler hwf hd hany hbal hconn hc
  refine ⟨?_, ?_, by rw [a2, a3], a4, ?_⟩
  · unfold Graph.num_edges; rw [hd]; exact a1
  · intro h; rw [h] at a2; cases a2
  · intro x y hxy
    rw [count_pair_of_nodup _ a5, if_pos (a6 x y hxy)]

/-- C6: for every well-formed directed graph with at least one arc for which
`euler_find` returns `exists = true`, the returned circuit has exactly m+1 vertices
(m the number of arcs), starts and ends at the same vertex, every consecutive pair
`(v_i, v_{i+1})` is an arc `v_i -> v_{i+1}` of the graph, and every arc is traversed
exactly once. -/
theorem euler_directed_circuit (g : Graph) (hwf : g.WF) (hd : g.directed = true)
    (hne : ∃ u v, v ∈ g.nbrs u) (r : EulerResult) (hr : euler_find g = some r)
    (hex : r.exists = true) :
    r.circuit.length = g.num_edges + 1 ∧ r.circuit ≠ [] ∧
    r.circuit.head? = r.circuit.getLast? ∧
    (∀ q ∈ pairs r.circuit, q.2 ∈ g.nbrs q.1) ∧
    (∀ u v, v ∈ g.nbrs u → (pairs r.circuit).count (u, v) = 1) :=
  euler_directed_circuit_core g hwf hd hne r hr hex

/-- C6 at the directed example of the Euler driver: the circuit is 0 1 2 0. -/
theorem euler_directed_circuit_witness :
    g_dir3.WF ∧ g_dir3.directed = true ∧ (∃ u v, v ∈ g_dir3.nbrs u) ∧
    euler_find g_dir3 =
      some { «exists» := true, directed := true, circuit := [0, 1, 2, 0], reason := "" } ∧
    ([0, 1, 2, 0] : List Nat).length = g_dir3.num_edges + 1 ∧
    (∀ u v, v ∈ g_dir3.nbrs u → (pairs [0, 1, 2, 0]).count (u, v) = 1) :=
  ⟨Graph.wf_of_check _ (by decide), by decide, ⟨0, 1, by decide⟩, by decide,
   (euler_directed_circuit g_dir3 (Graph.wf_of_check _ (by decide)) (by decide)
      ⟨0, 1, by decide⟩
      { «exists» := true, directed := true, circuit := [0, 1, 2, 0], reason := "" }
      (by decide) rfl).1,
   (euler_directed_circuit g_dir3 (Graph.wf_of_check _ (by decide)) (by decide)
      ⟨0, 1, by decide⟩
      { «exists» := true, directed := true, circuit := [0, 1, 2, 0], reason := "" }
      (by decide) rfl).2.2.2.2⟩


theorem mem_of_mem_pairs {c : List Nat} {a b : Nat} (h : (a, b) ∈ pairs c) : a ∈ c ∧ b ∈ c := by
  unfold pairs at h
  have := List.of_mem_zip h
  exact ⟨this.1, List.mem_of_mem_tail this.2⟩

theorem chain'_of_pairs {R : Nat → Nat → Prop} :
    ∀ (c : List Nat), (∀ q ∈ pairs c, R q.1 q.2) → List.Chain' R c := by
  intro c
  induction c with
  | nil => intro _; exact List.chain'_nil
  | cons a l ih =>
    intro h
    cases l with
    | nil => exact List.chain'_singleton a
    | cons b l =>
      rw [List.chain'_cons]
      refine ⟨h (a, b) (by unfold pairs; simp), ih (fun q hq => h q ?_)⟩
      unfold pairs at hq ⊢
      simp only [List.tail_cons, List.zip_cons_cons, List.mem_cons] at hq ⊢
      exact Or.inr hq

/-- Along a chain every vertex reaches the last one. -/
theorem chain'_reach_last {adj : Nat → List Nat} :
    ∀ (c : List Nat), List.Chain' (fun x y => y ∈ adj x) c →
      ∀ x ∈ c, ∀ z, c.getLast? = some z → Reach adj x z := by
  intro c
  induction c with
  | nil => intro _ x hx; cases hx
  | cons a l ih =>
    intro h x hx z hz
    cases l with
    | nil =>
      simp only [List.mem_singleton] at hx
      simp only [List.getLast?_singleton, Option.some.injEq] at hz
      subst hx; subst hz
      exact Relation.ReflTransGen.refl
    | cons b l =>
      rw [List.getLast?_cons_cons] at hz
      rw [List.chain'_cons] at h
      rcases List.mem_cons.1 hx with rfl | hx
      · exact Relation.ReflTransGen.head h.1 (ih h.2 b (List.mem_cons_self _ _) z hz)
      · exact ih h.2 x hx z hz

/-- Along a chain the first vertex reaches every vertex. -/
theorem chain'_reach_from_head {adj : Nat → List Nat} {a : Nat} {l : List Nat}
    (h : List.Chain' (fun x y => y ∈ adj x) (a :: l)) : ∀ x ∈ a :: l, Reach adj a x := by
  intro x hx
  rcases List.mem_cons.1 hx with rfl | hx
  · exact Relation.ReflTransGen.refl
  · exact chain_reach l a h x hx

/-- On a closed walk any vertex reaches any other. -/
theorem closed_walk_reach {adj : Nat → List Nat} {c : List Nat}
    (hch : List.Chain' (fun x y => y ∈ adj x) c) (hcl : c.head? = c.getLast?)
    {x y : Nat} (hx : x ∈ c) (hy : y ∈ c) : Reach adj x y := by
  cases c with
  | nil => cases hx
  | cons a l =>
    have hlast : (a :: l).getLast? = some a := by rw [← hcl]; rfl
    exact (chain'_reach_last _ hch x hx a hlast).trans' (chain'_reach_from_head hch y hy)

theorem pairs_cons_cons (a b : Nat) (l : List Nat) :
    pairs (a :: b :: l) = (a, b) :: pairs (b :: l) := rfl

theorem pairs_map_fst : ∀ (c : List Nat), (pairs c).map Prod.fst = c.dropLast := by
  intro c
  induction c with
  | nil => rfl
  | cons a l ih =>
    cases l with
    | nil => rfl
    | cons b l => rw [pairs_cons_cons, List.map_cons, ih, List.dropLast_cons₂]

theorem pairs_map_snd : ∀ (c : List Nat), (pairs c).map Prod.snd = c.tail := by
  intro c
  induction c with
  | nil => rfl
  | cons a l ih =>
    cases l with
    | nil => rfl
    | cons b l => rw [pairs_cons_cons, List.map_cons, ih]; rfl

/-- In a closed vertex sequence every vertex is left as often as it is entered. -/
theorem closed_pairs_balance (c : List Nat) (hcl : c.head? = c.getLast?) (t : Nat) :
    (pairs c).countP (fun q => q.1 == t) = (pairs c).countP (fun q => q.2 == t) := by
  have h1 : (pairs c).countP (fun q => q.1 == t) = ((pairs c).map Prod.fst).count t := by
    rw [List.count, List.countP_map]; rfl
  have h2 : (pairs c).countP (fun q => q.2 == t) = ((pairs c).map Prod.snd).count t := by
    rw [List.count, List.countP_map]; rfl
  rw [h1, h2, pairs_map_fst, pairs_map_snd]
  cases c with
  | nil => rfl
  | cons a l =>
    rcases List.eq_nil_or_concat l with rfl | ⟨m, z, hm⟩
    · rfl
    · rw [List.concat_eq_append] at hm
      subst hm
      have hz : z = a := by
        have : (a :: (m ++ [z])).getLast? = some z := by
          rw [← List.cons_append, List.getLast?_append]; simp
        rw [← hcl] at this
        simpa using this.symm
      subst hz
      rw [List.tail_cons, ← List.cons_append, List.dropLast_concat, List.count_cons,
        List.count_append, List.count_singleton]


theorem nodup_of_count_one :
    ∀ (l : List (Nat × Nat)), (∀ q ∈ l, l.count q = 1) → l.Nodup := by
  intro l
  induction l with
  | nil => intro _; exact List.nodup_nil
  | cons a t ih =>
    intro h
    rw [List.nodup_cons]
    constructor
    · have := h a (List.mem_cons_self _ _)
      rw [List.count_cons_self] at this
      exact List.count_eq_zero.1 (by omega)
    · apply ih
      intro q hq
      have h1 := h q (List.mem_cons_of_mem _ hq)
      rw [List.count_cons] at h1
      have h2 : 0 < t.count q := List.count_pos_iff.2 hq
      omega

/-- Basic facts about the pairs of an Eulerian circuit: they are adjacency entries,
none repeats, every adjacency entry is passed (undirected: in one of the two
directions, never both). -/
theorem IsEulerCircuit.facts {g : Graph} {c : List Nat} (h : IsEulerCircuit g c) :
    (∀ a b, (a, b) ∈ pairs c → b ∈ g.nbrs a) ∧ (pairs c).Nodup ∧
    (∀ u v, v ∈ g.nbrs u → (u, v) ∈ pairs c ∨ (g.directed = false ∧ (v, u) ∈ pairs c)) ∧
    (g.directed = false → ∀ a b, (a, b) ∈ pairs c → (b, a) ∉ pairs c) := by
  obtain ⟨_, _, h3, h4⟩ := h
  have hone : ∀ q ∈ pairs c, (pairs c).count q = 1 ∧
      (g.directed = false → (pairs c).count (q.2, q.1) = 0) := by
    rintro ⟨a, b⟩ hq
    have h5 := h4 a b (h3 _ hq)
    have hpos : 0 < (pairs c).count (a, b) := List.count_pos_iff.2 hq
    cases hd : g.directed
    · rw [hd] at h5
      simp only [Bool.false_eq_true, if_false] at h5
      exact ⟨by omega, fun _ => by simp only; omega⟩
    · rw [hd] at h5
      simp only [if_true] at h5
      exact ⟨h5, fun hf => by cases hf⟩
  refine ⟨fun a b hq => h3 _ hq, nodup_of_count_one _ (fun q hq => (hone q hq).1), ?_, ?_⟩
  · intro u v hv
    have h5 := h4 u v hv
    cases hd : g.directed
    · rw [hd] at h5
      simp only [Bool.false_eq_true, if_false] at h5
      by_cases hm : (u, v) ∈ pairs c
      · exact Or.inl hm
      · right
        refine ⟨rfl, ?_⟩
        have : (pairs c).count (u, v) = 0 := List.count_eq_zero.2 hm
        exact List.count_pos_iff.1 (by omega)
    · rw [hd] at h5
      simp only [if_true] at h5
      exact Or.inl (List.count_pos_iff.1 (by omega))
  · intro hd a b hq
    exact List.count_eq_zero.1 ((hone _ hq).2 hd)

/-- An Eulerian circuit of an undirected graph passes each vertex `deg/2` times: all
degrees are even. -/
theorem IsEulerCircuit.even_degree {g : Graph} (hwf : g.WF) (hu : g.directed = false)
    {c : List Nat} (h : IsEulerCircuit g c) (t : Nat) : (g.nbrs t).length % 2 = 0 := by
  obtain ⟨f1, f2, f3, f4⟩ := h.facts
  have hbal := closed_pairs_balance c h.2.1 t
  have e1 : (pairs c).countP (fun q => q.2 == t)
      = ((pairs c).map Prod.swap).countP (fun q => q.1 == t) := by
    rw [List.countP_map]; rfl
  have hQ : (pairs c ++ (pairs c).map Prod.swap).Nodup := by
    rw [List.nodup_append]
    refine ⟨f2, f2.map Prod.swap_injective, ?_⟩
    intro q hq hq'
    obtain ⟨q1, h1, rfl⟩ := List.mem_map.1 hq'
    obtain ⟨a, b⟩ := q1
    exact f4 hu a b h1 hq
  have hnb : ((g.nbrs t).map (fun v => (t, v))).Nodup :=
    (hwf.2.2.2.1 t).map (fun a b h => by simpa using h)
  have hperm : ((pairs c ++ (pairs c).map Prod.swap).filter
      (fun q => q.1 == t)).Perm ((g.nbrs t).map (fun v => (t, v))) := by
    rw [List.perm_ext_iff_of_nodup (hQ.filter _) hnb]
    rintro ⟨a, b⟩
    rw [List.mem_filter, List.mem_append, List.mem_map, List.mem_map]
    constructor
    · rintro ⟨h | ⟨q, hq, he⟩, hat⟩
      · have hat' : a = t := by simpa using hat
        subst hat'
        exact ⟨b, f1 _ _ h, rfl⟩
      · have hat' : a = t := by simpa using hat
        subst hat'
        obtain ⟨x, y⟩ := q
        simp only [Prod.swap_prod_mk, Prod.mk.injEq] at he
        obtain ⟨rfl, rfl⟩ := he
        exact ⟨x, hwf.2.2.2.2 hu _ _ (f1 _ _ hq), rfl⟩
    · rintro ⟨v, hv, he⟩
      simp only [Prod.mk.injEq] at he
      obtain ⟨rfl, rfl⟩ := he
      refine ⟨?_, by simp⟩
      rcases f3 _ _ hv with h | ⟨_, h⟩
      · exact Or.inl h
      · exact Or.inr ⟨_, h, rfl⟩
  have hlen := hperm.length_eq
  rw [List.length_map, ← List.countP_eq_length_filter, List.countP_append, ← e1, ← hbal] at hlen
  omega

/-- An Eulerian circuit of a directed graph leaves each vertex as often as it enters
it: in-degree equals out-degree. -/
theorem IsEulerCircuit.balanced {g : Graph} (hwf : g.WF) (hd : g.directed = true)
    {c : List Nat} (h : IsEulerCircuit g c) (t : Nat) : g.in_degree t = g.out_degree t := by
  obtain ⟨f1, f2, f3, _⟩ := h.facts
  have hbal := closed_pairs_balance c h.2.1 t
  have hperm : (pairs c).Perm g.darts := by
    rw [List.perm_ext_iff_of_nodup f2 (g.darts_nodup hwf)]
    rintro ⟨a, b⟩
    rw [g.mem_darts_wf hwf]
    refine ⟨f1 a b, fun hv => ?_⟩
    rcases f3 a b hv with h | ⟨h, _⟩
    · exact h
    · rw [hd] at h; cases h
  have hin : g.in_degree t = (pairs c).countP (fun q => q.2 == t) := by
    unfold Graph.in_degree
    exact (hperm.countP_eq _).symm
  have hnb : ((g.nbrs t).map (fun v => (t, v))).Nodup :=
    (hwf.2.2.2.1 t).map (fun a b h => by simpa using h)
  have hout : ((pairs c).filter (fun q => q.1 == t)).Perm ((g.nbrs t).map (fun v => (t, v))) := by
    rw [List.perm_ext_iff_of_nodup (f2.filter _) hnb]
    rintro ⟨a, b⟩
    rw [List.mem_filter, List.mem_map]
    constructor
    · rintro ⟨h, hat⟩
      have hat' : a = t := by simpa using hat
      subst hat'
      exact ⟨b, f1 _ _ h, rfl⟩
    · rintro ⟨v, hv, he⟩
      simp only [Prod.mk.injEq] at he
      obtain ⟨rfl, rfl⟩ := he
      refine ⟨?_, by simp⟩
      rcases f3 _ _ hv with h | ⟨h, _⟩
      · exact h
      · rw [hd] at h; cases h
  have hlen := hout.length_eq
  rw [List.length_map, ← List.countP_eq_length_filter] at hlen
  unfold Graph.out_degree
  rw [hin, ← hbal, hlen]

/-- On an Eulerian circuit, any vertex with an edge reaches any other vertex with an
edge. -/
theorem IsEulerCircuit.reach_on_circuit {g : Graph} {c : List Nat} (h : IsEulerCircuit g c)
    {x y : Nat} (hx : x ∈ c) (hy : y ∈ c) : Reach g.nbrs x y :=
  closed_walk_reach (chain'_of_pairs c h.2.2.1) h.2.1 hx hy

theorem IsEulerCircuit.mem_of_out {g : Graph} {c : List Nat} (h : IsEulerCircuit g c)
    {x y : Nat} (hxy : y ∈ g.nbrs x) : x ∈ c ∧ y ∈ c := by
  rcases h.facts.2.2.1 x y hxy with hp | ⟨_, hp⟩
  · exact mem_of_mem_pairs hp
  · exact (mem_of_mem_pairs hp).symm


theorem mem_circuit_of_degree {g : Graph} {c : List Nat} (h : IsEulerCircuit g c) {u : Nat}
    (hu : g.out_degree u + g.in_degree u ≠ 0) : u ∈ c := by
  by_cases ho : g.out_degree u = 0
  · have hi : 0 < g.in_degree u := by omega
    unfold Graph.in_degree at hi
    obtain ⟨⟨a, b⟩, hab, hb⟩ := List.countP_pos_iff.1 hi
    have hb' : b = u := by simpa using hb
    subst hb'
    exact (h.mem_of_out ((g.mem_darts a b).1 hab).2).2
  · unfold Graph.out_degree at ho
    obtain ⟨w, hw⟩ := List.exists_mem_of_ne_nil (g.nbrs u)
      (fun e => ho (by rw [e]; rfl))
    exact (h.mem_of_out hw).1

/-- Core statement, kept as a lemma for the failure reasons. -/
theorem euler_find_decides_core (g : Graph) (hwf : g.WF) :
    ∃ r, euler_find g = some r ∧ (r.exists = true ↔ HasEulerCircuit g) := by
  by_cases hne : ∃ u v, v ∈ g.nbrs u
  · cases hd : g.directed
    · obtain ⟨r, hr, hiff⟩ := euler_find_undirected_iff_core g hwf hd
      refine ⟨r, hr, ?_⟩
      constructor
      · intro hex
        right
        obtain ⟨_, a2, a3, a4, a5⟩ := euler_undirected_circuit_core g hwf hd hne r hr hex
        refine ⟨r.circuit, a2, a3, a4, fun u v hv => ?_⟩
        rw [hd]
        simp only [Bool.false_eq_true, if_false]
        exact a5 u v hv
      · rintro (hno | ⟨c, hc⟩)
        · obtain ⟨u, v, huv⟩ := hne
          rw [hno u] at huv; cases huv
        · rw [hiff]
          refine ⟨fun u v _ _ hune hvne => ?_, fun v _ => hc.even_degree hwf hd v⟩
          obtain ⟨w, hw⟩ := List.exists_mem_of_ne_nil _ hune
          obtain ⟨w1, hw1⟩ := List.exists_mem_of_ne_nil _ hvne
          exact hc.reach_on_circuit (hc.mem_of_out hw).1 (hc.mem_of_out hw1).1
    · obtain ⟨r, hr, hiff⟩ := euler_find_directed_iff_core g hwf hd
      refine ⟨r, hr, ?_⟩
      constructor
      · intro hex
        right
        obtain ⟨_, a2, a3, a4, a5⟩ := euler_directed_circuit_core g hwf hd hne r hr hex
        refine ⟨r.circuit, a2, a3, a4, fun u v hv => ?_⟩
        rw [hd]
        simp only [if_true]
        exact a5 u v hv
      · rintro (hno | ⟨c, hc⟩)
        · obtain ⟨u, v, huv⟩ := hne
          rw [hno u] at huv; cases huv
        · rw [hiff]
          refine ⟨fun v _ _ => hc.balanced hwf hd v, fun u v _ _ hu hv => ?_⟩
          exact hc.reach_on_circuit (mem_circuit_of_degree hc hu) (mem_circuit_of_degree hc hv)
  · have hno : ∀ u, g.nbrs u = [] := by
      intro u
      by_contra h
      obtain ⟨w, hw⟩ := List.exists_mem_of_ne_nil _ h
      exact hne ⟨u, w, hw⟩
    have hany : has_any_edges g = false := by
      cases h : has_any_edges g
      · rfl
      · obtain ⟨u, _, hu⟩ := (has_any_edges_iff g).1 h
        exact absurd (hno u) hu
    refine ⟨{ «exists» := true, directed := g.directed, circuit := [0], reason := "" }, ?_, ?_⟩
    · unfold euler_find
      rw [hany]
      rfl
    · exact ⟨fun _ => Or.inl hno, fun _ => rfl⟩

/-- C7: `euler_find` decides existence. For every well-formed graph, directed or
undirected, it returns a result whose `exists` flag is true if and only if the graph
has an Eulerian circuit: a closed walk that traverses every edge/arc exactly once (a
graph with no edges counts as having one). -/
theorem euler_find_decides (g : Graph) (hwf : g.WF) :
    ∃ r, euler_find g = some r ∧ (r.exists = true ↔ HasEulerCircuit g) :=
  euler_find_decides_core g hwf

/-- C7 at the 4-cycle of the Euler test and at the path 0-1-2: the first has an
Eulerian circuit, the second has none. -/
theorem euler_find_decides_witness :
    g_cycle4.WF ∧
    (∃ r, euler_find g_cycle4 = some r ∧ (r.exists = true ↔ HasEulerCircuit g_cycle4)) ∧
    HasEulerCircuit g_cycle4 ∧ ¬ HasEulerCircuit g_path3 :=
  ⟨Graph.wf_of_check _ (by decide),
   euler_find_decides g_cycle4 (Graph.wf_of_check _ (by decide)),
   (by
    obtain ⟨r, hr, h⟩ := euler_find_decides g_cycle4 (Graph.wf_of_check _ (by decide))
    have e : euler_find g_cycle4 = some
        { «exists» := true, directed := false, circuit := [0, 1, 2, 3, 0], reason := "" } := by
      decide
    rw [e] at hr
    cases hr
    exact h.1 rfl),
   (by
    obtain ⟨r, hr, h⟩ := euler_find_decides g_path3 (Graph.wf_of_check _ (by decide))
    have e : euler_find g_path3 = some
        { «exists» := false, directed := false, circuit := [],
          reason := "A vertex has odd degree (all degrees must be even)." } := by
      decide
    rw [e] at hr
    cases hr
    intro hc
    exact Bool.false_ne_true (h.2 hc))⟩


/-! ### Kosaraju: the finishing order -/

theorem AtOrAfter.append_right {l : List Nat} {b a : Nat} (h : AtOrAfter l b a) (m : List Nat) :
    AtOrAfter (l ++ m) b a := by
  obtain ⟨l1, l2, e, ha⟩ := h
  refine ⟨l1, l2 ++ m, by rw [e]; simp, ?_⟩
  rcases List.mem_cons.1 ha with h1 | h1
  · exact List.mem_cons.2 (Or.inl h1)
  · exact List.mem_cons.2 (Or.inr (List.mem_append_left _ h1))

theorem AtOrAfter.append_left {m : List Nat} {b a : Nat} (h : AtOrAfter m b a) (l : List Nat) :
    AtOrAfter (l ++ m) b a := by
  obtain ⟨l1, l2, e, ha⟩ := h
  exact ⟨l ++ l1, l2, by rw [e]; simp, ha⟩

theorem AtOrAfter.of_mem_append {l m : List Nat} {b a : Nat} (hb : b ∈ l) (ha : a ∈ m) :
    AtOrAfter (l ++ m) b a := by
  obtain ⟨l1, l2, e⟩ := List.append_of_mem hb
  refine ⟨l1, l2 ++ m, by rw [e]; simp, ?_⟩
  exact List.mem_cons.2 (Or.inr (List.mem_append_right _ ha))

theorem AtOrAfter.self {l : List Nat} {b : Nat} (hb : b ∈ l) : AtOrAfter l b b := by
  obtain ⟨l1, l2, e⟩ := List.append_of_mem hb
  exact ⟨l1, l2, e, List.mem_cons_self _ _⟩

theorem AtOrAfter.last {l : List Nat} {b u : Nat} (hb : b ∈ l ++ [u]) :
    AtOrAfter (l ++ [u]) b u := by
  rcases List.mem_append.1 hb with h | h
  · exact AtOrAfter.of_mem_append h (List.mem_singleton_self u)
  · rw [List.mem_singleton.1 h]; exact AtOrAfter.self (by simp)

/-- In a duplicate-free list the part after an element is determined. -/
theorem AtOrAfter.mem_of_nodup {A B : List Nat} {b a : Nat} (hn : (A ++ b :: B).Nodup)
    (h : AtOrAfter (A ++ b :: B) b a) : a ∈ b :: B := by
  obtain ⟨l1, l2, e, ha⟩ := h
  have hbA : b ∉ A := fun hm =>
    (List.nodup_append.1 hn).2.2 hm (List.mem_cons_self _ _)
  have hbB : b ∉ B := (List.nodup_cons.1 (List.nodup_append.1 hn).2.1).1
  have := (List.append_cons_inj_of_not_mem hbA hbB).1 e
  rw [this.2.2]; exact ha

theorem getD_false_iff (vis : List Bool) (x : Nat) :
    vis.getD x false = false ↔ ¬ vis.getD x false = true := by
  cases vis.getD x false <;> simp

/-- A marked vertex that reaches an unmarked one reaches `u`, when the finished
vertices have all their neighbours marked and the other marked vertices reach `u`. -/
theorem reach_escape (adj : Nat → List Nat) (vis : List Bool) (ord : List Nat) (u : Nat)
    (hcl : ∀ x ∈ ord, ∀ y ∈ adj x, vis.getD y false = true)
    (hgrey : ∀ x, vis.getD x false = true → x ∉ ord → Reach adj x u)
    {a b : Nat} (hab : Reach adj a b) (ha : vis.getD a false = true)
    (hb : ¬ vis.getD b false = true) : Reach adj a u := by
  revert ha
  induction hab using Relation.ReflTransGen.head_induction_on with
  | refl => exact fun ha => absurd ha hb
  | @head a1 c hac _ ih =>
    intro ha
    by_cases hm : a1 ∈ ord
    · exact Relation.ReflTransGen.head hac (ih (hcl a1 hm c hac))
    · exact hgrey a1 ha hm


theorem dfs1_succ (adj : Nat → List Nat) (fuel u : Nat) (s : List Bool × List Nat) :
    dfs1 adj (fuel + 1) u s =
      (((adj u).foldl (fun s v => if s.1.getD v false then s else dfs1 adj fuel v s)
          (s.1.set u true, s.2)).1,
       ((adj u).foldl (fun s v => if s.1.getD v false then s else dfs1 adj fuel v s)
          (s.1.set u true, s.2)).2 ++ [u]) := rfl

/-- One more finished subtree keeps the invariant of the neighbour loop. -/
theorem dfsLoopInv_step (adj : Nat → List Nat) (n u v : Nat) (s0 s s1 : List Bool × List Nat)
    (hv : v ∈ adj u) (hinv : DfsLoopInv adj n u s0 s) (hpost : DfsPost adj n v s s1) :
    DfsLoopInv adj n u s0 s1 := by
  obtain ⟨N, hord, hlen, hvis, hnd, hnew, hreach, hcl, hop⟩ := hinv
  obtain ⟨M, hord1, hlen1, hvis1, hnd1, hnew1, hvM, hreach1, hcl1, _, hop1⟩ := hpost
  have hMs : ∀ x ∈ M, ¬ s.1.getD x false = true := fun x hx =>
    (getD_false_iff _ _).1 (hnew1 x hx)
  have hmono : ∀ x, s.1.getD x false = true → s1.1.getD x false = true :=
    fun x hx => (hvis1 x).2 (Or.inl hx)
  refine ⟨N ++ M, by rw [hord1, hord, List.append_assoc], hlen1, ?_, ?_, ?_, ?_, ?_, ?_⟩
  · intro x
    rw [hvis1, hvis, List.mem_append]
    tauto
  · refine List.nodup_append.2 ⟨hnd, hnd1, ?_⟩
    intro x hx hx1
    exact hMs x hx1 ((hvis x).2 (Or.inr (Or.inr hx)))
  · intro x hx
    rcases List.mem_append.1 hx with h | h
    · exact hnew x h
    · have h1 := hMs x h
      rw [hvis] at h1
      refine ⟨(getD_false_iff _ _).2 (fun h2 => h1 (Or.inl h2)), fun h2 => h1 (Or.inr (Or.inl h2))⟩
  · intro x hx
    rcases List.mem_append.1 hx with h | h
    · exact hreach x h
    · exact Relation.ReflTransGen.head hv (hreach1 x h)
  · intro x hx y hy
    rcases List.mem_append.1 hx with h | h
    · exact hmono y (hcl x h y hy)
    · exact hcl1 x h y hy
  · intro hpre
    obtain ⟨p1, p2, p3⟩ := hpre
    have hpre1 : DfsPre adj s v := by
      refine ⟨?_, ?_, ?_⟩
      · intro x hx
        rw [hord] at hx
        rcases List.mem_append.1 hx with h | h
        · exact (hvis x).2 (Or.inl (p1 x h))
        · exact (hvis x).2 (Or.inr (Or.inr h))
      · intro x hx y hy
        rw [hord] at hx
        rcases List.mem_append.1 hx with h | h
        · exact (hvis y).2 (Or.inl (p2 x h y hy))
        · exact hcl x h y hy
      · intro x hx hxn
        rw [hord] at hxn
        rcases (hvis x).1 hx with h | h | h
        · exact (p3 x h (fun h2 => hxn (List.mem_append_left _ h2))).trans
            (Relation.ReflTransGen.single hv)
        · rw [h]; exact Relation.ReflTransGen.single hv
        · exact absurd (List.mem_append_right _ h) hxn
    have hopM := hop1 hpre1
    have hopN := hop ⟨p1, p2, p3⟩
    intro a ha b hb hab
    rcases List.mem_append.1 ha with ha1 | ha1
    · rcases List.mem_append.1 hb with hb1 | hb1
      · rcases hopN a ha1 b hb1 hab with ⟨a1, r1, r2, r3⟩ | h
        · exact Or.inl ⟨a1, r1, r2, r3.append_right M⟩
        · exact Or.inr h
      · -- `a` finished earlier, `b` was unmarked then: `a` reaches an active vertex
        right
        have hgrey : ∀ x, s.1.getD x false = true → x ∉ s.2 → Reach adj x u := by
          intro x hx hxn
          rw [hord] at hxn
          rcases (hvis x).1 hx with h | h | h
          · exact p3 x h (fun h2 => hxn (List.mem_append_left _ h2))
          · rw [h]; exact Relation.ReflTransGen.refl
          · exact absurd (List.mem_append_right _ h) hxn
        exact reach_escape adj s.1 s.2 u hpre1.2.1 hgrey hab
          ((hvis a).2 (Or.inr (Or.inr ha1))) (hMs b hb1)
    · rcases List.mem_append.1 hb with hb1 | hb1
      · exact Or.inl ⟨a, Relation.ReflTransGen.refl, Relation.ReflTransGen.refl,
          AtOrAfter.of_mem_append hb1 ha1⟩
      · obtain ⟨a1, r1, r2, r3⟩ := hopM a ha1 b hb1 hab
        exact Or.inl ⟨a1, r1, r2, r3.append_left N⟩


/-- The neighbour loop of `dfs1(u)`: the invariant is kept, marks are never removed,
and every neighbour scanned ends up marked. -/
theorem dfs1_loop (adj : Nat → List Nat) (n : Nat) (hadj : ∀ u v, v ∈ adj u → v < n)
    (f : Nat)
    (ih : ∀ v s, s.1.length = n → v < n → s.1.getD v false = false → s.1.count false ≤ f →
      DfsPost adj n v s (dfs1 adj f v s))
    (u : Nat) (s0 : List Bool × List Nat) (vs : List Nat) (hvs : ∀ v ∈ vs, v ∈ adj u) :
    ∀ s, DfsLoopInv adj n u s0 s → s.1.count false ≤ f →
      DfsLoopInv adj n u s0
          (vs.foldl (fun s v => if s.1.getD v false then s else dfs1 adj f v s) s) ∧
        (vs.foldl (fun s v => if s.1.getD v false then s else dfs1 adj f v s) s).1.count false
          ≤ s.1.count false ∧
        (∀ v ∈ vs,
          (vs.foldl (fun s v => if s.1.getD v false then s else dfs1 adj f v s) s).1.getD v false
            = true) ∧
        (∀ x, s.1.getD x false = true →
          (vs.foldl (fun s v => if s.1.getD v false then s else dfs1 adj f v s) s).1.getD x false
            = true) := by
  induction vs with
  | nil =>
    intro s hinv _
    exact ⟨hinv, le_refl _, fun v hv => absurd hv (List.not_mem_nil v), fun x hx => hx⟩
  | cons v vs ihl =>
    intro s hinv hcnt
    have hva : v ∈ adj u := hvs v (List.mem_cons_self _ _)
    have hvs1 : ∀ w ∈ vs, w ∈ adj u := fun w hw => hvs w (List.mem_cons_of_mem _ hw)
    rw [List.foldl_cons]
    by_cases hv : s.1.getD v false = true
    · rw [if_pos hv]
      obtain ⟨h1, h2, h3, h4⟩ := ihl hvs1 s hinv hcnt
      refine ⟨h1, h2, ?_, h4⟩
      intro w hw
      rcases List.mem_cons.1 hw with e | hw1
      · rw [e]; exact h4 v hv
      · exact h3 w hw1
    · rw [if_neg hv]
      have hlen : s.1.length = n := by
        obtain ⟨N, _, hl, _⟩ := hinv; exact hl
      have hpost := ih v s hlen (hadj u v hva) ((getD_false_iff _ _).2 hv) hcnt
      have hinv1 := dfsLoopInv_step adj n u v s0 s _ hva hinv hpost
      obtain ⟨M, _, _, hvis1, _, _, hvM, _, _, hc1, _⟩ := hpost
      obtain ⟨h1, h2, h3, h4⟩ := ihl hvs1 _ hinv1 (le_trans hc1 hcnt)
      refine ⟨h1, le_trans h2 hc1, ?_, ?_⟩
      · intro w hw
        rcases List.mem_cons.1 hw with e | hw1
        · rw [e]; exact h4 v ((hvis1 v).2 (Or.inr hvM))
        · exact h3 w hw1
      · intro x hx
        exact h4 x ((hvis1 x).2 (Or.inl hx))

/-- Contract of `dfs1`: called on an unmarked vertex with enough recursion depth, it
returns, and the call satisfies `DfsPost`. -/
theorem dfs1_spec (adj : Nat → List Nat) (n : Nat) (hadj : ∀ u v, v ∈ adj u → v < n) :
    ∀ f u s, s.1.length = n → u < n → s.1.getD u false = false → s.1.count false ≤ f →
      DfsPost adj n u s (dfs1 adj f u s) := by
  intro f
  induction f with
  | zero =>
    intro u s hlen hu hun hcnt
    exfalso
    have := count_false_set_true s.1 u (by omega) hun
    omega
  | succ f ih =>
    intro u s hlen hu hun hcnt
    have hc := count_false_set_true s.1 u (by omega) hun
    have hinit : DfsLoopInv adj n u s (s.1.set u true, s.2) := by
      refine ⟨[], by simp, by simp [hlen], ?_, List.nodup_nil, ?_, ?_, ?_, ?_⟩
      · intro x
        rw [getD_set_true _ _ _ (by omega)]
        simp only [List.not_mem_nil, or_false]
        tauto
      · intro x hx; cases hx
      · intro x hx; cases hx
      · intro x hx; cases hx
      · intro _ a ha; cases ha
    obtain ⟨hinv, hcnt1, hnb, hmono⟩ :=
      dfs1_loop adj n hadj f ih u s (adj u) (fun v hv => hv) _ hinit
        (by show (s.1.set u true).count false ≤ f; omega)
    rw [dfs1_succ]
    generalize (adj u).foldl (fun s v => if s.1.getD v false then s else dfs1 adj f v s)
      (s.1.set u true, s.2) = s1 at hinv hcnt1 hnb hmono
    obtain ⟨N, hord, hlen1, hvis, hnd, hnew, hreach, hcl, hop⟩ := hinv
    refine ⟨N ++ [u], ?_, hlen1, ?_, ?_, ?_, by simp, ?_, ?_, ?_, ?_⟩
    · show s1.2 ++ [u] = s.2 ++ (N ++ [u])
      rw [hord, List.append_assoc]
    · intro x
      show s1.1.getD x false = true ↔ _
      rw [hvis, List.mem_append, List.mem_singleton]
      tauto
    · refine List.nodup_append.2 ⟨hnd, List.nodup_singleton u, ?_⟩
      intro x hx hx1
      exact (hnew x hx).2 (List.mem_singleton.1 hx1)
    · intro x hx
      rcases List.mem_append.1 hx with h | h
      · exact (hnew x h).1
      · rw [List.mem_singleton.1 h]; exact hun
    · intro x hx
      rcases List.mem_append.1 hx with h | h
      · exact hreach x h
      · rw [List.mem_singleton.1 h]; exact Relation.ReflTransGen.refl
    · intro x hx y hy
      show s1.1.getD y false = true
      rcases List.mem_append.1 hx with h | h
      · exact hcl x h y hy
      · rw [List.mem_singleton.1 h] at hy; exact hnb y hy
    · show s1.1.count false ≤ s.1.count false
      have : (s.1.set u true).count false ≤ s.1.count false := by omega
      exact le_trans hcnt1 this
    · intro hpre a ha b hb hab
      have hesc := hop hpre
      have huu : ∀ a ∈ N, Reach adj a u →
          ∃ a1, Reach adj a a1 ∧ Reach adj a1 a ∧ AtOrAfter (N ++ [u]) b a1 :=
        fun a ha h => ⟨u, h, hreach a ha, AtOrAfter.last hb⟩
      rcases List.mem_append.1 ha with ha1 | ha1
      · rcases List.mem_append.1 hb with hb1 | hb1
        · rcases hesc a ha1 b hb1 hab with ⟨a1, r1, r2, r3⟩ | h
          · exact ⟨a1, r1, r2, r3.append_right [u]⟩
          · exact huu a ha1 h
        · rw [List.mem_singleton.1 hb1] at hab
          exact huu a ha1 hab
      · rw [List.mem_singleton.1 ha1]
        exact ⟨u, Relation.ReflTransGen.refl, Relation.ReflTransGen.refl, AtOrAfter.last hb⟩


theorem pass1Inv_closed {adj : Nat → List Nat} {n : Nat} {s : List Bool × List Nat}
    (h : Pass1Inv adj n s) {a b : Nat} (ha : a ∈ s.2) (hab : Reach adj a b) : b ∈ s.2 := by
  induction hab with
  | refl => exact ha
  | tail _ hbc ih => exact h.2.2.2.1 _ ih _ hbc

/-- A top-level call of `dfs1` keeps the invariant of the first pass. -/
theorem pass1Inv_step (adj : Nat → List Nat) (n : Nat) (hadj : ∀ u v, v ∈ adj u → v < n)
    (s : List Bool × List Nat) (i : Nat) (hi : i < n) (hinv : Pass1Inv adj n s)
    (hun : ¬ s.1.getD i false = true) :
    Pass1Inv adj n (dfs1 adj n i s) ∧ (dfs1 adj n i s).1.getD i false = true ∧
      ∀ x, s.1.getD x false = true → (dfs1 adj n i s).1.getD x false = true := by
  have hcnt : s.1.count false ≤ n := by
    rw [← hinv.1]; exact List.count_le_length _ _
  have hpost := dfs1_spec adj n hadj n i s hinv.1 hi ((getD_false_iff _ _).2 hun) hcnt
  obtain ⟨hlen, hvis, hnd, hcl, hop⟩ := hinv
  obtain ⟨N, hord1, hlen1, hvis1, hnd1, hnew1, hiN, hreach1, hcl1, _, hop1⟩ := hpost
  have hpre : DfsPre adj s i :=
    ⟨fun x hx => (hvis x).2 hx, fun x hx y hy => (hvis y).2 (hcl x hx y hy),
      fun x hx hxn => absurd ((hvis x).1 hx) hxn⟩
  have hopN := hop1 hpre
  have hNs : ∀ x ∈ N, x ∉ s.2 := fun x hx hxs =>
    (getD_false_iff _ _).1 (hnew1 x hx) ((hvis x).2 hxs)
  refine ⟨⟨hlen1, ?_, ?_, ?_, ?_⟩, (hvis1 i).2 (Or.inr hiN), fun x hx => (hvis1 x).2 (Or.inl hx)⟩
  · intro x
    rw [hvis1, hord1, List.mem_append, hvis]
  · rw [hord1]
    exact List.nodup_append.2 ⟨hnd, hnd1, fun x hx hx1 => hNs x hx1 hx⟩
  · intro x hx y hy
    rw [hord1] at hx ⊢
    rcases List.mem_append.1 hx with h | h
    · exact List.mem_append_left _ (hcl x h y hy)
    · have := (hvis1 y).1 (hcl1 x h y hy)
      rw [hvis] at this
      exact List.mem_append.2 this
  · rw [hord1]
    intro a ha b hb hab
    rcases List.mem_append.1 ha with ha1 | ha1
    · have hb1 : b ∈ s.2 := pass1Inv_closed ⟨hlen, hvis, hnd, hcl, hop⟩ ha1 hab
      obtain ⟨a1, r1, r2, r3⟩ := hop a ha1 b hb1 hab
      exact ⟨a1, r1, r2, r3.append_right N⟩
    · rcases List.mem_append.1 hb with hb1 | hb1
      · exact ⟨a, Relation.ReflTransGen.refl, Relation.ReflTransGen.refl,
          AtOrAfter.of_mem_append hb1 ha1⟩
      · obtain ⟨a1, r1, r2, r3⟩ := hopN a ha1 b hb1 hab
        exact ⟨a1, r1, r2, r3.append_left s.2⟩

theorem pass1_loop (adj : Nat → List Nat) (n : Nat) (hadj : ∀ u v, v ∈ adj u → v < n)
    (is : List Nat) (his : ∀ i ∈ is, i < n) :
    ∀ s, Pass1Inv adj n s →
      Pass1Inv adj n (is.foldl (fun s i => if s.1.getD i false then s else dfs1 adj n i s) s) ∧
      (∀ i ∈ is,
        (is.foldl (fun s i => if s.1.getD i false then s else dfs1 adj n i s) s).1.getD i false
          = true) ∧
      (∀ x, s.1.getD x false = true →
        (is.foldl (fun s i => if s.1.getD i false then s else dfs1 adj n i s) s).1.getD x false
          = true) := by
  induction is with
  | nil => intro s h; exact ⟨h, fun i hi => absurd hi (List.not_mem_nil i), fun x hx => hx⟩
  | cons i is ihl =>
    intro s hinv
    have his1 : ∀ j ∈ is, j < n := fun j hj => his j (List.mem_cons_of_mem _ hj)
    rw [List.foldl_cons]
    by_cases hv : s.1.getD i false = true
    · rw [if_pos hv]
      obtain ⟨h1, h2, h3⟩ := ihl his1 s hinv
      refine ⟨h1, ?_, h3⟩
      intro j hj
      rcases List.mem_cons.1 hj with e | hj1
      · rw [e]; exact h3 i hv
      · exact h2 j hj1
    · rw [if_neg hv]
      obtain ⟨g1, g2, g3⟩ := pass1Inv_step adj n hadj s i (his i (List.mem_cons_self _ _)) hinv hv
      obtain ⟨h1, h2, h3⟩ := ihl his1 _ g1
      refine ⟨h1, ?_, fun x hx => h3 x (g3 x hx)⟩
      intro j hj
      rcases List.mem_cons.1 hj with e | hj1
      · rw [e]; exact h3 i g2
      · exact h2 j hj1

/-- The first pass returns a duplicate-free `order` of all the vertices with the
order property. -/
theorem kosaraju_pass1_spec {g : Graph} (hwf : g.WF) :
    (kosaraju_pass1 g).2.Nodup ∧ (∀ x, x ∈ (kosaraju_pass1 g).2 ↔ x < g.n) ∧
      OrderProp g.nbrs (kosaraju_pass1 g).2 := by
  have hinit : Pass1Inv g.nbrs g.n (List.replicate g.n false, []) := by
    refine ⟨by simp, ?_, List.nodup_nil, ?_, ?_⟩
    · intro x
      simp only [List.not_mem_nil, iff_false]
      rw [← getD_false_iff]
      rw [List.getD_eq_getElem?_getD]
      by_cases hx : x < g.n
      · rw [List.getElem?_eq_getElem (by simpa using hx)]; simp
      · rw [List.getElem?_eq_none (by simpa using hx)]; rfl
    · intro x hx; cases hx
    · intro a ha; cases ha
  obtain ⟨h1, h2, _⟩ := pass1_loop g.nbrs g.n hwf.2.1 (List.range g.n)
    (fun i hi => List.mem_range.1 hi) _ hinit
  refine ⟨h1.2.2.1, ?_, h1.2.2.2.2⟩
  intro x
  constructor
  · intro hx
    have := getD_true_lt ((h1.2.1 x).2 hx)
    rw [h1.1] at this; exact this
  · intro hx
    exact (h1.2.1 x).1 (h2 x (List.mem_range.2 hx))

theorem dfs2_eq_dfs1 (radj : Nat → List Nat) :
    ∀ f u vis o, dfs2 radj f u vis = (dfs1 radj f u (vis, o)).1 := by
  intro f
  induction f with
  | zero => intro u vis o; rfl
  | succ f ih =>
    intro u vis o
    show (radj u).foldl (fun vis v => if vis.getD v false then vis else dfs2 radj f v vis)
        (vis.set u true) =
      ((radj u).foldl (fun s v => if s.1.getD v false then s else dfs1 radj f v s)
        (vis.set u true, o)).1
    have key : ∀ (vs : List Nat) (s : List Bool × List Nat),
        vs.foldl (fun vis v => if vis.getD v false then vis else dfs2 radj f v vis) s.1 =
          (vs.foldl (fun s v => if s.1.getD v false then s else dfs1 radj f v s) s).1 := by
      intro vs
      induction vs with
      | nil => intro s; rfl
      | cons v vs ihl =>
        intro s
        rw [List.foldl_cons, List.foldl_cons]
        by_cases hv : s.1.getD v false = true
        · rw [if_pos hv, if_pos hv]; exact ihl s
        · rw [if_neg hv, if_neg hv, ih v s.1 s.2]; exact ihl _
    exact key (radj u) (vis.set u true, o)


theorem MutReach.refl (g : Graph) (a : Nat) : MutReach g a a :=
  ⟨Relation.ReflTransGen.refl, Relation.ReflTransGen.refl⟩

theorem MutReach.symm {g : Graph} {a b : Nat} (h : MutReach g a b) : MutReach g b a :=
  ⟨h.2, h.1⟩

theorem MutReach.trans {g : Graph} {a b c : Nat} (h1 : MutReach g a b) (h2 : MutReach g b c) :
    MutReach g a c :=
  ⟨h1.1.trans h2.1, h2.2.trans h1.2⟩

/-- A root of the second pass marks exactly its strongly connected component. -/
theorem pass2Inv_step {g : Graph} (hwf : g.WF) {u : Nat} (L A B : List Nat)
    (hL : L = A ++ u :: B)
    (hnd : L.Nodup) (hop : OrderProp g.nbrs L) (hall : ∀ x, x ∈ L ↔ x < g.n)
    (s : List Bool × Nat) (hinv : Pass2Inv g s) (hB : ∀ x ∈ B, s.1.getD x false = true)
    (hun : ¬ s.1.getD u false = true) :
    Pass2Inv g (dfs2 (row (reverse_adj g)) g.n u s.1, s.2 + 1) ∧
      (dfs2 (row (reverse_adj g)) g.n u s.1).getD u false = true ∧
      ∀ x, s.1.getD x false = true →
        (dfs2 (row (reverse_adj g)) g.n u s.1).getD x false = true := by
  obtain ⟨reps, hc, hlen, hvis, hpw, hlt⟩ := hinv
  have hu : u < g.n := (hall u).1 (by rw [hL]; simp)
  have hcnt : s.1.count false ≤ g.n := by
    rw [← hlen]; exact List.count_le_length _ _
  have hpost := dfs1_spec (row (reverse_adj g)) g.n (fun a b h => reverse_adj_lt hwf a b h)
    g.n u (s.1, []) hlen hu ((getD_false_iff _ _).2 hun) hcnt
  rw [dfs2_eq_dfs1 (row (reverse_adj g)) g.n u s.1 []]
  obtain ⟨N, _, hlen1, hvis1, _, hnew1, huN, hreach1, hcl1, _, _⟩ := hpost
  generalize dfs1 (row (reverse_adj g)) g.n u (s.1, []) = s1 at hlen1 hvis1 hcl1
  have hNun : ∀ x ∈ N, ¬ s.1.getD x false = true := fun x hx =>
    (getD_false_iff _ _).1 (hnew1 x hx)
  have hNlt : ∀ x ∈ N, x < g.n := fun x hx => by
    have := getD_true_lt ((hvis1 x).2 (Or.inr hx))
    rw [hlen1] at this; exact this
  -- the newly marked vertices are the component of `u`
  have hN : ∀ x, x ∈ N ↔ (x < g.n ∧ MutReach g x u) := by
    intro x
    constructor
    · intro hx
      refine ⟨hNlt x hx, ?_⟩
      have hxu : Reach g.nbrs x u := (reach_reverse_adj hwf u x).1 (hreach1 x hx)
      have hxL : x ∈ L := (hall x).2 (hNlt x hx)
      obtain ⟨x1, r1, r2, r3⟩ := hop x hxL u ((hall u).2 hu) hxu
      have hx1 : ¬ s.1.getD x1 false = true := by
        intro h
        obtain ⟨_, r, hr, hm⟩ := (hvis x1).1 h
        exact hNun x hx ((hvis x).2 ⟨hNlt x hx, r, hr, MutReach.trans ⟨r1, r2⟩ hm⟩)
      rw [hL] at r3 hnd
      have hmem := AtOrAfter.mem_of_nodup hnd r3
      rcases List.mem_cons.1 hmem with e | hm
      · rw [e] at r1 r2; exact ⟨r1, r2⟩
      · exact absurd (hB x1 hm) hx1
    · rintro ⟨hx, hxu, hux⟩
      have key : ∀ z, Reach (row (reverse_adj g)) u z → Reach (row (reverse_adj g)) z x →
          z ∈ N := by
        intro z hz
        induction hz with
        | refl => exact fun _ => huN
        | @tail b z hub hbz ih =>
          intro hzx
          have hb : b ∈ N := ih (Relation.ReflTransGen.head hbz hzx)
          rcases (hvis1 z).1 (hcl1 b hb z hbz) with h | h
          · exfalso
            obtain ⟨_, r, hr, hm⟩ := (hvis z).1 h
            have hzu : Reach g.nbrs z u :=
              (reach_reverse_adj hwf u z).1 (hub.tail hbz)
            have huz : Reach g.nbrs u z := hux.trans ((reach_reverse_adj hwf z x).1 hzx)
            exact hun ((hvis u).2 ⟨hu, r, hr, MutReach.trans ⟨huz, hzu⟩ hm⟩)
          · exact h
      exact key x ((reach_reverse_adj hwf u x).2 hxu) Relation.ReflTransGen.refl
  refine ⟨⟨reps ++ [u], by simp [hc], hlen1, ?_, ?_, ?_⟩, (hvis1 u).2 (Or.inr huN),
    fun x hx => (hvis1 x).2 (Or.inl hx)⟩
  · intro x
    show s1.1.getD x false = true ↔ _
    rw [hvis1, hvis, hN]
    constructor
    · rintro (⟨h1, r, hr, hm⟩ | ⟨h1, hm⟩)
      · exact ⟨h1, r, List.mem_append_left _ hr, hm⟩
      · exact ⟨h1, u, by simp, hm⟩
    · rintro ⟨h1, r, hr, hm⟩
      rcases List.mem_append.1 hr with h | h
      · exact Or.inl ⟨h1, r, h, hm⟩
      · rw [List.mem_singleton.1 h] at hm; exact Or.inr ⟨h1, hm⟩
  · rw [List.pairwise_append]
    refine ⟨hpw, List.pairwise_singleton _ _, ?_⟩
    intro r hr v hv hm
    rw [List.mem_singleton.1 hv] at hm
    exact hun ((hvis u).2 ⟨hu, r, hr, hm.symm⟩)
  · intro r hr
    rcases List.mem_append.1 hr with h | h
    · exact hlt r h
    · rw [List.mem_singleton.1 h]; exact hu

theorem pass2_loop {g : Graph} (hwf : g.WF) (L : List Nat)
    (hnd : L.Nodup) (hop : OrderProp g.nbrs L) (hall : ∀ x, x ∈ L ↔ x < g.n) :
    ∀ (post pre : List Nat) (s : List Bool × Nat), L.reverse = pre ++ post → Pass2Inv g s →
      (∀ x ∈ pre, s.1.getD x false = true) →
      Pass2Inv g (post.foldl (fun s u =>
        if s.1.getD u false then s else (dfs2 (row (reverse_adj g)) g.n u s.1, s.2 + 1)) s) ∧
      ∀ x ∈ L, (post.foldl (fun s u =>
        if s.1.getD u false then s
        else (dfs2 (row (reverse_adj g)) g.n u s.1, s.2 + 1)) s).1.getD x false = true := by
  intro post
  induction post with
  | nil =>
    intro pre s hL hinv hpre
    refine ⟨hinv, fun x hx => hpre x ?_⟩
    rw [List.append_nil] at hL
    rw [← hL]; exact List.mem_reverse.2 hx
  | cons u post ihl =>
    intro pre s hL hinv hpre
    have hL1 : L.reverse = (pre ++ [u]) ++ post := by rw [hL]; simp
    rw [List.foldl_cons]
    by_cases hv : s.1.getD u false = true
    · rw [if_pos hv]
      refine ihl (pre ++ [u]) s hL1 hinv ?_
      intro x hx
      rcases List.mem_append.1 hx with h | h
      · exact hpre x h
      · rw [List.mem_singleton.1 h]; exact hv
    · rw [if_neg hv]
      have hL2 : L = post.reverse ++ u :: pre.reverse := by
        have := congrArg List.reverse hL
        rw [List.reverse_reverse] at this
        rw [this]; simp
      obtain ⟨h1, h2, h3⟩ := pass2Inv_step hwf L post.reverse pre.reverse hL2 hnd hop hall s
        hinv (fun x hx => hpre x (List.mem_reverse.1 hx)) hv
      refine ihl (pre ++ [u]) _ hL1 h1 ?_
      intro x hx
      rcases List.mem_append.1 hx with h | h
      · exact h3 x (hpre x h)
      · rw [List.mem_singleton.1 h]; exact h2


/-- The second pass counts a complete system of representatives. -/
theorem kosaraju_transversal {g : Graph} (hwf : g.WF) :
    ∃ reps, IsSccTransversal g reps ∧
      (kosaraju_pass2 g (kosaraju_pass1 g).2).2 = reps.length := by
  obtain ⟨hnd, hall, hop⟩ := kosaraju_pass1_spec hwf
  have hinit : Pass2Inv g (List.replicate g.n false, 0) := by
    refine ⟨[], rfl, by simp, ?_, List.Pairwise.nil, fun r hr => absurd hr (List.not_mem_nil r)⟩
    intro x
    constructor
    · intro h
      exfalso
      have hx := getD_true_lt h
      rw [List.getD_eq_getElem?_getD, List.getElem?_eq_getElem hx] at h
      simp at h
    · rintro ⟨_, r, hr, _⟩; cases hr
  obtain ⟨⟨reps, hc, _, hvis, hpw, hlt⟩, hm⟩ :=
    pass2_loop hwf (kosaraju_pass1 g).2 hnd hop hall (kosaraju_pass1 g).2.reverse []
      (List.replicate g.n false, 0) (by simp) hinit (fun x hx => absurd hx (List.not_mem_nil x))
  refine ⟨reps, ⟨hlt, hpw, ?_⟩, hc⟩
  intro v hv
  exact ((hvis v).1 (hm v ((hall v).2 hv))).2

/-- A family of pairwise non-equivalent vertices is no longer than a family that
meets every component. -/
theorem transversal_length_le (g : Graph) (r1 r2 : List Nat) (h1 : ∀ r ∈ r1, r < g.n)
    (hpw : r1.Pairwise (fun a b => ¬ MutReach g a b))
    (hcov : ∀ v, v < g.n → ∃ r ∈ r2, MutReach g v r) : r1.length ≤ r2.length := by
  classical
  have hnd : r1.Nodup := hpw.imp (by intro a b h e; exact h (e ▸ MutReach.refl g a))
  have hsym : Symmetric (fun a b => ¬ MutReach g a b) := fun a b h h2 => h h2.symm
  have hex : ∀ r, r ∈ r1 → ∃ r3, r3 ∈ r2 ∧ MutReach g r r3 := fun r hr => by
    obtain ⟨r3, h3, h4⟩ := hcov r (h1 r hr)
    exact ⟨r3, h3, h4⟩
  let f : Nat → Nat := fun r => if h : r ∈ r1 then Classical.choose (hex r h) else 0
  have hf : ∀ r, r ∈ r1 → f r ∈ r2 ∧ MutReach g r (f r) := by
    intro r hr
    simp only [f, dif_pos hr]
    exact Classical.choose_spec (hex r hr)
  have hcard : r1.toFinset.card ≤ r2.toFinset.card := by
    apply Finset.card_le_card_of_injOn f
    · intro a ha
      exact List.mem_toFinset.2 (hf a (List.mem_toFinset.1 ha)).1
    · intro a ha b hb hab
      have ha1 : a ∈ r1 := List.mem_toFinset.1 ha
      have hb1 : b ∈ r1 := List.mem_toFinset.1 hb
      by_contra hne
      have hm : MutReach g a b := by
        have h2 := (hf b hb1).2
        have h3 := (hf a ha1).2
        rw [show f a = f b from hab] at h3
        exact h3.trans h2.symm
      exact hpw.forall hsym ha1 hb1 hne hm
  rw [List.toFinset_card_of_nodup hnd] at hcard
  exact le_trans hcard (List.toFinset_card_le r2)

/-- C10. For every well-formed directed graph the strongly connected components have a
complete system of representatives, and `count_scc_kosaraju` returns the length of
every such system, that is the number of classes of vertices under mutual
reachability; `SccCount::run` reports that number as "SCC count=<c>". -/
theorem scc_count_correct (g : Graph) (hwf : g.WF) (hd : g.directed = true) :
    (∃ reps, IsSccTransversal g reps) ∧
      ∀ reps, IsSccTransversal g reps →
        count_scc_kosaraju g = reps.length ∧
          SccCount_run g = "SCC count=" ++ toString reps.length := by
  obtain ⟨reps0, h0, hc0⟩ := kosaraju_transversal hwf
  refine ⟨⟨reps0, h0⟩, ?_⟩
  intro reps hr
  have hlen : reps0.length = reps.length :=
    le_antisymm (transversal_length_le g reps0 reps h0.1 h0.2.1 hr.2.2)
      (transversal_length_le g reps reps0 hr.1 hr.2.1 h0.2.2)
  have hcount : count_scc_kosaraju g = reps.length := by
    unfold count_scc_kosaraju
    rw [hd]
    simp only [Bool.not_true, Bool.false_eq_true, if_false]
    rw [hc0, hlen]
  refine ⟨hcount, ?_⟩
  unfold SccCount_run
  rw [hd, hcount]
  simp

theorem scc_count_correct_witness :
    g_scc_test.WF ∧ g_scc_test.directed = true ∧
      ((∃ reps, IsSccTransversal g_scc_test reps) ∧
        ∀ reps, IsSccTransversal g_scc_test reps →
          count_scc_kosaraju g_scc_test = reps.length ∧
            SccCount_run g_scc_test = "SCC count=" ++ toString reps.length) ∧
      count_scc_kosaraju g_scc_test = 3 :=
  ⟨Graph.wf_of_check g_scc_test (by decide), rfl,
    scc_count_correct g_scc_test (Graph.wf_of_check g_scc_test (by decide)) rfl, by decide⟩


/-! ### The SCC test graph -/

/-- C11 (as stated, refuted). On the directed graph with arcs 0->1, 1->2, 2->0, 3->4
on 5 vertices `SccCount::run` does not report 2: the count is not 2 and the text is
not "SCC count=2". -/
theorem scc_test_graph_not_two :
    count_scc_kosaraju g_scc_test ≠ 2 ∧ SccCount_run g_scc_test ≠ "SCC count=2" := by
  decide

/-- C11 (amended). On the directed graph with arcs 0->1, 1->2, 2->0, 3->4 on 5 vertices
`SccCount::run` reports component count 3, and 3 is the number of strongly connected
components (the classes are {0,1,2}, {3} and {4}: the arc 3->4 has no way back). -/
theorem scc_test_graph_reports_three :
    SccCount_run g_scc_test = "SCC count=3" ∧ count_scc_kosaraju g_scc_test = 3 ∧
      ∃ reps, IsSccTransversal g_scc_test reps ∧ reps.length = 3 := by
  refine ⟨by decide, by decide, ?_⟩
  obtain ⟨reps, h1, h2⟩ := kosaraju_transversal (Graph.wf_of_check g_scc_test (by decide))
  refine ⟨reps, h1, ?_⟩
  rw [← h2]
  decide


/-! ### stage1: the mutations keep the graph well-formed -/

theorem in_range_iff (n : Nat) (v : Int) : in_range n v = true ↔ 0 ≤ v ∧ v.toNat < n := by
  unfold in_range
  simp

theorem Graph.init_nbrs (n : Nat) (d : Bool) (u : Nat) : (Graph.init n d).nbrs u = [] := by
  unfold Graph.nbrs Graph.init
  simp only [List.getD_eq_getElem?_getD, List.getElem?_replicate]
  split_ifs <;> rfl

theorem Graph.init_wf (n : Nat) (d : Bool) : (Graph.init n d).WF := by
  refine ⟨by simp [Graph.init], ?_, ?_, ?_, ?_⟩
  · intro u v h; rw [Graph.init_nbrs] at h; cases h
  · intro u h; rw [Graph.init_nbrs] at h; cases h
  · intro u; rw [Graph.init_nbrs]; exact List.nodup_nil
  · intro _ u v h; rw [Graph.init_nbrs] at h; cases h

/-- A graph whose rows are those of a well-formed graph except at `a` and `b`, where
`b` (resp. `a`) was appended, is well-formed. -/
theorem Graph.wf_insert {g g1 : Graph} (hwf : g.WF) (hn : g1.n = g.n)
    (hd : g1.directed = g.directed) (hlen : g1.adj.length = g.n) {a b : Nat}
    (ha : a < g.n) (hb : b < g.n) (hab : a ≠ b) (hnot : b ∉ g.nbrs a)
    (hrows : ∀ x, g1.nbrs x =
      if g.directed = false ∧ b = x then g.nbrs b ++ [a]
      else if a = x then g.nbrs a ++ [b] else g.nbrs x) : g1.WF := by
  obtain ⟨w1, w2, w3, w4, w5⟩ := hwf
  have hmem : ∀ x y, y ∈ g1.nbrs x ↔
      (y ∈ g.nbrs x ∨ (x = a ∧ y = b) ∨ (g.directed = false ∧ x = b ∧ y = a)) := by
    intro x y
    rw [hrows x]
    by_cases h1 : g.directed = false ∧ b = x
    · rw [if_pos h1]
      obtain ⟨h1a, h1b⟩ := h1
      subst h1b
      rw [List.mem_append, List.mem_singleton]
      constructor
      · rintro (h | h)
        · exact Or.inl h
        · exact Or.inr (Or.inr ⟨h1a, rfl, h⟩)
      · rintro (h | ⟨h, _⟩ | ⟨_, _, h⟩)
        · exact Or.inl h
        · exact absurd h.symm hab
        · exact Or.inr h
    · rw [if_neg h1]
      by_cases h2 : a = x
      · rw [if_pos h2]
        subst h2
        rw [List.mem_append, List.mem_singleton]
        constructor
        · rintro (h | h)
          · exact Or.inl h
          · exact Or.inr (Or.inl ⟨rfl, h⟩)
        · rintro (h | ⟨_, h⟩ | ⟨h3, h4, _⟩)
          · exact Or.inl h
          · exact Or.inr h
          · exact absurd ⟨h3, h4.symm⟩ h1
      · rw [if_neg h2]
        constructor
        · exact fun h => Or.inl h
        · rintro (h | ⟨h, _⟩ | ⟨h3, h4, _⟩)
          · exact h
          · exact absurd h.symm h2
          · exact absurd ⟨h3, h4.symm⟩ h1
  refine ⟨by rw [hlen, hn], ?_, ?_, ?_, ?_⟩
  · intro x y h
    rw [hn]
    rcases (hmem x y).1 h with h | ⟨_, h⟩ | ⟨_, _, h⟩
    · exact w2 x y h
    · rw [h]; exact hb
    · rw [h]; exact ha
  · intro x h
    rcases (hmem x x).1 h with h | ⟨h1, h2⟩ | ⟨_, h1, h2⟩
    · exact w3 x h
    · exact hab (h1.symm.trans h2)
    · exact hab (h2.symm.trans h1)
  · intro x
    rw [hrows x]
    by_cases h1 : g.directed = false ∧ b = x
    · rw [if_pos h1]
      obtain ⟨h1a, h1b⟩ := h1
      refine List.nodup_append.2 ⟨w4 b, List.nodup_singleton a, ?_⟩
      intro y hy hy1
      rw [List.mem_singleton.1 hy1] at hy
      exact hnot (w5 h1a b a hy)
    · rw [if_neg h1]
      by_cases h2 : a = x
      · rw [if_pos h2]
        refine List.nodup_append.2 ⟨w4 a, List.nodup_singleton b, ?_⟩
        intro y hy hy1
        rw [List.mem_singleton.1 hy1] at hy
        exact hnot hy
      · rw [if_neg h2]; exact w4 x
  · intro hu x y h
    rw [hd] at hu
    rw [hmem]
    rcases (hmem x y).1 h with h | ⟨h1, h2⟩ | ⟨_, h1, h2⟩
    · exact Or.inl (w5 hu x y h)
    · exact Or.inr (Or.inr ⟨hu, h2, h1⟩)
    · exact Or.inr (Or.inl ⟨h2, h1⟩)


theorem Graph.nbrs_eq_row (g : Graph) (x : Nat) : g.nbrs x = row g.adj x := rfl

theorem contains_eq_true_iff (l : List Nat) (x : Nat) : l.contains x = true ↔ x ∈ l := by
  simp

/-- The guard of `add_edge` and `remove_edge`: when it lets the call through, both
ids are vertices and they differ. -/
theorem guard_false {n : Nat} {u v : Int}
    (h : ¬ (!in_range n u || !in_range n v || u == v) = true) :
    u.toNat < n ∧ v.toNat < n ∧ u.toNat ≠ v.toNat := by
  simp only [Bool.or_eq_true, Bool.not_eq_true', beq_iff_eq, not_or, Bool.not_eq_false] at h
  obtain ⟨⟨h1, h2⟩, h3⟩ := h
  rw [in_range_iff] at h1 h2
  refine ⟨h1.2, h2.2, ?_⟩
  intro e
  apply h3
  omega

theorem Graph.add_edge_n (g : Graph) (u v : Int) : (g.add_edge u v).n = g.n := by
  unfold Graph.add_edge
  dsimp only
  split_ifs <;> rfl

theorem Graph.add_edge_directed (g : Graph) (u v : Int) :
    (g.add_edge u v).directed = g.directed := by
  unfold Graph.add_edge
  dsimp only
  split_ifs <;> rfl

/-- Method `add_edge` keeps the graph well-formed. -/
theorem Graph.add_edge_wf {g : Graph} (hwf : g.WF) (u v : Int) : (g.add_edge u v).WF := by
  unfold Graph.add_edge
  by_cases hc : (!in_range g.n u || !in_range g.n v || u == v) = true
  · rw [if_pos hc]; exact hwf
  · rw [if_neg hc]
    dsimp only
    obtain ⟨ha, hb, hab⟩ := guard_false hc
    by_cases hin : (g.nbrs u.toNat).contains v.toNat = true
    · rw [if_pos hin]; exact hwf
    · rw [if_neg hin]
      have hnot : v.toNat ∉ g.nbrs u.toNat := fun hm =>
        hin ((contains_eq_true_iff _ _).2 hm)
      have hla : u.toNat < g.adj.length := by rw [hwf.1]; exact ha
      have hlb : v.toNat < (g.adj.set u.toNat (g.nbrs u.toNat ++ [v.toNat])).length := by
        rw [List.length_set, hwf.1]; exact hb
      have hAv : (g.adj.set u.toNat (g.nbrs u.toNat ++ [v.toNat])).getD v.toNat [] =
          g.nbrs v.toNat := by
        have := row_set g.adj u.toNat v.toNat (g.nbrs u.toNat ++ [v.toNat]) hla
        unfold row at this
        rw [this, if_neg hab]; rfl
      refine Graph.wf_insert hwf ?_ ?_ ?_ ha hb hab hnot ?_
      · rfl
      · rfl
      · show (if (!g.directed) = true then _ else _ : List (List Nat)).length = g.n
        rw [hAv]
        split_ifs <;> simp [hwf.1]
      · intro x
        show row (if (!g.directed) = true then _ else _) x = _
        rw [hAv]
        by_cases hd : g.directed = true
        · rw [if_neg (by simp [hd]), if_neg (by simp [hd])]
          exact row_set g.adj u.toNat x _ hla
        · have hd1 : g.directed = false := by simpa using hd
          have hsym : u.toNat ∉ g.nbrs v.toNat := fun hm => hnot (hwf.2.2.2.2 hd1 _ _ hm)
          have hcon : ¬ (g.nbrs v.toNat).contains u.toNat = true := fun hm =>
            hsym ((contains_eq_true_iff _ _).1 hm)
          rw [if_pos (by simp [hd1]), if_neg hcon, row_set _ v.toNat x _ hlb,
            row_set g.adj u.toNat x _ hla]
          by_cases hbx : v.toNat = x
          · rw [if_pos hbx, if_pos ⟨hd1, hbx⟩]
          · rw [if_neg hbx, if_neg (fun h : g.directed = false ∧ v.toNat = x => hbx h.2)]
            rfl


/-- A graph whose rows are those of a well-formed graph except at `a` and `b`, where
`b` (resp. `a`) was erased, is well-formed. -/
theorem Graph.wf_delete {g g1 : Graph} (hwf : g.WF) (hn : g1.n = g.n)
    (hd : g1.directed = g.directed) (hlen : g1.adj.length = g.n) (a b : Nat)
    (hrows : ∀ x, g1.nbrs x =
      if g.directed = false ∧ b = x then (g.nbrs b).erase a
      else if a = x then (g.nbrs a).erase b else g.nbrs x) : g1.WF := by
  obtain ⟨w1, w2, w3, w4, w5⟩ := hwf
  have hmem : ∀ x y, y ∈ g1.nbrs x ↔
      (y ∈ g.nbrs x ∧ ¬ (x = a ∧ y = b) ∧ ¬ (g.directed = false ∧ x = b ∧ y = a)) := by
    intro x y
    rw [hrows x]
    by_cases h1 : g.directed = false ∧ b = x
    · rw [if_pos h1]
      obtain ⟨h1a, h1b⟩ := h1
      subst h1b
      rw [(w4 b).mem_erase_iff]
      constructor
      · rintro ⟨h2, h3⟩
        refine ⟨h3, ?_, fun h => h2 h.2.2⟩
        rintro ⟨h4, h5⟩
        rw [h5, h4] at h3
        exact w3 _ h3
      · rintro ⟨h2, _, h4⟩
        exact ⟨fun h => h4 ⟨h1a, rfl, h⟩, h2⟩
    · rw [if_neg h1]
      by_cases h2 : a = x
      · rw [if_pos h2]
        subst h2
        rw [(w4 a).mem_erase_iff]
        constructor
        · rintro ⟨h2, h3⟩
          exact ⟨h3, fun h => h2 h.2, fun h => h1 ⟨h.1, h.2.1.symm⟩⟩
        · rintro ⟨h2, h3, _⟩
          exact ⟨fun h => h3 ⟨rfl, h⟩, h2⟩
      · rw [if_neg h2]
        constructor
        · intro h
          exact ⟨h, fun h3 => h2 h3.1.symm, fun h3 => h1 ⟨h3.1, h3.2.1.symm⟩⟩
        · exact fun h => h.1
  refine ⟨by rw [hlen, hn], ?_, ?_, ?_, ?_⟩
  · intro x y h
    rw [hn]
    exact w2 x y ((hmem x y).1 h).1
  · intro x h
    exact w3 x ((hmem x x).1 h).1
  · intro x
    rw [hrows x]
    split_ifs
    · exact (w4 b).erase a
    · exact (w4 a).erase b
    · exact w4 x
  · intro hu x y h
    rw [hd] at hu
    obtain ⟨h1, h2, h3⟩ := (hmem x y).1 h
    rw [hmem]
    refine ⟨w5 hu x y h1, ?_, ?_⟩
    · rintro ⟨h4, h5⟩
      exact h3 ⟨hu, h5, h4⟩
    · rintro ⟨_, h4, h5⟩
      exact h2 ⟨h5, h4⟩

theorem Graph.remove_edge_n (g : Graph) (u v : Int) : (g.remove_edge u v).2.n = g.n := by
  unfold Graph.remove_edge
  dsimp only
  split_ifs <;> rfl

theorem Graph.remove_edge_directed (g : Graph) (u v : Int) :
    (g.remove_edge u v).2.directed = g.directed := by
  unfold Graph.remove_edge
  dsimp only
  split_ifs <;> rfl

/-- The row of a table after a conditional overwrite that changes nothing when the
condition fails. -/
theorem row_set_cond (A : List (List Nat)) (a x : Nat) (r : List Nat) (c : Prop)
    [Decidable c] (ha : a < A.length) (h : ¬ c → r = row A a) :
    row (if c then A.set a r else A) x = if a = x then r else row A x := by
  by_cases hc : c
  · rw [if_pos hc]; exact row_set A a x r ha
  · rw [if_neg hc]
    by_cases hax : a = x
    · rw [if_pos hax, h hc, hax]
    · rw [if_neg hax]

/-- Method `remove_edge` keeps the graph well-formed. -/
theorem Graph.remove_edge_wf {g : Graph} (hwf : g.WF) (u v : Int) :
    (g.remove_edge u v).2.WF := by
  unfold Graph.remove_edge
  by_cases hc : (!in_range g.n u || !in_range g.n v || u == v) = true
  · rw [if_pos hc]; exact hwf
  · rw [if_neg hc]
    dsimp only
    obtain ⟨ha, hb, hab⟩ := guard_false hc
    have hla : u.toNat < g.adj.length := by rw [hwf.1]; exact ha
    have hrow1 : ∀ x, row (if (g.nbrs u.toNat).contains v.toNat = true
        then g.adj.set u.toNat ((g.nbrs u.toNat).erase v.toNat) else g.adj) x =
        if u.toNat = x then (g.nbrs u.toNat).erase v.toNat else g.nbrs x := by
      intro x
      apply row_set_cond g.adj u.toNat x _ _ hla
      intro hcon
      exact List.erase_of_not_mem (fun hm => hcon ((contains_eq_true_iff _ _).2 hm))
    have hlen1 : (if (g.nbrs u.toNat).contains v.toNat = true
        then g.adj.set u.toNat ((g.nbrs u.toNat).erase v.toNat) else g.adj).length = g.n := by
      split_ifs <;> simp [hwf.1]
    generalize (if (g.nbrs u.toNat).contains v.toNat = true
        then g.adj.set u.toNat ((g.nbrs u.toNat).erase v.toNat) else g.adj) = adj1
      at hrow1 hlen1
    have hAv : adj1.getD v.toNat [] = g.nbrs v.toNat := by
      have := hrow1 v.toNat
      rw [if_neg hab] at this
      exact this
    rw [hAv]
    refine Graph.wf_delete hwf ?_ ?_ ?_ u.toNat v.toNat ?_
    · rfl
    · rfl
    · show (if (!g.directed) = true then _ else _ : List (List Nat)).length = g.n
      split_ifs <;> simp [hlen1]
    · intro x
      show row (if (!g.directed) = true then _ else _) x = _
      by_cases hd : g.directed = true
      · rw [if_neg (by simp [hd]),
          if_neg (fun h : g.directed = false ∧ v.toNat = x => by simp [hd] at h)]
        exact hrow1 x
      · have hd1 : g.directed = false := by simpa using hd
        rw [if_pos (by simp [hd1])]
        rw [row_set_cond adj1 v.toNat x _ _ (by rw [hlen1]; exact hb)
          (fun hcon => by
            show (g.nbrs v.toNat).erase u.toNat = row adj1 v.toNat
            rw [show row adj1 v.toNat = g.nbrs v.toNat from hAv]
            exact List.erase_of_not_mem (fun hm => hcon ((contains_eq_true_iff _ _).2 hm)))]
        by_cases hbx : v.toNat = x
        · rw [if_pos hbx, if_pos ⟨hd1, hbx⟩]
        · rw [if_neg hbx, if_neg (fun h : g.directed = false ∧ v.toNat = x => hbx h.2)]
          exact hrow1 x


theorem Graph.apply_wf {g : Graph} (hwf : g.WF) (op : GraphOp) :
    (g.apply op).WF ∧ (g.apply op).n = g.n ∧ (g.apply op).directed = g.directed := by
  cases op with
  | add u v => exact ⟨Graph.add_edge_wf hwf u v, g.add_edge_n u v, g.add_edge_directed u v⟩
  | remove u v =>
    exact ⟨Graph.remove_edge_wf hwf u v, g.remove_edge_n u v, g.remove_edge_directed u v⟩

/-- Every sequence of mutations keeps `n`, `directed` and well-formedness. -/
theorem Graph.run_ops_wf (ops : List GraphOp) :
    ∀ {g : Graph}, g.WF →
      (g.run_ops ops).WF ∧ (g.run_ops ops).n = g.n ∧ (g.run_ops ops).directed = g.directed := by
  induction ops with
  | nil => intro g hwf; exact ⟨hwf, rfl, rfl⟩
  | cons op ops ih =>
    intro g hwf
    obtain ⟨h1, h2, h3⟩ := Graph.apply_wf hwf op
    obtain ⟨k1, k2, k3⟩ := ih h1
    exact ⟨k1, k2.trans h2, k3.trans h3⟩

/-- A well-formed undirected graph passes `validate()`; a directed graph always does. -/
theorem Graph.validate_of_wf {g : Graph} (hwf : g.WF) : g.validate = true := by
  unfold Graph.validate
  by_cases hd : g.directed = true
  · rw [if_pos hd]
  · rw [if_neg hd]
    have hd1 : g.directed = false := by simpa using hd
    rw [List.all_eq_true]
    intro u _
    rw [List.all_eq_true]
    intro v hv
    exact (contains_eq_true_iff _ _).2 (hwf.2.2.2.2 hd1 u v hv)

/-- C13. In every graph obtained from `Graph(n, directed)` by a sequence of `add_edge`
and `remove_edge` calls with arbitrary integer arguments, there are `n` adjacency
lists, every stored id is below `n`, no `adj[u]` contains `u`, and no list contains
a neighbour twice. -/
theorem graph_ops_ids_loops_duplicates (n : Nat) (d : Bool) (ops : List GraphOp) :
    ((Graph.init n d).run_ops ops).adj.length = n ∧
    (∀ u v, v ∈ ((Graph.init n d).run_ops ops).nbrs u → v < n) ∧
    (∀ u, u ∉ ((Graph.init n d).run_ops ops).nbrs u) ∧
    (∀ u, (((Graph.init n d).run_ops ops).nbrs u).Nodup) := by
  obtain ⟨⟨h1, h2, h3, h4, _⟩, hn, _⟩ := Graph.run_ops_wf ops (Graph.init_wf n d)
  have hn1 : ((Graph.init n d).run_ops ops).n = n := hn
  rw [hn1] at h1 h2
  exact ⟨h1, h2, h3, h4⟩

/-- C14. In every graph obtained from `Graph(n, false)` by a sequence of `add_edge` and
`remove_edge` calls, after every single call (after each prefix of the sequence) the
adjacency is symmetric and `validate()` returns `true`. -/
theorem graph_ops_symmetric_valid (n : Nat) (ops : List GraphOp) (k : Nat) :
    (∀ u v, v ∈ ((Graph.init n false).run_ops (ops.take k)).nbrs u ↔
      u ∈ ((Graph.init n false).run_ops (ops.take k)).nbrs v) ∧
    ((Graph.init n false).run_ops (ops.take k)).validate = true := by
  obtain ⟨hwf, _, hd⟩ := Graph.run_ops_wf (ops.take k) (Graph.init_wf n false)
  have hd1 : ((Graph.init n false).run_ops (ops.take k)).directed = false := hd
  exact ⟨fun u v => ⟨hwf.2.2.2.2 hd1 u v, hwf.2.2.2.2 hd1 v u⟩, Graph.validate_of_wf hwf⟩


/-! ### Budget -/

theorem Budget.timed_out_state (now : Nat → Nat) (B : Budget) :
    (B.timed_out now).2 = { B with steps := B.steps + 1 } := by
  unfold Budget.timed_out
  dsimp only
  split_ifs <;> rfl

theorem Budget.calls_state (now : Nat → Nat) (B : Budget) (k : Nat) :
    (B.calls now k).2.steps = B.steps + k ∧ (B.calls now k).2.deadline = B.deadline ∧
      (B.calls now k).2.step_limit = B.step_limit := by
  induction k with
  | zero => exact ⟨rfl, rfl, rfl⟩
  | succ k ih =>
    obtain ⟨h1, h2, h3⟩ := ih
    have e : (B.calls now (k + 1)).2 =
        { (B.calls now k).2 with steps := (B.calls now k).2.steps + 1 } :=
      Budget.timed_out_state now _
    rw [e]
    exact ⟨by show (B.calls now k).2.steps + 1 = _; omega, h2, h3⟩

/-- The `k`-th call of `timed_out()` (`k >= 1`) returns `true` exactly when the step
limit is set and reached by the `k`-th step, or the deadline is set and passed at
that poll. -/
theorem Budget.calls_result (now : Nat → Nat) (B : Budget) (k : Nat) :
    (B.calls now (k + 1)).1 = true ↔
      ((B.step_limit ≠ 0 ∧ B.step_limit ≤ B.steps + (k + 1)) ∨
        (B.deadline ≠ 0 ∧ B.deadline ≤ now (B.steps + (k + 1)))) := by
  obtain ⟨h1, h2, h3⟩ := B.calls_state now k
  show ((B.calls now k).2.timed_out now).1 = true ↔ _
  unfold Budget.timed_out
  dsimp only
  rw [h1, h2, h3, Nat.add_assoc]
  by_cases c1 : B.step_limit ≠ 0 ∧ B.steps + (k + 1) ≥ B.step_limit
  · rw [if_pos c1]
    exact ⟨fun _ => Or.inl c1, fun _ => rfl⟩
  · rw [if_neg c1]
    by_cases c2 : B.deadline ≠ 0 ∧ now (B.steps + (k + 1)) ≥ B.deadline
    · rw [if_pos c2]
      exact ⟨fun _ => Or.inr c2, fun _ => rfl⟩
    · rw [if_neg c2]
      constructor
      · intro h; cases h
      · rintro (h | h)
        · exact absurd h c1
        · exact absurd h c2

/-- C15. For a budget with no deadline and step limit `L`, starting at `steps = 0`, the
`k`-th call of `timed_out()` leaves the step counter at `k`; with `L > 0` it returns
`true` if and only if `k >= L`, and with `L = 0` it returns `false`. -/
theorem budget_step_limit (now : Nat → Nat) (L k : Nat) (hk : 1 ≤ k) :
    ((Budget.mk 0 L 0).calls now k).2.steps = k ∧
      (0 < L → (((Budget.mk 0 L 0).calls now k).1 = true ↔ L ≤ k)) ∧
      (L = 0 → ((Budget.mk 0 L 0).calls now k).1 = false) := by
  obtain ⟨j, rfl⟩ : ∃ j, k = j + 1 := ⟨k - 1, by omega⟩
  have hr := Budget.calls_result now (Budget.mk 0 L 0) j
  have hs := (Budget.calls_state now (Budget.mk 0 L 0) (j + 1)).1
  simp only [ne_eq, not_true_eq_false, false_and, or_false, Nat.zero_add] at hr hs
  refine ⟨hs, ?_, ?_⟩
  · intro hL
    rw [hr]
    constructor
    · exact fun h => h.2
    · exact fun h => ⟨by omega, h⟩
  · intro hL
    rw [Bool.eq_false_iff, ne_eq, hr]
    exact fun h => h.1 hL

theorem budget_step_limit_witness :
    (1 : Nat) ≤ 3 ∧
      ((Budget.mk 0 3 0).calls (fun _ => 0) 3).2.steps = 3 ∧
      (0 < 3 → (((Budget.mk 0 3 0).calls (fun _ => 0) 3).1 = true ↔ 3 ≤ 3)) ∧
      ((3 : Nat) = 0 → ((Budget.mk 0 3 0).calls (fun _ => 0) 3).1 = false) :=
  ⟨by decide, budget_step_limit (fun _ => 0) 3 3 (by decide)⟩

/-- C16. Budget monotonicity: for every budget and every non-decreasing clock, if the
`i`-th call of `timed_out()` returns `true` then so does every later call. -/
theorem budget_monotone (now : Nat → Nat) (hm : Monotone now) (B : Budget) (i j : Nat)
    (hi : 1 ≤ i) (hij : i ≤ j) (h : (B.calls now i).1 = true) :
    (B.calls now j).1 = true := by
  obtain ⟨a, rfl⟩ : ∃ a, i = a + 1 := ⟨i - 1, by omega⟩
  obtain ⟨b, rfl⟩ : ∃ b, j = b + 1 := ⟨j - 1, by omega⟩
  rw [Budget.calls_result] at h ⊢
  rcases h with ⟨h1, h2⟩ | ⟨h1, h2⟩
  · exact Or.inl ⟨h1, by omega⟩
  · exact Or.inr ⟨h1, le_trans h2 (hm (by omega))⟩

theorem budget_monotone_witness :
    Monotone (fun k : Nat => 10 * k) ∧ (1 : Nat) ≤ 2 ∧ (2 : Nat) ≤ 5 ∧
      ((Budget.mk 15 0 0).calls (fun k : Nat => 10 * k) 2).1 = true ∧
      ((Budget.mk 15 0 0).calls (fun k : Nat => 10 * k) 5).1 = true :=
  ⟨fun a b h => Nat.mul_le_mul_left 10 h, by decide, by decide, by decide,
    budget_monotone (fun k : Nat => 10 * k) (fun a b h => Nat.mul_le_mul_left 10 h)
      (Budget.mk 15 0 0) 2 5 (by decide) (by decide) (by decide)⟩


/-! ### Step limit 1 -/

theorem Budget.timed_out_limit_one (now : Nat → Nat) (B : Budget) (h : B.step_limit = 1) :
    (B.timed_out now).1 = true := by
  rw [Budget.timed_out_iff, Budget.timed_out_state]
  left
  show B.step_limit ≠ 0 ∧ B.steps + 1 ≥ B.step_limit
  rw [h]
  exact ⟨by decide, by omega⟩

theorem ham_cycle_backtrack_timed_out {srt : (Nat → Nat) → List Nat → List Nat}
    (now : Nat → Nat) (g : Graph) (start rem : Nat)
    (path : List Nat) (used : List Bool) (B : Budget) (h : (B.timed_out now).1 = true) :
    ham_cycle_backtrack srt now g start rem path used B = (false, path, used, (B.timed_out now).2) := by
  cases rem with
  | zero => rw [ham_cycle_backtrack_zero, if_pos h]
  | succ r => rw [ham_cycle_backtrack_succ, if_pos h]

theorem bk_recurse_timed_out {srt : (Nat → Nat) → List Nat → List Nat}
    (now : Nat → Nat) (A : List (List Nat)) (recordBest : Bool)
    (fuel : Nat) (st : BKState) (R P X : List Nat) (h : (st.B.timed_out now).1 = true) :
    bk_recurse srt now A recordBest (fuel + 1) st R P X =
      some { st with B := (st.B.timed_out now).2, aborted := true } := by
  rw [bk_recurse]
  simp only [h, if_true]

/-- C17. With `step_limit=1` every bounded engine reports a timeout: `ham_cycle` returns
"HAM: TIMEOUT" on every graph with `1 <= n <= limit` that passes the precheck,
`MaxClique::run` returns "MAXCLIQUE: TIMEOUT (current best=0)" and
`NumMaxCliques::run` returns "NUM_MAXCLIQUES: TIMEOUT (count so far=0)" on every
graph, whatever the clock reads and the sort returns. -/
theorem step_limit_one_times_out (srt : (Nat → Nat) → List Nat → List Nat)
    (now : Nat → Nat) (g : Graph) (params : KV)
    (hs : get_step_limit params 800000 = 1) :
    (1 ≤ g.n → (g.n : Int) ≤ ham_limit params → quick_ham_impossible g = false →
      ham_cycle srt now g params = "HAM: TIMEOUT") ∧
    MaxClique_run srt now g params = some "MAXCLIQUE: TIMEOUT (current best=0)" ∧
    NumMaxCliques_run srt now g params = some "NUM_MAXCLIQUES: TIMEOUT (count so far=0)" := by
  have hB : (mk_budget now params).step_limit = 1 := hs
  have ht := Budget.timed_out_limit_one now (mk_budget now params) hB
  refine ⟨?_, ?_, ?_⟩
  · intro h1 h2 h3
    unfold ham_cycle ham_cycle_result
    dsimp only
    rw [if_neg (by omega), if_neg (by omega), if_neg (by rw [h3]; decide),
      ham_cycle_backtrack_timed_out now g _ _ _ _ _ ht]
    dsimp only
    have ht2 : (((mk_budget now params).timed_out now).2.timed_out now).1 = true := by
      apply Budget.timed_out_limit_one
      rw [Budget.timed_out_state]
      exact hB
    rw [if_neg (by decide), if_pos ht2]
    rfl
  · unfold MaxClique_run run_bk
    dsimp only
    rw [bk_recurse_timed_out now _ true g.n _ _ _ _ ht, Option.map_some']
    dsimp only
    rw [if_pos rfl]
    decide
  · unfold NumMaxCliques_run run_bk
    dsimp only
    rw [bk_recurse_timed_out now _ false g.n _ _ _ _ ht, Option.map_some']
    dsimp only
    rw [if_pos rfl]
    decide

theorem step_limit_one_times_out_witness :
    get_step_limit [("step_limit", "1")] 800000 = 1 ∧
    ((1 ≤ g_cycle4.n → (g_cycle4.n : Int) ≤ ham_limit [("step_limit", "1")] →
        quick_ham_impossible g_cycle4 = false →
        ham_cycle sort_by_key (fun k => k) g_cycle4 [("step_limit", "1")] = "HAM: TIMEOUT") ∧
      MaxClique_run sort_by_key (fun k => k) g_cycle4 [("step_limit", "1")] =
        some "MAXCLIQUE: TIMEOUT (current best=0)" ∧
      NumMaxCliques_run sort_by_key (fun k => k) g_cycle4 [("step_limit", "1")] =
        some "NUM_MAXCLIQUES: TIMEOUT (count so far=0)") ∧
    1 ≤ g_cycle4.n ∧ (g_cycle4.n : Int) ≤ ham_limit [("step_limit", "1")] ∧
    quick_ham_impossible g_cycle4 = false :=
  ⟨by decide,
    step_limit_one_times_out sort_by_key (fun k => k) g_cycle4 [("step_limit", "1")] (by decide),
    by decide, by decide, by decide⟩


/-! ### The size limit of the Hamiltonian engine -/

theorem HamResult.text_prefix_skip (n : Nat) (limit : Int) :
    (HamResult.skip n limit).text.data.take 7 = "HAM: n=".data := by
  simp only [HamResult.text, String.data_append]
  rfl

theorem all_true_of_count {vis : List Bool} (h : vis.length ≤ vis.count true) :
    ∀ x, x < vis.length → vis.getD x false = true := by
  intro x hx
  have h1 : vis.count true = vis.length := le_antisymm (List.count_le_length _ _) h
  rw [List.count_eq_length] at h1
  rw [List.getD_eq_getElem?_getD, List.getElem?_eq_getElem hx]
  exact (h1 _ (List.getElem_mem hx)).symm

/-- The undirected branch of the precheck rejects exactly the graphs that are not
connected over all vertices or have a vertex of degree below 2. -/
theorem quick_ham_impossible_undirected {g : Graph} (hwf : g.WF) (hn : 1 ≤ g.n)
    (hd : g.directed = false) :
    quick_ham_impossible g = true ↔ (¬ g.AllReach ∨ ∃ v, v < g.n ∧ g.deg v < 2) := by
  unfold quick_ham_impossible
  rw [hd]
  simp only [Bool.not_false, if_true]
  cases hf : (List.range g.n).find? (fun i => !(g.nbrs i).isEmpty) with
  | none =>
    simp only [true_iff]
    right
    refine ⟨0, by omega, ?_⟩
    have := List.find?_eq_none.1 hf 0 (List.mem_range.2 (by omega))
    simp only [Bool.not_eq_true', Bool.not_eq_false, List.isEmpty_iff] at this
    unfold Graph.deg
    rw [this]; decide
  | some s =>
    simp only
    have hsn : s < g.n := List.mem_range.1 (List.mem_of_find?_eq_some hf)
    obtain ⟨hlen, hvis, hseen⟩ := search_from_spec g.n g.nbrs hwf.2.1 pop_front_ok hsn
    have hany : (List.range g.n).any (fun i => decide ((g.nbrs i).length < 2)) = true ↔
        ∃ v, v < g.n ∧ g.deg v < 2 := by
      rw [List.any_eq_true]
      constructor
      · rintro ⟨i, hi, h⟩
        exact ⟨i, List.mem_range.1 hi, by simpa using h⟩
      · rintro ⟨i, hi, h⟩
        exact ⟨i, List.mem_range.2 hi, by simpa using h⟩
    by_cases hlt : (search_from g.n g.nbrs pop_front s).2 < g.n
    · rw [if_pos hlt]
      simp only [true_iff]
      left
      intro hall
      have : (search_from g.n g.nbrs pop_front s).1.count true =
          (search_from g.n g.nbrs pop_front s).1.length := by
        apply count_true_eq_length
        intro x hx
        exact (hvis x).2 (hall s x hsn (hlen ▸ hx))
      omega
    · rw [if_neg hlt, hany]
      constructor
      · exact fun h => Or.inr h
      · rintro (h | h)
        · exfalso
          apply h
          have hall : ∀ x, x < (search_from g.n g.nbrs pop_front s).1.length →
              (search_from g.n g.nbrs pop_front s).1.getD x false = true :=
            all_true_of_count (by omega)
          intro u v hu hv
          have h1 : Reach g.nbrs s u := (hvis u).1 (hall u (by omega))
          have h2 : Reach g.nbrs s v := (hvis v).1 (hall v (by omega))
          exact (Reach.symm_of_undirected hwf hd h1).trans h2
        · exact h

/-- The directed branch of the precheck rejects exactly the graphs with a vertex of
in-degree 0 or out-degree 0, or that are not strongly connected. -/
theorem quick_ham_impossible_directed {g : Graph} (hwf : g.WF) (hn : 1 ≤ g.n)
    (hd : g.directed = true) :
    quick_ham_impossible g = true ↔
      ((∃ v, v < g.n ∧ (g.in_degree v = 0 ∨ g.out_degree v = 0)) ∨ ¬ g.AllReach) := by
  have h0 : 0 < g.n := by omega
  obtain ⟨hlen, hvis, _⟩ := search_from_spec g.n g.nbrs hwf.2.1 pop_back_ok h0
  obtain ⟨hlen2, hvis2, _⟩ := search_from_spec g.n (row (reverse_adj g))
    (reverse_adj_lt hwf) pop_back_ok h0
  have hdeg : (List.range g.n).any
      (fun i => (out_deg g).getD i 0 == 0 || (in_deg g).getD i 0 == 0) = true ↔
      ∃ v, v < g.n ∧ (g.in_degree v = 0 ∨ g.out_degree v = 0) := by
    rw [List.any_eq_true]
    constructor
    · rintro ⟨i, hi, h⟩
      rw [List.mem_range] at hi
      rw [out_deg_spec g hi, in_deg_spec hwf] at h
      simp only [Bool.or_eq_true, beq_iff_eq] at h
      exact ⟨i, hi, h.symm⟩
    · rintro ⟨i, hi, h⟩
      refine ⟨i, List.mem_range.2 hi, ?_⟩
      rw [out_deg_spec g hi, in_deg_spec hwf]
      simp only [Bool.or_eq_true, beq_iff_eq]
      exact h.symm
  have hfw : (List.range g.n).any
      (fun i => !(search_from g.n g.nbrs pop_back 0).1.getD i false) = true ↔
      ∃ x, x < g.n ∧ ¬ Reach g.nbrs 0 x := by
    rw [List.any_eq_true]
    constructor
    · rintro ⟨i, hi, h⟩
      refine ⟨i, List.mem_range.1 hi, fun hr => ?_⟩
      rw [(hvis i).2 hr] at h; cases h
    · rintro ⟨i, hi, h⟩
      refine ⟨i, List.mem_range.2 hi, ?_⟩
      rw [Bool.not_eq_true', getD_false_iff]
      exact fun hv => h ((hvis i).1 hv)
  have hbw : (List.range g.n).any
      (fun i => !(search_from g.n (row (reverse_adj g)) pop_back 0).1.getD i false) = true ↔
      ∃ x, x < g.n ∧ ¬ Reach g.nbrs x 0 := by
    rw [List.any_eq_true]
    constructor
    · rintro ⟨i, hi, h⟩
      refine ⟨i, List.mem_range.1 hi, fun hr => ?_⟩
      rw [(hvis2 i).2 ((reach_reverse_adj hwf 0 i).2 hr)] at h; cases h
    · rintro ⟨i, hi, h⟩
      refine ⟨i, List.mem_range.2 hi, ?_⟩
      rw [Bool.not_eq_true', getD_false_iff]
      exact fun hv => h ((reach_reverse_adj hwf 0 i).1 ((hvis2 i).1 hv))
  have hall : ¬ g.AllReach ↔
      ((∃ x, x < g.n ∧ ¬ Reach g.nbrs 0 x) ∨ ∃ x, x < g.n ∧ ¬ Reach g.nbrs x 0) := by
    constructor
    · intro h
      by_contra hc
      rw [not_or] at hc
      apply h
      intro u v hu hv
      have h1 : Reach g.nbrs u 0 := by
        by_contra h1; exact hc.2 ⟨u, hu, h1⟩
      have h2 : Reach g.nbrs 0 v := by
        by_contra h2; exact hc.1 ⟨v, hv, h2⟩
      exact h1.trans h2
    · rintro (⟨x, hx, h⟩ | ⟨x, hx, h⟩) hall
      · exact h (hall 0 x h0 hx)
      · exact h (hall x 0 hx h0)
  unfold quick_ham_impossible
  rw [hd]
  simp only [Bool.not_true, Bool.false_eq_true, if_false]
  rw [hall, ← hdeg, ← hfw, ← hbw]
  split_ifs with h1 h2
  · exact ⟨fun _ => Or.inl h1, fun _ => rfl⟩
  · exact ⟨fun _ => Or.inr (Or.inl h2), fun _ => rfl⟩
  · constructor
    · exact fun h => Or.inr (Or.inr h)
    · rintro (h | h | h)
      · exact absurd h h1
      · exact absurd h h2
      · exact h


/-- C19. For a well-formed graph with `n >= 1`: an undirected graph is rejected by
`quick_ham_impossible` iff it is not connected over all `n` vertices or has a vertex
of degree below 2; a directed graph iff some vertex has in-degree 0 or out-degree 0
or the graph is not strongly connected. A rejected graph with `n <= limit` makes
`ham_cycle` return "NO Hamilton cycle (quick precheck)" whatever the clock, the sort
and the budget parameters are (the search is not entered), as for the path 0-1-2 on
4 vertices with the parameters of the test. -/
theorem ham_precheck_exact (srt : (Nat → Nat) → List Nat → List Nat)
    (g : Graph) (hwf : g.WF) (hn : 1 ≤ g.n) :
    (g.directed = false →
      (quick_ham_impossible g = true ↔ (¬ g.AllReach ∨ ∃ v, v < g.n ∧ g.deg v < 2))) ∧
    (g.directed = true →
      (quick_ham_impossible g = true ↔
        ((∃ v, v < g.n ∧ (g.in_degree v = 0 ∨ g.out_degree v = 0)) ∨ ¬ g.AllReach))) ∧
    (quick_ham_impossible g = true → ∀ (now : Nat → Nat) (params : KV),
      (g.n : Int) ≤ ham_limit params →
        ham_cycle_result srt now g params = .precheck_no ∧
        ham_cycle srt now g params = "NO Hamilton cycle (quick precheck)") ∧
    (∀ now : Nat → Nat,
      ham_cycle srt now g_ham_path ham_test_params = "NO Hamilton cycle (quick precheck)") := by
  refine ⟨quick_ham_impossible_undirected hwf hn, quick_ham_impossible_directed hwf hn, ?_, ?_⟩
  · intro hq now params hl
    have e : ham_cycle_result srt now g params = .precheck_no := by
      unfold ham_cycle_result
      dsimp only
      rw [if_neg (by omega), if_neg (by omega), if_pos hq]
    refine ⟨e, ?_⟩
    unfold ham_cycle
    rw [e]
    rfl
  · intro now
    have e : ham_cycle_result srt now g_ham_path ham_test_params = .precheck_no := by
      unfold ham_cycle_result
      dsimp only
      rw [if_neg (by decide), if_neg (by decide), if_pos (by decide)]
    unfold ham_cycle
    rw [e]
    rfl

theorem ham_precheck_exact_witness :
    g_ham_path.WF ∧ 1 ≤ g_ham_path.n ∧ quick_ham_impossible g_ham_path = true ∧
      g_ham_path.deg 0 < 2 ∧
      (g_ham_path.directed = false →
        (quick_ham_impossible g_ham_path = true ↔
          (¬ g_ham_path.AllReach ∨ ∃ v, v < g_ham_path.n ∧ g_ham_path.deg v < 2))) :=
  ⟨Graph.wf_of_check _ (by decide), by decide, by decide, by decide,
    (ham_precheck_exact sort_by_key g_ham_path (Graph.wf_of_check _ (by decide))
      (by decide)).1⟩

theorem ccInv_step {n : Nat} {adj : Nat → List Nat} (hadj : ∀ u v, v ∈ adj u → v < n)
    {M : List Bool} {s : Nat} {w : List Nat} {vis : List Bool} (seen : Nat) {u : Nat}
    {w1 : List Nat} (hw : ∀ x, x ∈ w ↔ x = u ∨ x ∈ w1) (h : CcInv n adj M s w vis) :
    CcInv n adj M s (visit_nbrs (adj u) vis w1 seen).2.1 (visit_nbrs (adj u) vis w1 seen).1 := by
  obtain ⟨h1, h2, h3, h4, h5, h6⟩ := h
  obtain ⟨a, b, c, _, _⟩ := visit_nbrs_spec (adj u) vis w1 seen
    (fun v hv => h1 ▸ hadj u v hv)
  obtain ⟨hu, hru⟩ := h2 u ((hw u).2 (Or.inl rfl))
  have hnw : ∀ x, x ≠ u → x ∉ (visit_nbrs (adj u) vis w1 seen).2.1 → x ∉ w := by
    intro x hxu hn hm
    rcases (hw x).1 hm with e | e
    · exact hxu e
    · exact hn ((c x).2 (Or.inl e))
  refine ⟨a.trans h1, ?_, ?_, (b s).2 (Or.inl h4), fun x hx => (b x).2 (Or.inl (h5 x hx)), ?_⟩
  · intro x hx
    rcases (c x).1 hx with hx | ⟨hx, _⟩
    · obtain ⟨k1, k2⟩ := h2 x ((hw x).2 (Or.inr hx))
      exact ⟨(b x).2 (Or.inl k1), k2⟩
    · exact ⟨(b x).2 (Or.inr hx), hru.tail hx⟩
  · intro x hx
    rcases (b x).1 hx with hx | hx
    · exact h3 x hx
    · exact Or.inr (hru.tail hx)
  · intro x hx hn y hy
    by_cases hxu : x = u
    · subst hxu; exact (b y).2 (Or.inr hy)
    · rcases (b x).1 hx with hx1 | hx1
      · exact (b y).2 (Or.inl (h6 x hx1 (hnw x hxu hn) y hy))
      · by_cases hvx : vis.getD x false = true
        · exact (b y).2 (Or.inl (h6 x hvx (hnw x hxu hn) y hy))
        · exact absurd ((c x).2 (Or.inr ⟨hx1, by simpa using hvx⟩)) hn

/-- The BFS of `count_connected_undirected` adds to the old marks exactly the
vertices reachable from `s`, when the bound covers the pending work. -/
theorem cc_search_loop_spec {n : Nat} {adj : Nat → List Nat}
    (hadj : ∀ u v, v ∈ adj u → v < n) {pop : List Nat → Option (Nat × List Nat)}
    (hpop : PopOK pop) {M : List Bool} {s : Nat} :
    ∀ (fuel : Nat) (w : List Nat) (vis : List Bool) (seen : Nat),
      CcInv n adj M s w vis → w.length + vis.count false ≤ fuel →
      (search_loop adj pop fuel w vis seen).1.length = n ∧
      (∀ x, (search_loop adj pop fuel w vis seen).1.getD x false = true ↔
        (M.getD x false = true ∨ Reach adj s x)) := by
  have closed : ∀ vis : List Bool, CcInv n adj M s [] vis →
      vis.length = n ∧ (∀ x, vis.getD x false = true ↔
        (M.getD x false = true ∨ Reach adj s x)) := by
    intro vis ⟨h1, _, h3, h4, h5, h6⟩
    refine ⟨h1, fun x => ⟨h3 x, ?_⟩⟩
    rintro (hM | hr)
    · exact h5 x hM
    · induction hr with
      | refl => exact h4
      | tail _ hbc ih => exact h6 _ ih (List.not_mem_nil _) _ hbc
  intro fuel
  induction fuel with
  | zero =>
    intro w vis seen hinv hf
    have hw : w = [] := List.length_eq_zero.1 (by omega)
    subst hw
    exact closed vis hinv
  | succ fuel ih =>
    intro w vis seen hinv hf
    rw [search_loop]
    cases hp : pop w with
    | none =>
      have hw : w = [] := (hpop w).1 hp
      subst hw
      exact closed vis hinv
    | some p =>
      obtain ⟨u, w1⟩ := p
      obtain ⟨hmem, hlen⟩ := (hpop w).2 u w1 hp
      simp only
      apply ih _ _ _ (ccInv_step hadj seen hmem hinv)
      have := (visit_nbrs_spec (adj u) vis w1 seen
        (fun v hv => hinv.1 ▸ hadj u v hv)).2.2.2.1
      omega


theorem cc_adj_undirected {g : Graph} (hd : g.directed = false) : cc_adj g = g.nbrs := by
  funext u
  unfold cc_adj
  rw [hd]
  simp

theorem Reach.lt_of_lt {g : Graph} (hwf : g.WF) {a b : Nat} (h : Reach g.nbrs a b)
    (ha : a < g.n) : b < g.n := by
  induction h with
  | refl => exact ha
  | tail _ hbc _ => exact hwf.2.1 _ _ hbc

theorem mutReach_iff_reach {g : Graph} (hwf : g.WF) (hd : g.directed = false) (a b : Nat) :
    MutReach g a b ↔ Reach g.nbrs a b :=
  ⟨fun h => h.1, fun h => ⟨h, Reach.symm_of_undirected hwf hd h⟩⟩

/-- One BFS of `count_connected_undirected` marks exactly the component of its start
vertex and keeps the invariant of the counting loop. -/
theorem cc_step {g : Graph} (hwf : g.WF) (hd : g.directed = false) (s : List Bool × Nat)
    (hinv : Pass2Inv g s) (st : Nat) (hst : st < g.n) (hun : ¬ s.1.getD st false = true) :
    Pass2Inv g ((search_loop (cc_adj g) pop_front g.n [st] (s.1.set st true) 0).1, s.2 + 1) ∧
      (search_loop (cc_adj g) pop_front g.n [st] (s.1.set st true) 0).1.getD st false = true ∧
      ∀ x, s.1.getD x false = true →
        (search_loop (cc_adj g) pop_front g.n [st] (s.1.set st true) 0).1.getD x false = true := by
  obtain ⟨reps, hc, hlen, hvis, hpw, hlt⟩ := hinv
  rw [cc_adj_undirected hd]
  have hstl : st < s.1.length := by rw [hlen]; exact hst
  have hclosed : ∀ x, s.1.getD x false = true → ∀ y ∈ g.nbrs x, s.1.getD y false = true := by
    intro x hx y hy
    obtain ⟨_, r, hr, hm⟩ := (hvis x).1 hx
    have hyx : MutReach g y x :=
      ((mutReach_iff_reach hwf hd x y).2 (Relation.ReflTransGen.single hy)).symm
    exact (hvis y).2 ⟨hwf.2.1 x y hy, r, hr, hyx.trans hm⟩
  have hinit : CcInv g.n g.nbrs s.1 st [st] (s.1.set st true) := by
    refine ⟨by rw [List.length_set]; exact hlen, ?_, ?_, ?_, ?_, ?_⟩
    · intro x hx
      rw [List.mem_singleton.1 hx]
      exact ⟨(getD_set_true _ _ _ hstl).2 (Or.inl rfl), Relation.ReflTransGen.refl⟩
    · intro x hx
      rcases (getD_set_true _ _ _ hstl).1 hx with h | h
      · rw [h]; exact Or.inr Relation.ReflTransGen.refl
      · exact Or.inl h
    · exact (getD_set_true _ _ _ hstl).2 (Or.inl rfl)
    · intro x hx
      exact (getD_set_true _ _ _ hstl).2 (Or.inr hx)
    · intro x hx hnw y hy
      rcases (getD_set_true _ _ _ hstl).1 hx with h | h
      · exact absurd (List.mem_singleton.2 h) hnw
      · exact (getD_set_true _ _ _ hstl).2 (Or.inr (hclosed x h y hy))
  have hfuel : [st].length + (s.1.set st true).count false ≤ g.n := by
    have h1 := count_false_set_true s.1 st hstl ((getD_false_iff _ _).2 hun)
    have h2 : s.1.count false ≤ s.1.length := List.count_le_length _ _
    simp only [List.length_singleton]
    omega
  obtain ⟨hlen1, hvis1⟩ := cc_search_loop_spec hwf.2.1 pop_front_ok g.n [st]
    (s.1.set st true) 0 hinit hfuel
  refine ⟨⟨reps ++ [st], by simp [hc], hlen1, ?_, ?_, ?_⟩,
    (hvis1 st).2 (Or.inr Relation.ReflTransGen.refl), fun x hx => (hvis1 x).2 (Or.inl hx)⟩
  · intro x
    show (search_loop g.nbrs pop_front g.n [st] (s.1.set st true) 0).1.getD x false = true ↔ _
    rw [hvis1, hvis]
    constructor
    · rintro (⟨h1, r, hr, hm⟩ | h)
      · exact ⟨h1, r, List.mem_append_left _ hr, hm⟩
      · refine ⟨Reach.lt_of_lt hwf h hst, st, by simp, ?_⟩
        exact ((mutReach_iff_reach hwf hd st x).2 h).symm
    · rintro ⟨h1, r, hr, hm⟩
      rcases List.mem_append.1 hr with h | h
      · exact Or.inl ⟨h1, r, h, hm⟩
      · rw [List.mem_singleton.1 h] at hm; exact Or.inr hm.2
  · rw [List.pairwise_append]
    refine ⟨hpw, List.pairwise_singleton _ _, ?_⟩
    intro r hr v hv hm
    rw [List.mem_singleton.1 hv] at hm
    exact hun ((hvis st).2 ⟨hst, r, hr, hm.symm⟩)
  · intro r hr
    rcases List.mem_append.1 hr with h | h
    · exact hlt r h
    · rw [List.mem_singleton.1 h]; exact hst

theorem cc_loop {g : Graph} (hwf : g.WF) (hd : g.directed = false) (is : List Nat)
    (his : ∀ i ∈ is, i < g.n) :
    ∀ s, Pass2Inv g s →
      Pass2Inv g (is.foldl (fun s st =>
        if s.1.getD st false then s
        else ((search_loop (cc_adj g) pop_front g.n [st] (s.1.set st true) 0).1, s.2 + 1)) s) ∧
      (∀ i ∈ is, (is.foldl (fun s st =>
        if s.1.getD st false then s
        else ((search_loop (cc_adj g) pop_front g.n [st] (s.1.set st true) 0).1, s.2 + 1))
          s).1.getD i false = true) ∧
      (∀ x, s.1.getD x false = true → (is.foldl (fun s st =>
        if s.1.getD st false then s
        else ((search_loop (cc_adj g) pop_front g.n [st] (s.1.set st true) 0).1, s.2 + 1))
          s).1.getD x false = true) := by
  induction is with
  | nil => intro s h; exact ⟨h, fun i hi => absurd hi (List.not_mem_nil i), fun x hx => hx⟩
  | cons i is ihl =>
    intro s hinv
    have his1 : ∀ j ∈ is, j < g.n := fun j hj => his j (List.mem_cons_of_mem _ hj)
    rw [List.foldl_cons]
    by_cases hv : s.1.getD i false = true
    · rw [if_pos hv]
      obtain ⟨h1, h2, h3⟩ := ihl his1 s hinv
      refine ⟨h1, ?_, h3⟩
      intro j hj
      rcases List.mem_cons.1 hj with e | hj1
      · rw [e]; exact h3 i hv
      · exact h2 j hj1
    · rw [if_neg hv]
      obtain ⟨g1, g2, g3⟩ := cc_step hwf hd s hinv i (his i (List.mem_cons_self _ _)) hv
      obtain ⟨h1, h2, h3⟩ := ihl his1 _ g1
      refine ⟨h1, ?_, fun x hx => h3 x (g3 x hx)⟩
      intro j hj
      rcases List.mem_cons.1 hj with e | hj1
      · rw [e]; exact h3 i g2
      · exact h2 j hj1

/-- The loop of `count_connected_undirected` counts a complete system of
representatives. -/
theorem cc_transversal {g : Graph} (hwf : g.WF) (hd : g.directed = false) :
    ∃ reps, IsSccTransversal g reps ∧ count_connected_undirected g = reps.length := by
  have hinit : Pass2Inv g (List.replicate g.n false, 0) := by
    refine ⟨[], rfl, by simp, ?_, List.Pairwise.nil, fun r hr => absurd hr (List.not_mem_nil r)⟩
    intro x
    constructor
    · intro h
      exfalso
      have hx := getD_true_lt h
      rw [List.getD_eq_getElem?_getD, List.getElem?_eq_getElem hx] at h
      simp at h
    · rintro ⟨_, r, hr, _⟩; cases hr
  obtain ⟨⟨reps, hc, _, hvis, hpw, hlt⟩, hm, _⟩ :=
    cc_loop hwf hd (List.range g.n) (fun i hi => List.mem_range.1 hi) _ hinit
  refine ⟨reps, ⟨hlt, hpw, ?_⟩, hc⟩
  intro v hv
  exact ((hvis v).1 (hm v (List.mem_range.2 hv))).2


theorem isCompTransversal_iff {g : Graph} (hwf : g.WF) (hd : g.directed = false)
    (reps : List Nat) : IsCompTransversal g reps ↔ IsSccTransversal g reps := by
  unfold IsCompTransversal IsSccTransversal
  constructor
  · rintro ⟨h1, h2, h3⟩
    refine ⟨h1, h2.imp (by intro a b h hm; exact h hm.1), ?_⟩
    intro v hv
    obtain ⟨r, hr, h⟩ := h3 v hv
    exact ⟨r, hr, (mutReach_iff_reach hwf hd v r).2 h⟩
  · rintro ⟨h1, h2, h3⟩
    refine ⟨h1, h2.imp (by intro a b h hm; exact h ((mutReach_iff_reach hwf hd a b).2 hm)), ?_⟩
    intro v hv
    obtain ⟨r, hr, h⟩ := h3 v hv
    exact ⟨r, hr, h.1⟩

theorem Reach.eq_of_isolated {adj : Nat → List Nat} {a b : Nat} (h : Reach adj a b)
    (ha : adj a = []) : b = a := by
  induction h with
  | refl => rfl
  | tail _ hbc ih =>
    rw [ih, ha] at hbc
    cases hbc

/-- C12. For every well-formed undirected graph the connected components have a
complete system of representatives, and `count_scc_kosaraju` returns the length of
every such system, that is the number of connected components; `SccCount::run` labels
it "Graph undirected; connected components=<c>"; every isolated vertex is its own
representative, so it counts as one component. On the undirected graph with edges
0-1, 1-2, 3-4 on 5 vertices the count is 2. -/
theorem cc_count_correct (g : Graph) (hwf : g.WF) (hd : g.directed = false) :
    (∃ reps, IsCompTransversal g reps) ∧
    (∀ reps, IsCompTransversal g reps →
      count_scc_kosaraju g = reps.length ∧
      SccCount_run g = "Graph undirected; connected components=" ++ toString reps.length ∧
      ∀ v, v < g.n → g.nbrs v = [] → v ∈ reps) ∧
    count_scc_kosaraju g_cc_test = 2 ∧
    SccCount_run g_cc_test = "Graph undirected; connected components=2" := by
  obtain ⟨reps0, h0, hc0⟩ := cc_transversal hwf hd
  refine ⟨⟨reps0, (isCompTransversal_iff hwf hd reps0).2 h0⟩, ?_, by decide, by decide⟩
  intro reps hr
  have hr1 := (isCompTransversal_iff hwf hd reps).1 hr
  have hlen : reps0.length = reps.length :=
    le_antisymm (transversal_length_le g reps0 reps h0.1 h0.2.1 hr1.2.2)
      (transversal_length_le g reps reps0 hr1.1 hr1.2.1 h0.2.2)
  have hcount : count_scc_kosaraju g = reps.length := by
    unfold count_scc_kosaraju
    rw [hd]
    simp only [Bool.not_false, if_true]
    rw [hc0, hlen]
  refine ⟨hcount, ?_, ?_⟩
  · unfold SccCount_run
    rw [hd, hcount]
    simp
  · intro v hv hiso
    obtain ⟨r, hrm, hvr⟩ := hr.2.2 v hv
    rw [Reach.eq_of_isolated hvr hiso] at hrm
    exact hrm

theorem cc_count_correct_witness :
    g_cc_test.WF ∧ g_cc_test.directed = false ∧
      ((∃ reps, IsCompTransversal g_cc_test reps) ∧
      (∀ reps, IsCompTransversal g_cc_test reps →
        count_scc_kosaraju g_cc_test = reps.length ∧
        SccCount_run g_cc_test =
          "Graph undirected; connected components=" ++ toString reps.length ∧
        ∀ v, v < g_cc_test.n → g_cc_test.nbrs v = [] → v ∈ reps) ∧
      count_scc_kosaraju g_cc_test = 2 ∧
      SccCount_run g_cc_test = "Graph undirected; connected components=2") :=
  ⟨Graph.wf_of_check g_cc_test (by decide), rfl,
    cc_count_correct g_cc_test (Graph.wf_of_check g_cc_test (by decide)) rfl⟩


/-! ### The clique engine: what holds whatever the order of `P` is -/

theorem set_intersection_scan_spec (a : Nat) (as : List Nat) (rest : List Nat → List Nat)
    (hrest : ∀ l, (∀ x ∈ rest l, x ∈ as ∧ x ∈ l) ∧ (rest l).Sublist l) :
    ∀ l, (∀ x ∈ set_intersection_scan a rest l, x ∈ a :: as ∧ x ∈ l) ∧
      (set_intersection_scan a rest l).Sublist l := by
  intro l
  induction l with
  | nil =>
    rw [set_intersection_scan]
    exact ⟨fun x hx => absurd hx (List.not_mem_nil x), List.Sublist.refl _⟩
  | cons b bs ih =>
    rw [set_intersection_scan]
    by_cases h1 : a < b
    · rw [if_pos h1]
      refine ⟨fun x hx => ?_, (hrest _).2⟩
      exact ⟨List.mem_cons_of_mem _ ((hrest _).1 x hx).1, ((hrest _).1 x hx).2⟩
    · rw [if_neg h1]
      by_cases h2 : b < a
      · rw [if_pos h2]
        refine ⟨fun x hx => ?_, ih.2.trans (List.sublist_cons_self b bs)⟩
        exact ⟨(ih.1 x hx).1, List.mem_cons_of_mem _ (ih.1 x hx).2⟩
      · rw [if_neg h2]
        have e : a = b := by omega
        subst e
        refine ⟨fun x hx => ?_, ((hrest bs).2).cons₂ a⟩
        rcases List.mem_cons.1 hx with h | h
        · rw [h]; exact ⟨List.mem_cons_self _ _, List.mem_cons_self _ _⟩
        · exact ⟨List.mem_cons_of_mem _ ((hrest bs).1 x h).1,
            List.mem_cons_of_mem _ ((hrest bs).1 x h).2⟩

/-- Whatever the order of its inputs, the two-pointer intersection only returns
common elements, and returns them as a sublist of its second input. -/
theorem set_intersection_spec (l1 : List Nat) :
    ∀ l2, (∀ x ∈ set_intersection l1 l2, x ∈ l1 ∧ x ∈ l2) ∧
      (set_intersection l1 l2).Sublist l2 := by
  induction l1 with
  | nil =>
    intro l2
    rw [set_intersection]
    exact ⟨fun x hx => absurd hx (List.not_mem_nil x), List.nil_sublist _⟩
  | cons a as ih =>
    intro l2
    rw [set_intersection]
    exact set_intersection_scan_spec a as (set_intersection as) ih l2

theorem mem_unique {x : Nat} : ∀ {l : List Nat}, x ∈ unique l → x ∈ l
  | [], h => by rw [unique] at h; exact h
  | [a], h => by rw [unique] at h; exact h
  | a :: b :: t, h => by
    rw [unique] at h
    by_cases e : a = b
    · rw [if_pos e] at h
      exact List.mem_cons_of_mem _ (mem_unique h)
    · rw [if_neg e] at h
      rcases List.mem_cons.1 h with h1 | h1
      · rw [h1]; exact List.mem_cons_self _ _
      · exact List.mem_cons_of_mem _ (mem_unique h1)

theorem mem_row_set {A : List (List Nat)} {u y x : Nat} {r : List Nat}
    (h : x ∈ row (A.set u r) y) : x ∈ row A y ∨ (y = u ∧ x ∈ r) := by
  by_cases hu : u < A.length
  · rw [row_set A u y r hu] at h
    by_cases e : u = y
    · rw [if_pos e] at h; exact Or.inr ⟨e.symm, h⟩
    · rw [if_neg e] at h; exact Or.inl h
  · rw [List.set_eq_of_length_le (by omega)] at h
    exact Or.inl h

theorem push_row_sound (g : Graph) (d : Bool) (u : Nat) :
    ∀ (vs : List Nat) (A : List (List Nat)), (∀ v ∈ vs, v ∈ g.nbrs u) →
      (∀ y x, x ∈ row A y → g.adjU y x) →
      ∀ y x, x ∈ row (push_row d u A vs) y → g.adjU y x := by
  intro vs
  induction vs with
  | nil => intro A _ hA; rw [push_row]; exact hA
  | cons v vs ih =>
    intro A hvs hA
    rw [push_row]
    have hv : v ∈ g.nbrs u := hvs v (List.mem_cons_self _ _)
    have h1 : ∀ y x, x ∈ row (A.set u (row A u ++ [v])) y → g.adjU y x := by
      intro y x hx
      rcases mem_row_set hx with h | ⟨rfl, h⟩
      · exact hA y x h
      · rcases List.mem_append.1 h with h2 | h2
        · exact hA _ x h2
        · rw [List.mem_singleton.1 h2]; exact Or.inl hv
    apply ih _ (fun w hw => hvs w (List.mem_cons_of_mem _ hw))
    dsimp only
    by_cases hd : d = true
    · rw [if_pos hd]
      intro y x hx
      rcases mem_row_set hx with h | ⟨rfl, h⟩
      · exact h1 y x h
      · rcases List.mem_append.1 h with h2 | h2
        · exact h1 _ x h2
        · rw [List.mem_singleton.1 h2]; exact Or.inr hv
    · rw [if_neg hd]; exact h1

/-- Every entry of the table built by `make_adj_undirected` is an edge or arc of the
graph, read in either direction. -/
theorem make_adj_undirected_sound (g : Graph) (y x : Nat)
    (h : x ∈ row (make_adj_undirected g) y) : g.adjU y x := by
  unfold make_adj_undirected at h
  dsimp only at h
  have hfold : ∀ (us : List Nat) (A : List (List Nat)),
      (∀ y x, x ∈ row A y → g.adjU y x) →
      ∀ y x, x ∈ row (us.foldl (fun A u => push_row g.directed u A (g.nbrs u)) A) y →
        g.adjU y x := by
    intro us
    induction us with
    | nil => intro A hA; exact hA
    | cons u us ih =>
      intro A hA
      rw [List.foldl_cons]
      exact ih _ (push_row_sound g g.directed u (g.nbrs u) A (fun v hv => hv) hA)
  have h0 : ∀ y x, x ∈ row (List.replicate g.n ([] : List Nat)) y → g.adjU y x := by
    intro y x hx
    exfalso
    unfold row at hx
    rw [List.getD_eq_getElem?_getD, List.getElem?_replicate] at hx
    split_ifs at hx <;> cases hx
  apply hfold (List.range g.n) _ h0 y x
  unfold row at h ⊢
  rw [List.getD_eq_getElem?_getD, List.getElem?_map] at h
  rw [List.getD_eq_getElem?_getD]
  cases hr : ((List.range g.n).foldl (fun A u => push_row g.directed u A (g.nbrs u))
      (List.replicate g.n []))[y]? with
  | none => rw [hr] at h; cases h
  | some r =>
    rw [hr] at h
    have h2 : x ∈ unique (r.insertionSort (· ≤ ·)) := h
    exact (List.perm_insertionSort _ _).mem_iff.1 (mem_unique h2)


theorem bk_recurse_succ {srt : (Nat → Nat) → List Nat → List Nat}
    (now : Nat → Nat) (A : List (List Nat)) (recordBest : Bool)
    (fuel : Nat) (st : BKState) (R P X : List Nat) :
    bk_recurse srt now A recordBest (fuel + 1) st R P X =
      if (st.B.timed_out now).1 = true then
        some { st with B := (st.B.timed_out now).2, aborted := true }
      else if (recordBest && decide (R.length + P.length ≤ st.best)) = true then
        some { st with B := (st.B.timed_out now).2 }
      else if (P.isEmpty && X.isEmpty) = true then
        if (recordBest && decide (R.length > st.best)) = true then
          some { st with B := (st.B.timed_out now).2, countMaximal := st.countMaximal + 1,
                         best := R.length, bestR := R }
        else some { st with B := (st.B.timed_out now).2, countMaximal := st.countMaximal + 1 }
      else
        bk_loop now A (bk_recurse srt now A recordBest fuel) R
          (srt (fun a => (row A a).length)
            (P.filter (fun v =>
              !((choose_pivot A P X).1 != -1 &&
                (row A (choose_pivot A P X).1.toNat).contains v))))
          { st with B := (st.B.timed_out now).2 } P X := by
  rw [bk_recurse]

theorem bk_loop_cons (now : Nat → Nat) (A : List (List Nat))
    (recurse : BKState → List Nat → List Nat → List Nat → Option BKState)
    (R : List Nat) (v : Nat) (vs : List Nat) (st : BKState) (P X : List Nat) :
    bk_loop now A recurse R (v :: vs) st P X =
      if (st.B.timed_out now).1 = true then
        some { st with B := (st.B.timed_out now).2, aborted := true }
      else
        match recurse { st with B := (st.B.timed_out now).2 } (R ++ [v])
            (inter_neighbors A v P) (inter_neighbors A v X) with
        | none => none
        | some st2 =>
          if st2.aborted = true then some st2
          else bk_loop now A recurse R vs st2 (P.erase v) (X ++ [v]) := by
  rw [bk_loop]


theorem sublist_length_lt {l1 l2 : List Nat} (h : l1.Sublist l2) {x : Nat} (hx : x ∈ l2)
    (hn : x ∉ l1) : l1.length < l2.length := by
  rcases Nat.lt_or_ge l1.length l2.length with h1 | h1
  · exact h1
  · exact absurd (h.eq_of_length_le h1 ▸ hx) hn

theorem BestOK.with_budget {A : List (List Nat)} {n : Nat} {st : BKState} (h : BestOK A n st)
    (B : Budget) (ab : Bool) (cm : Nat) :
    BestOK A n { st with B := B, aborted := ab, countMaximal := cm } := h

/-- The candidate loop of `bk_recurse` returns and keeps the record sound, when the
recursive calls on shorter candidate lists do. -/
theorem bk_loop_ok {srt : (Nat → Nat) → List Nat → List Nat}
    (now : Nat → Nat) (A : List (List Nat)) (n : Nat) (rb : Bool)
    (hself : ∀ v, v ∉ row A v) (fuel : Nat)
    (ih : ∀ st R P X, BestOK A n st → CliqueArgs A n R P → P.length < fuel →
      ∃ st1, bk_recurse srt now A rb fuel st R P X = some st1 ∧ BestOK A n st1)
    (R P0 : List Nat) (hR : CliqueArgs A n R P0) (hP0 : P0.length ≤ fuel) :
    ∀ (vs : List Nat) (st : BKState) (P X : List Nat), BestOK A n st →
      (∀ v ∈ vs, v ∈ P0) → P.Sublist P0 →
      ∃ st1, bk_loop now A (bk_recurse srt now A rb fuel) R vs st P X = some st1 ∧
        BestOK A n st1 := by
  intro vs
  induction vs with
  | nil =>
    intro st P X hst _ _
    rw [bk_loop]
    exact ⟨st, rfl, hst⟩
  | cons v vs ihl =>
    intro st P X hst hvs hP
    rw [bk_loop_cons]
    by_cases ht : (st.B.timed_out now).1 = true
    · rw [if_pos ht]
      exact ⟨_, rfl, hst⟩
    · rw [if_neg ht]
      have hv0 : v ∈ P0 := hvs v (List.mem_cons_self _ _)
      obtain ⟨hv1, hv2⟩ := hR.2.2.2 v hv0
      have hsub : (inter_neighbors A v P).Sublist P := (set_intersection_spec _ _).2
      have hmem : ∀ x ∈ inter_neighbors A v P, x ∈ row A v ∧ x ∈ P :=
        (set_intersection_spec _ _).1
      have hvn : v ∉ inter_neighbors A v P := fun h => hself v (hmem v h).1
      have hlen : (inter_neighbors A v P).length < fuel :=
        lt_of_lt_of_le (sublist_length_lt (hsub.trans hP) hv0 hvn) hP0
      have hvR : v ∉ R := fun h => hself v (hv2 v h)
      have hargs : CliqueArgs A n (R ++ [v]) (inter_neighbors A v P) := by
        refine ⟨?_, ?_, ?_, ?_⟩
        · refine List.nodup_append.2 ⟨hR.1, List.nodup_singleton v, ?_⟩
          intro x hx hx1
          rw [List.mem_singleton.1 hx1] at hx
          exact hvR hx
        · intro a ha
          rcases List.mem_append.1 ha with h | h
          · exact hR.2.1 a h
          · rw [List.mem_singleton.1 h]; exact hv1
        · intro a ha b hb hab
          rcases List.mem_append.1 ha with h | h
          · rcases List.mem_append.1 hb with h1 | h1
            · exact hR.2.2.1 a h b h1 hab
            · rw [List.mem_singleton.1 h1]; exact Or.inl (hv2 a h)
          · rcases List.mem_append.1 hb with h1 | h1
            · rw [List.mem_singleton.1 h]; exact Or.inr (hv2 b h1)
            · exact absurd ((List.mem_singleton.1 h).trans (List.mem_singleton.1 h1).symm) hab
        · intro p hp
          obtain ⟨hp1, hp2⟩ := hmem p hp
          obtain ⟨hp3, hp4⟩ := hR.2.2.2 p (hP.subset hp2)
          refine ⟨hp3, ?_⟩
          intro a ha
          rcases List.mem_append.1 ha with h | h
          · exact hp4 a h
          · rw [List.mem_singleton.1 h]; exact hp1
      obtain ⟨st2, e2, hst2⟩ := ih { st with B := (st.B.timed_out now).2 } (R ++ [v])
        (inter_neighbors A v P) (inter_neighbors A v X) hst hargs hlen
      rw [e2]
      dsimp only
      by_cases hab : st2.aborted = true
      · rw [if_pos hab]; exact ⟨st2, rfl, hst2⟩
      · rw [if_neg hab]
        exact ihl st2 (P.erase v) (X ++ [v]) hst2
          (fun w hw => hvs w (List.mem_cons_of_mem _ hw))
          ((List.erase_sublist v P).trans hP)

/-- Function `bk_recurse` returns within a recursion depth of `|P| + 1` and keeps the
record sound. -/
theorem bk_recurse_ok {srt : (Nat → Nat) → List Nat → List Nat} (hsrt : SortSpec srt)
    (now : Nat → Nat) (A : List (List Nat)) (n : Nat) (rb : Bool)
    (hself : ∀ v, v ∉ row A v) :
    ∀ fuel st R P X, BestOK A n st → CliqueArgs A n R P → P.length < fuel →
      ∃ st1, bk_recurse srt now A rb fuel st R P X = some st1 ∧ BestOK A n st1 := by
  intro fuel
  induction fuel with
  | zero => intro st R P X _ _ h; exact absurd h (Nat.not_lt_zero _)
  | succ fuel ih =>
    intro st R P X hst hargs hlen
    rw [bk_recurse_succ]
    split_ifs with h1 h2 h3 h4
    · exact ⟨_, rfl, hst⟩
    · exact ⟨_, rfl, hst⟩
    · exact ⟨_, rfl, hargs.1, hargs.2.1, hargs.2.2.1, rfl⟩
    · exact ⟨_, rfl, hst⟩
    · have hst1 : BestOK A n { st with B := (st.B.timed_out now).2 } := hst
      refine bk_loop_ok now A n rb hself fuel ih R P hargs (by omega) _ _ P X hst1 ?_
        (List.Sublist.refl P)
      intro v hv
      have := (hsrt.mem_iff _ _ _).1 hv
      exact (List.mem_filter.1 this).1


theorem make_adj_undirected_irrefl {g : Graph} (hwf : g.WF) (v : Nat) :
    v ∉ row (make_adj_undirected g) v := by
  intro h
  rcases make_adj_undirected_sound g v v h with h1 | h1 <;> exact hwf.2.2.1 v h1

/-- The clique search of both engines returns on every well-formed graph, and its
record is sound. -/
theorem run_bk_ok {srt : (Nat → Nat) → List Nat → List Nat} (hsrt : SortSpec srt)
    (now : Nat → Nat) {g : Graph} (hwf : g.WF) (params : KV) (rb : Bool) :
    ∃ st, run_bk srt now g params rb = some st ∧ BestOK (make_adj_undirected g) g.n st := by
  unfold run_bk
  dsimp only
  apply bk_recurse_ok hsrt now (make_adj_undirected g) g.n rb (make_adj_undirected_irrefl hwf)
  · exact ⟨List.nodup_nil, fun a ha => absurd ha (List.not_mem_nil a),
      fun a ha => absurd ha (List.not_mem_nil a), rfl⟩
  · refine ⟨List.nodup_nil, fun a ha => absurd ha (List.not_mem_nil a),
      fun a ha => absurd ha (List.not_mem_nil a), ?_⟩
    intro p hp
    have := (hsrt.mem_iff _ _ _).1 hp
    exact ⟨List.mem_range.1 this, fun a ha => absurd ha (List.not_mem_nil a)⟩
  · rw [(hsrt _ _).1.length_eq, List.length_range]
    exact Nat.lt_succ_self _

/-- C18. On every well-formed graph `MaxClique::run` returns, and when it completes
without timeout its text is "MaxClique size=<best> example:<bestR>" where the vertices
of `bestR` are pairwise distinct, are vertices of the graph, are pairwise adjacent
(edges read as undirected), and their number is the reported size `best`; this holds
whatever order `std::sort` gives to vertices of equal degree. -/
theorem maxclique_example_is_clique (srt : (Nat → Nat) → List Nat → List Nat)
    (hsrt : SortSpec srt) (now : Nat → Nat) (g : Graph) (params : KV)
    (hwf : g.WF) :
    ∃ st, run_bk srt now g params true = some st ∧
      st.bestR.Nodup ∧ IsClique g st.bestR.toFinset ∧ st.bestR.length = st.best ∧
      (st.aborted = false →
        MaxClique_run srt now g params =
          some ("MaxClique size=" ++ toString st.best ++ " example:" ++
            show_example st.bestR)) := by
  obtain ⟨st, e, h1, h2, h3, h4⟩ := run_bk_ok hsrt now hwf params true
  refine ⟨st, e, h1, ⟨?_, ?_⟩, h4, ?_⟩
  · intro v hv
    exact h2 v (List.mem_toFinset.1 hv)
  · intro u hu v hv huv
    rcases h3 u (List.mem_toFinset.1 hu) v (List.mem_toFinset.1 hv) huv with h | h
    · exact make_adj_undirected_sound g u v h
    · exact (make_adj_undirected_sound g v u h).symm
  · intro hab
    unfold MaxClique_run
    rw [e, Option.map_some', if_neg (by rw [hab]; decide)]

theorem maxclique_example_is_clique_witness :
    g_clique_test.WF ∧
      ∃ st, run_bk sort_by_key (fun _ => 0) g_clique_test clique_test_params true = some st ∧
        st.bestR.Nodup ∧ IsClique g_clique_test st.bestR.toFinset ∧
        st.bestR.length = st.best ∧
        (st.aborted = false →
          MaxClique_run sort_by_key (fun _ => 0) g_clique_test clique_test_params =
            some ("MaxClique size=" ++ toString st.best ++ " example:" ++
              show_example st.bestR)) :=
  ⟨Graph.wf_of_check _ (by decide),
    maxclique_example_is_clique sort_by_key sort_by_key_spec (fun _ => 0) g_clique_test
      clique_test_params (Graph.wf_of_check _ (by decide))⟩


/-! ### Euler: the degenerate case and the failure reasons -/

/-- C21. For every graph with no edges (directed or undirected, any `n`), `euler_find`
returns `exists = true` with the circuit consisting of the single vertex 0 and an
empty reason. -/
theorem euler_find_no_edges (g : Graph) (h : ∀ u, u < g.n → g.nbrs u = []) :
    euler_find g =
      some { «exists» := true, directed := g.directed, circuit := [0], reason := "" } := by
  have hany : has_any_edges g = false := by
    rw [Bool.eq_false_iff, ne_eq, has_any_edges_iff]
    rintro ⟨u, hu, hne⟩
    exact hne (h u hu)
  unfold euler_find
  rw [if_pos (by rw [hany]; rfl)]

theorem euler_find_no_edges_witness :
    (∀ u, u < (Graph.init 3 true).n → (Graph.init 3 true).nbrs u = []) ∧
      euler_find (Graph.init 3 true) =
        some { «exists» := true, directed := (Graph.init 3 true).directed, circuit := [0],
               reason := "" } :=
  ⟨fun u _ => Graph.init_nbrs 3 true u,
    euler_find_no_edges (Graph.init 3 true) (fun u _ => Graph.init_nbrs 3 true u)⟩

/-- C22. For every well-formed undirected graph with at least one edge and no Eulerian
circuit, `euler_find` returns `exists = false`; the reason is "Graph is not connected
on its non-isolated vertices." exactly when two vertices of non-zero degree are not
joined by a path, and otherwise it is "A vertex has odd degree (all degrees must be
even)."; for the path 0-1-2 the reason is the odd-degree one. -/
theorem euler_undirected_failure_reason (g : Graph) (hwf : g.WF) (hu : g.directed = false)
    (hne : ∃ u v, v ∈ g.nbrs u) (hnot : ¬ HasEulerCircuit g) :
    (∃ r, euler_find g = some r ∧ r.exists = false ∧
      (r.reason = "Graph is not connected on its non-isolated vertices." ↔
        ¬ ∀ u v, u < g.n → v < g.n → g.nbrs u ≠ [] → g.nbrs v ≠ [] → Reach g.nbrs u v) ∧
      ((∀ u v, u < g.n → v < g.n → g.nbrs u ≠ [] → g.nbrs v ≠ [] → Reach g.nbrs u v) →
        r.reason = "A vertex has odd degree (all degrees must be even).")) ∧
    euler_find g_path3 =
      some { «exists» := false, directed := false, circuit := [],
             reason := "A vertex has odd degree (all degrees must be even)." } := by
  refine ⟨?_, by decide⟩
  obtain ⟨r, hr, hiff⟩ := euler_find_decides_core g hwf
  have hex : r.exists = false := by
    rw [Bool.eq_false_iff]
    exact fun h => hnot (hiff.1 h)
  refine ⟨r, hr, hex, ?_⟩
  obtain ⟨u, v, huv⟩ := hne
  have hany : has_any_edges g = true :=
    (has_any_edges_iff g).2 ⟨u, g.lt_of_nbrs_ne_nil hwf (List.ne_nil_of_mem huv),
      List.ne_nil_of_mem huv⟩
  have hconn := undirected_connected_iff hwf hu
  unfold euler_find at hr
  rw [hu, hany] at hr
  simp only [Bool.not_true, Bool.not_false, Bool.false_eq_true, if_false, if_true] at hr
  split_ifs at hr with h2 h3
  · cases hr
    have h2' : ¬ undirected_connected_ignoring_isolated g = true := by simpa using h2
    refine ⟨⟨fun _ hc => h2' (hconn.2 hc), fun _ => rfl⟩, fun hc => absurd (hconn.2 hc) h2'⟩
  · cases hr
    have h2' : undirected_connected_ignoring_isolated g = true := by simpa using h2
    refine ⟨⟨fun h => absurd h (by decide), fun h => absurd (hconn.1 h2') h⟩, fun _ => rfl⟩
  · rw [Option.map_eq_some'] at hr
    obtain ⟨c, _, rfl⟩ := hr
    cases hex

theorem euler_undirected_failure_reason_witness :
    g_path3.WF ∧ g_path3.directed = false ∧ (∃ u v, v ∈ g_path3.nbrs u) ∧
      ((∃ r, euler_find g_path3 = some r ∧ r.exists = false ∧
        (r.reason = "Graph is not connected on its non-isolated vertices." ↔
          ¬ ∀ u v, u < g_path3.n → v < g_path3.n → g_path3.nbrs u ≠ [] →
            g_path3.nbrs v ≠ [] → Reach g_path3.nbrs u v) ∧
        ((∀ u v, u < g_path3.n → v < g_path3.n → g_path3.nbrs u ≠ [] →
            g_path3.nbrs v ≠ [] → Reach g_path3.nbrs u v) →
          r.reason = "A vertex has odd degree (all degrees must be even).")) ∧
      euler_find g_path3 =
        some { «exists» := false, directed := false, circuit := [],
               reason := "A vertex has odd degree (all degrees must be even)." }) := by
  have hwf : g_path3.WF := Graph.wf_of_check _ (by decide)
  have hr : euler_find g_path3 =
      some { «exists» := false, directed := false, circuit := [],
             reason := "A vertex has odd degree (all degrees must be even)." } := by
    decide
  refine ⟨hwf, rfl, ⟨0, 1, by decide⟩,
    euler_undirected_failure_reason g_path3 hwf rfl ⟨0, 1, by decide⟩ ?_⟩
  intro hhas
  obtain ⟨r, hr1, hiff⟩ := euler_find_decides_core g_path3 hwf
  rw [hr] at hr1
  cases hr1
  exact absurd (hiff.2 hhas) (by decide)

/-! ### The engine registry -/

/-- C26. Function `make_algorithm(name)` returns an engine if and only if `name` is
exactly one of "SCC_COUNT", "HAM_CYCLE", "MAXCLIQUE", "NUM_MAXCLIQUES" (a name in
another case, such as "scc_count", gives null), and the engine returned has that
`name()`. -/
theorem make_algorithm_names (name : String) :
    ((make_algorithm name).isSome = true ↔
      name ∈ ["SCC_COUNT", "HAM_CYCLE", "MAXCLIQUE", "NUM_MAXCLIQUES"]) ∧
    (∀ a, make_algorithm name = some a → a.name = name) ∧
    make_algorithm "scc_count" = none := by
  refine ⟨?_, ?_, by decide⟩
  · unfold make_algorithm
    simp only [List.mem_cons, List.mem_singleton, List.not_mem_nil, or_false]
    split_ifs with h1 h2 h3 h4
    · exact ⟨fun _ => Or.inl h1, fun _ => rfl⟩
    · exact ⟨fun _ => Or.inr (Or.inl h2), fun _ => rfl⟩
    · exact ⟨fun _ => Or.inr (Or.inr (Or.inl h3)), fun _ => rfl⟩
    · exact ⟨fun _ => Or.inr (Or.inr (Or.inr h4)), fun _ => rfl⟩
    · constructor
      · intro h; cases h
      · rintro (h | h | h | h)
        · exact absurd h h1
        · exact absurd h h2
        · exact absurd h h3
        · exact absurd h h4
  · intro a ha
    unfold make_algorithm at ha
    split_ifs at ha with h1 h2 h3 h4
    · cases ha; exact h1.symm
    · cases ha; exact h2.symm
    · cases ha; exact h3.symm
    · cases ha; exact h4.symm


/-! ### The id space of the generator -/

theorem two_mul_tri (k : Nat) : 2 * tri k = k * (k + 1) := by
  induction k with
  | zero => rfl
  | succ k ih =>
    rw [tri, Nat.mul_add, ih]
    ring

theorem tri_eq (n : Nat) (hn : 1 ≤ n) : tri (n - 1) = n * (n - 1) / 2 := by
  obtain ⟨k, rfl⟩ : ∃ k, n = k + 1 := ⟨n - 1, by omega⟩
  have h := two_mul_tri k
  rw [Nat.add_sub_cancel, Nat.mul_comm (k + 1) k, ← h]
  omega

theorem id_to_pair_undirected_loop_dec :
    ∀ len u remaining, remaining < tri len →
      u ≤ (id_to_pair_undirected_loop len u remaining).1 ∧
      (id_to_pair_undirected_loop len u remaining).1 <
        (id_to_pair_undirected_loop len u remaining).2 ∧
      (id_to_pair_undirected_loop len u remaining).2 ≤ u + len ∧
      tri_enc len u (id_to_pair_undirected_loop len u remaining).1
        (id_to_pair_undirected_loop len u remaining).2 = remaining := by
  intro len
  induction len with
  | zero => intro u r h; exact absurd h (Nat.not_lt_zero _)
  | succ len ih =>
    intro u r h
    rw [tri] at h
    rw [id_to_pair_undirected_loop]
    by_cases hr : r ≥ len + 1
    · rw [if_pos hr]
      obtain ⟨h1, h2, h3, h4⟩ := ih (u + 1) (r - (len + 1)) (by omega)
      refine ⟨by omega, h2, by omega, ?_⟩
      rw [tri_enc, if_neg (by omega), h4]
      omega
    · rw [if_neg hr]
      refine ⟨le_refl _, by show u < u + 1 + r; omega, by show u + 1 + r ≤ _; omega, ?_⟩
      rw [tri_enc, if_pos rfl]
      show u + 1 + r - u - 1 = r
      omega

theorem id_to_pair_undirected_loop_enc :
    ∀ len u a b, u ≤ a → a < b → b ≤ u + len →
      tri_enc len u a b < tri len ∧
      id_to_pair_undirected_loop len u (tri_enc len u a b) = (a, b) := by
  intro len
  induction len with
  | zero => intro u a b h1 h2 h3; omega
  | succ len ih =>
    intro u a b h1 h2 h3
    rw [tri_enc, tri]
    by_cases hau : a = u
    · rw [if_pos hau, id_to_pair_undirected_loop, if_neg (by omega)]
      refine ⟨by omega, ?_⟩
      rw [hau]
      congr 1
      omega
    · rw [if_neg hau]
      obtain ⟨k1, k2⟩ := ih (u + 1) a b (by omega) h2 (by omega)
      refine ⟨by omega, ?_⟩
      rw [id_to_pair_undirected_loop, if_pos (by omega), Nat.add_sub_cancel_left, k2]

/-- C28. For every `n >= 2`, `id_to_pair_undirected(n, ·)` maps every id below
`n(n-1)/2` to a pair `(u, v)` with `u < v <= n-1` (its loop stops after `u`
iterations), distinct ids give distinct pairs, and every pair `u < v <= n-1` is the image of
an id below `n(n-1)/2`. -/
theorem id_to_pair_undirected_bijective (n : Nat) (hn : 2 ≤ n) :
    (∀ id, id < n * (n - 1) / 2 →
      (id_to_pair_undirected n id).1 < (id_to_pair_undirected n id).2 ∧
      (id_to_pair_undirected n id).2 ≤ n - 1) ∧
    (∀ id1 id2, id1 < n * (n - 1) / 2 → id2 < n * (n - 1) / 2 →
      id_to_pair_undirected n id1 = id_to_pair_undirected n id2 → id1 = id2) ∧
    (∀ u v, u < v → v ≤ n - 1 →
      ∃ id, id < n * (n - 1) / 2 ∧ id_to_pair_undirected n id = (u, v)) := by
  rw [← tri_eq n (by omega)]
  unfold id_to_pair_undirected
  refine ⟨?_, ?_, ?_⟩
  · intro id h
    obtain ⟨_, h2, h3, _⟩ := id_to_pair_undirected_loop_dec (n - 1) 0 id h
    exact ⟨h2, by omega⟩
  · intro id1 id2 h1 h2 e
    have k1 := (id_to_pair_undirected_loop_dec (n - 1) 0 id1 h1).2.2.2
    have k2 := (id_to_pair_undirected_loop_dec (n - 1) 0 id2 h2).2.2.2
    rw [e] at k1
    exact k1.symm.trans k2
  · intro u v huv hv
    obtain ⟨k1, k2⟩ := id_to_pair_undirected_loop_enc (n - 1) 0 u v (Nat.zero_le _) huv (by omega)
    exact ⟨_, k1, k2⟩

theorem id_to_pair_undirected_bijective_witness :
    (2 : Nat) ≤ 4 ∧ id_to_pair_undirected 4 5 = (2, 3) ∧
      (∀ id, id < 4 * (4 - 1) / 2 →
        (id_to_pair_undirected 4 id).1 < (id_to_pair_undirected 4 id).2 ∧
        (id_to_pair_undirected 4 id).2 ≤ 4 - 1) :=
  ⟨by decide, by decide, (id_to_pair_undirected_bijective 4 (by decide)).1⟩


theorem id_to_pair_directed_spec (n : Nat) (hn : 2 ≤ n) (id : Nat) (h : id < n * (n - 1)) :
    (id_to_pair_directed n id).1 < n ∧ (id_to_pair_directed n id).2 < n ∧
    (id_to_pair_directed n id).1 ≠ (id_to_pair_directed n id).2 ∧
    id = (id_to_pair_directed n id).1 * (n - 1) +
      (if (id_to_pair_directed n id).2 > (id_to_pair_directed n id).1
        then (id_to_pair_directed n id).2 - 1 else (id_to_pair_directed n id).2) := by
  have hpos : 0 < n - 1 := by omega
  have hrow : id / (n - 1) < n := (Nat.div_lt_iff_lt_mul hpos).2 h
  have hcol : id % (n - 1) < n - 1 := Nat.mod_lt _ hpos
  have hdm : (n - 1) * (id / (n - 1)) + id % (n - 1) = id := Nat.div_add_mod id (n - 1)
  rw [Nat.mul_comm] at hdm
  unfold id_to_pair_directed
  dsimp only
  by_cases hc : id % (n - 1) ≥ id / (n - 1)
  · rw [if_pos hc]
    refine ⟨hrow, by show id % (n - 1) + 1 < n; omega, by show id / (n - 1) ≠ id % (n - 1) + 1; omega, ?_⟩
    show id = id / (n - 1) * (n - 1) +
      (if id % (n - 1) + 1 > id / (n - 1) then id % (n - 1) + 1 - 1 else id % (n - 1) + 1)
    rw [if_pos (by omega)]
    omega
  · rw [if_neg hc]
    refine ⟨hrow, by show id % (n - 1) < n; omega, by show id / (n - 1) ≠ id % (n - 1); omega, ?_⟩
    show id = id / (n - 1) * (n - 1) +
      (if id % (n - 1) > id / (n - 1) then id % (n - 1) - 1 else id % (n - 1))
    rw [if_neg (by omega)]
    omega

/-- C29. For every `n >= 2`, `id_to_pair_directed(n, ·)` maps every id below `n(n-1)`
to an ordered pair of distinct vertices `u, v < n`, distinct ids give distinct pairs,
and every ordered pair of distinct vertices is the image of an id below `n(n-1)`. -/
theorem id_to_pair_directed_bijective (n : Nat) (hn : 2 ≤ n) :
    (∀ id, id < n * (n - 1) →
      (id_to_pair_directed n id).1 < n ∧ (id_to_pair_directed n id).2 < n ∧
      (id_to_pair_directed n id).1 ≠ (id_to_pair_directed n id).2) ∧
    (∀ id1 id2, id1 < n * (n - 1) → id2 < n * (n - 1) →
      id_to_pair_directed n id1 = id_to_pair_directed n id2 → id1 = id2) ∧
    (∀ u v, u < n → v < n → u ≠ v →
      ∃ id, id < n * (n - 1) ∧ id_to_pair_directed n id = (u, v)) := by
  refine ⟨?_, ?_, ?_⟩
  · intro id h
    obtain ⟨h1, h2, h3, _⟩ := id_to_pair_directed_spec n hn id h
    exact ⟨h1, h2, h3⟩
  · intro id1 id2 h1 h2 e
    have k1 := (id_to_pair_directed_spec n hn id1 h1).2.2.2
    have k2 := (id_to_pair_directed_spec n hn id2 h2).2.2.2
    rw [e] at k1
    exact k1.trans k2.symm
  · intro u v hu hv huv
    have hpos : 0 < n - 1 := by omega
    let c := if v > u then v - 1 else v
    have hc : c < n - 1 := by
      show (if v > u then v - 1 else v) < n - 1
      split_ifs <;> omega
    have hdiv : (u * (n - 1) + c) / (n - 1) = u := by
      rw [Nat.add_comm, Nat.add_mul_div_right _ _ hpos, Nat.div_eq_of_lt hc, Nat.zero_add]
    have hmod : (u * (n - 1) + c) % (n - 1) = c := by
      rw [Nat.add_comm, Nat.add_mul_mod_self_right, Nat.mod_eq_of_lt hc]
    refine ⟨u * (n - 1) + c, ?_, ?_⟩
    · calc u * (n - 1) + c < u * (n - 1) + (n - 1) := by omega
        _ = (u + 1) * (n - 1) := by ring
        _ ≤ n * (n - 1) := Nat.mul_le_mul_right _ hu
    · unfold id_to_pair_directed
      dsimp only
      rw [hdiv, hmod]
      show (if (if v > u then v - 1 else v) ≥ u then (u, (if v > u then v - 1 else v) + 1)
        else (u, (if v > u then v - 1 else v))) = (u, v)
      by_cases hvu : v > u
      · rw [if_pos hvu, if_pos (by omega)]
        congr 1
        omega
      · rw [if_neg hvu, if_neg (by omega)]

theorem id_to_pair_directed_bijective_witness :
    (2 : Nat) ≤ 3 ∧ id_to_pair_directed 3 4 = (2, 0) ∧
      (∀ id, id < 3 * (3 - 1) →
        (id_to_pair_directed 3 id).1 < 3 ∧ (id_to_pair_directed 3 id).2 < 3 ∧
        (id_to_pair_directed 3 id).1 ≠ (id_to_pair_directed 3 id).2) :=
  ⟨by decide, by decide, (id_to_pair_directed_bijective 3 (by decide)).1⟩


/-! ### stage1: what one mutation does -/

/-- A call of `add_edge` stopped by its guard or by the duplicate test returns the
graph as it was. -/
theorem Graph.add_edge_unchanged (g : Graph) (u v : Int)
    (h : ¬ (0 ≤ u ∧ u.toNat < g.n) ∨ ¬ (0 ≤ v ∧ v.toNat < g.n) ∨ u = v ∨
      v.toNat ∈ g.nbrs u.toNat) : g.add_edge u v = g := by
  unfold Graph.add_edge
  by_cases hc : (!in_range g.n u || !in_range g.n v || u == v) = true
  · rw [if_pos hc]
  · rw [if_neg hc]
    dsimp only
    have hg := hc
    simp only [Bool.or_eq_true, Bool.not_eq_true', beq_iff_eq, not_or, Bool.not_eq_false] at hg
    obtain ⟨⟨h1, h2⟩, h3⟩ := hg
    rw [in_range_iff] at h1 h2
    rcases h with h | h | h | h
    · exact absurd h1 h
    · exact absurd h2 h
    · exact absurd h h3
    · rw [if_pos ((contains_eq_true_iff _ _).2 h)]

/-- The rows after an effective `add_edge(u, v)` on a well-formed graph. -/
theorem Graph.add_edge_rows {g : Graph} (hwf : g.WF) {u v : Int}
    (hc : ¬ (!in_range g.n u || !in_range g.n v || u == v) = true)
    (hnot : v.toNat ∉ g.nbrs u.toNat) :
    (∀ x, (g.add_edge u v).nbrs x =
      if g.directed = false ∧ v.toNat = x then g.nbrs v.toNat ++ [u.toNat]
      else if u.toNat = x then g.nbrs u.toNat ++ [v.toNat] else g.nbrs x) ∧
    (g.add_edge u v).m = (g.m + 1) % 2 ^ 64 := by
  unfold Graph.add_edge
  rw [if_neg hc]
  dsimp only
  obtain ⟨ha, hb, hab⟩ := guard_false hc
  have hin : ¬ (g.nbrs u.toNat).contains v.toNat = true := fun hm =>
    hnot ((contains_eq_true_iff _ _).1 hm)
  rw [if_neg hin]
  have hla : u.toNat < g.adj.length := by rw [hwf.1]; exact ha
  have hlb : v.toNat < (g.adj.set u.toNat (g.nbrs u.toNat ++ [v.toNat])).length := by
    rw [List.length_set, hwf.1]; exact hb
  have hAv : (g.adj.set u.toNat (g.nbrs u.toNat ++ [v.toNat])).getD v.toNat [] =
      g.nbrs v.toNat := by
    have := row_set g.adj u.toNat v.toNat (g.nbrs u.toNat ++ [v.toNat]) hla
    unfold row at this
    rw [this, if_neg hab]; rfl
  refine ⟨?_, rfl⟩
  intro x
  show row (if (!g.directed) = true then _ else _) x = _
  rw [hAv]
  by_cases hd : g.directed = true
  · rw [if_neg (by simp [hd]),
      if_neg (fun h : g.directed = false ∧ v.toNat = x => by simp [hd] at h)]
    exact row_set g.adj u.toNat x _ hla
  · have hd1 : g.directed = false := by simpa using hd
    have hsym : u.toNat ∉ g.nbrs v.toNat := fun hm => hnot (hwf.2.2.2.2 hd1 _ _ hm)
    have hcon : ¬ (g.nbrs v.toNat).contains u.toNat = true := fun hm =>
      hsym ((contains_eq_true_iff _ _).1 hm)
    rw [if_pos (by simp [hd1]), if_neg hcon, row_set _ v.toNat x _ hlb,
      row_set g.adj u.toNat x _ hla]
    by_cases hbx : v.toNat = x
    · rw [if_pos hbx, if_pos ⟨hd1, hbx⟩]
    · rw [if_neg hbx, if_neg (fun h : g.directed = false ∧ v.toNat = x => hbx h.2)]
      rfl

/-- The result of `remove_edge(u, v)` when the guard lets the call through, on a
well-formed graph: the value returned, the rows and the counter. -/
theorem Graph.remove_edge_rows {g : Graph} (hwf : g.WF) {u v : Int}
    (hc : ¬ (!in_range g.n u || !in_range g.n v || u == v) = true) :
    (g.remove_edge u v).1 = (g.nbrs u.toNat).contains v.toNat ∧
    (∀ x, (g.remove_edge u v).2.nbrs x =
      if g.directed = false ∧ v.toNat = x then (g.nbrs v.toNat).erase u.toNat
      else if u.toNat = x then (g.nbrs u.toNat).erase v.toNat else g.nbrs x) ∧
    (g.remove_edge u v).2.m =
      if (g.nbrs u.toNat).contains v.toNat = true then (g.m + 2 ^ 64 - 1) % 2 ^ 64
      else g.m := by
  unfold Graph.remove_edge
  rw [if_neg hc]
  dsimp only
  obtain ⟨ha, hb, hab⟩ := guard_false hc
  have hla : u.toNat < g.adj.length := by rw [hwf.1]; exact ha
  have hrow1 : ∀ x, row (if (g.nbrs u.toNat).contains v.toNat = true
      then g.adj.set u.toNat ((g.nbrs u.toNat).erase v.toNat) else g.adj) x =
      if u.toNat = x then (g.nbrs u.toNat).erase v.toNat else g.nbrs x := by
    intro x
    apply row_set_cond g.adj u.toNat x _ _ hla
    intro hcon
    exact List.erase_of_not_mem (fun hm => hcon ((contains_eq_true_iff _ _).2 hm))
  have hlen1 : (if (g.nbrs u.toNat).contains v.toNat = true
      then g.adj.set u.toNat ((g.nbrs u.toNat).erase v.toNat) else g.adj).length = g.n := by
    split_ifs <;> simp [hwf.1]
  refine ⟨rfl, ?_, rfl⟩
  generalize (if (g.nbrs u.toNat).contains v.toNat = true
      then g.adj.set u.toNat ((g.nbrs u.toNat).erase v.toNat) else g.adj) = adj1
    at hrow1 hlen1
  have hAv : adj1.getD v.toNat [] = g.nbrs v.toNat := by
    have := hrow1 v.toNat
    rw [if_neg hab] at this
    exact this
  rw [hAv]
  intro x
  show row (if (!g.directed) = true then _ else _) x = _
  by_cases hd : g.directed = true
  · rw [if_neg (by simp [hd]),
      if_neg (fun h : g.directed = false ∧ v.toNat = x => by simp [hd] at h)]
    exact hrow1 x
  · have hd1 : g.directed = false := by simpa using hd
    rw [if_pos (by simp [hd1])]
    rw [row_set_cond adj1 v.toNat x _ _ (by rw [hlen1]; exact hb)
      (fun hcon => by
        show (g.nbrs v.toNat).erase u.toNat = row adj1 v.toNat
        rw [show row adj1 v.toNat = g.nbrs v.toNat from hAv]
        exact List.erase_of_not_mem (fun hm => hcon ((contains_eq_true_iff _ _).2 hm)))]
    by_cases hbx : v.toNat = x
    · rw [if_pos hbx, if_pos ⟨hd1, hbx⟩]
    · rw [if_neg hbx, if_neg (fun h : g.directed = false ∧ v.toNat = x => hbx h.2)]
      exact hrow1 x


theorem sum_range_update (f f1 : Nat → Nat) (a : Nat) :
    ∀ n, a < n → (∀ x, x < n → x ≠ a → f1 x = f x) →
      ((List.range n).map f1).sum + f a = ((List.range n).map f).sum + f1 a := by
  intro n
  induction n with
  | zero => intro h; exact absurd h (Nat.not_lt_zero _)
  | succ n ih =>
    intro ha hx
    rw [List.range_succ, List.map_append, List.map_append, List.sum_append, List.sum_append]
    simp only [List.map_cons, List.map_nil, List.sum_cons, List.sum_nil, Nat.add_zero]
    by_cases han : a = n
    · subst han
      have : (List.range a).map f1 = (List.range a).map f := by
        apply List.map_congr_left
        intro x hxm
        have := List.mem_range.1 hxm
        exact hx x (by omega) (by omega)
      rw [this]
      omega
    · have h1 := ih (by omega) (fun x hxn hxa => hx x (by omega) hxa)
      have h2 := hx n (by omega) (fun e => han e.symm)
      omega

theorem Graph.degsum_le {g : Graph} (hwf : g.WF) : g.degsum ≤ g.n * g.n := by
  unfold Graph.degsum
  have hrow : ∀ u, (g.nbrs u).length ≤ g.n := by
    intro u
    have hsub : g.nbrs u ⊆ List.range g.n := fun x hx => List.mem_range.2 (hwf.2.1 u x hx)
    have := (List.subperm_of_subset (hwf.2.2.2.1 u) hsub).length_le
    rwa [List.length_range] at this
  have key : ∀ k, ((List.range k).map (fun u => (g.nbrs u).length)).sum ≤ k * g.n := by
    intro k
    induction k with
    | zero => simp
    | succ k ih =>
      rw [List.range_succ, List.map_append, List.sum_append]
      simp only [List.map_cons, List.map_nil, List.sum_cons, List.sum_nil, Nat.add_zero]
      have := hrow k
      rw [Nat.succ_mul]
      omega
  exact key g.n

/-- An effective `add_edge` adds one edge to the adjacency lists. -/
theorem Graph.add_edge_edge_count {g : Graph} (hwf : g.WF) {u v : Int}
    (hc : ¬ (!in_range g.n u || !in_range g.n v || u == v) = true)
    (hnot : v.toNat ∉ g.nbrs u.toNat) :
    (g.add_edge u v).edge_count = g.edge_count + 1 := by
  obtain ⟨ha, hb, hab⟩ := guard_false hc
  obtain ⟨hrows, _⟩ := Graph.add_edge_rows hwf hc hnot
  have hn := g.add_edge_n u v
  have hd := g.add_edge_directed u v
  unfold Graph.edge_count Graph.degsum
  rw [hn, hd]
  by_cases hdir : g.directed = true
  · rw [if_pos hdir, if_pos hdir]
    have h1 := sum_range_update (fun x => (g.nbrs x).length)
      (fun x => ((g.add_edge u v).nbrs x).length) u.toNat g.n ha (by
        intro x _ hxa
        show ((g.add_edge u v).nbrs x).length = (g.nbrs x).length
        rw [hrows x, if_neg (fun h : g.directed = false ∧ v.toNat = x => by
          rw [hdir] at h; exact Bool.noConfusion h.1), if_neg (fun e => hxa e.symm)])
    have h2 : ((g.add_edge u v).nbrs u.toNat).length = (g.nbrs u.toNat).length + 1 := by
      rw [hrows, if_neg (fun h : g.directed = false ∧ v.toNat = u.toNat => hab h.2.symm),
        if_pos rfl, List.length_append, List.length_singleton]
    simp only at h1
    omega
  · have hd1 : g.directed = false := by simpa using hdir
    rw [if_neg hdir, if_neg hdir]
    have h1 := sum_range_update (fun x => (g.nbrs x).length)
      (fun x => if u.toNat = x then (g.nbrs x).length + 1 else (g.nbrs x).length)
      u.toNat g.n ha (by
        intro x _ hxa
        show (if u.toNat = x then _ else _) = _
        rw [if_neg (fun e => hxa e.symm)])
    have h2 := sum_range_update
      (fun x => if u.toNat = x then (g.nbrs x).length + 1 else (g.nbrs x).length)
      (fun x => ((g.add_edge u v).nbrs x).length) v.toNat g.n hb (by
        intro x _ hxb
        show ((g.add_edge u v).nbrs x).length = if u.toNat = x then _ else _
        rw [hrows x, if_neg (fun h : g.directed = false ∧ v.toNat = x => hxb h.2.symm)]
        by_cases e : u.toNat = x
        · rw [if_pos e, if_pos e, List.length_append, List.length_singleton, e]
        · rw [if_neg e, if_neg e])
    have h3 : ((g.add_edge u v).nbrs v.toNat).length = (g.nbrs v.toNat).length + 1 := by
      rw [hrows, if_pos ⟨hd1, rfl⟩, List.length_append, List.length_singleton]
    simp only [if_true, if_neg hab] at h1 h2
    omega


/-- An effective `remove_edge` removes one edge from the adjacency lists. -/
theorem Graph.remove_edge_edge_count {g : Graph} (hwf : g.WF) {u v : Int}
    (hc : ¬ (!in_range g.n u || !in_range g.n v || u == v) = true)
    (hin : v.toNat ∈ g.nbrs u.toNat) :
    (g.remove_edge u v).2.edge_count + 1 = g.edge_count := by
  obtain ⟨ha, hb, hab⟩ := guard_false hc
  obtain ⟨_, hrows, _⟩ := Graph.remove_edge_rows hwf hc
  have hn := g.remove_edge_n u v
  have hd := g.remove_edge_directed u v
  have hlu : ((g.nbrs u.toNat).erase v.toNat).length + 1 = (g.nbrs u.toNat).length := by
    rw [List.length_erase_of_mem hin]
    have := List.length_pos_of_mem hin
    omega
  unfold Graph.edge_count Graph.degsum
  rw [hn, hd]
  by_cases hdir : g.directed = true
  · rw [if_pos hdir, if_pos hdir]
    have h1 := sum_range_update (fun x => (g.nbrs x).length)
      (fun x => ((g.remove_edge u v).2.nbrs x).length) u.toNat g.n ha (by
        intro x _ hxa
        show ((g.remove_edge u v).2.nbrs x).length = (g.nbrs x).length
        rw [hrows x, if_neg (fun h : g.directed = false ∧ v.toNat = x => by
          rw [hdir] at h; exact Bool.noConfusion h.1), if_neg (fun e => hxa e.symm)])
    have h2 : ((g.remove_edge u v).2.nbrs u.toNat).length + 1 = (g.nbrs u.toNat).length := by
      rw [hrows, if_neg (fun h : g.directed = false ∧ v.toNat = u.toNat => hab h.2.symm),
        if_pos rfl]
      exact hlu
    simp only at h1
    omega
  · have hd1 : g.directed = false := by simpa using hdir
    have hin2 : u.toNat ∈ g.nbrs v.toNat := hwf.2.2.2.2 hd1 _ _ hin
    have hlv : ((g.nbrs v.toNat).erase u.toNat).length + 1 = (g.nbrs v.toNat).length := by
      rw [List.length_erase_of_mem hin2]
      have := List.length_pos_of_mem hin2
      omega
    rw [if_neg hdir, if_neg hdir]
    have h1 := sum_range_update (fun x => (g.nbrs x).length)
      (fun x => if u.toNat = x then ((g.nbrs x).erase v.toNat).length else (g.nbrs x).length)
      u.toNat g.n ha (by
        intro x _ hxa
        show (if u.toNat = x then _ else _) = _
        rw [if_neg (fun e => hxa e.symm)])
    have h2 := sum_range_update
      (fun x => if u.toNat = x then ((g.nbrs x).erase v.toNat).length else (g.nbrs x).length)
      (fun x => ((g.remove_edge u v).2.nbrs x).length) v.toNat g.n hb (by
        intro x _ hxb
        show ((g.remove_edge u v).2.nbrs x).length = if u.toNat = x then _ else _
        rw [hrows x, if_neg (fun h : g.directed = false ∧ v.toNat = x => hxb h.2.symm)]
        by_cases e : u.toNat = x
        · rw [if_pos e, if_pos e, e]
        · rw [if_neg e, if_neg e])
    have h3 : ((g.remove_edge u v).2.nbrs v.toNat).length + 1 = (g.nbrs v.toNat).length := by
      rw [hrows, if_pos ⟨hd1, rfl⟩]
      exact hlv
    simp only [if_true, if_neg hab] at h1 h2
    omega

theorem Graph.init_mok (n : Nat) (d : Bool) : (Graph.init n d).MOK := by
  have hz : (Graph.init n d).degsum = 0 := by
    unfold Graph.degsum
    apply List.sum_eq_zero
    intro x hx
    obtain ⟨u, _, rfl⟩ := List.mem_map.1 hx
    rw [Graph.init_nbrs]; rfl
  unfold Graph.MOK Graph.edge_count
  rw [hz]
  split_ifs <;> rfl

/-- Each mutation keeps the counter `m` in agreement with the adjacency lists. -/
theorem Graph.apply_mok {g : Graph} (hwf : g.WF) (hm : g.MOK) (op : GraphOp) :
    (g.apply op).MOK := by
  unfold Graph.MOK at hm ⊢
  cases op with
  | add u v =>
    show (g.add_edge u v).m = (g.add_edge u v).edge_count % 2 ^ 64
    by_cases hc : (!in_range g.n u || !in_range g.n v || u == v) = true
    · have : g.add_edge u v = g := by unfold Graph.add_edge; rw [if_pos hc]
      rw [this]; exact hm
    · by_cases hin : v.toNat ∈ g.nbrs u.toNat
      · rw [g.add_edge_unchanged u v (Or.inr (Or.inr (Or.inr hin)))]; exact hm
      · rw [(Graph.add_edge_rows hwf hc hin).2, Graph.add_edge_edge_count hwf hc hin, hm]
        omega
  | remove u v =>
    show (g.remove_edge u v).2.m = (g.remove_edge u v).2.edge_count % 2 ^ 64
    by_cases hc : (!in_range g.n u || !in_range g.n v || u == v) = true
    · have : (g.remove_edge u v).2 = g := by unfold Graph.remove_edge; rw [if_pos hc]
      rw [this]; exact hm
    · obtain ⟨_, hrows, hmm⟩ := Graph.remove_edge_rows hwf hc
      by_cases hin : v.toNat ∈ g.nbrs u.toNat
      · have h1 := Graph.remove_edge_edge_count hwf hc hin
        rw [hmm, if_pos ((contains_eq_true_iff _ _).2 hin), hm]
        omega
      · have hcon : ¬ (g.nbrs u.toNat).contains v.toNat = true := fun h =>
          hin ((contains_eq_true_iff _ _).1 h)
        rw [hmm, if_neg hcon, hm]
        have hsame : ∀ x, (g.remove_edge u v).2.nbrs x = g.nbrs x := by
          intro x
          rw [hrows x]
          by_cases h1 : g.directed = false ∧ v.toNat = x
          · rw [if_pos h1, ← h1.2]
            exact List.erase_of_not_mem (fun h => hin (hwf.2.2.2.2 h1.1 _ _ h))
          · rw [if_neg h1]
            by_cases h2 : u.toNat = x
            · rw [if_pos h2, ← h2]; exact List.erase_of_not_mem hin
            · rw [if_neg h2]
        unfold Graph.edge_count Graph.degsum
        rw [g.remove_edge_n u v, g.remove_edge_directed u v]
        simp only [hsame]

theorem Graph.run_ops_mok (ops : List GraphOp) :
    ∀ {g : Graph}, g.WF → g.MOK → (g.run_ops ops).MOK := by
  induction ops with
  | nil => intro g _ hm; exact hm
  | cons op ops ih =>
    intro g hwf hm
    exact ih (Graph.apply_wf hwf op).1 (Graph.apply_mok hwf hm op)

/-- With at most `2^31` vertices (vertex ids are `int`) the counter `m` is the number
of edges the adjacency lists hold, and it is far from wrapping. -/
theorem Graph.m_exact {g : Graph} (hwf : g.WF) (hm : g.MOK) (hn : g.n ≤ 2 ^ 31) :
    g.m = g.edge_count ∧ g.edge_count ≤ 2 ^ 62 := by
  have h1 := Graph.degsum_le hwf
  have h2 : g.n * g.n ≤ 2 ^ 31 * 2 ^ 31 := Nat.mul_le_mul hn hn
  have h3 : g.edge_count ≤ g.degsum := by
    unfold Graph.edge_count
    split_ifs
    · exact le_refl _
    · exact Nat.div_le_self _ _
  have h4 : g.edge_count ≤ 2 ^ 62 := by
    have : (2 : Nat) ^ 31 * 2 ^ 31 = 2 ^ 62 := by norm_num
    omega
  refine ⟨?_, h4⟩
  rw [hm]
  apply Nat.mod_eq_of_lt
  have : (2 : Nat) ^ 62 < 2 ^ 64 := by norm_num
  omega


theorem guard_iff (n : Nat) (u v : Int) :
    (!in_range n u || !in_range n v || u == v) = true ↔
      (¬ (0 ≤ u ∧ u.toNat < n) ∨ ¬ (0 ≤ v ∧ v.toNat < n) ∨ u = v) := by
  simp only [Bool.or_eq_true, Bool.not_eq_true', beq_iff_eq, ← in_range_iff,
    Bool.not_eq_true, or_assoc]

theorem Graph.eq_of_fields {g h : Graph} (h1 : h.n = g.n) (h2 : h.directed = g.directed)
    (h3 : h.adj = g.adj) (h4 : h.m = g.m) : h = g := by
  cases g
  cases h
  simp_all

/-- C24. On every graph built by `add_edge`/`remove_edge` calls, `add_edge(u, v)` returns
the graph unchanged (lists and `m`) when `u` or `v` is outside `0..n-1`, or `u == v`,
or `v` is already in `adj[u]`; otherwise it appends `v` to `adj[u]`, appends `u` to
`adj[v]` when undirected (leaves `adj[v]` alone when directed), leaves every other
list, `n` and `directed` alone, and increments `m` (a 64-bit counter: by exactly 1
when `n <= 2^31`, as vertex ids are `int`). -/
theorem add_edge_frame (n : Nat) (d : Bool) (ops : List GraphOp) (g : Graph)
    (hg : g = (Graph.init n d).run_ops ops) (u v : Int) :
    ((¬ (0 ≤ u ∧ u.toNat < g.n) ∨ ¬ (0 ≤ v ∧ v.toNat < g.n) ∨ u = v ∨
        v.toNat ∈ g.nbrs u.toNat) → g.add_edge u v = g) ∧
    ((0 ≤ u ∧ u.toNat < g.n) → (0 ≤ v ∧ v.toNat < g.n) → u ≠ v →
      v.toNat ∉ g.nbrs u.toNat →
        (g.add_edge u v).nbrs u.toNat = g.nbrs u.toNat ++ [v.toNat] ∧
        (g.directed = false → (g.add_edge u v).nbrs v.toNat = g.nbrs v.toNat ++ [u.toNat]) ∧
        (g.directed = true → (g.add_edge u v).nbrs v.toNat = g.nbrs v.toNat) ∧
        (∀ x, x ≠ u.toNat → x ≠ v.toNat → (g.add_edge u v).nbrs x = g.nbrs x) ∧
        (g.add_edge u v).n = g.n ∧ (g.add_edge u v).directed = g.directed ∧
        (g.add_edge u v).m = (g.m + 1) % 2 ^ 64 ∧
        (g.n ≤ 2 ^ 31 → (g.add_edge u v).m = g.m + 1)) := by
  have hwf : g.WF := by rw [hg]; exact (Graph.run_ops_wf ops (Graph.init_wf n d)).1
  have hmok : g.MOK := by
    rw [hg]; exact Graph.run_ops_mok ops (Graph.init_wf n d) (Graph.init_mok n d)
  refine ⟨g.add_edge_unchanged u v, ?_⟩
  intro hu hv huv hnot
  have hc : ¬ (!in_range g.n u || !in_range g.n v || u == v) = true := by
    rw [guard_iff]
    rintro (h | h | h)
    · exact h hu
    · exact h hv
    · exact huv h
  obtain ⟨_, _, hab⟩ := guard_false hc
  obtain ⟨hrows, hm⟩ := Graph.add_edge_rows hwf hc hnot
  refine ⟨?_, ?_, ?_, ?_, g.add_edge_n u v, g.add_edge_directed u v, hm, ?_⟩
  · rw [hrows, if_neg (fun h : g.directed = false ∧ v.toNat = u.toNat => hab h.2.symm),
      if_pos rfl]
  · intro hd
    rw [hrows, if_pos ⟨hd, rfl⟩]
  · intro hd
    rw [hrows, if_neg (fun h : g.directed = false ∧ v.toNat = v.toNat => by
      rw [hd] at h; exact Bool.noConfusion h.1), if_neg hab]
  · intro x hxu hxv
    rw [hrows, if_neg (fun h : g.directed = false ∧ v.toNat = x => hxv h.2.symm),
      if_neg (fun e => hxu e.symm)]
  · intro hn
    obtain ⟨h1, h2⟩ := Graph.m_exact hwf hmok hn
    rw [hm]
    apply Nat.mod_eq_of_lt
    have : (2 : Nat) ^ 62 < 2 ^ 64 := by norm_num
    omega

theorem add_edge_frame_witness :
    g_path3 = (Graph.init 3 false).run_ops [.add 0 1, .add 1 2] ∧
      g_path3.add_edge 0 1 = g_path3 ∧ g_path3.add_edge 0 7 = g_path3 ∧
      (g_path3.add_edge 2 0).adj = [[1, 2], [0, 2], [1, 0]] ∧ (g_path3.add_edge 2 0).m = 3 ∧
      ((¬ (0 ≤ (0 : Int) ∧ (0 : Int).toNat < g_path3.n) ∨
          ¬ (0 ≤ (1 : Int) ∧ (1 : Int).toNat < g_path3.n) ∨ (0 : Int) = 1 ∨
          (1 : Int).toNat ∈ g_path3.nbrs (0 : Int).toNat) → g_path3.add_edge 0 1 = g_path3) :=
  ⟨by decide, by decide, by decide, by decide, by decide,
    (add_edge_frame 3 false [.add 0 1, .add 1 2] g_path3 (by decide) 0 1).1⟩

/-- C25. On every graph built by `add_edge`/`remove_edge` calls and for all integers
`u`, `v`: `remove_edge(u, v)` returns `true` iff `u` and `v` are in range, differ, and
`v` is in `adj[u]`; when it returns `false` the graph is unchanged (lists and `m`);
when it returns `true`, `v` is no longer in `adj[u]`, for an undirected graph `u` is no
longer in `adj[v]`, and `m` is decremented (a 64-bit counter: by exactly 1 when
`n <= 2^31`, as vertex ids are `int`). -/
theorem remove_edge_contract (n : Nat) (d : Bool) (ops : List GraphOp) (g : Graph)
    (hg : g = (Graph.init n d).run_ops ops) (u v : Int) :
    ((g.remove_edge u v).1 = true ↔
      ((0 ≤ u ∧ u.toNat < g.n) ∧ (0 ≤ v ∧ v.toNat < g.n) ∧ u ≠ v ∧
        v.toNat ∈ g.nbrs u.toNat)) ∧
    ((g.remove_edge u v).1 = false → (g.remove_edge u v).2 = g) ∧
    ((g.remove_edge u v).1 = true →
      v.toNat ∉ (g.remove_edge u v).2.nbrs u.toNat ∧
      (g.directed = false → u.toNat ∉ (g.remove_edge u v).2.nbrs v.toNat) ∧
      (g.remove_edge u v).2.m = (g.m + 2 ^ 64 - 1) % 2 ^ 64 ∧
      (g.n ≤ 2 ^ 31 → (g.remove_edge u v).2.m + 1 = g.m)) := by
  have hwf : g.WF := by rw [hg]; exact (Graph.run_ops_wf ops (Graph.init_wf n d)).1
  have hmok : g.MOK := by
    rw [hg]; exact Graph.run_ops_mok ops (Graph.init_wf n d) (Graph.init_mok n d)
  by_cases hc : (!in_range g.n u || !in_range g.n v || u == v) = true
  · have e : g.remove_edge u v = (false, g) := by unfold Graph.remove_edge; rw [if_pos hc]
    rw [e]
    refine ⟨⟨fun h => Bool.noConfusion h, ?_⟩, fun _ => rfl, fun h => Bool.noConfusion h⟩
    rintro ⟨h1, h2, h3, _⟩
    rcases (guard_iff g.n u v).1 hc with h | h | h
    · exact absurd h1 h
    · exact absurd h2 h
    · exact absurd h h3
  · have hgd := (not_congr (guard_iff g.n u v)).1 hc
    rw [not_or, not_or, not_not, not_not] at hgd
    obtain ⟨hu, hv, huv⟩ := hgd
    obtain ⟨_, _, hab⟩ := guard_false hc
    obtain ⟨hret, hrows, hmm⟩ := Graph.remove_edge_rows hwf hc
    refine ⟨?_, ?_, ?_⟩
    · rw [hret, contains_eq_true_iff]
      exact ⟨fun h => ⟨hu, hv, huv, h⟩, fun h => h.2.2.2⟩
    · intro hf
      rw [hret] at hf
      have hin : v.toNat ∉ g.nbrs u.toNat := fun h => by
        rw [(contains_eq_true_iff _ _).2 h] at hf; exact Bool.noConfusion hf
      have hin2 : g.directed = false → u.toNat ∉ g.nbrs v.toNat := fun hd h =>
        hin (hwf.2.2.2.2 hd _ _ h)
      have hcon : ¬ (g.nbrs u.toNat).contains v.toNat = true := by
        rw [hf]; exact Bool.false_ne_true
      have hadj : (g.remove_edge u v).2.adj = g.adj := by
        unfold Graph.remove_edge
        rw [if_neg hc]
        dsimp only
        rw [if_neg hcon]
        by_cases hd : g.directed = true
        · rw [if_neg (show ¬ (!g.directed) = true by simp [hd])]
        · have hd1 : g.directed = false := by simpa using hd
          rw [if_pos (show (!g.directed) = true by simp [hd1]),
            if_neg (show ¬ (g.adj.getD v.toNat []).contains u.toNat = true from
              fun h => hin2 hd1 ((contains_eq_true_iff _ _).1 h))]
      have hm1 : (g.remove_edge u v).2.m = g.m := by rw [hmm, if_neg hcon]
      exact Graph.eq_of_fields (g.remove_edge_n u v) (g.remove_edge_directed u v) hadj hm1
    · intro ht
      rw [hret] at ht
      have hin : v.toNat ∈ g.nbrs u.toNat := (contains_eq_true_iff _ _).1 ht
      refine ⟨?_, ?_, ?_, ?_⟩
      · rw [hrows, if_neg (fun h : g.directed = false ∧ v.toNat = u.toNat => hab h.2.symm),
          if_pos rfl, (hwf.2.2.2.1 _).mem_erase_iff]
        exact fun h => h.1 rfl
      · intro hd
        rw [hrows, if_pos ⟨hd, rfl⟩, (hwf.2.2.2.1 _).mem_erase_iff]
        exact fun h => h.1 rfl
      · rw [hmm, if_pos ht]
      · intro hn
        obtain ⟨h1, h2⟩ := Graph.m_exact hwf hmok hn
        have h3 := Graph.remove_edge_edge_count hwf hc hin
        rw [hmm, if_pos ht, h1]
        omega

theorem remove_edge_contract_witness :
    g_path3 = (Graph.init 3 false).run_ops [.add 0 1, .add 1 2] ∧
      g_path3.remove_edge 1 2 = (true, (Graph.init 3 false).add_edge 0 1) ∧
      g_path3.remove_edge 0 2 = (false, g_path3) ∧
      ((g_path3.remove_edge 1 2).1 = true ↔
        ((0 ≤ (1 : Int) ∧ (1 : Int).toNat < g_path3.n) ∧
          (0 ≤ (2 : Int) ∧ (2 : Int).toNat < g_path3.n) ∧ (1 : Int) ≠ 2 ∧
          (2 : Int).toNat ∈ g_path3.nbrs (1 : Int).toNat)) :=
  ⟨by decide, by decide, by decide,
    (remove_edge_contract 3 false [.add 0 1, .add 1 2] g_path3 (by decide) 1 2).1⟩


/-! ### The adjacency table of the clique engines -/

theorem mem_row_set_of_mem {A : List (List Nat)} {u y x : Nat} {r : List Nat}
    (h : x ∈ row A y) (hr : row A u ⊆ r) : x ∈ row (A.set u r) y := by
  by_cases hu : u < A.length
  · rw [row_set A u y r hu]
    by_cases e : u = y
    · rw [if_pos e]; exact hr (e ▸ h)
    · rw [if_neg e]; exact h
  · rw [List.set_eq_of_length_le (by omega)]
    exact h

theorem push_row_length (d : Bool) (u : Nat) :
    ∀ (vs : List Nat) (A : List (List Nat)), (push_row d u A vs).length = A.length := by
  intro vs
  induction vs with
  | nil => intro A; rw [push_row]
  | cons v vs ih =>
    intro A
    rw [push_row, ih]
    split_ifs <;> simp

theorem push_row_mono (d : Bool) (u : Nat) :
    ∀ (vs : List Nat) (A : List (List Nat)) (y x : Nat), x ∈ row A y →
      x ∈ row (push_row d u A vs) y := by
  intro vs
  induction vs with
  | nil => intro A y x h; rw [push_row]; exact h
  | cons v vs ih =>
    intro A y x h
    rw [push_row]
    apply ih
    dsimp only
    have h1 : x ∈ row (A.set u (row A u ++ [v])) y :=
      mem_row_set_of_mem h (List.subset_append_left _ _)
    by_cases hd : d = true
    · rw [if_pos hd]
      exact mem_row_set_of_mem h1 (List.subset_append_left _ _)
    · rw [if_neg hd]; exact h1

/-- The pushes made while scanning `adj[u]`: every `v` scanned enters row `u`, and
`u` enters row `v` when the graph is directed. -/
theorem push_row_complete (d : Bool) (u : Nat) :
    ∀ (vs : List Nat) (A : List (List Nat)), u < A.length → (∀ v ∈ vs, v < A.length) →
      ∀ v ∈ vs, v ∈ row (push_row d u A vs) u ∧ (d = true → u ∈ row (push_row d u A vs) v) := by
  intro vs
  induction vs with
  | nil => intro A _ _ v hv; cases hv
  | cons w vs ih =>
    intro A hu hvs v hv
    have hw : w < A.length := hvs w (List.mem_cons_self _ _)
    rw [push_row]
    have hl1 : (A.set u (row A u ++ [w])).length = A.length := List.length_set _ _ _
    have hlen2 : (if d = true then (A.set u (row A u ++ [w])).set w
        (row (A.set u (row A u ++ [w])) w ++ [u]) else A.set u (row A u ++ [w])).length
        = A.length := by
      split_ifs <;> simp
    rcases List.mem_cons.1 hv with e | hv1
    · subst e
      have h1 : v ∈ row (A.set u (row A u ++ [v])) u := by
        rw [row_set A u u _ hu, if_pos rfl]; simp
      constructor
      · apply push_row_mono
        by_cases hd : d = true
        · rw [if_pos hd]
          exact mem_row_set_of_mem h1 (List.subset_append_left _ _)
        · rw [if_neg hd]; exact h1
      · intro hd
        apply push_row_mono
        rw [if_pos hd, row_set _ v v _ (by rw [hl1]; exact hw), if_pos rfl]
        simp
    · exact ih _ (by rw [hlen2]; exact hu)
        (fun x hx => by rw [hlen2]; exact hvs x (List.mem_cons_of_mem _ hx)) v hv1

theorem mem_unique_of_mem {x : Nat} : ∀ {l : List Nat}, x ∈ l → x ∈ unique l
  | [], h => by cases h
  | [a], h => by rw [unique]; exact h
  | a :: b :: t, h => by
    rw [unique]
    by_cases e : a = b
    · rw [if_pos e]
      apply mem_unique_of_mem
      rcases List.mem_cons.1 h with h1 | h1
      · rw [h1, e]; exact List.mem_cons_self _ _
      · exact h1
    · rw [if_neg e]
      rcases List.mem_cons.1 h with h1 | h1
      · rw [h1]; exact List.mem_cons_self _ _
      · exact List.mem_cons_of_mem _ (mem_unique_of_mem h1)

/-- On an ascending list `unique` leaves a strictly ascending one. -/
theorem unique_sorted : ∀ {l : List Nat}, l.Sorted (· ≤ ·) → (unique l).Sorted (· < ·)
  | [], _ => by rw [unique]; exact List.sorted_nil
  | [a], _ => by rw [unique]; exact List.sorted_singleton a
  | a :: b :: t, h => by
    rw [unique]
    have hs : (b :: t).Sorted (· ≤ ·) := h.of_cons
    have hab : a ≤ b := List.rel_of_sorted_cons h b (List.mem_cons_self _ _)
    by_cases e : a = b
    · rw [if_pos e]; exact unique_sorted hs
    · rw [if_neg e]
      refine List.sorted_cons.2 ⟨fun x hx => ?_, unique_sorted hs⟩
      have hx1 : x ∈ b :: t := mem_unique hx
      have hbx : b ≤ x := by
        rcases List.mem_cons.1 hx1 with h1 | h1
        · rw [h1]
        · exact List.rel_of_sorted_cons hs x h1
      omega


theorem push_rows_fold (g : Graph) (d : Bool) :
    ∀ (us : List Nat) (A : List (List Nat)),
      (us.foldl (fun A u => push_row d u A (g.nbrs u)) A).length = A.length ∧
      (∀ y x, x ∈ row A y → x ∈ row (us.foldl (fun A u => push_row d u A (g.nbrs u)) A) y) ∧
      ((∀ u ∈ us, u < A.length) → (∀ u v, v ∈ g.nbrs u → v < A.length) →
        ∀ u ∈ us, ∀ v ∈ g.nbrs u,
          v ∈ row (us.foldl (fun A u => push_row d u A (g.nbrs u)) A) u ∧
          (d = true → u ∈ row (us.foldl (fun A u => push_row d u A (g.nbrs u)) A) v)) := by
  intro us
  induction us with
  | nil =>
    intro A
    exact ⟨rfl, fun y x h => h, fun _ _ u hu => absurd hu (List.not_mem_nil u)⟩
  | cons w us ih =>
    intro A
    rw [List.foldl_cons]
    obtain ⟨h1, h2, h3⟩ := ih (push_row d w A (g.nbrs w))
    have hl := push_row_length d w (g.nbrs w) A
    refine ⟨h1.trans hl, fun y x h => h2 y x (push_row_mono d w _ A y x h), ?_⟩
    intro hus hvs u hu v hv
    rcases List.mem_cons.1 hu with e | hu1
    · subst e
      obtain ⟨k1, k2⟩ := push_row_complete d u (g.nbrs u) A (hus u (List.mem_cons_self _ _))
        (fun x hx => hvs u x hx) v hv
      exact ⟨h2 _ _ k1, fun hd => h2 _ _ (k2 hd)⟩
    · exact h3 (fun x hx => by rw [hl]; exact hus x (List.mem_cons_of_mem _ hx))
        (fun a b hab => by rw [hl]; exact hvs a b hab) u hu1 v hv

theorem row_map (f : List Nat → List Nat) (hf : f [] = []) (A : List (List Nat)) (y : Nat) :
    row (A.map f) y = f (row A y) := by
  unfold row
  rw [List.getD_eq_getElem?_getD, List.getD_eq_getElem?_getD, List.getElem?_map]
  cases A[y]? with
  | none => exact hf.symm
  | some r => rfl

/-- C23. For every well-formed graph, `make_adj_undirected(g)` has `n` rows, every row is
strictly increasing (sorted, no duplicates), and `v` is in `A[u]` if and only if the
graph has an edge/arc `u -> v` or `v -> u`. -/
theorem make_adj_undirected_spec (g : Graph) (hwf : g.WF) :
    (make_adj_undirected g).length = g.n ∧
    (∀ u, (row (make_adj_undirected g) u).Sorted (· < ·)) ∧
    (∀ u v, v ∈ row (make_adj_undirected g) u ↔ g.adjU u v) := by
  have hf : unique (([] : List Nat).insertionSort (· ≤ ·)) = [] := rfl
  obtain ⟨h1, _, h3⟩ := push_rows_fold g g.directed (List.range g.n) (List.replicate g.n [])
  have hrow : ∀ y, row (make_adj_undirected g) y =
      unique ((row ((List.range g.n).foldl (fun A u => push_row g.directed u A (g.nbrs u))
        (List.replicate g.n [])) y).insertionSort (· ≤ ·)) := by
    intro y
    unfold make_adj_undirected
    exact row_map (fun r => unique (r.insertionSort (· ≤ ·))) hf _ y
  refine ⟨?_, ?_, ?_⟩
  · unfold make_adj_undirected
    dsimp only
    rw [List.length_map, h1, List.length_replicate]
  · intro u
    rw [hrow]
    exact unique_sorted (List.sorted_insertionSort _ _)
  · intro u v
    refine ⟨make_adj_undirected_sound g u v, ?_⟩
    intro hadj
    rw [hrow]
    apply mem_unique_of_mem
    rw [(List.perm_insertionSort _ _).mem_iff]
    have hlt : ∀ a b, b ∈ g.nbrs a → a < g.n :=
      fun a b hb => g.lt_of_nbrs_ne_nil hwf (List.ne_nil_of_mem hb)
    have key := h3 (fun a ha => by rw [List.length_replicate]; exact List.mem_range.1 ha)
      (fun a b hb => by rw [List.length_replicate]; exact hwf.2.1 a b hb)
    rcases hadj with h | h
    · exact (key u (List.mem_range.2 (hlt u v h)) v h).1
    · by_cases hd : g.directed = true
      · exact (key v (List.mem_range.2 (hlt v u h)) u h).2 hd
      · have hd1 : g.directed = false := by simpa using hd
        have h' := hwf.2.2.2.2 hd1 v u h
        exact (key u (List.mem_range.2 (hlt u v h')) v h').1

theorem make_adj_undirected_spec_witness :
    g_scc_test.WF ∧ make_adj_undirected g_scc_test = [[1, 2], [0, 2], [0, 1], [4], [3]] ∧
      (∀ u v, v ∈ row (make_adj_undirected g_scc_test) u ↔ g_scc_test.adjU u v) :=
  ⟨Graph.wf_of_check _ (by decide), by decide,
    (make_adj_undirected_spec g_scc_test (Graph.wf_of_check _ (by decide))).2.2⟩


/-! ### The exact G(n, m) generator -/

theorem sample_ids_fold (draw : Nat → Nat) (hdraw : ∀ j, draw j ≤ j) (a : Nat) :
    ∀ (k : Nat) (S : List Nat), S.Nodup → (∀ x ∈ S, x < a) →
      ((List.range' a k).foldl (sample_ids_step draw) S).Nodup ∧
      ((List.range' a k).foldl (sample_ids_step draw) S).length = S.length + k ∧
      ∀ x ∈ (List.range' a k).foldl (sample_ids_step draw) S, x < a + k := by
  intro k
  induction k generalizing a with
  | zero => intro S h1 h2; exact ⟨h1, rfl, h2⟩
  | succ k ih =>
    intro S h1 h2
    rw [List.range'_succ, List.foldl_cons]
    have hj : a ∉ S := fun h => Nat.lt_irrefl _ (h2 a h)
    have hstep : (sample_ids_step draw S a).Nodup ∧
        (sample_ids_step draw S a).length = S.length + 1 ∧
        ∀ x ∈ sample_ids_step draw S a, x < a + 1 := by
      unfold sample_ids_step
      dsimp only
      by_cases ht : draw a ∈ S
      · rw [if_pos ht, if_neg hj]
        refine ⟨List.nodup_append.2 ⟨h1, List.nodup_singleton a, ?_⟩, by simp, ?_⟩
        · intro x hx hx1
          rw [List.mem_singleton.1 hx1] at hx; exact hj hx
        · intro x hx
          rcases List.mem_append.1 hx with h | h
          · exact Nat.lt_succ_of_lt (h2 x h)
          · rw [List.mem_singleton.1 h]; exact Nat.lt_succ_self _
      · rw [if_neg ht]
        refine ⟨List.nodup_append.2 ⟨h1, List.nodup_singleton _, ?_⟩, by simp, ?_⟩
        · intro x hx hx1
          rw [List.mem_singleton.1 hx1] at hx; exact ht hx
        · intro x hx
          rcases List.mem_append.1 hx with h | h
          · exact Nat.lt_succ_of_lt (h2 x h)
          · rw [List.mem_singleton.1 h]; exact Nat.lt_succ_of_le (hdraw a)
    obtain ⟨k1, k2, k3⟩ := ih (a + 1) (sample_ids_step draw S a) hstep.1 hstep.2.2
    refine ⟨k1, by rw [k2, hstep.2.1]; omega, fun x hx => ?_⟩
    have := k3 x hx
    omega

/-- Function `sample_ids(N, m)` returns exactly `m` pairwise distinct ids below `N`, for
every sequence of draws within bounds and every read-out order. -/
theorem sample_ids_spec (iter : List Nat → List Nat) (hiter : ∀ l, (iter l).Perm l)
    (draw : Nat → Nat) (hdraw : ∀ j, draw j ≤ j) (N m : Nat) (hm : m ≤ N) :
    (sample_ids iter draw N m).length = m ∧ (sample_ids iter draw N m).Nodup ∧
      ∀ x ∈ sample_ids iter draw N m, x < N := by
  unfold sample_ids
  rw [if_pos hm]
  obtain ⟨h1, h2, h3⟩ := sample_ids_fold draw hdraw (N - m) m [] List.nodup_nil
    (fun x hx => absurd hx (List.not_mem_nil x))
  refine ⟨?_, ?_, ?_⟩
  · rw [(hiter _).length_eq, h2]; simp
  · exact (hiter _).nodup_iff.2 h1
  · intro x hx
    have := h3 x ((hiter _).mem_iff.1 hx)
    omega


theorem pair_of_id_spec (n : Nat) (hn : 2 ≤ n) (d : Bool) (id : Nat)
    (h : id < id_space n d) :
    (pair_of_id n d id).1 < n ∧ (pair_of_id n d id).2 < n ∧
    (pair_of_id n d id).1 ≠ (pair_of_id n d id).2 ∧
    (d = false → (pair_of_id n d id).1 < (pair_of_id n d id).2) := by
  unfold pair_of_id
  unfold id_space at h
  cases d with
  | true =>
    simp only [if_true] at h ⊢
    obtain ⟨h1, h2, h3, _⟩ := id_to_pair_directed_spec n hn id h
    exact ⟨h1, h2, h3, fun e => Bool.noConfusion e⟩
  | false =>
    simp only [Bool.false_eq_true, if_false] at h ⊢
    rw [← tri_eq n (by omega)] at h
    obtain ⟨_, h2, h3, _⟩ := id_to_pair_undirected_loop_dec (n - 1) 0 id h
    unfold id_to_pair_undirected
    exact ⟨by omega, by omega, by omega, fun _ => h2⟩

theorem pair_of_id_inj (n : Nat) (hn : 2 ≤ n) (d : Bool) (id1 id2 : Nat)
    (h1 : id1 < id_space n d) (h2 : id2 < id_space n d)
    (e : pair_of_id n d id1 = pair_of_id n d id2) : id1 = id2 := by
  unfold pair_of_id at e
  unfold id_space at h1 h2
  cases d with
  | true =>
    simp only [if_true] at h1 h2 e
    have k1 := (id_to_pair_directed_spec n hn id1 h1).2.2.2
    have k2 := (id_to_pair_directed_spec n hn id2 h2).2.2.2
    rw [e] at k1
    exact k1.trans k2.symm
  | false =>
    simp only [Bool.false_eq_true, if_false] at h1 h2 e
    rw [← tri_eq n (by omega)] at h1 h2
    unfold id_to_pair_undirected at e
    have k1 := (id_to_pair_undirected_loop_dec (n - 1) 0 id1 h1).2.2.2
    have k2 := (id_to_pair_undirected_loop_dec (n - 1) 0 id2 h2).2.2.2
    rw [e] at k1
    exact k1.symm.trans k2

theorem guard_nat {n a b : Nat} (ha : a < n) (hb : b < n) (hab : a ≠ b) :
    ¬ (!in_range n (a : Int) || !in_range n (b : Int) || (a : Int) == (b : Int)) = true := by
  rw [guard_iff]
  rintro (h | h | h)
  · exact h ⟨Int.natCast_nonneg a, by rw [Int.toNat_natCast]; exact ha⟩
  · exact h ⟨Int.natCast_nonneg b, by rw [Int.toNat_natCast]; exact hb⟩
  · exact hab (Int.ofNat_inj.1 h)

/-- One more id keeps the invariant of the edge loop. -/
theorem genInv_step (n : Nat) (hn : 2 ≤ n) (d : Bool) (g : Graph) (done : List Nat)
    (id : Nat) (hinv : GenInv n d g done) (hdone : ∀ x ∈ done, x < id_space n d)
    (hid : id < id_space n d) (hnew : id ∉ done) :
    GenInv n d (g.add_edge ((pair_of_id g.n g.directed id).1 : Int)
      ((pair_of_id g.n g.directed id).2 : Int)) (done ++ [id]) := by
  obtain ⟨hwf, hmok, hgn, hgd, hec, hmem⟩ := hinv
  rw [hgn, hgd]
  obtain ⟨p1, p2, p3, p4⟩ := pair_of_id_spec n hn d id hid
  generalize hp : pair_of_id n d id = p at p1 p2 p3 p4
  obtain ⟨a, b⟩ := p
  simp only at p1 p2 p3 p4 ⊢
  have hc : ¬ (!in_range g.n (a : Int) || !in_range g.n (b : Int) ||
      (a : Int) == (b : Int)) = true := by
    rw [hgn]; exact guard_nat p1 p2 p3
  have hnot : (b : Int).toNat ∉ g.nbrs (a : Int).toNat := by
    rw [Int.toNat_natCast, Int.toNat_natCast]
    intro hb
    obtain ⟨id1, hid1, h | ⟨hd, h⟩⟩ := hmem a b hb
    · exact hnew (pair_of_id_inj n hn d id id1 hid (hdone id1 hid1) (hp.trans h.symm) ▸ hid1)
    · have k := (pair_of_id_spec n hn d id1 (hdone id1 hid1)).2.2.2 hd
      rw [h] at k
      have k2 := p4 hd
      simp only at k
      omega
  obtain ⟨hrows, _⟩ := Graph.add_edge_rows hwf hc hnot
  rw [Int.toNat_natCast, Int.toNat_natCast] at hrows
  refine ⟨Graph.add_edge_wf hwf _ _, Graph.apply_mok hwf hmok (.add a b),
    (g.add_edge_n _ _).trans hgn, (g.add_edge_directed _ _).trans hgd, ?_, ?_⟩
  · rw [Graph.add_edge_edge_count hwf hc hnot, hec, List.length_append, List.length_singleton]
  · intro x y hy
    rw [hrows x] at hy
    have hidm : id ∈ done ++ [id] := List.mem_append_right _ (List.mem_singleton_self id)
    by_cases h1 : g.directed = false ∧ b = x
    · rw [if_pos h1] at hy
      rcases List.mem_append.1 hy with h | h
      · rw [← h1.2] at *
        obtain ⟨id1, k1, k2⟩ := hmem b y h
        exact ⟨id1, List.mem_append_left _ k1, k2⟩
      · refine ⟨id, hidm, Or.inr ⟨hgd ▸ h1.1, ?_⟩⟩
        rw [List.mem_singleton.1 h, ← h1.2]
        exact hp
    · rw [if_neg h1] at hy
      by_cases h2 : a = x
      · rw [if_pos h2] at hy
        rcases List.mem_append.1 hy with h | h
        · rw [← h2] at *
          obtain ⟨id1, k1, k2⟩ := hmem a y h
          exact ⟨id1, List.mem_append_left _ k1, k2⟩
        · refine ⟨id, hidm, Or.inl ?_⟩
          rw [List.mem_singleton.1 h, ← h2]
          exact hp
      · rw [if_neg h2] at hy
        obtain ⟨id1, k1, k2⟩ := hmem x y hy
        exact ⟨id1, List.mem_append_left _ k1, k2⟩

theorem genInv_fold (n : Nat) (hn : 2 ≤ n) (d : Bool) :
    ∀ (ids : List Nat) (g : Graph) (done : List Nat), GenInv n d g done →
      (done ++ ids).Nodup → (∀ x ∈ done ++ ids, x < id_space n d) →
      GenInv n d (ids.foldl (fun g id =>
        g.add_edge
          ((if g.directed then id_to_pair_directed g.n id
            else id_to_pair_undirected g.n id).1 : Int)
          ((if g.directed then id_to_pair_directed g.n id
            else id_to_pair_undirected g.n id).2 : Int)) g) (done ++ ids) := by
  intro ids
  induction ids with
  | nil => intro g done h _ _; rw [List.append_nil]; exact h
  | cons id ids ih =>
    intro g done hinv hnd hlt
    rw [List.foldl_cons]
    have hnew : id ∉ done := fun h =>
      (List.nodup_append.1 hnd).2.2 h (List.mem_cons_self _ _)
    have h1 := genInv_step n hn d g done id hinv
      (fun x hx => hlt x (List.mem_append_left _ hx))
      (hlt id (List.mem_append_right _ (List.mem_cons_self _ _))) hnew
    have e : done ++ id :: ids = (done ++ [id]) ++ ids := by simp
    rw [e] at hnd hlt ⊢
    exact ih _ (done ++ [id]) h1 hnd hlt


theorem Graph.darts_length (g : Graph) : g.darts.length = g.degsum := by
  unfold Graph.darts Graph.degsum
  rw [List.length_flatMap]
  congr 1
  apply List.map_congr_left
  intro u _
  simp

/-- On a well-formed graph the number of arcs or undirected edges is the count read
off the lengths of the adjacency lists. -/
theorem Graph.num_edges_eq {g : Graph} (hwf : g.WF) : g.num_edges = g.edge_count := by
  unfold Graph.num_edges Graph.edge_count
  by_cases hd : g.directed = true
  · rw [if_pos hd, if_pos hd, g.darts_length]
  · have hd1 : g.directed = false := by simpa using hd
    rw [if_neg hd, if_neg hd, ← g.darts_length]
    have hsplit := List.length_eq_countP_add_countP (fun p : Nat × Nat => decide (p.1 < p.2))
      g.darts
    have hnd := Graph.darts_nodup hwf
    have hperm : (g.darts.filter (fun p => ¬ decide (p.1 < p.2) = true)).Perm
        (g.uedges.map Prod.swap) := by
      rw [List.perm_ext_iff_of_nodup (hnd.filter _)
        ((Graph.uedges_nodup hwf).map Prod.swap_injective)]
      rintro ⟨a, b⟩
      rw [List.mem_filter, List.mem_map]
      constructor
      · rintro ⟨h1, h2⟩
        have hab : b ∈ g.nbrs a := (Graph.mem_darts_wf hwf a b).1 h1
        have hne : a ≠ b := fun e => hwf.2.2.1 a (e ▸ hab)
        have hlt : b < a := by
          simp only [decide_eq_true_eq, decide_not, Bool.not_eq_true', decide_eq_false_iff_not]
            at h2
          omega
        exact ⟨(b, a), (Graph.mem_uedges hwf b a).2 ⟨hwf.2.2.2.2 hd1 a b hab, hlt⟩, rfl⟩
      · rintro ⟨⟨x, y⟩, hxy, e⟩
        obtain ⟨h1, h2⟩ := (Graph.mem_uedges hwf x y).1 hxy
        simp only [Prod.swap_prod_mk, Prod.mk.injEq] at e
        obtain ⟨rfl, rfl⟩ := e
        refine ⟨(Graph.mem_darts_wf hwf _ _).2 (hwf.2.2.2.2 hd1 _ _ h1), ?_⟩
        simp only [decide_eq_true_eq, decide_not, Bool.not_eq_true', decide_eq_false_iff_not]
        omega
    have h2 : g.darts.countP (fun p => ¬ decide (p.1 < p.2) = true) = g.uedges.length := by
      rw [List.countP_eq_length_filter, hperm.length_eq, List.length_map]
    have h1 : g.darts.countP (fun p => decide (p.1 < p.2)) = g.uedges.length := by
      rw [List.countP_eq_length_filter]; rfl
    rw [h1] at hsplit
    have h3 : g.darts.countP (fun a => decide ¬ (decide (a.1 < a.2)) = true) =
        g.uedges.length := by
      rw [← h2]
    omega


theorem genInv_init (n : Nat) (d : Bool) : GenInv n d (Graph.init n d) [] := by
  refine ⟨Graph.init_wf n d, Graph.init_mok n d, rfl, rfl, ?_, ?_⟩
  · have h := Graph.init_mok n d
    unfold Graph.MOK at h
    have h0 : (Graph.init n d).m = 0 := rfl
    have hle := Graph.degsum_le (Graph.init_wf n d)
    unfold Graph.edge_count Graph.degsum
    have hz : ((List.range (Graph.init n d).n).map
        (fun u => ((Graph.init n d).nbrs u).length)).sum = 0 := by
      apply List.sum_eq_zero
      intro x hx
      obtain ⟨u, _, rfl⟩ := List.mem_map.1 hx
      rw [Graph.init_nbrs]; rfl
    rw [hz]
    split_ifs <;> rfl
  · intro x y hy
    rw [Graph.init_nbrs] at hy
    cases hy

/-- C27. For every `n >= 1`, every `target_m`, either directedness, every sequence of
draws `t` in `[0, j]` and every read-out order of the set: `sample_ids(N, m)` returns
exactly `m` pairwise distinct ids below `N` (for `m <= N`), and `generate_Gnm` applied
to a fresh `Graph(n, directed)` leaves a well-formed (simple) graph on the same
vertices with exactly `min(target_m, N)` edges, its counter `m` being that number as
a 64-bit value. -/
theorem generate_Gnm_exact (iter : List Nat → List Nat) (hiter : ∀ l, (iter l).Perm l)
    (draw : Nat → Nat) (hdraw : ∀ j, draw j ≤ j) (n : Nat) (hn : 1 ≤ n) (d : Bool)
    (target_m : Nat) :
    (∀ N m, m ≤ N →
      (sample_ids iter draw N m).length = m ∧ (sample_ids iter draw N m).Nodup ∧
      ∀ x ∈ sample_ids iter draw N m, x < N) ∧
    (generate_Gnm iter draw (Graph.init n d) target_m).WF ∧
    (generate_Gnm iter draw (Graph.init n d) target_m).n = n ∧
    (generate_Gnm iter draw (Graph.init n d) target_m).directed = d ∧
    (generate_Gnm iter draw (Graph.init n d) target_m).num_edges
      = min target_m (id_space n d) ∧
    (generate_Gnm iter draw (Graph.init n d) target_m).m
      = min target_m (id_space n d) % 2 ^ 64 := by
  refine ⟨fun N m hm => sample_ids_spec iter hiter draw hdraw N m hm, ?_⟩
  have key : GenInv n d (generate_Gnm iter draw (Graph.init n d) target_m)
      (if target_m = 0 then [] else
        sample_ids iter draw (id_space n d) (min target_m (id_space n d))) := by
    unfold generate_Gnm
    have hn0 : (Graph.init n d).n = n := rfl
    have hd0 : (Graph.init n d).directed = d := rfl
    by_cases ht : target_m = 0
    · rw [if_pos (Or.inr ht), if_pos ht]
      exact genInv_init n d
    · rw [if_neg (by rw [hn0]; omega), if_neg ht]
      dsimp only
      rw [hn0, hd0]
      have htm : (if target_m > id_space n d then id_space n d else target_m) =
          min target_m (id_space n d) := by
        split_ifs <;> omega
      rw [htm]
      obtain ⟨h1, h2, h3⟩ := sample_ids_spec iter hiter draw hdraw (id_space n d)
        (min target_m (id_space n d)) (Nat.min_le_right _ _)
      by_cases hn2 : 2 ≤ n
      · have := genInv_fold n hn2 d
          (sample_ids iter draw (id_space n d) (min target_m (id_space n d)))
          (Graph.init n d) [] (genInv_init n d) (by simpa using h2) (by simpa using h3)
        simpa using this
      · have hn1 : n = 1 := by omega
        have hN : id_space n d = 0 := by
          rw [hn1]; unfold id_space; split_ifs <;> rfl
        rw [hN, Nat.min_zero] at h1 ⊢
        rw [List.length_eq_zero.1 h1]
        exact genInv_init n d
  obtain ⟨hwf, hmok, h1, h2, h3, _⟩ := key
  have hlen : (if target_m = 0 then [] else
      sample_ids iter draw (id_space n d) (min target_m (id_space n d))).length
      = min target_m (id_space n d) := by
    by_cases ht : target_m = 0
    · rw [if_pos ht, ht]; simp
    · rw [if_neg ht]
      exact (sample_ids_spec iter hiter draw hdraw _ _ (Nat.min_le_right _ _)).1
  refine ⟨hwf, h1, h2, ?_, ?_⟩
  · rw [Graph.num_edges_eq hwf, h3, hlen]
  · rw [hmok, h3, hlen]

theorem generate_Gnm_exact_witness :
    (∀ l : List Nat, (l.reverse).Perm l) ∧ (∀ j : Nat, j / 2 ≤ j) ∧ (1 : Nat) ≤ 4 ∧
      (generate_Gnm List.reverse (fun j => j / 2) (Graph.init 4 false) 9).adj
        = [[3, 2, 1], [3, 2, 0], [3, 1, 0], [2, 1, 0]] ∧
      (generate_Gnm List.reverse (fun j => j / 2) (Graph.init 4 false) 9).num_edges
        = min 9 (id_space 4 false) :=
  ⟨fun l => List.reverse_perm l, fun j => Nat.div_le_self j 2, by decide, by decide,
    (generate_Gnm_exact List.reverse (fun l => List.reverse_perm l) (fun j => j / 2)
      (fun j => Nat.div_le_self j 2) 4 (by decide) false 9).2.2.2.2.1⟩


/-! ### The pipeline handlers -/

/-- Every engine returns a text on a well-formed graph. -/
theorem Algorithm.run_isSome {srt : (Nat → Nat) → List Nat → List Nat} (hsrt : SortSpec srt)
    (now : Nat → Nat) (a : Algorithm) {g : Graph} (hwf : g.WF)
    (params : KV) : ∃ text, a.run srt now g params = some text := by
  cases a with
  | SccCount => exact ⟨_, rfl⟩
  | Hamilton => exact ⟨_, rfl⟩
  | MaxClique =>
    obtain ⟨st, e, _⟩ := run_bk_ok hsrt now hwf params true
    show ∃ text, MaxClique_run srt now g params = some text
    unfold MaxClique_run
    rw [e, Option.map_some']
    exact ⟨_, rfl⟩
  | NumMaxCliques =>
    obtain ⟨st, e, _⟩ := run_bk_ok hsrt now hwf params false
    show ∃ text, NumMaxCliques_run srt now g params = some text
    unfold NumMaxCliques_run
    rw [e, Option.map_some']
    exact ⟨_, rfl⟩

theorem make_algorithm_worker (w : Worker) :
    ∃ a, make_algorithm w.alg_name = some a ∧ a.name = w.alg_name := by
  cases w
  · exact ⟨.SccCount, by decide, rfl⟩
  · exact ⟨.Hamilton, by decide, rfl⟩
  · exact ⟨.MaxClique, by decide, rfl⟩
  · exact ⟨.NumMaxCliques, by decide, rfl⟩

/-- A worker handler posts exactly one response, for the connection of the request,
with the text "OK <NAME> <engine text>". -/
theorem Worker.handle_spec {srt : (Nat → Nat) → List Nat → List Nat} (hsrt : SortSpec srt)
    (now : Nat → Nat) (w : Worker) (r : Request) (hwf : r.g.WF) :
    ∃ a text, make_algorithm w.alg_name = some a ∧ a.run srt now r.g r.params = some text ∧
      w.handle srt now r =
        some [{ client_fd := r.client_fd, text := "OK " ++ w.alg_name ++ " " ++ text }] := by
  obtain ⟨a, ha, _⟩ := make_algorithm_worker w
  obtain ⟨text, ht⟩ := Algorithm.run_isSome hsrt now a hwf r.params
  refine ⟨a, text, ha, ht, ?_⟩
  unfold Worker.handle algorithm_run
  rw [ha]
  dsimp only
  rw [ht, Option.map_some']

theorem dispatch_handle_worker (r : Request) (w : Worker) (h : r.alg = w.alg_name) :
    dispatch_handle r = [.worker w r] := by
  unfold dispatch_handle
  rw [h]
  cases w <;> rfl

theorem dispatch_handle_unknown (r : Request)
    (h : r.alg ∉ ["SCC_COUNT", "HAM_CYCLE", "MAXCLIQUE", "NUM_MAXCLIQUES"]) :
    dispatch_handle r =
      [.respond { client_fd := r.client_fd, text := "ERR unknown algorithm" }] := by
  simp only [List.mem_cons, List.mem_singleton, List.not_mem_nil, or_false, not_or] at h
  unfold dispatch_handle
  rw [if_neg h.1, if_neg h.2.1, if_neg h.2.2.1, if_neg h.2.2.2]

/-- C30. In the pipeline every request whose graph is well-formed yields exactly one
response, for the same connection: `dispatch_handle` posts the request unmodified to
exactly one worker, the one whose name is `r.alg`, or, for any other name, exactly
one response "ERR unknown algorithm" to the responder; each worker handler posts
exactly one response with the request's `client_fd` and the text
"OK <NAME> <engine text>", whatever order `std::sort` gives to equal keys inside the
engines. -/
theorem pipeline_one_response (srt : (Nat → Nat) → List Nat → List Nat) (hsrt : SortSpec srt)
    (now : Nat → Nat) (r : Request) (hwf : r.g.WF) :
    (∀ w : Worker, r.alg = w.alg_name → dispatch_handle r = [.worker w r]) ∧
    (r.alg ∉ ["SCC_COUNT", "HAM_CYCLE", "MAXCLIQUE", "NUM_MAXCLIQUES"] →
      dispatch_handle r =
        [.respond { client_fd := r.client_fd, text := "ERR unknown algorithm" }]) ∧
    (∀ w : Worker, ∃ a text,
      make_algorithm w.alg_name = some a ∧ a.name = w.alg_name ∧
      a.run srt now r.g r.params = some text ∧
      w.handle srt now r =
        some [{ client_fd := r.client_fd, text := "OK " ++ w.alg_name ++ " " ++ text }]) ∧
    (∃ resp, pipeline_responses srt now r = some [resp] ∧ resp.client_fd = r.client_fd) := by
  refine ⟨dispatch_handle_worker r, dispatch_handle_unknown r, ?_, ?_⟩
  · intro w
    obtain ⟨a, text, h1, h2, h3⟩ := Worker.handle_spec hsrt now w r hwf
    obtain ⟨a1, k1, k2⟩ := make_algorithm_worker w
    rw [h1] at k1
    cases k1
    exact ⟨a, text, h1, k2, h2, h3⟩
  · by_cases hk : r.alg ∈ ["SCC_COUNT", "HAM_CYCLE", "MAXCLIQUE", "NUM_MAXCLIQUES"]
    · have hw : ∃ w : Worker, r.alg = w.alg_name := by
        simp only [List.mem_cons, List.mem_singleton, List.not_mem_nil, or_false] at hk
        rcases hk with h | h | h | h
        · exact ⟨.scc_ao, h⟩
        · exact ⟨.ham_ao, h⟩
        · exact ⟨.maxclq_ao, h⟩
        · exact ⟨.numclq_ao, h⟩
      obtain ⟨w, hw⟩ := hw
      obtain ⟨a, text, _, _, h3⟩ := Worker.handle_spec hsrt now w r hwf
      refine ⟨{ client_fd := r.client_fd, text := "OK " ++ w.alg_name ++ " " ++ text }, ?_, rfl⟩
      unfold pipeline_responses
      rw [dispatch_handle_worker r w hw]
      simp only [List.foldl_cons, List.foldl_nil]
      rw [h3]
      rfl
    · refine ⟨{ client_fd := r.client_fd, text := "ERR unknown algorithm" }, ?_, rfl⟩
      unfold pipeline_responses
      rw [dispatch_handle_unknown r hk]
      rfl

theorem pipeline_one_response_witness :
    g_cc_test.WF ∧
      pipeline_responses sort_by_key (fun _ => 0)
          { client_fd := 7, alg := "SCC_COUNT", g := g_cc_test, params := [] } =
        some [{ client_fd := 7,
                text := "OK SCC_COUNT Graph undirected; connected components=2" }] ∧
      pipeline_responses sort_by_key (fun _ => 0)
          { client_fd := 7, alg := "scc", g := g_cc_test, params := [] } =
        some [{ client_fd := 7, text := "ERR unknown algorithm" }] ∧
      (∃ resp, pipeline_responses sort_by_key (fun _ => 0)
          { client_fd := 7, alg := "SCC_COUNT", g := g_cc_test, params := [] } = some [resp] ∧
        resp.client_fd = 7) :=
  ⟨Graph.wf_of_check _ (by decide), by decide, by decide,
    (pipeline_one_response sort_by_key sort_by_key_spec (fun _ => 0)
      { client_fd := 7, alg := "SCC_COUNT", g := g_cc_test, params := [] }
      (Graph.wf_of_check _ (by decide))).2.2.2⟩


/-! ### The pivot of the clique search on the test graph -/

set_option maxRecDepth 100000 in
/-- C33 (defect): in the initial call that MAXCLIQUE and NUM_MAXCLIQUES make on the
clique test graph (`P = [4, 0, 1, 3, 2]`, ascending degree, `X` empty; the first poll
of the budget does not fire) the pivot loop of `bk_recurse` counts one neighbour of
vertex 3 in `P` and chooses 3, although vertex 3 has two neighbours in `P` and
vertex 2, a member of `P`, has three. -/
theorem pivot_test_graph_not_max :
    sort_by_key (fun a => (row (make_adj_undirected g_clique_test) a).length)
        (List.range g_clique_test.n) = [4, 0, 1, 3, 2] ∧
      ((mk_budget (fun _ => 0) clique_test_params).timed_out (fun _ => 0)).1 = false ∧
      choose_pivot (make_adj_undirected g_clique_test) [4, 0, 1, 3, 2] [] = (3, 1) ∧
      ((row (make_adj_undirected g_clique_test) 3).filter
        (fun w => decide (w ∈ [4, 0, 1, 3, 2]))).length = 2 ∧
      ((row (make_adj_undirected g_clique_test) 2).filter
        (fun w => decide (w ∈ [4, 0, 1, 3, 2]))).length = 3 := by
  decide

/-! ### The timeout label of the Hamiltonian engine -/

set_option maxRecDepth 100000 in
/-- C37 (defect): on the directed graph with arcs 0->1, 1->2, 2->3, 3->4, 4->2, 0->2,
2->0 (no Hamiltonian cycle, precheck passed) with `step_limit=10` and a clock that
never reaches the deadline, the search `ham_cycle_backtrack` runs to completion: it
returns `false` after 9 polls of the budget, none of which returned `true`. The poll
that `ham_cycle` makes afterwards is the tenth and returns `true`, so the text is
"HAM: TIMEOUT"; with the default step limit the same search gives
"NO Hamilton cycle". -/
theorem ham_timeout_after_complete_search :
    ham_cycle sort_by_key (fun _ => 0) g_no_ham [("limit", "10"), ("step_limit", "10")] = "HAM: TIMEOUT" ∧
      (ham_cycle_backtrack sort_by_key (fun _ => 0) g_no_ham (ham_start g_no_ham) (g_no_ham.n - 1)
          [ham_start g_no_ham] ((List.replicate g_no_ham.n false).set (ham_start g_no_ham) true)
          (mk_budget (fun _ => 0) [("limit", "10"), ("step_limit", "10")])).1 = false ∧
      (ham_cycle_backtrack sort_by_key (fun _ => 0) g_no_ham (ham_start g_no_ham) (g_no_ham.n - 1)
          [ham_start g_no_ham] ((List.replicate g_no_ham.n false).set (ham_start g_no_ham) true)
          (mk_budget (fun _ => 0) [("limit", "10"), ("step_limit", "10")])).2.2.2.steps = 9 ∧
      (∀ j, j ≤ 9 →
        ((mk_budget (fun _ => 0) [("limit", "10"), ("step_limit", "10")]).calls
          (fun _ => 0) j).1 = false) ∧
      ((mk_budget (fun _ => 0) [("limit", "10"), ("step_limit", "10")]).calls
          (fun _ => 0) 10).1 = true ∧
      ham_cycle sort_by_key (fun _ => 0) g_no_ham [("limit", "10")] = "NO Hamilton cycle" := by
  decide


/-! ### The Hamiltonian precheck against the search -/

theorem IsHamCycle.not_one {g : Graph} (hwf : g.WF) (hn : g.n = 1) {c : List Nat}
    (hc : IsHamCycle g c) : False := by
  obtain ⟨l, hl⟩ := hc.rotate_to (show 0 < g.n by omega)
  have hlen := hl.length_eq
  cases l with
  | nil =>
    rw [isHamCycle_cons_iff] at hl
    have h := hl.2.2
    rw [List.nil_append, List.chain_cons] at h
    exact hwf.2.2.1 0 h.1
  | cons b l => simp at hlen; omega

/-- The directed branch of the precheck only rejects graphs without a Hamiltonian
cycle (two or more vertices). -/
theorem quick_ham_impossible_sound_directed {g : Graph} (hwf : g.WF) (hn : 2 ≤ g.n)
    (hd : g.directed = true) (h : quick_ham_impossible g = true) :
    ¬ ∃ c, IsHamCycle g c := by
  rintro ⟨c, hc⟩
  rw [quick_ham_impossible_directed hwf (by omega) hd] at h
  rcases h with ⟨v, hv, h⟩ | h
  · obtain ⟨b, z, hb, hza, hzn, _⟩ := hc.succ_pred hn hv
    have h3 : 0 < g.out_degree v := List.length_pos.2 (List.ne_nil_of_mem hb)
    have h4 := in_degree_pos hzn hza
    omega
  · exact h (fun u v hu hv => hc.reach hu hv)

/-- The precheck only rejects graphs without a Hamiltonian cycle, the undirected graph
on two vertices with the edge 0-1 apart. -/
theorem quick_ham_impossible_sound_all {g : Graph} (hwf : g.WF) (hn : 1 ≤ g.n)
    (hk : ¬ (g.directed = false ∧ g.n = 2 ∧ 1 ∈ g.nbrs 0))
    (h : quick_ham_impossible g = true) : ¬ ∃ c, IsHamCycle g c := by
  rcases Nat.lt_or_ge g.n 3 with h3 | h3
  · rcases Nat.lt_or_ge g.n 2 with h2 | h2
    · rintro ⟨c, hc⟩
      exact hc.not_one hwf (by omega)
    · cases hd : g.directed
      · rintro ⟨c, hc⟩
        obtain ⟨b, z, hb, _, _, _⟩ := hc.succ_pred h2 (show 0 < g.n by omega)
        have hb2 : b < g.n := hwf.2.1 0 b hb
        have hb0 : b ≠ 0 := fun e => hwf.2.2.1 0 (e ▸ hb)
        have hb1 : b = 1 := by omega
        exact hk ⟨hd, by omega, hb1 ▸ hb⟩
      · exact quick_ham_impossible_sound_directed hwf h2 hd h
  · exact quick_ham_impossible_sound hwf h3 h

/-- C36 (as stated, refuted). On the undirected graph with the two vertices 0, 1 and
the edge 0-1, which is well-formed with `1 <= n`, `quick_ham_impossible` is `true`
(both degrees are 1), yet the search `ham_cycle_backtrack` from the start vertex with
an unbounded budget returns `true`: it walks 0 -> 1 and closes over the same edge. -/
theorem ham_precheck_two_vertices :
    g_k2.WF ∧ 1 ≤ g_k2.n ∧ quick_ham_impossible g_k2 = true ∧
      (ham_cycle_backtrack sort_by_key (fun _ => 0) g_k2 (ham_start g_k2) (g_k2.n - 1) [ham_start g_k2]
        ((List.replicate g_k2.n false).set (ham_start g_k2) true) (Budget.mk 0 0 0)).1 = true :=
  ⟨Graph.wf_of_check _ (by decide), by decide, by decide, by decide⟩

/-- C36 (amended). For every well-formed graph with `n >= 1` other than the undirected
graph on two vertices with the edge 0-1: if `quick_ham_impossible(g)` is `true` then
the search `ham_cycle_backtrack`, run from the minimum-degree start vertex as
`ham_cycle` runs it, returns `false`, with the unbounded budget and with every other
budget and clock, whatever order `std::sort` gives to neighbours of equal degree. -/
theorem ham_precheck_agrees_with_search (srt : (Nat → Nat) → List Nat → List Nat)
    (hsrt : SortSpec srt) (now : Nat → Nat) (g : Graph) (hwf : g.WF)
    (hn : 1 ≤ g.n) (hk : ¬ (g.directed = false ∧ g.n = 2 ∧ 1 ∈ g.nbrs 0))
    (hq : quick_ham_impossible g = true) :
    (ham_cycle_backtrack srt now g (ham_start g) (g.n - 1) [ham_start g]
      ((List.replicate g.n false).set (ham_start g) true) (Budget.mk 0 0 0)).1 = false ∧
    ∀ B : Budget, (ham_cycle_backtrack srt now g (ham_start g) (g.n - 1) [ham_start g]
      ((List.replicate g.n false).set (ham_start g) true) B).1 = false := by
  have key : ∀ B : Budget, (ham_cycle_backtrack srt now g (ham_start g) (g.n - 1) [ham_start g]
      ((List.replicate g.n false).set (ham_start g) true) B).1 = false := by
    intro B
    have hspec := ham_cycle_backtrack_spec hsrt now hwf (ham_start g) (g.n - 1) _ _ B
      (hamInv_init g (by omega))
    by_contra hc
    exact quick_ham_impossible_sound_all hwf hn hk hq ⟨_, (hspec.2.1 (by simpa using hc)).1⟩
  exact ⟨key _, key⟩

theorem ham_precheck_agrees_with_search_witness :
    g_ham_path.WF ∧ 1 ≤ g_ham_path.n ∧
      ¬ (g_ham_path.directed = false ∧ g_ham_path.n = 2 ∧ 1 ∈ g_ham_path.nbrs 0) ∧
      quick_ham_impossible g_ham_path = true ∧
      (ham_cycle_backtrack sort_by_key (fun _ => 0) g_ham_path (ham_start g_ham_path) (g_ham_path.n - 1)
        [ham_start g_ham_path]
        ((List.replicate g_ham_path.n false).set (ham_start g_ham_path) true)
        (Budget.mk 0 0 0)).1 = false :=
  ⟨Graph.wf_of_check _ (by decide), by decide, by decide, by decide,
    (ham_precheck_agrees_with_search sort_by_key sort_by_key_spec (fun _ => 0) g_ham_path
      (Graph.wf_of_check _ (by decide)) (by decide) (by decide) (by decide)).1⟩


/-! ### stage1: the edge counter and the adjacency lists -/

theorem toNat_lt_of_is_int {x : Int} (h : is_int x) : x.toNat < 2 ^ 31 := by
  unfold is_int at h
  omega

theorem Graph.init_intIds (n : Nat) (d : Bool) : (Graph.init n d).IntIds := by
  intro u v h
  rw [Graph.init_nbrs] at h
  cases h

/-- A mutation with `int` arguments stores `int` ids only. -/
theorem Graph.apply_intIds {g : Graph} (hwf : g.WF) (hi : g.IntIds) (op : GraphOp)
    (hop : op.int_args) : (g.apply op).IntIds := by
  cases op with
  | add u v =>
    obtain ⟨hu, hv⟩ := hop
    have hu1 := toNat_lt_of_is_int hu
    have hv1 := toNat_lt_of_is_int hv
    show (g.add_edge u v).IntIds
    by_cases hc : (!in_range g.n u || !in_range g.n v || u == v) = true
    · have : g.add_edge u v = g := by unfold Graph.add_edge; rw [if_pos hc]
      rw [this]; exact hi
    · by_cases hin : v.toNat ∈ g.nbrs u.toNat
      · rw [g.add_edge_unchanged u v (Or.inr (Or.inr (Or.inr hin)))]; exact hi
      · obtain ⟨hrows, _⟩ := Graph.add_edge_rows hwf hc hin
        intro x y hy
        rw [hrows x] at hy
        by_cases h1 : g.directed = false ∧ v.toNat = x
        · rw [if_pos h1] at hy
          rcases List.mem_append.1 hy with h | h
          · rw [h1.2] at h; exact hi x y h
          · rw [List.mem_singleton.1 h, ← h1.2]; exact ⟨hv1, hu1⟩
        · rw [if_neg h1] at hy
          by_cases h2 : u.toNat = x
          · rw [if_pos h2] at hy
            rcases List.mem_append.1 hy with h | h
            · rw [h2] at h; exact hi x y h
            · rw [List.mem_singleton.1 h, ← h2]; exact ⟨hu1, hv1⟩
          · rw [if_neg h2] at hy
            exact hi x y hy
  | remove u v =>
    show (g.remove_edge u v).2.IntIds
    by_cases hc : (!in_range g.n u || !in_range g.n v || u == v) = true
    · have : (g.remove_edge u v).2 = g := by unfold Graph.remove_edge; rw [if_pos hc]
      rw [this]; exact hi
    · obtain ⟨_, hrows, _⟩ := Graph.remove_edge_rows hwf hc
      intro x y hy
      rw [hrows x] at hy
      by_cases h1 : g.directed = false ∧ v.toNat = x
      · rw [if_pos h1, h1.2] at hy
        exact hi x y (List.mem_of_mem_erase hy)
      · rw [if_neg h1] at hy
        by_cases h2 : u.toNat = x
        · rw [if_pos h2, h2] at hy
          exact hi x y (List.mem_of_mem_erase hy)
        · rw [if_neg h2] at hy
          exact hi x y hy

theorem Graph.run_ops_intIds (ops : List GraphOp) :
    ∀ {g : Graph}, g.WF → g.IntIds → (∀ op ∈ ops, op.int_args) → (g.run_ops ops).IntIds := by
  induction ops with
  | nil => intro g _ hi _; exact hi
  | cons op ops ih =>
    intro g hwf hi hops
    exact ih (Graph.apply_wf hwf op).1
      (Graph.apply_intIds hwf hi op (hops op (List.mem_cons_self _ _)))
      (fun o ho => hops o (List.mem_cons_of_mem _ ho))

/-- With `int` ids the adjacency lists hold at most `2^31 * 2^31` entries. -/
theorem Graph.degsum_le_int {g : Graph} (hwf : g.WF) (hi : g.IntIds) : g.degsum ≤ 2 ^ 62 := by
  unfold Graph.degsum
  have hrow : ∀ u, (g.nbrs u).length ≤ 2 ^ 31 := by
    intro u
    have hsub : g.nbrs u ⊆ List.range (2 ^ 31) := fun x hx =>
      List.mem_range.2 (hi u x hx).2
    have := (List.subperm_of_subset (hwf.2.2.2.1 u) hsub).length_le
    rwa [List.length_range] at this
  have hzero : ∀ u, 2 ^ 31 ≤ u → (g.nbrs u).length = 0 := by
    intro u hu
    rw [List.length_eq_zero]
    apply List.eq_nil_iff_forall_not_mem.2
    intro x hx
    have := (hi u x hx).1
    omega
  have key : ∀ k, ((List.range k).map (fun u => (g.nbrs u).length)).sum
      ≤ min k (2 ^ 31) * 2 ^ 31 := by
    intro k
    induction k with
    | zero => simp
    | succ k ih =>
      rw [List.range_succ, List.map_append, List.sum_append]
      simp only [List.map_cons, List.map_nil, List.sum_cons, List.sum_nil, Nat.add_zero]
      rcases Nat.lt_or_ge k (2 ^ 31) with hk | hk
      · have := hrow k
        rw [Nat.min_eq_left (by omega : k ≤ 2 ^ 31)] at ih
        rw [Nat.min_eq_left (by omega : k + 1 ≤ 2 ^ 31), Nat.succ_mul]
        omega
      · have := hzero k hk
        rw [Nat.min_eq_right hk] at ih
        rw [Nat.min_eq_right (by omega : 2 ^ 31 ≤ k + 1)]
        omega
  have h1 := key g.n
  have h2 : min g.n (2 ^ 31) * 2 ^ 31 ≤ 2 ^ 31 * 2 ^ 31 :=
    Nat.mul_le_mul_right _ (Nat.min_le_right _ _)
  have h3 : (2 : Nat) ^ 31 * 2 ^ 31 = 2 ^ 62 := by norm_num
  omega


/-- The adjacency lists of a well-formed undirected graph hold every edge twice. -/
theorem Graph.degsum_undirected {g : Graph} (hwf : g.WF) (hd1 : g.directed = false) :
    g.degsum = 2 * g.uedges.length := by
  rw [← g.darts_length]
  have hsplit := List.length_eq_countP_add_countP (fun p : Nat × Nat => decide (p.1 < p.2))
    g.darts
  have hnd := Graph.darts_nodup hwf
  have hperm : (g.darts.filter (fun p => ¬ decide (p.1 < p.2) = true)).Perm
      (g.uedges.map Prod.swap) := by
    rw [List.perm_ext_iff_of_nodup (hnd.filter _)
      ((Graph.uedges_nodup hwf).map Prod.swap_injective)]
    rintro ⟨a, b⟩
    rw [List.mem_filter, List.mem_map]
    constructor
    · rintro ⟨h1, h2⟩
      have hab : b ∈ g.nbrs a := (Graph.mem_darts_wf hwf a b).1 h1
      have hne : a ≠ b := fun e => hwf.2.2.1 a (e ▸ hab)
      have hlt : b < a := by
        simp only [decide_eq_true_eq, decide_not, Bool.not_eq_true', decide_eq_false_iff_not]
          at h2
        omega
      exact ⟨(b, a), (Graph.mem_uedges hwf b a).2 ⟨hwf.2.2.2.2 hd1 a b hab, hlt⟩, rfl⟩
    · rintro ⟨⟨x, y⟩, hxy, e⟩
      obtain ⟨h1, h2⟩ := (Graph.mem_uedges hwf x y).1 hxy
      simp only [Prod.swap_prod_mk, Prod.mk.injEq] at e
      obtain ⟨rfl, rfl⟩ := e
      refine ⟨(Graph.mem_darts_wf hwf _ _).2 (hwf.2.2.2.2 hd1 _ _ h1), ?_⟩
      simp only [decide_eq_true_eq, decide_not, Bool.not_eq_true', decide_eq_false_iff_not]
      omega
  have h2 : g.darts.countP (fun p => ¬ decide (p.1 < p.2) = true) = g.uedges.length := by
    rw [List.countP_eq_length_filter, hperm.length_eq, List.length_map]
  have h1 : g.darts.countP (fun p => decide (p.1 < p.2)) = g.uedges.length := by
    rw [List.countP_eq_length_filter]; rfl
  rw [h1] at hsplit
  have h3 : g.darts.countP (fun a => decide ¬ (decide (a.1 < a.2)) = true) =
      g.uedges.length := by
    rw [← h2]
  omega

/-- C38. For every graph obtained from `Graph(n, directed)` by a sequence of
`add_edge` and `remove_edge` calls (with `int` arguments), the sum of the lengths of
the adjacency lists is `m` for a directed graph and `2 * m` for an undirected one;
`m` is the number of arcs or edges the lists hold, it is below `2^63` (no wrap), and
a `remove_edge` that decrements it finds `m >= 1` (no underflow). -/
theorem edge_counter_matches_lists (n : Nat) (d : Bool) (ops : List GraphOp) (g : Graph)
    (hg : g = (Graph.init n d).run_ops ops) (hint : ∀ op ∈ ops, op.int_args) :
    (g.directed = true → g.degsum = g.m) ∧
    (g.directed = false → g.degsum = 2 * g.m) ∧
    g.m = g.num_edges ∧ g.m < 2 ^ 63 ∧
    (∀ u v : Int, (g.remove_edge u v).1 = true →
      1 ≤ g.m ∧ (g.remove_edge u v).2.m = g.m - 1) := by
  have hwf : g.WF := by rw [hg]; exact (Graph.run_ops_wf ops (Graph.init_wf n d)).1
  have hmok : g.MOK := by
    rw [hg]; exact Graph.run_ops_mok ops (Graph.init_wf n d) (Graph.init_mok n d)
  have hi : g.IntIds := by
    rw [hg]; exact Graph.run_ops_intIds ops (Graph.init_wf n d) (Graph.init_intIds n d) hint
  have hle := Graph.degsum_le_int hwf hi
  have hec : g.edge_count ≤ g.degsum := by
    unfold Graph.edge_count
    split_ifs
    · exact le_refl _
    · exact Nat.div_le_self _ _
  have h62 : (2 : Nat) ^ 62 < 2 ^ 63 := by norm_num
  have h63 : (2 : Nat) ^ 63 < 2 ^ 64 := by norm_num
  have hm : g.m = g.edge_count := by
    unfold Graph.MOK at hmok
    rw [hmok]
    exact Nat.mod_eq_of_lt (by omega)
  have hne := Graph.num_edges_eq hwf
  refine ⟨?_, ?_, ?_, ?_, ?_⟩
  · intro hd
    rw [hm]
    unfold Graph.edge_count
    rw [if_pos hd]
  · intro hd
    rw [hm, ← hne]
    unfold Graph.num_edges
    rw [if_neg (by rw [hd]; exact Bool.false_ne_true)]
    exact Graph.degsum_undirected hwf hd
  · rw [hm, hne]
  · omega
  · intro u v hr
    by_cases hc : (!in_range g.n u || !in_range g.n v || u == v) = true
    · have e : g.remove_edge u v = (false, g) := by unfold Graph.remove_edge; rw [if_pos hc]
      rw [e] at hr
      exact Bool.noConfusion hr
    · obtain ⟨hret, _, hmm⟩ := Graph.remove_edge_rows hwf hc
      rw [hret] at hr
      have hin : v.toNat ∈ g.nbrs u.toNat := (contains_eq_true_iff _ _).1 hr
      have h3 := Graph.remove_edge_edge_count hwf hc hin
      rw [hmm, if_pos hr]
      omega

theorem edge_counter_matches_lists_witness :
    g_path3 = (Graph.init 3 false).run_ops [.add 0 1, .add 1 2] ∧
      (∀ op ∈ [GraphOp.add 0 1, GraphOp.add 1 2], op.int_args) ∧
      g_path3.degsum = 4 ∧ g_path3.m = 2 ∧
      (g_path3.directed = false → g_path3.degsum = 2 * g_path3.m) :=
  ⟨by decide, by decide, by decide, by decide,
    (edge_counter_matches_lists 3 false [.add 0 1, .add 1 2] g_path3 (by decide)
      (by decide)).2.1⟩


/-! ### stage1: `remove_edge` after `add_edge` -/

theorem adj_ext {A B : List (List Nat)} (hlen : A.length = B.length)
    (h : ∀ x, A.getD x [] = B.getD x []) : A = B := by
  apply List.ext_getElem hlen
  intro i h1 h2
  have := h i
  rw [List.getD_eq_getElem?_getD, List.getD_eq_getElem?_getD, List.getElem?_eq_getElem h1,
    List.getElem?_eq_getElem h2] at this
  exact this

/-- C39. For every graph built by `add_edge`/`remove_edge` calls and all in-range
`u != v` with `v` not in `adj[u]`: `add_edge(u, v)` followed by `remove_edge(u, v)`
returns `true` and leaves the graph as it was before the two calls, every adjacency
list (order of the elements included) and `m`. -/
theorem remove_undoes_add (n : Nat) (d : Bool) (ops : List GraphOp) (g : Graph)
    (hg : g = (Graph.init n d).run_ops ops) (u v : Int)
    (hu : 0 ≤ u ∧ u.toNat < g.n) (hv : 0 ≤ v ∧ v.toNat < g.n) (huv : u ≠ v)
    (hnot : v.toNat ∉ g.nbrs u.toNat) :
    (g.add_edge u v).remove_edge u v = (true, g) := by
  have hwf : g.WF := by rw [hg]; exact (Graph.run_ops_wf ops (Graph.init_wf n d)).1
  have hmok : g.MOK := by
    rw [hg]; exact Graph.run_ops_mok ops (Graph.init_wf n d) (Graph.init_mok n d)
  have hc : ¬ (!in_range g.n u || !in_range g.n v || u == v) = true := by
    rw [guard_iff]
    exact fun h => h.elim (fun h => h hu) (fun h => h.elim (fun h => h hv) (fun h => huv h))
  obtain ⟨_, _, hab⟩ := guard_false hc
  obtain ⟨hrows, hm1⟩ := Graph.add_edge_rows hwf hc hnot
  have hwf1 := Graph.add_edge_wf hwf u v
  have hn1 := g.add_edge_n u v
  have hd1 := g.add_edge_directed u v
  have hc1 : ¬ (!in_range (g.add_edge u v).n u || !in_range (g.add_edge u v).n v || u == v)
      = true := by rw [hn1]; exact hc
  obtain ⟨hret, hrows2, hm2⟩ := Graph.remove_edge_rows hwf1 hc1
  have hrow_u : (g.add_edge u v).nbrs u.toNat = g.nbrs u.toNat ++ [v.toNat] := by
    rw [hrows, if_neg (fun h : g.directed = false ∧ v.toNat = u.toNat => hab h.2.symm),
      if_pos rfl]
  have hcon : ((g.add_edge u v).nbrs u.toNat).contains v.toNat = true := by
    rw [contains_eq_true_iff, hrow_u]
    exact List.mem_append_right _ (List.mem_singleton_self _)
  have hnot2 : g.directed = false → u.toNat ∉ g.nbrs v.toNat := fun hd h =>
    hnot (hwf.2.2.2.2 hd _ _ h)
  have hnbrs : ∀ x, ((g.add_edge u v).remove_edge u v).2.nbrs x = g.nbrs x := by
    intro x
    rw [hrows2 x, hd1]
    by_cases h1 : g.directed = false ∧ v.toNat = x
    · rw [if_pos h1, hrows, if_pos ⟨h1.1, rfl⟩,
        List.erase_append_right _ (hnot2 h1.1), h1.2]
      simp
    · rw [if_neg h1]
      by_cases h2 : u.toNat = x
      · rw [if_pos h2, hrow_u, List.erase_append_right _ hnot, h2]
        simp
      · rw [if_neg h2, hrows, if_neg h1, if_neg h2]
  have hadj : ((g.add_edge u v).remove_edge u v).2.adj = g.adj := by
    apply adj_ext
    · have h3 := (Graph.remove_edge_wf hwf1 u v).1
      rw [h3, (g.add_edge u v).remove_edge_n u v, hn1, hwf.1]
    · exact hnbrs
  have hm : ((g.add_edge u v).remove_edge u v).2.m = g.m := by
    rw [hm2, if_pos hcon, hm1]
    have hlt : g.m < 2 ^ 64 := by
      unfold Graph.MOK at hmok
      rw [hmok]
      exact Nat.mod_lt _ (by norm_num)
    omega
  have h2 : ((g.add_edge u v).remove_edge u v).2 = g :=
    Graph.eq_of_fields (((g.add_edge u v).remove_edge_n u v).trans hn1)
      (((g.add_edge u v).remove_edge_directed u v).trans hd1) hadj hm
  exact Prod.ext (hret.trans hcon) h2

theorem remove_undoes_add_witness :
    g_path3 = (Graph.init 3 false).run_ops [.add 0 1, .add 1 2] ∧
      (0 ≤ (0 : Int) ∧ (0 : Int).toNat < g_path3.n) ∧
      (0 ≤ (2 : Int) ∧ (2 : Int).toNat < g_path3.n) ∧ (0 : Int) ≠ 2 ∧
      (2 : Int).toNat ∉ g_path3.nbrs (0 : Int).toNat ∧
      (g_path3.add_edge 0 2).remove_edge 0 2 = (true, g_path3) :=
  ⟨by decide, by decide, by decide, by decide, by decide,
    remove_undoes_add 3 false [.add 0 1, .add 1 2] g_path3 (by decide) 0 2
      (by decide) (by decide) (by decide) (by decide)⟩


/-! ### The Hierholzer walk halts -/

theorem walk_iter_succ (adj2 : List (List AdjEdge)) :
    ∀ (k : Nat) (s : WalkState),
      walk_iter adj2 (k + 1) s =
        match (walk_iter adj2 k s).st.getLast? with
        | none => walk_iter adj2 k s
        | some u => walk_step adj2 u (walk_iter adj2 k s) := by
  intro k
  induction k with
  | zero =>
    intro s
    rw [walk_iter]
    cases h : s.st.getLast? with
    | none => simp only [walk_iter, h]
    | some u => simp only [walk_iter, h]
  | succ k ih =>
    intro s
    rw [walk_iter]
    cases h : s.st.getLast? with
    | none =>
      simp only
      have e : walk_iter adj2 (k + 1) s = s := by rw [walk_iter, h]
      rw [e, h]
    | some u =>
      simp only
      rw [ih (walk_step adj2 u s)]
      have e : walk_iter adj2 (k + 1) s = walk_iter adj2 k (walk_step adj2 u s) := by
        rw [walk_iter, h]
      rw [e]

theorem walk_loop_eq_iter (adj2 : List (List AdjEdge)) :
    ∀ (fuel : Nat) (s : WalkState),
      walk_loop adj2 fuel s =
        if (walk_iter adj2 fuel s).st = [] then some (walk_iter adj2 fuel s).circuit
        else none := by
  intro fuel
  induction fuel with
  | zero => intro s; rw [walk_loop, walk_iter]
  | succ fuel ih =>
    intro s
    rw [walk_loop, walk_iter]
    cases h : s.st.getLast? with
    | none =>
      simp only
      rw [if_pos (List.getLast?_eq_none_iff.1 h)]
    | some u =>
      simp only
      exact ih _

/-- One iteration of the walk is a pop or takes an edge not used before, and keeps
the counting invariant. -/
theorem walk_step_kind {adj2 : List (List AdjEdge)} {E : Nat}
    (hid : ∀ u e, e ∈ row2 adj2 u → e.id < E) {s : WalkState} (hc : WalkCount adj2 E s)
    {u : Nat} (hu : s.st.getLast? = some u) :
    WalkKind adj2 u s (walk_step adj2 u s) ∧ WalkCount adj2 E (walk_step adj2 u s) := by
  obtain ⟨hE, hit, hcnt⟩ := hc
  have hne : s.st ≠ [] := fun h => by rw [h] at hu; simp at hu
  have hpos : 0 < s.st.length := List.length_pos.2 hne
  have hle := skip_used_le (row2 adj2 u) s.used (s.it.getD u 0) (hit u)
  have hit1 : ∀ x, (s.it.set u (skip_used (row2 adj2 u) s.used (s.it.getD u 0))).getD x 0
      ≤ (row2 adj2 x).length := by
    intro x
    rw [List.getD_eq_getElem?_getD, List.getElem?_set]
    split_ifs with h1 h2
    · subst h1; exact hle
    · simp
    · rw [← List.getD_eq_getElem?_getD]; exact hit x
  unfold walk_step
  dsimp only
  by_cases hi : skip_used (row2 adj2 u) s.used (s.it.getD u 0) = (row2 adj2 u).length
  · rw [if_pos hi]
    refine ⟨Or.inl ⟨rfl, rfl, rfl⟩, hE, hit1, ?_⟩
    simp only [List.length_append, List.length_singleton, List.length_dropLast]
    omega
  · rw [if_neg hi]
    have hlt : skip_used (row2 adj2 u) s.used (s.it.getD u 0) < (row2 adj2 u).length :=
      lt_of_le_of_ne hle hi
    have hun := skip_used_stop _ _ _ hlt
    have hm := getD_mem (row2 adj2 u) _ ⟨0, 0⟩ hlt
    have hidlt := hid u _ hm
    refine ⟨Or.inr ⟨_, hm, hun, rfl, rfl, rfl⟩, ?_, hit1, ?_⟩
    · simp only [List.length_set]; exact hE
    · have := count_true_set_true s.used _ (hE ▸ hidlt) hun
      simp only [List.length_append, List.length_singleton]
      omega

theorem walkCount_init (adj2 : List (List AdjEdge)) (n E start : Nat) :
    WalkCount adj2 E (walk_init n E start) := by
  unfold walk_init
  refine ⟨by simp, ?_, ?_⟩
  · intro u
    simp only [List.getD_eq_getElem?_getD, List.getElem?_replicate]
    split_ifs <;> simp
  · simp [List.count_replicate]

/-- While the loop runs, the counting invariant holds and the number of iterations is
the number of flags set plus the number of vertices emitted. -/
theorem walk_iter_count {adj2 : List (List AdjEdge)} {E : Nat}
    (hid : ∀ u e, e ∈ row2 adj2 u → e.id < E) {s0 : WalkState} (h0 : WalkCount adj2 E s0)
    (hz : s0.used.count true = 0) (hc0 : s0.circuit = []) :
    ∀ k, WalkCount adj2 E (walk_iter adj2 k s0) ∧
      ((∀ j, j < k → (walk_iter adj2 j s0).st ≠ []) →
        k = (walk_iter adj2 k s0).used.count true + (walk_iter adj2 k s0).circuit.length) := by
  intro k
  induction k with
  | zero =>
    refine ⟨h0, fun _ => ?_⟩
    show 0 = s0.used.count true + s0.circuit.length
    rw [hz, hc0]; rfl
  | succ k ih =>
    obtain ⟨hc, hk⟩ := ih
    rw [walk_iter_succ]
    cases hl : (walk_iter adj2 k s0).st.getLast? with
    | none =>
      dsimp only
      refine ⟨hc, fun hrun => ?_⟩
      exact absurd (List.getLast?_eq_none_iff.1 hl) (hrun k (Nat.lt_succ_self k))
    | some u =>
      dsimp only
      obtain ⟨hkind, hc1⟩ := walk_step_kind hid hc hl
      refine ⟨hc1, fun hrun => ?_⟩
      have hk1 := hk (fun j hj => hrun j (Nat.lt_succ_of_lt hj))
      rcases hkind with ⟨e1, _, e3⟩ | ⟨e, he, hun, e1, _, e3⟩
      · rw [e1, e3, List.length_append, List.length_singleton]
        omega
      · have := count_true_set_true (walk_iter adj2 k s0).used e.id
          (hc.1 ▸ hid u e he) hun
        rw [e1, e3, this]
        omega


theorem walk_iter_stable (adj2 : List (List AdjEdge)) (s : WalkState) (k : Nat)
    (h : (walk_iter adj2 k s).st = []) :
    ∀ d, walk_iter adj2 (k + d) s = walk_iter adj2 k s := by
  intro d
  induction d with
  | zero => rfl
  | succ d ih =>
    rw [← Nat.add_assoc, walk_iter_succ, ih, h]
    rfl

/-- The walk loop, entered as the Hierholzer functions enter it with `E` edge ids,
halts after `k <= 2 * E + 1` iterations; each of them is a pop or takes an edge not
used before; at the exit at most `E` flags are set, one vertex more is emitted, and
`k` is the number of flags set plus the number of vertices emitted. -/
theorem walk_halts {adj2 : List (List AdjEdge)} {E : Nat}
    (hid : ∀ u e, e ∈ row2 adj2 u → e.id < E) (n start : Nat) :
    ∃ k, k ≤ 2 * E + 1 ∧ (walk_iter adj2 k (walk_init n E start)).st = [] ∧
      (∀ j, j < k → ∃ u, (walk_iter adj2 j (walk_init n E start)).st.getLast? = some u ∧
        WalkKind adj2 u (walk_iter adj2 j (walk_init n E start))
          (walk_iter adj2 (j + 1) (walk_init n E start))) ∧
      walk_loop adj2 (2 * E + 1) (walk_init n E start) =
        some (walk_iter adj2 k (walk_init n E start)).circuit ∧
      (walk_iter adj2 k (walk_init n E start)).used.count true ≤ E ∧
      (walk_iter adj2 k (walk_init n E start)).circuit.length =
        (walk_iter adj2 k (walk_init n E start)).used.count true + 1 ∧
      k = (walk_iter adj2 k (walk_init n E start)).used.count true +
        (walk_iter adj2 k (walk_init n E start)).circuit.length := by
  have h0 := walkCount_init adj2 n E start
  have hz : (walk_init n E start).used.count true = 0 := by
    unfold walk_init
    simp [List.count_replicate]
  have hcnt := walk_iter_count hid h0 hz rfl
  have hsome := walk_loop_isSome hid (2 * E + 1) (walk_init n E start) h0.1 h0.2.1 (by
    have : (walk_init n E start).used.count false ≤ E := by
      have := List.count_le_length false (walk_init n E start).used
      rw [h0.1] at this; exact this
    have h1 : (walk_init n E start).st.length = 1 := rfl
    omega)
  have hend : (walk_iter adj2 (2 * E + 1) (walk_init n E start)).st = [] := by
    rw [walk_loop_eq_iter] at hsome
    by_contra hne
    rw [if_neg hne] at hsome
    cases hsome
  have hex : ∃ k, (walk_iter adj2 k (walk_init n E start)).st = [] := ⟨_, hend⟩
  classical
  refine ⟨Nat.find hex, Nat.find_min' hex hend, Nat.find_spec hex, ?_, ?_, ?_, ?_, ?_⟩
  · intro j hj
    have hne : (walk_iter adj2 j (walk_init n E start)).st ≠ [] := Nat.find_min hex hj
    cases hl : (walk_iter adj2 j (walk_init n E start)).st.getLast? with
    | none => exact absurd (List.getLast?_eq_none_iff.1 hl) hne
    | some u =>
      refine ⟨u, rfl, ?_⟩
      rw [walk_iter_succ, hl]
      exact (walk_step_kind hid (hcnt j).1 hl).1
  · have hle := Nat.find_min' hex hend
    have hst := walk_iter_stable adj2 (walk_init n E start) (Nat.find hex) (Nat.find_spec hex)
      (2 * E + 1 - Nat.find hex)
    rw [Nat.add_sub_cancel' hle] at hst
    rw [walk_loop_eq_iter, if_pos hend, hst]
  · have := List.count_le_length true (walk_iter adj2 (Nat.find hex) (walk_init n E start)).used
    rw [(hcnt (Nat.find hex)).1.1] at this
    exact this
  · have := (hcnt (Nat.find hex)).1.2.2
    rw [Nat.find_spec hex] at this
    simpa using this
  · exact (hcnt (Nat.find hex)).2 (fun j hj => Nat.find_min hex hj)

/-- The number of edge ids both builds hand out is the number of edges of the graph. -/
theorem build_eid {g : Graph} (hwf : g.WF) (b : BuildState)
    (hb : b = if g.directed then build_directed g else build_undirected g) :
    b.eid = g.num_edges ∧ ∀ u e, e ∈ row2 b.adj2 u → e.id < b.eid := by
  unfold Graph.num_edges
  by_cases hd : g.directed = true
  · rw [if_pos hd] at hb ⊢
    obtain ⟨_, h2, h3⟩ := build_directed_spec g
    rw [hb]
    refine ⟨h2, fun u e he => ?_⟩
    rw [h3] at he
    rw [h2]
    exact rows_dir_id_lt he
  · have hu : g.directed = false := by simpa using hd
    rw [if_neg hd] at hb ⊢
    obtain ⟨_, h2, h3⟩ := build_undirected_spec hwf hu
    rw [hb]
    refine ⟨h2, fun u e he => ?_⟩
    rw [h3] at he
    rw [h2]
    exact rows_und_id_lt he

/-- C35. The Hierholzer walk always terminates: for every well-formed graph (Eulerian
or not) with `m` edges and every start vertex, the stack loop of
`hierholzer_undirected` (undirected graph) and of `hierholzer_directed` (directed
graph) halts after `k <= 2 * m + 1` iterations; each iteration pops the stack and
emits a vertex, or flags an edge that was not flagged before and pushes its end; at
the exit at most `m` edges are flagged (edge-taking steps), the emitted vertices are
one more (at most `m + 1`), and `k` is the sum of the two. Both functions return. -/
theorem hierholzer_walk_halts (g : Graph) (hwf : g.WF) (start : Nat) (b : BuildState)
    (hb : b = if g.directed then build_directed g else build_undirected g) :
    b.eid = g.num_edges ∧
    (∃ k, k ≤ 2 * g.num_edges + 1 ∧
      (walk_iter b.adj2 k (walk_init g.n b.eid start)).st = [] ∧
      (∀ j, j < k →
        ∃ u, (walk_iter b.adj2 j (walk_init g.n b.eid start)).st.getLast? = some u ∧
          WalkKind b.adj2 u (walk_iter b.adj2 j (walk_init g.n b.eid start))
            (walk_iter b.adj2 (j + 1) (walk_init g.n b.eid start))) ∧
      hierholzer_walk g.n b start =
        some (walk_iter b.adj2 k (walk_init g.n b.eid start)).circuit.reverse ∧
      (walk_iter b.adj2 k (walk_init g.n b.eid start)).used.count true ≤ g.num_edges ∧
      (walk_iter b.adj2 k (walk_init g.n b.eid start)).circuit.length =
        (walk_iter b.adj2 k (walk_init g.n b.eid start)).used.count true + 1 ∧
      k = (walk_iter b.adj2 k (walk_init g.n b.eid start)).used.count true +
        (walk_iter b.adj2 k (walk_init g.n b.eid start)).circuit.length) ∧
    (g.directed = false → (hierholzer_undirected g).isSome = true) ∧
    (g.directed = true → (hierholzer_directed g).isSome = true) := by
  obtain ⟨he, hid⟩ := build_eid hwf b hb
  refine ⟨he, ?_, fun hu => hierholzer_undirected_isSome hwf hu,
    fun _ => hierholzer_directed_isSome g⟩
  obtain ⟨k, h1, h2, h3, h4, h5, h6, h7⟩ := walk_halts hid g.n start
  refine ⟨k, he ▸ h1, h2, h3, ?_, he ▸ h5, h6, h7⟩
  unfold hierholzer_walk
  have e : walk_loop b.adj2 (2 * b.eid + 1)
      { st := [start], it := List.replicate g.n 0, used := List.replicate b.eid false,
        circuit := [] } = some (walk_iter b.adj2 k (walk_init g.n b.eid start)).circuit := h4
  rw [e]
  rfl

theorem hierholzer_walk_halts_witness :
    g_path3.WF ∧
      build_undirected g_path3 =
        (if g_path3.directed then build_directed g_path3 else build_undirected g_path3) ∧
      (build_undirected g_path3).eid = 2 ∧ g_path3.num_edges = 2 ∧
      hierholzer_walk g_path3.n (build_undirected g_path3) 0 = some [0, 1, 2] ∧
      (build_undirected g_path3).eid = g_path3.num_edges :=
  ⟨Graph.wf_of_check _ (by decide), by decide, by decide, by decide, by decide,
    (hierholzer_walk_halts g_path3 (Graph.wf_of_check _ (by decide)) 0
      (build_undirected g_path3) (by decide)).1⟩


/-! ### The timeout label of the clique engines -/

theorem Budget.fires_later {now : Nat → Nat} {B B1 : Budget} (h : B.later B1) (j : Nat) :
    B1.fires now j ↔ B.fires now j := by
  unfold Budget.fires
  rw [h.1, h.2.1]

/-- What one poll does to a quiet state. -/
theorem polls_step (now : Nat → Nat) (st : BKState) (hq : PollsQuiet now st) :
    ((st.B.timed_out now).1 = true →
      ∀ st1 : BKState, st1.B = (st.B.timed_out now).2 → st1.aborted = true →
        PollsPost now st st1) ∧
    (¬ (st.B.timed_out now).1 = true →
      ∀ st1 : BKState, st1.B = (st.B.timed_out now).2 → PollsQuiet now st1) := by
  have hs := Budget.timed_out_state now st.B
  have hl := Budget.timed_out_later now st.B
  have hiff := Budget.timed_out_iff now st.B
  have hover : (st.B.timed_out now).2.over now ↔
      (st.B.timed_out now).2.fires now (st.B.timed_out now).2.steps := Iff.rfl
  have hsteps : (st.B.timed_out now).2.steps = st.B.steps + 1 := by rw [hs]
  constructor
  · intro ht st1 hB hab
    unfold PollsPost
    refine ⟨hB ▸ hl, fun h => (by rw [hab] at h; cases h), fun _ => ?_⟩
    rw [hB]
    refine ⟨by omega, hover.1 (hiff.1 ht), fun j h1 h2 hf => ?_⟩
    exact hq j h1 (by omega) ((Budget.fires_later hl j).1 hf)
  · intro ht st1 hB j h1 h2 hf
    rw [hB] at h2 hf
    rcases Nat.lt_or_ge j (st.B.steps + 1) with h3 | h3
    · exact hq j h1 (by omega) ((Budget.fires_later hl j).1 hf)
    · have e : j = (st.B.timed_out now).2.steps := by omega
      rw [e] at hf
      exact ht (hiff.2 (hover.2 hf))

theorem PollsPost.of_later {now : Nat → Nat} {st st1 st2 : BKState}
    (h2 : PollsPost now st1 st2) (h1 : st.B.later st1.B) : PollsPost now st st2 := by
  unfold PollsPost at h2 ⊢
  exact ⟨Budget.later_trans h1 h2.1, h2.2.1, h2.2.2⟩

/-- The candidate loop of `bk_recurse` polls as the contract `PollsPost` says, when
the recursive calls do. -/
theorem bk_loop_polls (now : Nat → Nat) (A : List (List Nat))
    (recurse : BKState → List Nat → List Nat → List Nat → Option BKState)
    (ih : ∀ st R P X st1, st.aborted = false → PollsQuiet now st →
      recurse st R P X = some st1 → PollsPost now st st1)
    (R : List Nat) :
    ∀ (vs : List Nat) (st : BKState) (P X : List Nat) (st1 : BKState),
      st.aborted = false → PollsQuiet now st →
      bk_loop now A recurse R vs st P X = some st1 → PollsPost now st st1 := by
  intro vs
  induction vs with
  | nil =>
    intro st P X st1 hab hq h
    rw [bk_loop] at h
    cases h
    unfold PollsPost
    exact ⟨Budget.later_refl _, fun _ => hq, fun h => by rw [hab] at h; cases h⟩
  | cons v vs ihl =>
    intro st P X st1 hab hq h
    rw [bk_loop_cons] at h
    obtain ⟨hp1, hp2⟩ := polls_step now st hq
    by_cases ht : (st.B.timed_out now).1 = true
    · rw [if_pos ht] at h
      cases h
      exact hp1 ht _ rfl rfl
    · rw [if_neg ht] at h
      have hq1 : PollsQuiet now { st with B := (st.B.timed_out now).2 } := hp2 ht _ rfl
      have hl1 : st.B.later (st.B.timed_out now).2 := Budget.timed_out_later now st.B
      cases hr : recurse { st with B := (st.B.timed_out now).2 } (R ++ [v])
          (inter_neighbors A v P) (inter_neighbors A v X) with
      | none => rw [hr] at h; cases h
      | some st2 =>
        rw [hr] at h
        dsimp only at h
        have h2 := ih { st with B := (st.B.timed_out now).2 } _ _ _ st2 hab hq1 hr
        by_cases hab2 : st2.aborted = true
        · rw [if_pos hab2] at h
          cases h
          exact h2.of_later hl1
        · rw [if_neg hab2] at h
          have hab2' : st2.aborted = false := by simpa using hab2
          have h3 := ihl st2 (P.erase v) (X ++ [v]) st1 hab2' (h2.2.1 hab2') h
          exact h3.of_later (Budget.later_trans hl1 h2.1)

/-- Function `bk_recurse` polls as the contract `PollsPost` says. -/
theorem bk_recurse_polls {srt : (Nat → Nat) → List Nat → List Nat}
    (now : Nat → Nat) (A : List (List Nat)) (rb : Bool) :
    ∀ fuel st R P X st1, st.aborted = false → PollsQuiet now st →
      bk_recurse srt now A rb fuel st R P X = some st1 → PollsPost now st st1 := by
  intro fuel
  induction fuel with
  | zero =>
    intro st R P X st1 _ _ h
    rw [bk_recurse] at h
    cases h
  | succ fuel ih =>
    intro st R P X st1 hab hq h
    rw [bk_recurse_succ] at h
    obtain ⟨hp1, hp2⟩ := polls_step now st hq
    have hl1 : st.B.later (st.B.timed_out now).2 := Budget.timed_out_later now st.B
    have hquiet : ∀ s : BKState, s.B = (st.B.timed_out now).2 → s.aborted = false →
        ¬ (st.B.timed_out now).1 = true → PollsPost now st s := by
      intro s hB hs ht
      unfold PollsPost
      exact ⟨hB ▸ hl1, fun _ => hp2 ht s hB, fun h => by rw [hs] at h; cases h⟩
    split_ifs at h with h1 h2 h3 h4
    · cases h; exact hp1 h1 _ rfl rfl
    · cases h; exact hquiet _ rfl hab h1
    · cases h; exact hquiet _ rfl hab h1
    · cases h; exact hquiet _ rfl hab h1
    · have h5 := bk_loop_polls now A (bk_recurse srt now A rb fuel) ih R _
        { st with B := (st.B.timed_out now).2 } P X st1 hab (hp2 h1 _ rfl) h
      exact h5.of_later hl1


theorem Budget.calls_fires (now : Nat → Nat) (B : Budget) (h0 : B.steps = 0) (j : Nat)
    (hj : 1 ≤ j) : (B.calls now j).1 = true ↔ B.fires now j := by
  obtain ⟨k, rfl⟩ : ∃ k, j = k + 1 := ⟨j - 1, by omega⟩
  rw [Budget.calls_result, h0, Nat.zero_add]
  rfl

/-- The clique search of both engines leaves `aborted` set exactly when a poll of the
budget returned `true`, and that poll is then the last one made. -/
theorem run_bk_polls {srt : (Nat → Nat) → List Nat → List Nat}
    (now : Nat → Nat) (g : Graph) (params : KV) (rb : Bool) (st : BKState)
    (h : run_bk srt now g params rb = some st) :
    (st.aborted = true ↔
      ∃ j, 1 ≤ j ∧ j ≤ st.B.steps ∧ ((mk_budget now params).calls now j).1 = true) ∧
    (st.aborted = true →
      1 ≤ st.B.steps ∧ ((mk_budget now params).calls now st.B.steps).1 = true ∧
        ∀ j, j < st.B.steps → ((mk_budget now params).calls now j).1 = false) := by
  unfold run_bk at h
  dsimp only at h
  have hq0 : PollsQuiet now
      { B := mk_budget now params, best := 0, bestR := [], countMaximal := 0,
        aborted := false } := by
    intro j h1 h2
    have : (mk_budget now params).steps = 0 := rfl
    have h3 : j ≤ (mk_budget now params).steps := h2
    omega
  obtain ⟨hl, hA, hB⟩ := bk_recurse_polls now _ rb _ _ _ _ _ st rfl hq0 h
  have hl1 : (mk_budget now params).later st.B := hl
  have hcf : ∀ j, 1 ≤ j → (((mk_budget now params).calls now j).1 = true ↔ st.B.fires now j) :=
    fun j hj => ((mk_budget now params).calls_fires now rfl j hj).trans
      (Budget.fires_later hl1 j).symm
  constructor
  · constructor
    · intro hab
      obtain ⟨h1, h2, _⟩ := hB hab
      exact ⟨st.B.steps, h1, le_refl _, (hcf _ h1).2 h2⟩
    · rintro ⟨j, h1, h2, h3⟩
      by_contra hab
      exact hA (by simpa using hab) j h1 h2 ((hcf j h1).1 h3)
  · intro hab
    obtain ⟨h1, h2, h3⟩ := hB hab
    refine ⟨h1, (hcf _ h1).2 h2, fun j hj => ?_⟩
    rcases Nat.eq_zero_or_pos j with rfl | hpos
    · rfl
    · rw [Bool.eq_false_iff, ne_eq, hcf j hpos]
      exact h3 j hpos hj

/-- C34. On every well-formed graph the clique search of MAXCLIQUE (`rb = true`) and of
NUM_MAXCLIQUES (`rb = false`) returns a state `st` (`st.B.steps` polls were made) such
that: `st.aborted` holds if and only if some poll returned `true`; in that case the
poll that returned `true` is the last poll made (so nothing is explored or recorded
after it) and every poll before it returned `false`; the text is
"MAXCLIQUE: TIMEOUT (current best=<best>)", with `best` the size of the recorded
clique `bestR`, resp. "NUM_MAXCLIQUES: TIMEOUT (count so far=<countMaximal>)", when
`st.aborted` holds, and a text that does not begin with the TIMEOUT label when it
does not. The sort is any function meeting the contract of `std::sort`, so `best` and
`countMaximal` are those of the run whatever order it gives to equal degrees. -/
theorem clique_timeout_label (srt : (Nat → Nat) → List Nat → List Nat) (hsrt : SortSpec srt)
    (now : Nat → Nat) (g : Graph) (params : KV) (hwf : g.WF) (rb : Bool) :
    ∃ st, run_bk srt now g params rb = some st ∧
      (st.aborted = true ↔
        ∃ j, 1 ≤ j ∧ j ≤ st.B.steps ∧ ((mk_budget now params).calls now j).1 = true) ∧
      (st.aborted = true →
        1 ≤ st.B.steps ∧ ((mk_budget now params).calls now st.B.steps).1 = true ∧
          ∀ j, j < st.B.steps → ((mk_budget now params).calls now j).1 = false) ∧
      st.bestR.length = st.best ∧ IsClique g st.bestR.toFinset ∧
      (rb = true → ∃ text, MaxClique_run srt now g params = some text ∧
        (st.aborted = true →
          text = "MAXCLIQUE: TIMEOUT (current best=" ++ toString st.best ++ ")") ∧
        (st.aborted = false →
          text = "MaxClique size=" ++ toString st.best ++ " example:" ++
            show_example st.bestR) ∧
        (text.data.take 18 = "MAXCLIQUE: TIMEOUT".data ↔ st.aborted = true)) ∧
      (rb = false → ∃ text, NumMaxCliques_run srt now g params = some text ∧
        (st.aborted = true →
          text = "NUM_MAXCLIQUES: TIMEOUT (count so far=" ++ toString st.countMaximal ++ ")") ∧
        (st.aborted = false →
          text = "Maximal cliques count=" ++ toString st.countMaximal) ∧
        (text.data.take 23 = "NUM_MAXCLIQUES: TIMEOUT".data ↔ st.aborted = true)) := by
  obtain ⟨st, e, h1, h2, h3, h4⟩ := run_bk_ok hsrt now hwf params rb
  obtain ⟨hp1, hp2⟩ := run_bk_polls now g params rb st e
  refine ⟨st, e, hp1, hp2, h4, ⟨?_, ?_⟩, ?_, ?_⟩
  · intro v hv
    exact h2 v (List.mem_toFinset.1 hv)
  · intro u hu v hv huv
    rcases h3 u (List.mem_toFinset.1 hu) v (List.mem_toFinset.1 hv) huv with h | h
    · exact make_adj_undirected_sound g u v h
    · exact (make_adj_undirected_sound g v u h).symm
  · intro hrb
    subst hrb
    refine ⟨_, by unfold MaxClique_run; rw [e, Option.map_some'], ?_, ?_, ?_⟩
    · intro hab; rw [if_pos hab]
    · intro hab; rw [if_neg (by rw [hab]; decide)]
    · by_cases hab : st.aborted = true
      · rw [if_pos hab]
        simp only [String.data_append, hab, iff_true]
        rfl
      · rw [if_neg hab]
        refine ⟨fun hc => ?_, fun h => absurd h hab⟩
        exfalso
        simp only [String.data_append] at hc
        have := congrArg (List.take 2) hc
        rw [List.take_take] at this
        revert this
        show ¬ (_ = _)
        simp
  · intro hrb
    subst hrb
    refine ⟨_, by unfold NumMaxCliques_run; rw [e, Option.map_some'], ?_, ?_, ?_⟩
    · intro hab; rw [if_pos hab]
    · intro hab; rw [if_neg (by rw [hab]; decide)]
    · by_cases hab : st.aborted = true
      · rw [if_pos hab]
        simp only [String.data_append, hab, iff_true]
        rfl
      · rw [if_neg hab]
        refine ⟨fun hc => ?_, fun h => absurd h hab⟩
        exfalso
        simp only [String.data_append] at hc
        have := congrArg (List.take 1) hc
        rw [List.take_take] at this
        revert this
        show ¬ (_ = _)
        simp


theorem clique_timeout_label_witness :
    g_clique_test.WF ∧
      MaxClique_run sort_by_key (fun _ => 0) g_clique_test [("step_limit", "4")] =
        some "MAXCLIQUE: TIMEOUT (current best=1)" ∧
      ∃ st, run_bk sort_by_key (fun _ => 0) g_clique_test [("step_limit", "4")] true = some st ∧
        (st.aborted = true ↔
          ∃ j, 1 ≤ j ∧ j ≤ st.B.steps ∧
            ((mk_budget (fun _ => 0) [("step_limit", "4")]).calls (fun _ => 0) j).1 = true) :=
  ⟨Graph.wf_of_check _ (by decide), by decide, by
    obtain ⟨st, e, h, _⟩ := clique_timeout_label sort_by_key sort_by_key_spec (fun _ => 0)
      g_clique_test [("step_limit", "4")] (Graph.wf_of_check _ (by decide)) true
    exact ⟨st, e, h⟩⟩


/-! ### The clique search performs no invalid container operation -/

/-- The pivot loop leaves `u = -1` or a member of `U = P ++ X`. -/
theorem choose_pivot_mem (A : List (List Nat)) (P X : List Nat) :
    (choose_pivot A P X).1 = -1 ∨ ∃ c ∈ P ++ X, (choose_pivot A P X).1 = (c : Int) := by
  unfold choose_pivot
  have key : ∀ (l : List Nat) (acc : Int × Int),
      (acc.1 = -1 ∨ ∃ c ∈ P ++ X, acc.1 = (c : Int)) → (∀ c ∈ l, c ∈ P ++ X) →
      ((l.foldl (fun acc cand =>
          if ((count_in_P (row A cand) P : Nat) : Int) > acc.2 then
            ((cand : Int), ((count_in_P (row A cand) P : Nat) : Int))
          else acc) acc).1 = -1 ∨
        ∃ c ∈ P ++ X, (l.foldl (fun acc cand =>
          if ((count_in_P (row A cand) P : Nat) : Int) > acc.2 then
            ((cand : Int), ((count_in_P (row A cand) P : Nat) : Int))
          else acc) acc).1 = (c : Int)) := by
    intro l
    induction l with
    | nil => intro acc h _; exact h
    | cons a l ih =>
      intro acc h hl
      rw [List.foldl_cons]
      apply ih
      · split_ifs
        · exact Or.inr ⟨a, hl a (List.mem_cons_self _ _), rfl⟩
        · exact h
      · exact fun c hc => hl c (List.mem_cons_of_mem _ hc)
  exact key (P ++ X) (-1, -1) (Or.inl rfl) (fun c hc => hc)

theorem bk_loop_chk_cons (now : Nat → Nat) (A : List (List Nat))
    (recurse : BKState → List Nat → List Nat → List Nat → BkOutcome)
    (R : List Nat) (v : Nat) (vs : List Nat) (st : BKState) (P X : List Nat) :
    bk_loop_chk now A recurse R (v :: vs) st P X =
      if ¬ P.Nodup then .duplicate
      else if (st.B.timed_out now).1 = true then
        .ok { st with B := (st.B.timed_out now).2, aborted := true }
      else if ¬ v < A.length then .bad_index
      else
        match recurse { st with B := (st.B.timed_out now).2 } (R ++ [v])
            (inter_neighbors A v P) (inter_neighbors A v X) with
        | .ok st2 =>
          if v ∉ P then .erase_end
          else if st2.aborted = true then
            (if (P.erase v).Nodup then .ok st2 else .duplicate)
          else bk_loop_chk now A recurse R vs st2 (P.erase v) (X ++ [v])
        | f => f := by
  rw [bk_loop_chk]

theorem bk_recurse_chk_succ {srt : (Nat → Nat) → List Nat → List Nat}
    (now : Nat → Nat) (A : List (List Nat)) (recordBest : Bool)
    (fuel : Nat) (st : BKState) (R P X : List Nat) :
    bk_recurse_chk srt now A recordBest (fuel + 1) st R P X =
      if ¬ P.Nodup then .duplicate
      else if (st.B.timed_out now).1 = true then
        .ok { st with B := (st.B.timed_out now).2, aborted := true }
      else if (recordBest && decide (R.length + P.length ≤ st.best)) = true then
        .ok { st with B := (st.B.timed_out now).2 }
      else if (P.isEmpty && X.isEmpty) = true then
        if (recordBest && decide (R.length > st.best)) = true then
          .ok { st with B := (st.B.timed_out now).2, countMaximal := st.countMaximal + 1,
                        best := R.length, bestR := R }
        else .ok { st with B := (st.B.timed_out now).2, countMaximal := st.countMaximal + 1 }
      else if ¬ (∀ c ∈ P ++ X, c < A.length) then .bad_index
      else if (choose_pivot A P X).1 ≠ -1 ∧
          ¬ (0 ≤ (choose_pivot A P X).1 ∧ (choose_pivot A P X).1.toNat < A.length ∧
            ∀ v ∈ row A (choose_pivot A P X).1.toNat, v < A.length) then .bad_index
      else
        bk_loop_chk now A (bk_recurse_chk srt now A recordBest fuel) R
          (srt (fun a => (row A a).length)
            (P.filter (fun v =>
              !((choose_pivot A P X).1 != -1 &&
                (row A (choose_pivot A P X).1.toNat).contains v))))
          { st with B := (st.B.timed_out now).2 } P X := by
  rw [bk_recurse_chk]

/-- The checked candidate loop passes every check and returns what the loop of the
source returns, when the recursive calls do. -/
theorem bk_loop_safe {srt : (Nat → Nat) → List Nat → List Nat}
    (now : Nat → Nat) (A : List (List Nat)) (rb : Bool)
    (hself : ∀ v, v ∉ row A v) (fuel : Nat)
    (ih : ∀ st R P X, BkSafe A P X → P.length < fuel →
      ∃ st1, bk_recurse_chk srt now A rb fuel st R P X = .ok st1 ∧
        bk_recurse srt now A rb fuel st R P X = some st1)
    (R : List Nat) :
    ∀ (vs : List Nat) (st : BKState) (P X : List Nat), BkSafe A P X → P.length ≤ fuel →
      vs.Nodup → (∀ v ∈ vs, v ∈ P) →
      ∃ st1, bk_loop_chk now A (bk_recurse_chk srt now A rb fuel) R vs st P X = .ok st1 ∧
        bk_loop now A (bk_recurse srt now A rb fuel) R vs st P X = some st1 := by
  intro vs
  induction vs with
  | nil =>
    intro st P X hs _ _ _
    rw [bk_loop_chk, bk_loop, if_pos hs.1]
    exact ⟨st, rfl, rfl⟩
  | cons v vs ihl =>
    intro st P X hs hlen hnd hvs
    obtain ⟨hP, hPn, hXn⟩ := hs
    have hvP : v ∈ P := hvs v (List.mem_cons_self _ _)
    rw [bk_loop_chk_cons, bk_loop_cons, if_neg (not_not.2 hP)]
    by_cases ht : (st.B.timed_out now).1 = true
    · rw [if_pos ht, if_pos ht]
      exact ⟨_, rfl, rfl⟩
    · rw [if_neg ht, if_neg ht, if_neg (not_not.2 (hPn v hvP))]
      have hsub : (inter_neighbors A v P).Sublist P := (set_intersection_spec _ _).2
      have hmem : ∀ x ∈ inter_neighbors A v P, x ∈ row A v ∧ x ∈ P :=
        (set_intersection_spec _ _).1
      have hmemX : ∀ x ∈ inter_neighbors A v X, x ∈ row A v ∧ x ∈ X :=
        (set_intersection_spec _ _).1
      have hvn : v ∉ inter_neighbors A v P := fun h => hself v (hmem v h).1
      have hlt : (inter_neighbors A v P).length < fuel :=
        lt_of_lt_of_le (sublist_length_lt hsub hvP hvn) hlen
      have hs2 : BkSafe A (inter_neighbors A v P) (inter_neighbors A v X) :=
        ⟨hP.sublist hsub, fun p hp => hPn p (hmem p hp).2, fun x hx => hXn x (hmemX x hx).2⟩
      obtain ⟨st2, e1, e2⟩ := ih { st with B := (st.B.timed_out now).2 } (R ++ [v])
        (inter_neighbors A v P) (inter_neighbors A v X) hs2 hlt
      rw [e1, e2]
      dsimp only
      rw [if_neg (not_not.2 hvP)]
      have hP3 : (P.erase v).Nodup := hP.erase v
      by_cases hab : st2.aborted = true
      · rw [if_pos hab, if_pos hab, if_pos hP3]
        exact ⟨st2, rfl, rfl⟩
      · rw [if_neg hab, if_neg hab]
        rw [List.nodup_cons] at hnd
        refine ihl st2 (P.erase v) (X ++ [v]) ⟨hP3, ?_, ?_⟩ ?_ hnd.2 ?_
        · exact fun p hp => hPn p (List.mem_of_mem_erase hp)
        · intro x hx
          rcases List.mem_append.1 hx with h | h
          · exact hXn x h
          · rw [List.mem_singleton.1 h]; exact hPn v hvP
        · exact le_trans (List.erase_sublist v P).length_le hlen
        · intro w hw
          have hwv : w ≠ v := fun e => hnd.1 (e ▸ hw)
          exact (List.mem_erase_of_ne hwv).2 (hvs w (List.mem_cons_of_mem _ hw))

/-- The checked search passes every check within a recursion depth of `|P| + 1` and
returns what `bk_recurse` returns. -/
theorem bk_recurse_safe {srt : (Nat → Nat) → List Nat → List Nat} (hsrt : SortSpec srt)
    (now : Nat → Nat) (A : List (List Nat)) (rb : Bool)
    (hA : ∀ u v, v ∈ row A u → v < A.length) (hself : ∀ v, v ∉ row A v) :
    ∀ fuel st R P X, BkSafe A P X → P.length < fuel →
      ∃ st1, bk_recurse_chk srt now A rb fuel st R P X = .ok st1 ∧
        bk_recurse srt now A rb fuel st R P X = some st1 := by
  intro fuel
  induction fuel with
  | zero => intro st R P X _ h; exact absurd h (Nat.not_lt_zero _)
  | succ fuel ih =>
    intro st R P X hs hlen
    rw [bk_recurse_chk_succ, bk_recurse_succ, if_neg (not_not.2 hs.1)]
    by_cases h1 : (st.B.timed_out now).1 = true
    · rw [if_pos h1, if_pos h1]; exact ⟨_, rfl, rfl⟩
    · rw [if_neg h1, if_neg h1]
      by_cases h2 : (rb && decide (R.length + P.length ≤ st.best)) = true
      · rw [if_pos h2, if_pos h2]; exact ⟨_, rfl, rfl⟩
      · rw [if_neg h2, if_neg h2]
        by_cases h3 : (P.isEmpty && X.isEmpty) = true
        · rw [if_pos h3, if_pos h3]
          by_cases h4 : (rb && decide (R.length > st.best)) = true
          · rw [if_pos h4, if_pos h4]; exact ⟨_, rfl, rfl⟩
          · rw [if_neg h4, if_neg h4]; exact ⟨_, rfl, rfl⟩
        · rw [if_neg h3, if_neg h3]
          have hU : ∀ c ∈ P ++ X, c < A.length := by
            intro c hc
            rcases List.mem_append.1 hc with h | h
            · exact hs.2.1 c h
            · exact hs.2.2 c h
          have hpiv : (choose_pivot A P X).1 ≠ -1 →
              0 ≤ (choose_pivot A P X).1 ∧ (choose_pivot A P X).1.toNat < A.length := by
            intro hne
            rcases choose_pivot_mem A P X with h | ⟨c, hc, e⟩
            · exact absurd h hne
            · rw [e]
              exact ⟨Int.ofNat_nonneg c, by rw [Int.toNat_ofNat]; exact hU c hc⟩
          rw [if_neg (not_not.2 hU),
            if_neg (fun h => h.2 ⟨(hpiv h.1).1, (hpiv h.1).2, fun v hv => hA _ v hv⟩)]
          have hperm := (hsrt (fun a => (row A a).length)
            (P.filter (fun v =>
              !((choose_pivot A P X).1 != -1 &&
                (row A (choose_pivot A P X).1.toNat).contains v)))).1
          refine bk_loop_safe now A rb hself fuel ih R _ _ P X hs (by omega) ?_ ?_
          · exact hperm.nodup_iff.2 (hs.1.filter _)
          · intro v hv
            exact (List.mem_filter.1 (hperm.mem_iff.1 hv)).1


theorem make_adj_undirected_length (g : Graph) : (make_adj_undirected g).length = g.n := by
  obtain ⟨h1, _, _⟩ := push_rows_fold g g.directed (List.range g.n) (List.replicate g.n [])
  unfold make_adj_undirected
  dsimp only
  rw [List.length_map, h1, List.length_replicate]

theorem make_adj_undirected_lt {g : Graph} (hwf : g.WF) (u v : Nat)
    (h : v ∈ row (make_adj_undirected g) u) : v < (make_adj_undirected g).length := by
  rw [make_adj_undirected_length]
  rcases make_adj_undirected_sound g u v h with h1 | h1
  · exact hwf.2.1 u v h1
  · exact g.lt_of_nbrs_ne_nil hwf (List.ne_nil_of_mem h1)

/-- C40. For every well-formed graph, every clock and budget, and every initial call
`bk_recurse(st, R = [], P, X = [])` with `P` a permutation of `0..n-1`, the search
with its container operations checked runs through without a failed check and
returns what `bk_recurse` returns: every candidate `v` is found in `P` by `std::find`
before `P.erase`, `P` has no duplicate before any candidate and after any erase, and
every index into `adj` and `isNbr` is below `n`. The initial call of MAXCLIQUE and of
NUM_MAXCLIQUES (`P` sorted by degree) is one of these. The candidates of every call
are iterated in the order of `srt`, any function meeting the contract of `std::sort`. -/
theorem bk_no_invalid_operation (srt : (Nat → Nat) → List Nat → List Nat)
    (hsrt : SortSpec srt) (now : Nat → Nat) (g : Graph) (hwf : g.WF) (rb : Bool) :
    (∀ (st0 : BKState) (P0 : List Nat), P0.Perm (List.range g.n) →
      ∃ st, bk_recurse_chk srt now (make_adj_undirected g) rb (g.n + 1) st0 [] P0 [] = .ok st ∧
        bk_recurse srt now (make_adj_undirected g) rb (g.n + 1) st0 [] P0 [] = some st) ∧
    (∀ params : KV, ∃ st,
      bk_recurse_chk srt now (make_adj_undirected g) rb (g.n + 1)
        { B := mk_budget now params, best := 0, bestR := [], countMaximal := 0,
          aborted := false } []
        (srt (fun a => (row (make_adj_undirected g) a).length) (List.range g.n)) []
          = .ok st ∧
      run_bk srt now g params rb = some st) := by
  have key : ∀ (st0 : BKState) (P0 : List Nat), P0.Perm (List.range g.n) →
      ∃ st, bk_recurse_chk srt now (make_adj_undirected g) rb (g.n + 1) st0 [] P0 [] = .ok st ∧
        bk_recurse srt now (make_adj_undirected g) rb (g.n + 1) st0 [] P0 [] = some st := by
    intro st0 P0 hP0
    apply bk_recurse_safe hsrt now (make_adj_undirected g) rb (make_adj_undirected_lt hwf)
      (make_adj_undirected_irrefl hwf)
    · refine ⟨hP0.nodup_iff.2 (List.nodup_range _), fun p hp => ?_,
        fun x hx => absurd hx (List.not_mem_nil x)⟩
      rw [make_adj_undirected_length]
      exact List.mem_range.1 (hP0.mem_iff.1 hp)
    · rw [hP0.length_eq, List.length_range]
      exact Nat.lt_succ_self _
  exact ⟨key, fun params => key _ _ (hsrt _ _).1⟩

set_option maxRecDepth 100000 in
theorem bk_no_invalid_operation_witness :
    g_clique_test.WF ∧
      bk_recurse_chk sort_by_key (fun _ => 0) (make_adj_undirected g_clique_test) true (g_clique_test.n + 1)
        { B := mk_budget (fun _ => 0) clique_test_params, best := 0, bestR := [],
          countMaximal := 0, aborted := false } [] [4, 0, 1, 3, 2] [] =
        .ok { B := { deadline := 200, step_limit := 800000, steps := 9 }, best := 2,
              bestR := [3, 4], countMaximal := 2, aborted := false } ∧
      ∀ params : KV, ∃ st,
        bk_recurse_chk sort_by_key (fun _ => 0) (make_adj_undirected g_clique_test) true
          (g_clique_test.n + 1)
          { B := mk_budget (fun _ => 0) params, best := 0, bestR := [], countMaximal := 0,
            aborted := false } []
          (sort_by_key (fun a => (row (make_adj_undirected g_clique_test) a).length)
            (List.range g_clique_test.n)) [] = .ok st ∧
        run_bk sort_by_key (fun _ => 0) g_clique_test params true = some st :=
  ⟨Graph.wf_of_check _ (by decide), by decide,
    (bk_no_invalid_operation sort_by_key sort_by_key_spec (fun _ => 0) g_clique_test
      (Graph.wf_of_check _ (by decide)) true).2⟩


/-! ### stage8: the leader-follower pool -/

theorem lfInv_update {N : Nat} {s : LFState} (i : Nat) (p : LPc) (L : Int)
    (l : Option Nat) (h1 : p.leading = true → L = (i : Int))
    (h2 : ∀ j, j < N → j ≠ i → (s.pc j).leading = true → L = (j : Int))
    (h3 : L = -1 ∨ (0 ≤ L ∧ L < (N : Int))) :
    LFInv N { leader := L, lock := l, pc := fun j => if j = i then p else s.pc j,
              stopped := s.stopped } := by
  refine ⟨fun j hj hl => ?_, h3⟩
  by_cases e : j = i
  · have hl1 : p.leading = true := by simpa [e] using hl
    rw [e]; exact h1 hl1
  · have hl1 : (s.pc j).leading = true := by simpa [e] using hl
    exact h2 j hj e hl1

/-- A worker that keeps the slot as it is: the other workers stay as they are. -/
theorem lfInv_keep {N : Nat} {s : LFState} (h : LFInv N s) (i : Nat) (p : LPc)
    (l : Option Nat) (h1 : p.leading = true → s.leader = (i : Int)) :
    LFInv N { leader := s.leader, lock := l, pc := fun j => if j = i then p else s.pc j,
              stopped := s.stopped } :=
  lfInv_update i p s.leader l h1 (fun j hj _ hl => h.1 j hj hl) h.2

/-- A hand-off by the leading worker `i`: no other worker is leading, and the new
value of the slot is an id. -/
theorem lfInv_handoff {N : Nat} (hN : 1 ≤ N) {s : LFState} (h : LFInv N s) (i : Nat)
    (hi : i < N) (hl : (s.pc i).leading = true) (p : LPc) (hp : p.leading = false)
    (l : Option Nat) :
    LFInv N { leader := (((i + 1) % N : Nat) : Int), lock := l,
              pc := fun j => if j = i then p else s.pc j, stopped := s.stopped } := by
  apply lfInv_update i p
  · intro h1; rw [hp] at h1; cases h1
  · intro j hj hji hlj
    have e1 := h.1 i hi hl
    have e2 := h.1 j hj hlj
    exact absurd (Int.ofNat_inj.1 (e2.symm.trans e1)) hji
  · right
    have : (i + 1) % N < N := Nat.mod_lt _ (by omega)
    omega

theorem lfInv_step (N : Nat) (hN : 1 ≤ N) (s : LFState) (h : LFInv N s) (a : LFAct) :
    LFInv N (LF.step N s a) := by
  cases a with
  | see_stop i => exact h
  | run i ok =>
    unfold LF.step
    dsimp only
    by_cases hi : i < N
    · rw [if_neg (not_not.2 hi)]
      cases hp : s.pc i with
      | top =>
        dsimp only
        split_ifs
        · exact lfInv_keep h i .done s.lock (fun h1 => by cases h1)
        · exact lfInv_keep h i .lock_a s.lock (fun h1 => by cases h1)
      | lock_a =>
        dsimp only
        split_ifs
        · exact lfInv_keep h i .claim (some i) (fun h1 => by cases h1)
        · exact h
      | claim =>
        dsimp only
        apply lfInv_update i .wait_test _ s.lock (fun h1 => by cases h1)
        · intro j hj _ hl
          have := h.1 j hj hl
          rw [if_neg (by omega)]
          exact this
        · split_ifs with h0
          · right; omega
          · exact h.2
      | wait_test =>
        dsimp only
        split_ifs with h1 h2
        · exact lfInv_keep h i .stop_return s.lock (fun h1 => by cases h1)
        · exact lfInv_keep h i .lead_check s.lock (fun _ => h2)
        · exact lfInv_keep h i .blocked none (fun h1 => by cases h1)
      | blocked =>
        dsimp only
        split_ifs
        · exact lfInv_keep h i .wait_test (some i) (fun h1 => by cases h1)
        · exact h
      | stop_return =>
        exact lfInv_keep h i .done none (fun h1 => by cases h1)
      | lead_check =>
        have hl : s.leader = (i : Int) := h.1 i hi (by rw [hp]; rfl)
        dsimp only
        split_ifs
        · exact lfInv_keep h i .done none (fun h1 => by cases h1)
        · exact lfInv_keep h i .accept none (fun _ => hl)
      | accept =>
        have hl : s.leader = (i : Int) := h.1 i hi (by rw [hp]; rfl)
        dsimp only
        split_ifs
        · exact lfInv_keep h i .lock_s s.lock (fun _ => hl)
        · exact lfInv_keep h i .accept_failed s.lock (fun _ => hl)
      | accept_failed =>
        have hl : s.leader = (i : Int) := h.1 i hi (by rw [hp]; rfl)
        dsimp only
        split_ifs
        · exact lfInv_keep h i .done s.lock (fun h1 => by cases h1)
        · exact lfInv_keep h i .lock_f s.lock (fun _ => hl)
      | lock_f =>
        have hl : s.leader = (i : Int) := h.1 i hi (by rw [hp]; rfl)
        dsimp only
        split_ifs
        · exact lfInv_keep h i .handoff_f (some i) (fun _ => hl)
        · exact h
      | handoff_f =>
        exact lfInv_handoff hN h i hi (by rw [hp]; rfl) .top rfl none
      | lock_s =>
        have hl : s.leader = (i : Int) := h.1 i hi (by rw [hp]; rfl)
        dsimp only
        split_ifs
        · exact lfInv_keep h i .handoff_s (some i) (fun _ => hl)
        · exact h
      | handoff_s =>
        exact lfInv_handoff hN h i hi (by rw [hp]; rfl) .process rfl none
      | process =>
        exact lfInv_keep h i .top s.lock (fun h1 => by cases h1)
      | done => exact h
    · rw [if_pos hi]
      exact h

theorem lfInv_init (N : Nat) : LFInv N LF.init :=
  ⟨fun i _ hl => (by cases hl), Or.inl rfl⟩

theorem LF.run_snoc (N : Nat) (acts : List LFAct) (a : LFAct) :
    LF.run N (acts ++ [a]) = LF.step N (LF.run N acts) a := by
  unfold LF.run
  rw [List.foldl_append]
  rfl

theorem lfInv_run (N : Nat) (hN : 1 ≤ N) (acts : List LFAct) : LFInv N (LF.run N acts) := by
  induction acts using List.reverseRecOn with
  | nil => exact lfInv_init N
  | append_singleton acts a ih =>
    rw [LF.run_snoc]
    exact lfInv_step N hN _ ih a


/-- The slot changes only where the source stores it: at line 144 from `-1` to the id
of the worker, and at a hand-off to `(id + 1) % N`. -/
theorem LF.step_leader (N : Nat) (s : LFState) (a : LFAct) :
    (LF.step N s a).leader = s.leader ∨
    (s.leader = -1 ∧ ∃ i, i < N ∧ s.pc i = .claim ∧ (LF.step N s a).leader = (i : Int)) ∨
    (∃ i, i < N ∧ (s.pc i = .handoff_s ∨ s.pc i = .handoff_f) ∧
      (LF.step N s a).leader = (((i + 1) % N : Nat) : Int)) := by
  cases a with
  | see_stop i => exact Or.inl rfl
  | run i ok =>
    unfold LF.step
    dsimp only
    by_cases hi : i < N
    · rw [if_neg (not_not.2 hi)]
      cases hp : s.pc i with
      | claim =>
        dsimp only
        by_cases h0 : s.leader = -1
        · right; left
          refine ⟨h0, i, hi, hp, ?_⟩
          show (if s.leader = -1 then (i : Int) else s.leader) = (i : Int)
          rw [if_pos h0]
        · left
          show (if s.leader = -1 then (i : Int) else s.leader) = s.leader
          rw [if_neg h0]
      | handoff_f => exact Or.inr (Or.inr ⟨i, hi, Or.inr hp, rfl⟩)
      | handoff_s => exact Or.inr (Or.inr ⟨i, hi, Or.inl hp, rfl⟩)
      | top => dsimp only; split_ifs <;> exact Or.inl rfl
      | lock_a => dsimp only; split_ifs <;> exact Or.inl rfl
      | wait_test => dsimp only; split_ifs <;> exact Or.inl rfl
      | blocked => dsimp only; split_ifs <;> exact Or.inl rfl
      | stop_return => exact Or.inl rfl
      | lead_check => dsimp only; split_ifs <;> exact Or.inl rfl
      | accept => dsimp only; split_ifs <;> exact Or.inl rfl
      | accept_failed => dsimp only; split_ifs <;> exact Or.inl rfl
      | lock_f => dsimp only; split_ifs <;> exact Or.inl rfl
      | lock_s => dsimp only; split_ifs <;> exact Or.inl rfl
      | process => exact Or.inl rfl
      | done => exact Or.inl rfl
    · rw [if_pos hi]
      exact Or.inl rfl

/-- The statements around `accept` and the two hand-offs, as the step function has
them. -/
theorem LF.step_at (N : Nat) (s : LFState) (i : Nat) (hi : i < N) (ok : Bool) :
    (s.pc i = .accept →
      (LF.step N s (.run i ok)).pc i = (if ok then .lock_s else .accept_failed)) ∧
    (s.pc i = .handoff_s →
      (LF.step N s (.run i ok)).leader = (((i + 1) % N : Nat) : Int) ∧
        (LF.step N s (.run i ok)).pc i = .process) ∧
    (s.pc i = .handoff_f →
      (LF.step N s (.run i ok)).leader = (((i + 1) % N : Nat) : Int) ∧
        (LF.step N s (.run i ok)).pc i = .top) := by
  unfold LF.step
  dsimp only
  rw [if_neg (not_not.2 hi)]
  refine ⟨fun hp => ?_, fun hp => ?_, fun hp => ?_⟩
  · rw [hp]
    dsimp only
    cases ok
    · simp [LFState.goto]
    · simp [LFState.goto]
  · rw [hp]
    exact ⟨rfl, by simp [LFState.goto]⟩
  · rw [hp]
    exact ⟨rfl, by simp [LFState.goto]⟩

/-- C31. In the leader-follower pool with `N >= 1` workers, in every state reachable
from the start of the pool (any interleaving of the workers, any results of `accept`,
shutdown at any moment): at most one worker is leader (has left the wait of line 145
with `leader_id == id` and not yet stored the next leader); a worker in `accept` is
that leader and is named by the slot, so no two workers are in `accept`; the slot is
`-1` or an id in `0..N-1`, and once it is not `-1` no step makes it `-1`; `accept`
is followed by the hand-off when it succeeds and by the test of `running` when it
fails; the hand-off after a successful `accept` sets the slot to `(id + 1) mod N` and
only then is the connection processed, and the hand-off after a failed `accept` sets
the slot to `(id + 1) mod N` and returns to the head of the loop. -/
theorem lf_one_leader (N : Nat) (hN : 1 ≤ N) (acts : List LFAct) :
    (∀ i j, i < N → j < N → ((LF.run N acts).pc i).leading = true →
      ((LF.run N acts).pc j).leading = true → i = j) ∧
    (∀ i, i < N → (LF.run N acts).pc i = .accept →
      ((LF.run N acts).pc i).leading = true ∧ (LF.run N acts).leader = (i : Int) ∧
        ∀ j, j < N → (LF.run N acts).pc j = .accept → j = i) ∧
    ((LF.run N acts).leader = -1 ∨
      (0 ≤ (LF.run N acts).leader ∧ (LF.run N acts).leader < (N : Int))) ∧
    (∀ a, (LF.run N acts).leader ≠ -1 → (LF.step N (LF.run N acts) a).leader ≠ -1) ∧
    (∀ i ok, i < N →
      ((LF.run N acts).pc i = .accept →
        (LF.step N (LF.run N acts) (.run i ok)).pc i =
          (if ok then .lock_s else .accept_failed)) ∧
      ((LF.run N acts).pc i = .handoff_s →
        (LF.step N (LF.run N acts) (.run i ok)).leader = (((i + 1) % N : Nat) : Int) ∧
          (LF.step N (LF.run N acts) (.run i ok)).pc i = .process) ∧
      ((LF.run N acts).pc i = .handoff_f →
        (LF.step N (LF.run N acts) (.run i ok)).leader = (((i + 1) % N : Nat) : Int) ∧
          (LF.step N (LF.run N acts) (.run i ok)).pc i = .top)) := by
  have h := lfInv_run N hN acts
  have huniq : ∀ i j, i < N → j < N → ((LF.run N acts).pc i).leading = true →
      ((LF.run N acts).pc j).leading = true → i = j := by
    intro i j hi hj h1 h2
    exact Int.ofNat_inj.1 ((h.1 i hi h1).symm.trans (h.1 j hj h2))
  refine ⟨huniq, ?_, h.2, ?_, fun i ok hi => LF.step_at N _ i hi ok⟩
  · intro i hi hp
    have hl : ((LF.run N acts).pc i).leading = true := by rw [hp]; rfl
    refine ⟨hl, h.1 i hi hl, fun j hj hpj => ?_⟩
    exact huniq j i hj hi (by rw [hpj]; rfl) hl
  · intro a hne
    have h2 := (lfInv_step N hN _ h a).2
    rcases LF.step_leader N (LF.run N acts) a with e | ⟨e, _⟩ | ⟨i, _, _, e⟩
    · rw [e]; exact hne
    · exact absurd e hne
    · rw [e]; omega

theorem lf_one_leader_witness :
    (1 : Nat) ≤ 2 ∧
      (LF.run 2 [.run 0 true, .run 0 true, .run 0 true, .run 0 true, .run 0 true]).pc 0
        = .accept ∧
      (LF.run 2 [.run 0 true, .run 0 true, .run 0 true, .run 0 true, .run 0 true]).leader = 0 ∧
      (LF.run 2 [.run 0 true, .run 0 true, .run 0 true, .run 0 true, .run 0 true,
        .run 0 true, .run 0 true, .run 0 true]).leader = 1 ∧
      (∀ i j, i < 2 → j < 2 →
        ((LF.run 2 [.run 0 true, .run 0 true, .run 0 true, .run 0 true, .run 0 true]).pc
          i).leading = true →
        ((LF.run 2 [.run 0 true, .run 0 true, .run 0 true, .run 0 true, .run 0 true]).pc
          j).leading = true → i = j) :=
  ⟨by decide, by decide, by decide, by decide,
    (lf_one_leader 2 (by decide)
      [.run 0 true, .run 0 true, .run 0 true, .run 0 true, .run 0 true]).1⟩


/-! ### stage9: the active object -/

theorem aoInv_init {T : Type} (q0 : List T) : AOInv (AO.init q0) := by
  unfold AOInv AO.init
  simp

theorem aoInv_consumer {T : Type} (s : AOState T) (h : AOInv s) :
    AOInv (AO.consumer_step s) := by
  obtain ⟨h1, h2, h3, h4, h5, h6⟩ := h
  unfold AO.consumer_step
  cases hc : s.cpc with
  | top =>
    have hi : s.item = none := by
      cases hi : s.item with
      | none => rfl
      | some x => rw [hi, hc] at h2; simp at h2
    dsimp only
    split_ifs with hs
    · refine ⟨h1, ?_, h3, fun _ => hs, h5, ?_⟩
      · simp [hi]
      · intro hr; have := h6 hr; rw [hc] at this; cases this
    · refine ⟨h1, ?_, h3, ?_, h5, ?_⟩
      · simp [hi]
      · intro hh; simp at hh
      · intro hr; have := h6 hr; rw [hc] at this; cases this
  | wait =>
    have hi : s.item = none := by
      cases hi : s.item with
      | none => rfl
      | some x => rw [hi, hc] at h2; simp at h2
    have hnr : s.spc ≠ .returned := by
      intro hr; have := h6 hr; rw [hc] at this; cases this
    dsimp only
    split_ifs with hs
    · refine ⟨h1, ?_, h3, fun _ => hs, h5, fun hr => absurd hr hnr⟩
      simp [hi]
    · cases hq : s.q with
      | nil =>
        dsimp only
        refine ⟨by simpa [hq] using h1, by simpa [hc] using h2, h3, ?_, h5,
          fun hr => absurd hr hnr⟩
        intro hh; simp [hc] at hh
      | cons x rest =>
        dsimp only
        refine ⟨?_, ?_, h3, ?_, h5, fun hr => absurd hr hnr⟩
        · rw [h1, hi, hq]; simp
        · simp
        · intro hh; simp at hh
  | handle =>
    have hnr : s.spc ≠ .returned := by
      intro hr; have := h6 hr; rw [hc] at this; cases this
    cases hi : s.item with
    | none => rw [hi, hc] at h2; simp at h2
    | some x =>
      dsimp only
      refine ⟨?_, ?_, h3, ?_, h5, fun hr => absurd hr hnr⟩
      · rw [h1, hi]; simp
      · simp
      · intro hh; simp at hh
  | drain =>
    have hi : s.item = none := by
      cases hi : s.item with
      | none => rfl
      | some x => rw [hi, hc] at h2; simp at h2
    have hs : s.seen_stop = true := h4 (Or.inl hc)
    have hnr : s.spc ≠ .returned := by
      intro hr; have := h6 hr; rw [hc] at this; cases this
    cases hq : s.q with
    | nil =>
      dsimp only
      refine ⟨by simpa [hq] using h1, ?_, h3, fun _ => hs, h5, fun _ => rfl⟩
      simp [hi]
    | cons x rest =>
      dsimp only
      refine ⟨?_, ?_, h3, fun _ => hs, h5, fun hr => absurd hr hnr⟩
      · rw [h1, hi, hq]; simp
      · simp
  | dhandle =>
    have hs : s.seen_stop = true := h4 (Or.inr (Or.inl hc))
    have hnr : s.spc ≠ .returned := by
      intro hr; have := h6 hr; rw [hc] at this; cases this
    cases hi : s.item with
    | none => rw [hi, hc] at h2; simp at h2
    | some x =>
      dsimp only
      refine ⟨?_, ?_, h3, fun _ => hs, h5, fun hr => absurd hr hnr⟩
      · rw [h1, hi]; simp
      · simp
  | done =>
    dsimp only
    refine ⟨h1, by simpa [hc] using h2, h3, ?_, h5, ?_⟩
    · intro _; exact h4 (Or.inr (Or.inr hc))
    · intro _; exact hc

theorem aoInv_step {T : Type} (s : AOState T) (h : AOInv s) (a : AOAct T) :
    AOInv (AO.step s a) := by
  cases a with
  | consumer => exact aoInv_consumer s h
  | post x =>
    obtain ⟨h1, h2, h3, h4, h5, h6⟩ := h
    refine ⟨?_, h2, h3, h4, h5, h6⟩
    show s.posted ++ [x] = s.handled ++ s.item.toList ++ (s.q ++ [x])
    rw [h1]; simp
  | see_stop =>
    obtain ⟨h1, h2, h3, h4, h5, h6⟩ := h
    unfold AO.step
    dsimp only
    split_ifs with hr
    · exact ⟨h1, h2, h3, h4, h5, h6⟩
    · refine ⟨h1, h2, fun _ => ?_, fun _ => rfl, h5, h6⟩
      simpa using hr
  | stop_call =>
    obtain ⟨h1, h2, h3, h4, h5, h6⟩ := h
    unfold AO.step
    dsimp only
    split_ifs with hr
    · refine ⟨h1, h2, fun _ => rfl, h4, ?_, ?_⟩
      · simp
      · intro hh; cases hh
    · exact ⟨h1, h2, h3, h4, h5, h6⟩
  | stop_return =>
    obtain ⟨h1, h2, h3, h4, h5, h6⟩ := h
    unfold AO.step
    dsimp only
    split_ifs with hr
    · refine ⟨h1, h2, h3, h4, ?_, fun _ => hr.2⟩
      have : s.running = false := h5.2 (by rw [hr.1]; decide)
      simp [this]
    · exact ⟨h1, h2, h3, h4, h5, h6⟩


theorem aoMark_consumer {T : Type} (M : List T) (s : AOState T) (hinv : AOInv s)
    (h : AOMark M s) : AOMark M (AO.consumer_step s) := by
  obtain ⟨h1, h2, _, _, _, _⟩ := hinv
  obtain ⟨m1, m2⟩ := h
  unfold AO.consumer_step
  cases hc : s.cpc with
  | top =>
    dsimp only
    split_ifs
    · exact ⟨m1, fun hd => by cases hd⟩
    · exact ⟨m1, fun hd => by cases hd⟩
  | wait =>
    dsimp only
    split_ifs
    · exact ⟨m1, fun hd => by cases hd⟩
    · cases hq : s.q with
      | nil => exact ⟨m1, fun hd => by simp [hc] at hd⟩
      | cons x rest => exact ⟨m1, fun hd => by cases hd⟩
  | handle =>
    cases hi : s.item with
    | none => exact ⟨m1, fun hd => by cases hd⟩
    | some x => exact ⟨m1, fun hd => by cases hd⟩
  | drain =>
    have hi : s.item = none := by
      cases hi : s.item with
      | none => rfl
      | some x => rw [hi, hc] at h2; simp at h2
    cases hq : s.q with
    | nil =>
      refine ⟨m1, fun _ => ?_⟩
      have e : s.posted = s.handled := by rw [h1, hi, hq]; simp
      show M <+: s.handled
      rw [← e]; exact m1
    | cons x rest => exact ⟨m1, fun hd => by cases hd⟩
  | dhandle =>
    cases hi : s.item with
    | none => exact ⟨m1, fun hd => by cases hd⟩
    | some x => exact ⟨m1, fun hd => by cases hd⟩
  | done => exact ⟨m1, fun _ => m2 hc⟩

theorem aoMark_step {T : Type} (M : List T) (s : AOState T) (hinv : AOInv s)
    (h : AOMark M s) (a : AOAct T) : AOMark M (AO.step s a) := by
  cases a with
  | consumer => exact aoMark_consumer M s hinv h
  | post x => exact ⟨h.1.trans (List.prefix_append _ _), h.2⟩
  | see_stop =>
    unfold AO.step
    dsimp only
    split_ifs <;> exact h
  | stop_call =>
    unfold AO.step
    dsimp only
    split_ifs <;> exact h
  | stop_return =>
    unfold AO.step
    dsimp only
    split_ifs <;> exact h

theorem ao_fold {T : Type} (M : List T) :
    ∀ (acts : List (AOAct T)) (s : AOState T), AOInv s → AOMark M s →
      AOInv (acts.foldl AO.step s) ∧ AOMark M (acts.foldl AO.step s) := by
  intro acts
  induction acts with
  | nil => intro s h1 h2; exact ⟨h1, h2⟩
  | cons a acts ih =>
    intro s h1 h2
    exact ih _ (aoInv_step s h1 a) (aoMark_step M s h1 h2 a)

theorem aoInv_run {T : Type} (q0 : List T) (acts : List (AOAct T)) :
    AOInv (AO.run q0 acts) :=
  (ao_fold [] acts (AO.init q0) (aoInv_init q0)
    ⟨List.nil_prefix, fun _ => List.nil_prefix⟩).1

/-- C32. For a started `ActiveObject` (with a handler) and every schedule of posting
threads, of the thread of the object and of `stop()`: in every state each posted item
is in exactly one place, in the order of posting: already handed to the handler,
held by the thread for the next call of the handler, or still in the queue (so the
handler gets the items in the order they were posted, none twice, none skipped); and
when `stop()` has returned, `loop` has returned, no item is held, and every item
posted at a moment when `stop()` had not yet been called has been handed to the
handler. -/
theorem ao_fifo_exactly_once {T : Type} (q0 : List T) (pre post : List (AOAct T)) :
    (AO.run q0 (pre ++ post)).posted =
      (AO.run q0 (pre ++ post)).handled ++ (AO.run q0 (pre ++ post)).item.toList ++
        (AO.run q0 (pre ++ post)).q ∧
    ((AO.run q0 pre).spc = .idle → (AO.run q0 (pre ++ post)).spc = .returned →
      (AO.run q0 pre).posted <+: (AO.run q0 (pre ++ post)).handled ∧
        (AO.run q0 (pre ++ post)).cpc = .done ∧ (AO.run q0 (pre ++ post)).item = none) := by
  have hinv := aoInv_run q0 (pre ++ post)
  refine ⟨hinv.1, fun hidle hret => ?_⟩
  have hpre := aoInv_run q0 pre
  have hnd : (AO.run q0 pre).cpc ≠ .done := by
    intro hd
    have h1 : (AO.run q0 pre).seen_stop = true := hpre.2.2.2.1 (Or.inr (Or.inr hd))
    have h2 : (AO.run q0 pre).running = false := hpre.2.2.1 h1
    exact (hpre.2.2.2.2.1.1 h2) hidle
  have hmark : AOMark (AO.run q0 pre).posted (AO.run q0 pre) :=
    ⟨List.prefix_refl _, fun hd => absurd hd hnd⟩
  have hfold := ao_fold (AO.run q0 pre).posted post (AO.run q0 pre) hpre hmark
  have e : AO.run q0 (pre ++ post) = post.foldl AO.step (AO.run q0 pre) := by
    unfold AO.run
    rw [List.foldl_append]
  rw [← e] at hfold
  have hdone := hinv.2.2.2.2.2 hret
  refine ⟨hfold.2.2 hdone, hdone, ?_⟩
  cases hi : (AO.run q0 (pre ++ post)).item with
  | none => rfl
  | some x =>
    have := hinv.2.1.1 (by rw [hi]; rfl)
    rw [hdone] at this
    simp at this

theorem ao_fifo_exactly_once_witness :
    (AO.run ([] : List Nat) [.post 1, .consumer, .consumer, .post 2]).spc = .idle ∧
      (AO.run ([] : List Nat)
        ([.post 1, .consumer, .consumer, .post 2] ++
          [.stop_call, .see_stop, .consumer, .consumer, .consumer, .consumer, .consumer,
            .stop_return])).spc = .returned ∧
      (AO.run ([] : List Nat)
        ([.post 1, .consumer, .consumer, .post 2] ++
          [.stop_call, .see_stop, .consumer, .consumer, .consumer, .consumer, .consumer,
            .stop_return])).handled = [1, 2] ∧
      (AO.run ([] : List Nat) [.post 1, .consumer, .consumer, .post 2]).posted <+:
        (AO.run ([] : List Nat)
          ([.post 1, .consumer, .consumer, .post 2] ++
            [.stop_call, .see_stop, .consumer, .consumer, .consumer, .consumer, .consumer,
              .stop_return])).handled :=
  ⟨by decide, by decide, by decide,
    ((ao_fifo_exactly_once ([] : List Nat) [.post 1, .consumer, .consumer, .post 2]
      [.stop_call, .see_stop, .consumer, .consumer, .consumer, .consumer, .consumer,
        .stop_return]).2 (by decide) (by decide)).1⟩

end OS
